import Mathlib

/-!
# Descriptor-table system calls of the kernel (fs/open.c, fs/vfs_syscall.c)

A shallow embedding of `get_empty_fd`, `do_open`, `do_close`, `do_dup`,
`do_dup2`, `do_read`, `do_write`, `do_getdent` and `do_lseek`, together with
the properties of the descriptor layer that the specification states.

C `int` values are integers in the 32-bit signed range; bitwise operators act
on the 32-bit two's-complement pattern.  A kernel panic (failed `KASSERT`,
dereference of a dangling or NULL pointer) is the result `none`.
-/

namespace Kernel3

/-! ## Machine integers -/

/-- The 32-bit two's-complement bit pattern of a C `int`. -/
def toU32 (x : Int) : Nat := (x % 4294967296).toNat

/-- The C `int` with the given 32-bit pattern. -/
def ofU32 (n : Nat) : Int :=
  if n < 2147483648 then (n : Int) else (n : Int) - 4294967296

/-- C `a & b` on `int`. -/
def band (a b : Int) : Int := ofU32 (toU32 a &&& toU32 b)

/-- C `a | b` on `int`. -/
def bor (a b : Int) : Int := ofU32 (toU32 a ||| toU32 b)

/-- C `~a` on `int`. -/
def bnot (a : Int) : Int := ofU32 (4294967295 - toU32 a)

/-- Result of 32-bit `int` arithmetic: the value reduced to the 32-bit signed range. -/
def wrap32 (x : Int) : Int := ofU32 (toU32 x)

/-! ## Constants of headers that are not part of the sources -/

/-- Modelled from the spec: the errno header is absent; EBADF is "fd out of range or slot
empty or wrong mode", with its usual number. -/
def EBADF : Int := 9

/-- Modelled from the spec: the errno header is absent; ENOMEM is "allocator failure". -/
def ENOMEM : Int := 12

/-- Modelled from the spec: the errno header is absent; ENOTDIR. -/
def ENOTDIR : Int := 20

/-- Modelled from the spec: the errno header is absent; EISDIR is "write to directory". -/
def EISDIR : Int := 21

/-- Modelled from the spec: the errno header is absent; EINVAL is "flag/mode/whence invalid,
negative seek". -/
def EINVAL : Int := 22

/-- Modelled from the spec: the errno header is absent; EMFILE is "descriptor table full". -/
def EMFILE : Int := 24

/-- Modelled from the spec: the configuration header is absent; the descriptor table has
"size N, typically 32". -/
def NFILES : Nat := 32

/-- Modelled from the spec: fs/file.h is absent; the mode mask is over READ, WRITE, APPEND.
The sources compare `f_mode & FMODE_READ` with `0x1`. -/
def FMODE_READ : Int := 1

/-- Modelled from the spec: fs/file.h is absent.  The sources compare
`f_mode & FMODE_WRITE` with `0x2`. -/
def FMODE_WRITE : Int := 2

/-- Modelled from the spec: fs/file.h is absent.  The sources say "FMODE_APPEND is 4". -/
def FMODE_APPEND : Int := 4

/-- Modelled from the spec: fs/lseek.h is absent; SET/CUR/END arithmetic. -/
def SEEK_SET : Int := 0

/-- Modelled from the spec: fs/lseek.h is absent. -/
def SEEK_CUR : Int := 1

/-- Modelled from the spec: fs/lseek.h is absent. -/
def SEEK_END : Int := 2

/-- Modelled from the spec: fs/stat.h is absent; vnode mode bits distinguish
regular/directory/char-device/block-device. -/
def S_IFCHR : Int := 0x0100

/-- Modelled from the spec: fs/stat.h is absent. -/
def S_IFDIR : Int := 0x0200

/-- Modelled from the spec: fs/stat.h is absent. -/
def S_IFBLK : Int := 0x0400

/-- Modelled from the spec: fs/stat.h is absent. -/
def S_IFREG : Int := 0x0800

/-- Modelled from the spec: fs/stat.h is absent; the type of a mode is its high byte. -/
def S_TYPE (m : Int) : Int := band m 0xFF00

/-- Modelled from the spec: fs/stat.h is absent. -/
def S_ISCHR (m : Int) : Bool := S_TYPE m == S_IFCHR

/-- Modelled from the spec: fs/stat.h is absent. -/
def S_ISDIR (m : Int) : Bool := S_TYPE m == S_IFDIR

/-- Modelled from the spec: fs/stat.h is absent. -/
def S_ISBLK (m : Int) : Bool := S_TYPE m == S_IFBLK

/-- Modelled from the spec: fs/stat.h is absent. -/
def S_ISREG (m : Int) : Bool := S_TYPE m == S_IFREG

/-! ## Data model -/

/-- The fields of `file_t` that the descriptor layer uses.  Pointers are addresses
(`Nat`); `f_vnode = none` is the NULL pointer. -/
structure file_t where
  f_refcount : Nat
  f_pos : Int
  f_mode : Int
  f_vnode : Option Nat
  deriving DecidableEq, Repr

/-- The fields of `vnode_t` that the descriptor layer reads; `has_readdir` says that
`vn_ops->readdir` is not NULL. -/
structure vnode_t where
  vn_mode : Int
  vn_len : Int
  has_readdir : Bool
  deriving DecidableEq, Repr

/-- Observable calls, appended in program order. -/
inductive Event where
  | fget (f : Nat)
  | fput (f : Nat)
  | vput (v : Nat)
  | read (v : Nat) (pos : Int) (nbytes : Nat)
  | write (v : Nat) (pos : Int) (nbytes : Nat)
  | readdir (v : Nat) (pos : Int)
  deriving DecidableEq, Repr

/-- Kernel state seen by the descriptor layer: `curproc->p_files`, the allocated
`file_t` objects (`none` = not allocated), the vnodes, and the calls made so far. -/
structure Kstate where
  p_files : Nat → Option Nat
  files : Nat → Option file_t
  vnodes : Nat → vnode_t
  trace : List Event

/-- What lies outside the descriptor layer: path resolution and the file-system drivers.
`open_namev` yields its return value, the vnode stored through its out-parameter and the
vnodes after the call; `write` yields the driver's result and the vnode after the call. -/
structure Env where
  open_namev : (Nat → vnode_t) → String → Int → Int × Nat × (Nat → vnode_t)
  read : Nat → vnode_t → Int → Nat → Int
  write : Nat → vnode_t → Int → Nat → Int × vnode_t
  readdir : Nat → vnode_t → Int → Int
  sizeof_dirent : Int

/-- Reference count of the entry at address `p`; a freed entry holds no reference. -/
def refcount (s : Kstate) (p : Nat) : Nat :=
  match s.files p with
  | some f => f.f_refcount
  | none => 0

/-- Number of `fget` calls that returned the entry `p`. -/
def fgets (s : Kstate) (p : Nat) : Nat := s.trace.count (Event.fget p)

/-- Number of `fput` calls on the entry `p`. -/
def fputs (s : Kstate) (p : Nat) : Nat := s.trace.count (Event.fput p)

/-! ## fs/file.c (absent) -/

/-- Modelled from the spec: fs/file.c is absent.  `fget(fd)` for a descriptor: NULL when
`fd` is out of range or the slot is empty, else the entry of the slot with its reference
count incremented. -/
def fget (s : Kstate) (fd : Int) : Option (Option Nat × Kstate) :=
  if fd < 0 ∨ fd ≥ NFILES then some (none, s)
  else
    match s.p_files fd.toNat with
    | none => some (none, s)
    | some p =>
      match s.files p with
      | none => none
      | some f =>
        some (some p,
          { s with
            files := Function.update s.files p (some { f with f_refcount := f.f_refcount + 1 })
            trace := s.trace ++ [Event.fget p] })

/-- Modelled from the spec: fs/file.c is absent.  `fget(-1)` yields "a fresh file entry":
zeroed, reference count 1, at the address the allocator hands out, or NULL when the
allocator fails. -/
def fget_new (alloc : Option Nat) (s : Kstate) : Option Nat × Kstate :=
  match alloc with
  | none => (none, s)
  | some p =>
    (some p,
      { s with
        files := Function.update s.files p (some ⟨1, 0, 0, none⟩)
        trace := s.trace ++ [Event.fget p] })

/-- Modelled from the spec: fs/file.c is absent.  `fput(f)` drops one reference; the entry
"owns one vnode reference", released together with the entry when the count reaches 0. -/
def fput (s : Kstate) (p : Nat) : Option Kstate :=
  match s.files p with
  | none => none
  | some f =>
    if f.f_refcount = 0 then none
    else if f.f_refcount - 1 = 0 then
      some { s with
        files := Function.update s.files p none
        trace := s.trace ++ [Event.fput p] ++
          (match f.f_vnode with
           | some v => [Event.vput v]
           | none => []) }
    else
      some { s with
        files := Function.update s.files p (some { f with f_refcount := f.f_refcount - 1 })
        trace := s.trace ++ [Event.fput p] }

/-! ## fs/open.c -/

/-- The loop of `get_empty_fd`: `n` iterations remain, starting at index `fd`. -/
def get_empty_fd_loop (p_files : Nat → Option Nat) : Nat → Nat → Int
  | 0, _ => -EMFILE
  | n + 1, fd => if p_files fd = none then (fd : Int) else get_empty_fd_loop p_files n (fd + 1)

/-- Embedding of `get_empty_fd`: the first empty index of `p_files`, or `-EMFILE`. -/
def get_empty_fd (s : Kstate) : Int := get_empty_fd_loop s.p_files NFILES 0

/-- The `f_mode` that `do_open` derives from `oflags` (step 4). -/
def open_fmode (oflags : Int) : Int :=
  let fmode : Int := 0
  let fmode := if band oflags 0x400 = 0x400 then FMODE_APPEND else fmode
  let fmode := if band oflags 0x1 = 0x0 then bor fmode FMODE_READ else fmode
  let fmode := if band oflags 0x1 = 0x1 then bor fmode FMODE_WRITE else fmode
  let fmode := if band oflags 0x2 = 0x2 then bor fmode (bor FMODE_READ FMODE_WRITE) else fmode
  fmode

/-- Store `p` (or NULL) in slot `fd` of `curproc->p_files`. -/
def set_fd (s : Kstate) (fd : Nat) (p : Option Nat) : Kstate :=
  { s with p_files := Function.update s.p_files fd p }

/-- Field update on the entry at `p`; `none` when `p` is not an allocated entry. -/
def modify_file (s : Kstate) (p : Nat) (g : file_t → file_t) : Option Kstate :=
  match s.files p with
  | none => none
  | some f => some { s with files := Function.update s.files p (some (g f)) }

/-- Embedding of `do_open`.  `alloc` is what the allocator behind `fget(-1)` returns. -/
def do_open (env : Env) (alloc : Option Nat) (s : Kstate) (filename : String) (oflags : Int) :
    Option (Int × Kstate) :=
  if band oflags (bnot 0x703) ≠ 0 then some (-EINVAL, s)
  else if band oflags 0x1 = 0x1 ∧ band oflags 0x2 = 0x2 then some (-EINVAL, s)
  else
    let new_fd := get_empty_fd s
    if new_fd = -EMFILE then some (-EMFILE, s)
    else
      match fget_new alloc s with
      | (none, s1) => some (-ENOMEM, s1)
      | (some new_file_t, s1) =>
        let s2 := set_fd s1 new_fd.toNat (some new_file_t)
        match modify_file s2 new_file_t (fun f => { f with f_mode := open_fmode oflags }) with
        | none => none
        | some s3 =>
          let r := env.open_namev s3.vnodes filename oflags
          let s4 : Kstate := { s3 with vnodes := r.2.2 }
          if r.1 ≠ 0 then
            match fput s4 new_file_t with
            | none => none
            | some s5 => some (r.1, set_fd s5 new_fd.toNat none)
          else
            match modify_file s4 new_file_t (fun f => { f with f_vnode := some r.2.1 }) with
            | none => none
            | some s5 =>
              match s5.files new_file_t with
              | none => none
              | some f =>
                if S_ISDIR (s5.vnodes r.2.1).vn_mode ∧ band f.f_mode FMODE_WRITE ≠ 0 then
                  match fput s5 new_file_t with
                  | none => none
                  | some s6 => some (-EISDIR, set_fd s6 new_fd.toNat none)
                else
                  match modify_file s5 new_file_t (fun f => { f with f_pos := 0 }) with
                  | none => none
                  | some s6 => some (new_fd, s6)

/-! ## fs/vfs_syscall.c -/

/-- Embedding of `do_close`. -/
def do_close (s : Kstate) (fd : Int) : Option (Int × Kstate) :=
  if fd ≥ NFILES ∨ fd < 0 then some (-EBADF, s)
  else
    match fget s fd with
    | none => none
    | some (none, s1) => some (-EBADF, s1)
    | some (some cur_file_t, s1) =>
      let s2 := set_fd s1 fd.toNat none
      match fput s2 cur_file_t with
      | none => none
      | some s3 =>
        match fput s3 cur_file_t with
        | none => none
        | some s4 => some (0, s4)

/-- Embedding of `do_dup`. -/
def do_dup (s : Kstate) (fd : Int) : Option (Int × Kstate) :=
  if fd ≥ NFILES ∨ fd < 0 then some (-EBADF, s)
  else
    match fget s fd with
    | none => none
    | some (none, s1) => some (-EBADF, s1)
    | some (some cur_file_t, s1) =>
      let new_fd := get_empty_fd s1
      if new_fd = -EMFILE then
        match fput s1 cur_file_t with
        | none => none
        | some s2 => some (-EMFILE, s2)
      else some (new_fd, set_fd s1 new_fd.toNat (some cur_file_t))

/-- Embedding of `do_dup2`. -/
def do_dup2 (s : Kstate) (ofd nfd : Int) : Option (Int × Kstate) :=
  if ofd ≥ NFILES ∨ ofd < 0 then some (-EBADF, s)
  else if nfd ≥ NFILES ∨ nfd < 0 then some (-EBADF, s)
  else
    match fget s ofd with
    | none => none
    | some (none, s1) => some (-EBADF, s1)
    | some (some cur_file_t, s1) =>
      if ofd = nfd then
        match fput s1 cur_file_t with
        | none => none
        | some s2 => some (nfd, s2)
      else if s1.p_files nfd.toNat ≠ none then
        match do_close s1 nfd with
        | none => none
        | some (ret, s2) =>
          if ret ≠ 0 then
            match fput s2 cur_file_t with
            | none => none
            | some s3 => some (ret, s3)
          else some (nfd, set_fd s2 nfd.toNat (some cur_file_t))
      else some (nfd, set_fd s1 nfd.toNat (some cur_file_t))

/-- Embedding of `do_lseek`; `f_pos`, `vn_len` and `offset` are 32-bit `int`s. -/
def do_lseek (s : Kstate) (fd offset whence : Int) : Option (Int × Kstate) :=
  if fd ≥ NFILES ∨ fd < 0 then some (-EBADF, s)
  else
    match fget s fd with
    | none => none
    | some (none, s1) => some (-EBADF, s1)
    | some (some oneFileEntry, s1) =>
      if ¬ (whence = SEEK_SET ∨ whence = SEEK_CUR ∨ whence = SEEK_END) then
        match fput s1 oneFileEntry with
        | none => none
        | some s2 => some (-EINVAL, s2)
      else
        match s1.files oneFileEntry with
        | none => none
        | some f =>
          let seek_to (pos : Int) : Option (Int × Kstate) :=
            match modify_file s1 oneFileEntry (fun g => { g with f_pos := pos }) with
            | none => none
            | some s2 =>
              match fput s2 oneFileEntry with
              | none => none
              | some s3 => some (pos, s3)
          let fail : Option (Int × Kstate) :=
            match fput s1 oneFileEntry with
            | none => none
            | some s2 => some (-EINVAL, s2)
          if whence = SEEK_SET ∧ offset ≥ 0 then seek_to offset
          else if whence = SEEK_CUR ∧ wrap32 (f.f_pos + offset) ≥ 0 then
            seek_to (wrap32 (f.f_pos + offset))
          else if whence = SEEK_END then
            match f.f_vnode with
            | none => none
            | some v =>
              if wrap32 ((s1.vnodes v).vn_len + offset) ≥ 0 then
                seek_to (wrap32 ((s1.vnodes v).vn_len + offset))
              else fail
          else fail

/-- Embedding of `do_read`; the buffer contents are not modelled. -/
def do_read (env : Env) (s : Kstate) (fd : Int) (nbytes : Nat) : Option (Int × Kstate) :=
  if fd ≥ NFILES ∨ fd < 0 then some (-EBADF, s)
  else
    match fget s fd with
    | none => none
    | some (none, s1) => some (-EBADF, s1)
    | some (some cur_file_t, s1) =>
      match s1.files cur_file_t with
      | none => none
      | some f =>
        if band f.f_mode FMODE_READ ≠ 0x1 then
          match fput s1 cur_file_t with
          | none => none
          | some s2 => some (-EBADF, s2)
        else
          match f.f_vnode with
          | none => none
          | some v =>
            if S_ISDIR (s1.vnodes v).vn_mode then
              match fput s1 cur_file_t with
              | none => none
              | some s2 => some (-EISDIR, s2)
            else
              let bytes_read := env.read v (s1.vnodes v) f.f_pos nbytes
              let s2 : Kstate := { s1 with trace := s1.trace ++ [Event.read v f.f_pos nbytes] }
              match modify_file s2 cur_file_t
                  (fun g => { g with f_pos := wrap32 (g.f_pos + bytes_read) }) with
              | none => none
              | some s3 =>
                match fput s3 cur_file_t with
                | none => none
                | some s4 => some (bytes_read, s4)

/-- Embedding of `do_write`; the buffer contents are not modelled. -/
def do_write (env : Env) (s : Kstate) (fd : Int) (nbytes : Nat) : Option (Int × Kstate) :=
  if fd ≥ NFILES ∨ fd < 0 then some (-EBADF, s)
  else
    match fget s fd with
    | none => none
    | some (none, s1) => some (-EBADF, s1)
    | some (some cur_file_t, s1) =>
      match s1.files cur_file_t with
      | none => none
      | some f =>
        if band f.f_mode FMODE_WRITE ≠ 0x2 then
          match fput s1 cur_file_t with
          | none => none
          | some s2 => some (-EBADF, s2)
        else
          let after_seek : Option (Option Int × Kstate) :=
            if band f.f_mode FMODE_APPEND = 0x4 then
              match do_lseek s1 fd 0 SEEK_END with
              | none => none
              | some (ret, s2) => if ret < 0 then some (some ret, s2) else some (none, s2)
            else some (none, s1)
          match after_seek with
          | none => none
          | some (some ret, s2) =>
            match fput s2 cur_file_t with
            | none => none
            | some s3 => some (ret, s3)
          | some (none, s2) =>
            match s2.files cur_file_t with
            | none => none
            | some f2 =>
              match f2.f_vnode with
              | none => none
              | some v =>
                let w := env.write v (s2.vnodes v) f2.f_pos nbytes
                let bytes_written := w.1
                let s3 : Kstate :=
                  { s2 with
                    vnodes := Function.update s2.vnodes v w.2
                    trace := s2.trace ++ [Event.write v f2.f_pos nbytes] }
                match modify_file s3 cur_file_t
                    (fun g => { g with f_pos := wrap32 (g.f_pos + bytes_written) }) with
                | none => none
                | some s4 =>
                  if bytes_written ≥ 0 ∧
                      ¬ (S_ISCHR (s4.vnodes v).vn_mode ∨ S_ISBLK (s4.vnodes v).vn_mode ∨
                        (S_ISREG (s4.vnodes v).vn_mode ∧
                          wrap32 (f2.f_pos + bytes_written) ≤ (s4.vnodes v).vn_len)) then none
                  else
                    match fput s4 cur_file_t with
                    | none => none
                    | some s5 => some (bytes_written, s5)

/-- Embedding of `do_getdent`; the dirent contents are not modelled. -/
def do_getdent (env : Env) (s : Kstate) (fd : Int) : Option (Int × Kstate) :=
  if fd ≥ NFILES ∨ fd < 0 then some (-EBADF, s)
  else
    match fget s fd with
    | none => none
    | some (none, s1) => some (-EBADF, s1)
    | some (some oneFileEntry, s1) =>
      match s1.files oneFileEntry with
      | none => none
      | some f =>
        match f.f_vnode with
        | none => none
        | some v =>
          if (s1.vnodes v).vn_mode ≠ S_IFDIR ∨ (s1.vnodes v).has_readdir = false then
            match fput s1 oneFileEntry with
            | none => none
            | some s2 => some (-ENOTDIR, s2)
          else
            let ret := env.readdir v (s1.vnodes v) f.f_pos
            let s2 : Kstate := { s1 with trace := s1.trace ++ [Event.readdir v f.f_pos] }
            match modify_file s2 oneFileEntry
                (fun g => { g with f_pos := wrap32 (g.f_pos + ret) }) with
            | none => none
            | some s3 =>
              match fput s3 oneFileEntry with
              | none => none
              | some s4 => if ret ≠ 0 then some (env.sizeof_dirent, s4) else some (0, s4)

/-! ## Concrete inputs used to evaluate the embedding -/

/-- Return value of a call, when it returns. -/
def retval (o : Option (Int × Kstate)) : Option Int := o.map Prod.fst

/-- A state with an empty descriptor table, no file entries and regular-file vnodes. -/
def emptyState : Kstate := ⟨fun _ => none, fun _ => none, fun _ => ⟨S_IFREG, 0, false⟩, []⟩

/-- Drivers that do nothing and a path resolution that always finds vnode 0. -/
def okEnv : Env :=
  ⟨fun vn _ _ => (0, 0, vn), fun _ _ _ _ => 0, fun _ v _ _ => (0, v), fun _ _ _ => 0, 40⟩

/-! ## Specification-side definitions -/

/-- The mode the specification prescribes: READ for RDONLY (0), WRITE for WRONLY (1),
READ|WRITE for RDWR (2), with APPEND or-ed in exactly when bit 10 is set. -/
def spec_fmode (oflags : Int) : Int :=
  let access := toU32 oflags % 4
  let base : Int :=
    if access = 0 then FMODE_READ
    else if access = 1 then FMODE_WRITE
    else if access = 2 then bor FMODE_READ FMODE_WRITE
    else 0
  if (toU32 oflags).testBit 10 then bor base FMODE_APPEND else base

/-- A path resolution that always fails with `-ENOENT` (2). -/
def noentEnv : Env :=
  ⟨fun vn _ _ => (-2, 0, vn), fun _ _ _ _ => 0, fun _ v _ _ => (0, v), fun _ _ _ => 0, 40⟩

/-- Slot `i` is empty or holds an allocated file entry with at least one reference. -/
def valid_slot (s : Kstate) (i : Nat) : Bool :=
  match s.p_files i with
  | none => true
  | some p => decide (1 ≤ refcount s p)

/-- Invariant 4 of the data model: "descriptor slots are either empty or hold a valid
file-entry reference". -/
def valid_table (s : Kstate) : Prop := ∀ i, i < NFILES → valid_slot s i = true

instance valid_table_decidable (s : Kstate) : Decidable (valid_table s) :=
  inferInstanceAs (Decidable (∀ i, i < NFILES → valid_slot s i = true))

/-- A table with descriptor 3 open on entry 7 (one reference, mode READ, vnode 0). -/
def oneFileState : Kstate :=
  ⟨fun i => if i = 3 then some 7 else none,
   fun p => if p = 7 then some ⟨1, 0, 1, some 0⟩ else none,
   fun _ => ⟨S_IFREG, 0, false⟩, []⟩

/-- The state right after a successful `fget(fd)` on the entry `f` stored at `p`. -/
def ref_taken (s : Kstate) (p : Nat) (f : file_t) : Kstate :=
  { s with
    files := Function.update s.files p (some { f with f_refcount := f.f_refcount + 1 })
    trace := s.trace ++ [Event.fget p] }

/-- Descriptors 3 and 4 open on two distinct entries 7 and 8, one reference each. -/
def twoFileState : Kstate :=
  ⟨fun i => if i = 3 then some 7 else if i = 4 then some 8 else none,
   fun p => if p = 7 then some ⟨1, 0, 1, some 0⟩ else if p = 8 then some ⟨1, 0, 3, some 1⟩ else none,
   fun _ => ⟨S_IFREG, 0, false⟩, []⟩

/-- The state after a balanced `fget` ... `fput` pair on a live entry: the entry at `p`
is `f`, and `evs` has been appended to the trace. -/
def settle (s : Kstate) (p : Nat) (f : file_t) (evs : List Event) : Kstate :=
  { s with files := Function.update s.files p (some f), trace := s.trace ++ evs }

/-- The representable values of a C `int`. -/
def int_range (x : Int) : Prop := -2147483648 ≤ x ∧ x < 2147483648

/-- The position `do_lseek` aims at: `offset`, `f_pos + offset` or `vn_len + offset`, the
sums being 32-bit `int` sums. -/
def lseek_target (f_pos vn_len offset whence : Int) : Int :=
  if whence = SEEK_SET then offset
  else if whence = SEEK_CUR then wrap32 (f_pos + offset)
  else wrap32 (vn_len + offset)

/-- Between `s` and `s1` every entry has the same reference count, and for every entry as
many `fput` calls as `fget` calls were made. -/
def balanced (s s1 : Kstate) : Prop :=
  (∀ q, refcount s1 q = refcount s q) ∧
  (∀ q, fgets s1 q + fputs s q = fputs s1 q + fgets s q)

/-- The state after a system call that touched only the entry at `p`, the vnodes and the
trace. -/
def settle_vn (s : Kstate) (p : Nat) (f : file_t) (vn : Nat → vnode_t) (evs : List Event) :
    Kstate :=
  { s with files := Function.update s.files p (some f), vnodes := vn, trace := s.trace ++ evs }

/-- The part of `do_write` from the driver call on: the driver writes at `pos`, the
position advances by its result, the `KASSERT` is checked and the reference is dropped.
`pre` lists the calls made before the driver call. -/
def write_tail (env : Env) (s : Kstate) (p : Nat) (f : file_t) (v : Nat) (pos : Int)
    (nbytes : Nat) (pre : List Event) : Option (Int × Kstate) :=
  if (env.write v (s.vnodes v) pos nbytes).1 ≥ 0 ∧
      ¬ (S_ISCHR (env.write v (s.vnodes v) pos nbytes).2.vn_mode ∨
        S_ISBLK (env.write v (s.vnodes v) pos nbytes).2.vn_mode ∨
        (S_ISREG (env.write v (s.vnodes v) pos nbytes).2.vn_mode ∧
          wrap32 (pos + (env.write v (s.vnodes v) pos nbytes).1)
            ≤ (env.write v (s.vnodes v) pos nbytes).2.vn_len)) then none
  else
    some ((env.write v (s.vnodes v) pos nbytes).1,
      settle_vn s p { f with f_pos := wrap32 (pos + (env.write v (s.vnodes v) pos nbytes).1) }
        (Function.update s.vnodes v (env.write v (s.vnodes v) pos nbytes).2)
        (pre ++ [Event.write v pos nbytes, Event.fput p]))

/-! ## Concrete inputs for `do_read` and `do_write` -/

/-- Descriptor 3 open for writing in append mode (mode WRITE|APPEND) at position 2 on the
regular file vnode 1, whose length is 9. -/
def appendState : Kstate :=
  ⟨fun i => if i = 3 then some 7 else none,
   fun p => if p = 7 then some ⟨1, 2, 6, some 1⟩ else none,
   fun _ => ⟨S_IFREG, 9, false⟩, []⟩

/-- Drivers that transfer 3 bytes: `read` returns 3, `write` returns 3 and extends the file
to the end of the written range. -/
def threeEnv : Env :=
  ⟨fun vn _ _ => (0, 0, vn), fun _ _ _ _ => 3,
   fun _ v pos _ => (3, { v with vn_len := pos + 3 }), fun _ _ _ => 0, 40⟩

/-! ## vm/vmmap.c: the address-space map -/

/-- The fields of `vmarea_t`; the position of an area in `vmm_list` is its position in the
list that models the map.  Pointers are addresses (`Nat`), `none` is NULL. -/
structure vmarea_t where
  vma_start : Nat
  vma_end : Nat
  vma_off : Nat
  vma_prot : Int
  vma_flags : Int
  vma_vmmap : Option Nat
  vma_obj : Option Nat
  deriving DecidableEq, Repr

/-- Modelled from the spec: vm/vmmap.h is absent; `dir = LOHI` scans low-to-high. -/
def VMMAP_DIR_LOHI : Int := 1

/-- Modelled from the spec: vm/vmmap.h is absent; `dir = HILO` scans high-to-low. -/
def VMMAP_DIR_HILO : Int := 2

/-- C `a - b` on `uint32_t`. -/
def usub32 (a b : Nat) : Nat := (a + 4294967296 - b % 4294967296) % 4294967296

/-- The test of the loop of `vmmap_insert`: the existing area starts and ends above the
new one. -/
def insert_here (oldvma newvma : vmarea_t) : Bool :=
  decide (oldvma.vma_start > newvma.vma_start) && decide (oldvma.vma_end > newvma.vma_end)

/-- The loop of `vmmap_insert`: insert before the first area passing the test, else at the
tail. -/
def vmmap_insert_loop (newvma : vmarea_t) : List vmarea_t → List vmarea_t
  | [] => [newvma]
  | oldvma :: rest =>
    if insert_here oldvma newvma then newvma :: oldvma :: rest
    else oldvma :: vmmap_insert_loop newvma rest

/-- Embedding of `vmmap_insert`.  `map` is the address of the map, `areas` its `vmm_list`;
`lo` and `hi` are `ADDR_TO_PN(USER_MEM_LOW)` and `ADDR_TO_PN(USER_MEM_HIGH)`, whose header
is not part of the sources.  A failed `KASSERT` is `none`. -/
def vmmap_insert (lo hi : Nat) (map : Nat) (areas : List vmarea_t) (newvma : vmarea_t) :
    Option (List vmarea_t) :=
  if newvma.vma_vmmap ≠ none then none
  else if ¬ (newvma.vma_start < newvma.vma_end) then none
  else if ¬ (lo ≤ newvma.vma_start ∧ hi ≥ newvma.vma_end) then none
  else some (vmmap_insert_loop { newvma with vma_vmmap := some map } areas)

/-- The general-case loop of the LOHI branch of `vmmap_find_range`, entered after the head
of the list has been skipped: `vma_prev` is the area before `vma_cur`. -/
def find_range_lohi_loop (npages : Nat) : vmarea_t → List vmarea_t → Option Nat × vmarea_t
  | vma_prev, [] => (none, vma_prev)
  | vma_prev, vma_cur :: rest =>
    if usub32 vma_cur.vma_start vma_prev.vma_end ≥ npages then (some vma_prev.vma_end, vma_prev)
    else find_range_lohi_loop npages vma_cur rest

/-- The general-case loop of the HILO branch of `vmmap_find_range`, over the list in
reverse, entered after the tail has been skipped. -/
def find_range_hilo_loop (npages : Nat) : vmarea_t → List vmarea_t → Option Nat × vmarea_t
  | vma_prev, [] => (none, vma_prev)
  | vma_prev, vma_cur :: rest =>
    if usub32 vma_prev.vma_start vma_cur.vma_end ≥ npages then
      (some (usub32 vma_prev.vma_start npages), vma_prev)
    else find_range_hilo_loop npages vma_cur rest

/-- Embedding of `vmmap_find_range`; `lo` and `hi` as in `vmmap_insert`, `npages` a
`uint32_t`.  The result is the returned `int`. -/
def vmmap_find_range (lo hi : Nat) (areas : List vmarea_t) (npages : Nat) (dir : Int) :
    Option Int :=
  if ¬ (0 < npages) then none
  else if dir = VMMAP_DIR_LOHI then
    match areas with
    | [] => some (ofU32 lo)
    | head :: tail =>
      if head.vma_start ≠ lo ∧ usub32 head.vma_start lo ≥ npages then some (ofU32 lo)
      else
        match find_range_lohi_loop npages head tail with
        | (some r, _) => some (ofU32 r)
        | (none, vma_prev) =>
          if usub32 hi vma_prev.vma_end ≥ npages then some (ofU32 vma_prev.vma_end)
          else some (-1)
  else if dir = VMMAP_DIR_HILO then
    match areas.reverse with
    | [] => some (ofU32 (usub32 hi npages))
    | last :: before =>
      if usub32 hi last.vma_end ≥ npages then some (ofU32 (usub32 hi npages))
      else
        match find_range_hilo_loop npages last before with
        | (some r, _) => some (ofU32 r)
        | (none, vma_prev) =>
          if vma_prev.vma_start ≥ npages then
            if usub32 vma_prev.vma_start npages ≥ lo then
              some (ofU32 (usub32 vma_prev.vma_start npages))
            else some (-1)
          else some (-1)
  else some (-1)

/-- An area covering `[a, b)` that belongs to no map yet. -/
def area (a b : Nat) : vmarea_t := ⟨a, b, 0, 0, 0, none, none⟩

/-! ## fs/namev.c: path resolution -/

/-- Modelled from the spec: the errno header is absent; ENOENT is "no such path
component". -/
def ENOENT : Int := 2

/-- Modelled from the spec: the errno header is absent; EEXIST is "target already
exists". -/
def EEXIST : Int := 17

/-- Modelled from the spec: the errno header is absent; ENAMETOOLONG. -/
def ENAMETOOLONG : Int := 36

/-- Modelled from the spec: the errno header is absent; ENOTEMPTY. -/
def ENOTEMPTY : Int := 39

/-- The constants `MAXPATHLEN` and `NAME_LEN`, whose header is not part of the sources. -/
structure Limits where
  MAXPATHLEN : Nat
  NAME_LEN : Nat

/-- The string terminator `'\0'`. -/
def NUL : Char := Char.ofNat 0

/-- Calls into the file-system driver, in program order. -/
inductive FsCall where
  | lookup (dir : Nat) (name : List Char)
  | mknod (dir : Nat) (name : List Char) (mode : Int) (devid : Nat)
  | rmdir (dir : Nat) (name : List Char)
  deriving DecidableEq, Repr

/-- What path resolution sees of the kernel: mode and reference count of every vnode, the
root vnode, the working directory of `curproc`, and the driver calls made so far. -/
structure Vfs where
  vn_mode : Nat → Int
  vn_refcount : Nat → Int
  vfs_root_vn : Nat
  p_cwd : Nat
  calls : List FsCall

/-- The file-system driver: which operations a vnode has (`vn_ops->op != NULL`) and what
they return.  `lookup` yields its return value and the vnode it stores on success. -/
structure FsOps where
  has_lookup : Nat → Bool
  lookup : Nat → List Char → Int × Nat
  has_mknod : Nat → Bool
  mknod : Nat → List Char → Int → Nat → Int
  has_rmdir : Nat → Bool
  rmdir : Nat → List Char → Int

/-- What `dir_namev` stores through its out-parameters; `name` is the offset of `*name`
in `pathname`, `none` for NULL. -/
structure namev_out where
  res_vnode : Nat
  name : Option Nat
  namelen : Nat
  deriving DecidableEq, Repr

/-- Modelled from the spec: fs/vnode.c is absent; a vnode is a "reference-counted handle",
`vref` takes one reference. -/
def vref (s : Vfs) (v : Nat) : Vfs :=
  { s with vn_refcount := Function.update s.vn_refcount v (s.vn_refcount v + 1) }

/-- Modelled from the spec: fs/vnode.c is absent; `vput` releases one reference. -/
def vput (s : Vfs) (v : Nat) : Vfs :=
  { s with vn_refcount := Function.update s.vn_refcount v (s.vn_refcount v - 1) }

/-- Embedding of `lookup`: `name` is the `len` characters at `name`, `result` the value of
`*result` before the call; the value of `*result` after the call is returned.  The driver
follows the contract of the spec: "on success result carries one extra reference; on
error, no reference is transferred". -/
def lookup (fs : FsOps) (s : Vfs) (dir : Nat) (name : List Char) (result : Option Nat) :
    Int × Option Nat × Vfs :=
  if fs.has_lookup dir = false ∨ s.vn_mode dir ≠ S_IFDIR then (-ENOTDIR, result, s)
  else
    if (fs.lookup dir name).1 = 0 then
      (0, some (fs.lookup dir name).2,
        vref { s with calls := s.calls ++ [FsCall.lookup dir name] } (fs.lookup dir name).2)
    else
      ((fs.lookup dir name).1, result,
        { s with calls := s.calls ++ [FsCall.lookup dir name] })

/-- A character buffer read as a C string: the characters of the list, `'\0'` after them. -/
def buf_of (l : List Char) : Nat → Char := fun i => l.getD i NUL

/-- Modelled from the spec: util/string.c is absent; `strnlen(buf + i, maxlen)` is the
number of characters before the first `'\0'`, at most `maxlen`. -/
def strnlen (buf : Nat → Char) : Nat → Nat → Nat
  | _, 0 => 0
  | i, maxlen + 1 => if buf i = NUL then 0 else strnlen buf (i + 1) maxlen + 1

/-- Modelled from the spec: util/string.c is absent; `strncmp(cs, ct, count)` compares at
most `count` characters of two strings and is 0 when they agree up to there or up to
their common end. -/
def strncmp : List Char → List Char → Nat → Int
  | _, _, 0 => 0
  | cs, ct, count + 1 =>
    if cs.headD NUL ≠ ct.headD NUL then (cs.headD NUL).toNat - (ct.headD NUL).toNat
    else if cs.headD NUL = NUL then 0
    else strncmp cs.tail ct.tail count

/-- The `len` characters of `buf` from index `i` on. -/
def read_name (buf : Nat → Char) : Nat → Nat → List Char
  | _, 0 => []
  | i, len + 1 => buf i :: read_name buf (i + 1) len

/-- A loop `while (test(*ptr)) ptr++` started at index `i`; `fuel` bounds the iterations
by the size of the buffer. -/
def scan_while (test : Char → Bool) (buf : Nat → Char) : Nat → Nat → Nat
  | 0, i => i
  | fuel + 1, i => if test (buf i) then scan_while test buf fuel (i + 1) else i

/-- The loop that computes `allAreSlashes` in `dir_namev`, `runner` at index `i`. -/
def all_slashes_loop (buf : Nat → Char) : Nat → Nat → Bool
  | 0, _ => true
  | fuel + 1, i =>
    if buf i = NUL then true
    else if buf i ≠ '/' then false
    else all_slashes_loop buf fuel (i + 1)

/-- The loop of `dir_namev` that overwrites the trailing slashes with `'\0'`, `end` at
index `e`.  It stops at index 0, which the C loop only passes when every character is a
slash. -/
def strip_tail (buf : Nat → Char) : Nat → (Nat → Char)
  | 0 => if buf 0 = '/' then Function.update buf 0 NUL else buf
  | e + 1 => if buf (e + 1) = '/' then strip_tail (Function.update buf (e + 1) NUL) e else buf

/-- The loop `while (*nextComName == '/') { *nextComName = '\0'; nextComName++; }`:
the buffer and the index afterwards. -/
def zero_slashes (buf : Nat → Char) : Nat → Nat → (Nat → Char) × Nat
  | 0, i => (buf, i)
  | fuel + 1, i =>
    if buf i = '/' then zero_slashes (Function.update buf i NUL) fuel (i + 1) else (buf, i)

/-- The test of the loop that advances `nextComName` to the end of a component. -/
def in_name (c : Char) : Bool := c ≠ '/' && c ≠ NUL

/-- How the component loop of `dir_namev` ends: by a `return` inside the loop, or by
leaving the loop with these values of the local variables. -/
inductive namev_loop_out where
  | returned (ret : Int) (s : Vfs)
  | finished (buf : Nat → Char) (curComName : Nat) (curPathBase : Nat)
      (needToDecrease : Bool) (singleFilename : Bool) (s : Vfs)

/-- The component loop `while (*nextComName != '\0')` of `dir_namev`.  `fuel` bounds the
iterations; `none` is a panic (NULL `nextPathBase`) or exhausted fuel. -/
def dir_namev_loop (L : Limits) (fs : FsOps) :
    Nat → (Nat → Char) → Nat → Nat → Nat → Bool → Bool → Vfs → Option namev_loop_out
  | 0, _, _, _, _, _, _, _ => none
  | fuel + 1, buf, curComName, nextComName, curPathBase, needToDecrease, singleFilename, s =>
    if buf nextComName = NUL then
      some (namev_loop_out.finished buf curComName curPathBase needToDecrease singleFilename s)
    else
      let z := zero_slashes buf (L.MAXPATHLEN + 1) nextComName
      let comNameLen := strnlen z.1 curComName (L.NAME_LEN + 1)
      if comNameLen > L.NAME_LEN then some (namev_loop_out.returned (-ENAMETOOLONG) s)
      else
        let r := lookup fs s curPathBase (read_name z.1 curComName comNameLen) none
        let s1 := if needToDecrease then vput r.2.2 curPathBase else r.2.2
        if r.1 ≠ 0 then some (namev_loop_out.returned r.1 s1)
        else
          match r.2.1 with
          | none => none
          | some nextPathBase =>
            dir_namev_loop L fs fuel z.1 z.2
              (scan_while in_name z.1 (L.MAXPATHLEN + 1) z.2)
              nextPathBase true false s1

/-- The code of `dir_namev` after the component loop. -/
def dir_namev_tail (L : Limits) : namev_loop_out → Int × Option namev_out × Vfs
  | namev_loop_out.returned ret s => (ret, none, s)
  | namev_loop_out.finished buf curComName curPathBase _ singleFilename s =>
    let comNameLen := strnlen buf curComName (L.NAME_LEN + 1)
    let s1 := if singleFilename then vref s curPathBase else s
    if comNameLen > L.NAME_LEN then (-ENAMETOOLONG, none, vput s1 curPathBase)
    else (0, some ⟨curPathBase, some curComName, comNameLen⟩, s1)

/-- Embedding of `dir_namev`.  `pathname` is the string at the (non-NULL) pointer
`pathname`; the result is the return value, the out-parameters when they are stored and
the state.  `pathnameCopy` is a buffer of `MAXPATHLEN + 1` characters. -/
def dir_namev (L : Limits) (fs : FsOps) (s : Vfs) (pathname : List Char) (base : Option Nat) :
    Option (Int × Option namev_out × Vfs) :=
  let pathnameLen := strnlen (buf_of pathname) 0 (L.MAXPATHLEN + 1)
  if pathnameLen > L.MAXPATHLEN ∨ pathnameLen ≤ 0 then some (-EINVAL, none, s)
  else
    let pathnameCopy : Nat → Char := fun i => if i < pathnameLen then buf_of pathname i else NUL
    let curPathBase : Nat :=
      if pathnameCopy 0 = '/' then s.vfs_root_vn
      else
        match base with
        | some b => b
        | none => s.p_cwd
    if all_slashes_loop pathnameCopy (L.MAXPATHLEN + 1) 0 then
      some (0, some ⟨s.vfs_root_vn, none, 0⟩, vref s s.vfs_root_vn)
    else
      let curComName := scan_while (fun c => c = '/') pathnameCopy (L.MAXPATHLEN + 1) 0
      let buf := strip_tail pathnameCopy (pathnameLen - 1)
      let nextComName :=
        scan_while in_name buf (L.MAXPATHLEN + 1) curComName
      (dir_namev_loop L fs (L.MAXPATHLEN + 1) buf curComName nextComName curPathBase
        false true s).map (dir_namev_tail L)

/-- Embedding of `do_mknod`.  `result` is the indeterminate initial value of the local
variable `result`. -/
def do_mknod (L : Limits) (fs : FsOps) (s : Vfs) (path : List Char) (mode : Int)
    (devid : Nat) (result : Option Nat) : Option (Int × Vfs) :=
  if mode ≠ S_IFBLK ∧ mode ≠ S_IFCHR then some (-EINVAL, s)
  else
    match dir_namev L fs s path none with
    | none => none
    | some (ret, out, s1) =>
      if ret ≠ 0 then some (ret, s1)
      else
        match out with
        | none => none
        | some o =>
          match o.name with
          | none => none
          | some off =>
            let name := (path.drop off).take o.namelen
            let r := lookup fs s1 o.res_vnode name result
            if r.1 = -ENOENT then
              if fs.has_mknod o.res_vnode = false then none
              else
                some (fs.mknod o.res_vnode name mode devid,
                  vput { r.2.2 with
                    calls := r.2.2.calls ++ [FsCall.mknod o.res_vnode name mode devid] }
                    o.res_vnode)
            else if r.1 ≠ 0 then
              some (r.1, vput (match r.2.1 with
                | some v => vput r.2.2 v
                | none => r.2.2) o.res_vnode)
            else
              some (-EEXIST, vput (match r.2.1 with
                | some v => vput r.2.2 v
                | none => r.2.2) o.res_vnode)

/-- Embedding of `do_rmdir`. -/
def do_rmdir (L : Limits) (fs : FsOps) (s : Vfs) (path : List Char) : Option (Int × Vfs) :=
  match dir_namev L fs s path none with
  | none => none
  | some (ret, out, s1) =>
    if ret = -ENOENT then some (-ENOENT, s1)
    else if ret = -ENAMETOOLONG then some (-ENAMETOOLONG, s1)
    else if ret ≠ 0 then some (ret, s1)
    else
      match out with
      | none => none
      | some o =>
        let name : List Char :=
          match o.name with
          | some off => path.drop off
          | none => []
        if S_ISDIR (s1.vn_mode o.res_vnode) = false then some (-ENOTDIR, vput s1 o.res_vnode)
        else if strncmp name ['.'] o.namelen = 0 then some (-EINVAL, vput s1 o.res_vnode)
        else if strncmp name ['.', '.'] o.namelen = 0 then
          some (-ENOTEMPTY, vput s1 o.res_vnode)
        else if fs.has_rmdir o.res_vnode = false then none
        else
          some (fs.rmdir o.res_vnode (name.take o.namelen),
            vput { s1 with
              calls := s1.calls ++ [FsCall.rmdir o.res_vnode (name.take o.namelen)] }
              o.res_vnode)

/-- The pieces of a path between slashes, empty ones included, each with the offset of
its first character. -/
def pieces (off : Nat) : List Char → List (Nat × List Char)
  | [] => [(off, [])]
  | c :: cs =>
    if c = '/' then (off, []) :: pieces (off + 1) cs
    else
      match pieces (off + 1) cs with
      | (_, w) :: rest => (off, c :: w) :: rest
      | [] => [(off, [c])]

/-- The non-empty pieces of a string that starts at offset `off` of the path. -/
def components_from (off : Nat) (l : List Char) : List (Nat × List Char) :=
  (pieces off l).filter (fun x => !x.2.isEmpty)

/-- The components of a path: "split on '/', skipping empty components". -/
def components (path : List Char) : List (Nat × List Char) := components_from 0 path

/-- The vnode at which resolution starts: the root for an absolute path, else `base`, or
the working directory when `base` is NULL. -/
def start_vnode (s : Vfs) (path : List Char) (base : Option Nat) : Nat :=
  if path.head? = some '/' then s.vfs_root_vn
  else
    match base with
    | some b => b
    | none => s.p_cwd

/-- Looking up a list of names in order from `dir`: the vnode reached, `none` as soon as
one lookup fails. -/
def resolve (fs : FsOps) (mode : Nat → Int) : Nat → List (List Char) → Option Nat
  | dir, [] => some dir
  | dir, w :: ws =>
    if fs.has_lookup dir = false ∨ mode dir ≠ S_IFDIR then none
    else if (fs.lookup dir w).1 = 0 then resolve fs mode (fs.lookup dir w).2 ws
    else none

/-- From index `i` on, the buffer reads as the string `l`. -/
def agrees (buf : Nat → Char) (i : Nat) (l : List Char) : Prop :=
  ∀ j, buf (i + j) = l.getD j NUL

/-- Path resolution over a list of components, the last being the basename: the
intermediate components are looked up in order, each directory obtained on the way is
released once the next lookup is done, and the directory reached keeps one reference.
`held` says that `dir` holds a reference taken by an earlier lookup. -/
def walk (L : Limits) (fs : FsOps) :
    Vfs → Nat → Bool → List (Nat × List Char) → Option (Int × Option namev_out × Vfs)
  | _, _, _, [] => none
  | s, dir, held, [(off, w)] =>
    if w.length > L.NAME_LEN then
      some (-ENAMETOOLONG, none, vput (if held then s else vref s dir) dir)
    else some (0, some ⟨dir, some off, w.length⟩, if held then s else vref s dir)
  | s, dir, held, (_, w) :: c :: cs =>
    if w.length > L.NAME_LEN then some (-ENAMETOOLONG, none, s)
    else
      if (lookup fs s dir w none).1 ≠ 0 then
        some ((lookup fs s dir w none).1, none,
          if held then vput (lookup fs s dir w none).2.2 dir else (lookup fs s dir w none).2.2)
      else
        match (lookup fs s dir w none).2.1 with
        | none => none
        | some next =>
          walk L fs (if held then vput (lookup fs s dir w none).2.2 dir
            else (lookup fs s dir w none).2.2) next true (c :: cs)

/-- Limits small enough to evaluate: paths of at most 16 characters, names of at most 3. -/
def smallLimits : Limits := ⟨16, 3⟩

/-- A tree with root 0 (directory), `/a` = 1 (directory), `/a/b` = 2 (directory); every
other name is missing.  Every directory has all operations; `mknod` and `rmdir` return 0. -/
def treeFs : FsOps :=
  ⟨fun _ => true,
   fun dir name =>
     if dir = 0 ∧ name = ['a'] then (0, 1)
     else if dir = 1 ∧ name = ['b'] then (0, 2)
     else (-2, 0),
   fun _ => true, fun _ _ _ _ => 0, fun _ => true, fun _ _ => 0⟩

/-- The state of `treeFs`: every vnode a directory with one reference, root and working
directory 0, no driver call made. -/
def treeState : Vfs := ⟨fun _ => S_IFDIR, fun _ => 1, 0, 0, []⟩

/-- The driver calls of `s1` are those of `s` followed by calls of `lookup` only. -/
def lookups_added (s s1 : Vfs) : Prop :=
  ∃ ls, s1.calls = s.calls ++ ls ∧ ∀ c, c ∈ ls → ∃ d n, c = FsCall.lookup d n

/-- What path resolution leaves alone: modes, root, working directory; and the driver is
only asked to look names up. -/
def namev_frame (s s1 : Vfs) : Prop :=
  s1.vn_mode = s.vn_mode ∧ s1.vfs_root_vn = s.vfs_root_vn ∧ s1.p_cwd = s.p_cwd ∧
    lookups_added s s1

/-- The final component of a path, "trailing slashes excluded"; `none` when the path has
no component. -/
def final_component (path : List Char) : Option (List Char) :=
  (components path).getLast?.map Prod.snd

/-! ## Spec side of the address-space map -/

/-- Invariant 5 of the spec: every area is non-empty, "a vmarea's `[start, end)` never
overlaps another in the same map; areas are listed in ascending order". -/
def wf_map (areas : List vmarea_t) : Prop :=
  (∀ a, a ∈ areas → a.vma_start < a.vma_end) ∧
  areas.Pairwise (fun a b =>
    a.vma_start ≤ b.vma_start ∧ (a.vma_end ≤ b.vma_start ∨ b.vma_end ≤ a.vma_start))

/-- Every area lies in the user range `[lo, hi)` of page numbers. -/
def in_user_range (lo hi : Nat) (areas : List vmarea_t) : Prop :=
  ∀ a, a ∈ areas → lo ≤ a.vma_start ∧ a.vma_end ≤ hi

/-- The run `[r, r + npages)` lies inside the user range and meets no area. -/
def free_run (lo hi : Nat) (areas : List vmarea_t) (npages r : Nat) : Prop :=
  lo ≤ r ∧ r + npages ≤ hi ∧ ∀ a, a ∈ areas → a.vma_end ≤ r ∨ r + npages ≤ a.vma_start

instance wf_map_decidable (areas : List vmarea_t) : Decidable (wf_map areas) :=
  inferInstanceAs (Decidable (_ ∧ _))

instance in_user_range_decidable (lo hi : Nat) (areas : List vmarea_t) :
    Decidable (in_user_range lo hi areas) :=
  inferInstanceAs (Decidable (∀ a, a ∈ areas → lo ≤ a.vma_start ∧ a.vma_end ≤ hi))

instance free_run_decidable (lo hi : Nat) (areas : List vmarea_t) (npages r : Nat) :
    Decidable (free_run lo hi areas npages r) :=
  inferInstanceAs (Decidable (_ ∧ _ ∧ _))

/-! ## vm/vmmap.c: lookup and reading through a map -/

/-- Embedding of `vmmap_lookup`: the first area of the list that covers `vfn`, `none` for
NULL. -/
def vmmap_lookup : List vmarea_t → Nat → Option vmarea_t
  | [], _ => none
  | vma :: rest, vfn =>
    if vma.vma_start ≤ vfn ∧ vma.vma_end > vfn then some vma else vmmap_lookup rest vfn

/-- Modelled from the spec: mm/page.h is absent; a vfn is the "byte address ≫ page shift".
`PS` is `PAGE_SIZE`. -/
def ADDR_TO_PN (PS x : Nat) : Nat := x / PS

/-- Modelled from the spec: mm/page.h is absent; the offset of an address in its page. -/
def PAGE_OFFSET (PS x : Nat) : Nat := x % PS

/-- Modelled from the spec: mm/page.h is absent; the 32-bit address of a page. -/
def PN_TO_ADDR (PS n : Nat) : Nat := (n * PS) % 4294967296

/-- Modelled from the spec: util/string.c is absent; `memcpy(dst, src, n)` on a memory of
bytes indexed by address. -/
def memcpy (mem : Nat → Nat) (dst src n : Nat) : Nat → Nat :=
  fun a => if dst ≤ a ∧ a < dst + n then mem (src + (a - dst)) else mem a

/-- The `for` loop of `vmmap_read`, at page `i` with `buf` the current destination.
`pframe_lookup obj pagenum` is the result of `pframe_lookup(obj, pagenum, 0, &pf)`: the
return value and `pf->pf_addr`.  `none` is a NULL dereference (unmapped page) or exhausted
fuel. -/
def vmmap_read_loop (PS : Nat) (areas : List vmarea_t)
    (pframe_lookup : Option Nat → Nat → Int × Nat)
    (count first_vfn last_vfn vaddr_offset last_vaddr : Nat) :
    Nat → Nat → (Nat → Nat) → Nat → Option (Int × (Nat → Nat))
  | 0, _, _, _ => none
  | fuel + 1, i, mem, buf =>
    if ¬ (i ≤ last_vfn) then some (0, mem)
    else
      match vmmap_lookup areas i with
      | none => none
      | some vma =>
        let pagenum := (vma.vma_off + usub32 i vma.vma_start) % 4294967296
        let r := pframe_lookup vma.vma_obj pagenum
        if r.1 < 0 then some (r.1, mem)
        else if i = first_vfn then
          let start_addr := (r.2 + vaddr_offset) % 4294967296
          let page_end_addr := (r.2 + PS) % 4294967296
          let num_bytes :=
            if (start_addr + count) % 4294967296 < page_end_addr then count
            else usub32 page_end_addr start_addr
          if first_vfn = last_vfn then some (0, memcpy mem buf start_addr num_bytes)
          else
            vmmap_read_loop PS areas pframe_lookup count first_vfn last_vfn vaddr_offset
              last_vaddr fuel ((i + 1) % 4294967296) (memcpy mem buf start_addr num_bytes)
              ((buf + num_bytes) % 4294967296)
        else if i = last_vfn then
          let num_bytes := usub32 last_vaddr (PN_TO_ADDR PS last_vfn)
          vmmap_read_loop PS areas pframe_lookup count first_vfn last_vfn vaddr_offset
            last_vaddr fuel ((i + 1) % 4294967296) (memcpy mem buf r.2 num_bytes)
            ((buf + num_bytes) % 4294967296)
        else
          vmmap_read_loop PS areas pframe_lookup count first_vfn last_vfn vaddr_offset
            last_vaddr fuel ((i + 1) % 4294967296) (memcpy mem buf r.2 PS)
            ((buf + PS) % 4294967296)

/-- Embedding of `vmmap_read`: the return value and the memory afterwards.  The loop runs
at most once per page from `first_vfn` to `last_vfn`. -/
def vmmap_read (PS : Nat) (areas : List vmarea_t)
    (pframe_lookup : Option Nat → Nat → Int × Nat) (mem : Nat → Nat)
    (vaddr buf count : Nat) : Option (Int × (Nat → Nat)) :=
  let last_vaddr := usub32 ((vaddr + count) % 4294967296) 1
  let first_vfn := ADDR_TO_PN PS vaddr
  let last_vfn := ADDR_TO_PN PS last_vaddr
  vmmap_read_loop PS areas pframe_lookup count first_vfn last_vfn (PAGE_OFFSET PS vaddr)
    last_vaddr (last_vfn - first_vfn + 2) first_vfn mem buf

/-- An area covering `[a, b)` of a map, backed by object `o` from page `off` on. -/
def mapped_area (a b off : Nat) (o : Nat) : vmarea_t := ⟨a, b, off, 7, 1, some 0, some o⟩

/-- A memory whose byte at address `a < 12` is `a + 10`, all other bytes 0. -/
def smallMem : Nat → Nat := fun a => if a < 12 then a + 10 else 0

/-! ## vm/pagefault.c -/

/-- Modelled from the spec: the errno header is absent; EFAULT is "user address outside
mapped range, or permission denied on fault". -/
def EFAULT : Int := 14

/-- Modelled from the spec: mm/mman.h is absent; the protection bits are
{READ, WRITE, EXEC}, given their usual values. -/
def PROT_NONE : Int := 0

/-- Modelled from the spec: mm/mman.h is absent. -/
def PROT_READ : Int := 1

/-- Modelled from the spec: mm/mman.h is absent. -/
def PROT_WRITE : Int := 2

/-- Modelled from the spec: mm/mman.h is absent. -/
def PROT_EXEC : Int := 4

/-- Modelled from the spec: vm/pagefault.h is absent; the cause of a fault has a WRITE, a
RESERVED and an EXEC bit, given the values of the x86 error code. -/
def FAULT_WRITE : Nat := 2

/-- Modelled from the spec: vm/pagefault.h is absent. -/
def FAULT_USER : Nat := 4

/-- Modelled from the spec: vm/pagefault.h is absent. -/
def FAULT_RESERVED : Nat := 8

/-- Modelled from the spec: vm/pagefault.h is absent. -/
def FAULT_EXEC : Nat := 16

/-- Modelled from the spec: mm/pagetable.h is absent; "page-directory flags used when
mapping: PRESENT, USER, WRITE", with the values of the x86 page tables. -/
def PD_PRESENT : Nat := 1

/-- Modelled from the spec: mm/pagetable.h is absent. -/
def PD_WRITE : Nat := 2

/-- Modelled from the spec: mm/pagetable.h is absent. -/
def PD_USER : Nat := 4

/-- Modelled from the spec: mm/pagetable.h is absent. -/
def PT_PRESENT : Nat := 1

/-- Modelled from the spec: mm/pagetable.h is absent. -/
def PT_WRITE : Nat := 2

/-- Modelled from the spec: mm/pagetable.h is absent. -/
def PT_USER : Nat := 4

/-- Modelled from the spec: mm/page.h is absent; the address of the page of `x`. -/
def PAGE_ALIGN_DOWN (PS x : Nat) : Nat := x - x % PS

/-- How `handle_pagefault` ends: `proc_kill(curproc, status)`, which exits the current
thread and does not return, or the call `pt_map(pd, vaddr, paddr, pdflags, ptflags)` made
after `lookuppage(obj, pagenum, forwrite, &pf)`. -/
inductive pagefault_out where
  | killed (status : Int)
  | mapped (pagenum : Nat) (forwrite : Int) (vaddr paddr pdflags ptflags : Nat)
  deriving DecidableEq, Repr

/-- Embedding of `handle_pagefault` for the map `areas` of `curproc`.  `lookuppage` is the
`lookuppage` operation of the area's object (return value and `pf->pf_addr`); `none` is a
NULL dereference. -/
def handle_pagefault (PS : Nat) (areas : List vmarea_t)
    (lookuppage : Nat → Nat → Int → Int × Nat) (pt_virt_to_phys : Nat → Nat)
    (vaddr cause : Nat) : Option pagefault_out :=
  match vmmap_lookup areas (ADDR_TO_PN PS vaddr) with
  | none => some (pagefault_out.killed EFAULT)
  | some vma =>
    if band vma.vma_prot PROT_READ = 0 then some (pagefault_out.killed EFAULT)
    else if cause &&& FAULT_WRITE ≠ 0 ∧ band vma.vma_prot PROT_WRITE = 0 then
      some (pagefault_out.killed EFAULT)
    else if cause &&& FAULT_RESERVED ≠ 0 then some (pagefault_out.killed EFAULT)
    else if cause &&& FAULT_EXEC ≠ 0 ∧ band vma.vma_prot PROT_EXEC = 0 then
      some (pagefault_out.killed EFAULT)
    else
      let pagenum := (vma.vma_off + usub32 (ADDR_TO_PN PS vaddr) vma.vma_start) % 4294967296
      let forwrite : Int := if cause &&& FAULT_WRITE = FAULT_WRITE then 1 else 0
      let pdflags :=
        if cause &&& FAULT_WRITE = FAULT_WRITE then PD_PRESENT ||| PD_USER ||| PD_WRITE
        else PD_PRESENT ||| PD_USER
      let ptflags :=
        if cause &&& FAULT_WRITE = FAULT_WRITE then PT_PRESENT ||| PT_USER ||| PT_WRITE
        else PT_PRESENT ||| PT_USER
      match vma.vma_obj with
      | none => none
      | some o =>
        if (lookuppage o pagenum forwrite).1 < 0 then some (pagefault_out.killed EFAULT)
        else
          some (pagefault_out.mapped pagenum forwrite (PAGE_ALIGN_DOWN PS vaddr)
            (pt_virt_to_phys (lookuppage o pagenum forwrite).2) pdflags ptflags)

/-- The permission test of the spec: the area lacks READ, or the cause has WRITE and the
area lacks WRITE, or the cause has the RESERVED bit, or the cause has EXEC and the area
lacks EXEC. -/
def fault_denied (prot : Int) (cause : Nat) : Prop :=
  band prot PROT_READ = 0 ∨ (cause &&& FAULT_WRITE ≠ 0 ∧ band prot PROT_WRITE = 0) ∨
    cause &&& FAULT_RESERVED ≠ 0 ∨ (cause &&& FAULT_EXEC ≠ 0 ∧ band prot PROT_EXEC = 0)

instance fault_denied_decidable (prot : Int) (cause : Nat) : Decidable (fault_denied prot cause) :=
  inferInstanceAs (Decidable (_ ∨ _ ∨ _ ∨ _))

/-! ## vm/shadow.c: memory objects and the shadow chain -/

/-- The fields of `mmobj_t` that the sources use; `mmo_bottom_obj` is
`mmo_un.mmo_bottom_obj`. -/
structure mmobj_t where
  mmo_refcount : Int
  mmo_nrespages : Int
  mmo_shadowed : Option Nat
  mmo_bottom_obj : Option Nat
  deriving DecidableEq, Repr

/-- The page-frame layer (mm/pframe.c, not part of the sources) and the `lookuppage`
operation of the objects under a shadow chain: `pframe_get_resident(o, n)`,
`pframe_get(o, n, &pf)` and `o->mmo_ops->lookuppage(o, n, forwrite, &pf)`, each with the
frame it yields. -/
structure PageOps where
  pframe_get_resident : Nat → Nat → Option Nat
  pframe_get : Nat → Nat → Int × Option Nat
  lookuppage : Nat → Nat → Int → Int × Option Nat

/-- The loop `while (oneMMObj != NULL)` of `shadow_lookuppage`: `some (some pf)` when a
resident frame is found, `some none` when the end of the chain is reached; `none` is a
dangling pointer or exhausted fuel.  A busy frame is waited for, which changes nothing
here. -/
def shadow_walk (objs : Nat → Option mmobj_t) (P : PageOps) (pagenum : Nat) :
    Nat → Option Nat → Option (Option Nat)
  | 0, _ => none
  | _ + 1, none => some none
  | fuel + 1, some a =>
    match objs a with
    | none => none
    | some ob =>
      match P.pframe_get_resident a pagenum with
      | some pf => some (some pf)
      | none => shadow_walk objs P pagenum fuel ob.mmo_shadowed

/-- Embedding of `shadow_lookuppage`: the return value and `*pf`. -/
def shadow_lookuppage (objs : Nat → Option mmobj_t) (P : PageOps) (fuel : Nat) (o : Nat)
    (pagenum : Nat) (forwrite : Int) : Option (Int × Option Nat) :=
  if forwrite = 0 then
    match shadow_walk objs P pagenum fuel (some o) with
    | none => none
    | some (some pf) => some (0, some pf)
    | some none =>
      match objs o with
      | none => none
      | some ob =>
        match ob.mmo_bottom_obj with
        | none => none
        | some b =>
          if (P.lookuppage b pagenum forwrite).1 < 0 then
            some (-1, (P.lookuppage b pagenum forwrite).2)
          else some (0, (P.lookuppage b pagenum forwrite).2)
  else
    if (P.pframe_get o pagenum).1 < 0 then some (-1, (P.pframe_get o pagenum).2)
    else some (0, (P.pframe_get o pagenum).2)

/-- The objects met from `start` on by following `mmo_shadowed` are exactly the list, and
the last one shadows nothing: a finite, hence acyclic, chain. -/
def chain_from (objs : Nat → Option mmobj_t) : Option Nat → List Nat → Prop
  | none, [] => True
  | some a, x :: rest => a = x ∧ ∃ ob, objs a = some ob ∧ chain_from objs ob.mmo_shadowed rest
  | none, _ :: _ => False
  | some _, [] => False

/-- A heap with the chain 3 → 2 → 1: shadow objects 3 and 2 over the bottom object 1. -/
def chainHeap : Nat → Option mmobj_t := fun a =>
  if a = 3 then some ⟨1, 0, some 2, some 1⟩
  else if a = 2 then some ⟨2, 1, some 1, some 1⟩
  else if a = 1 then some ⟨2, 0, none, none⟩
  else none

/-- Page 7 is resident in object 2 only (frame 70); `pframe_get` yields a frame of the
object asked; the bottom object's `lookuppage` yields frame 10. -/
def chainOps : PageOps :=
  ⟨fun a n => if a = 2 ∧ n = 7 then some 70 else none,
   fun a n => (0, some (100 * a + n)),
   fun _ _ _ => (0, some 10)⟩

/-! ## vm/vmmap.c: objects, allocation and `vmmap_remove` -/

/-- Modelled from the spec: mm/mman.h is absent; the flags of a mapping are
{SHARED, PRIVATE, FIXED, ANON}, given their usual values. -/
def MAP_SHARED : Int := 1

/-- Modelled from the spec: mm/mman.h is absent. -/
def MAP_PRIVATE : Int := 2

/-- Modelled from the spec: mm/mman.h is absent. -/
def MAP_FIXED : Int := 4

/-- Modelled from the spec: mm/mman.h is absent. -/
def MAP_ANON : Int := 8

/-- The memory objects and the slab allocators.  `pool` lists the answers the allocators
will give, in program order: the address of a free object, or NULL. -/
structure Vm where
  objs : Nat → Option mmobj_t
  pool : List (Option Nat)

/-- Modelled from the spec: mm/slab.c is absent; `slab_obj_alloc` yields the next answer
of the allocator, NULL once the pool is exhausted ("allocator failure"). -/
def slab_obj_alloc (s : Vm) : Option Nat × Vm :=
  match s.pool with
  | [] => (none, s)
  | a :: rest => (a, { s with pool := rest })

/-- Embedding of `shadow_create`: NULL when the allocation fails, else a fresh object with
reference count 1, no resident page, `mmo_shadowed` and `mmo_bottom_obj` NULL. -/
def shadow_create (s : Vm) : Option Nat × Vm :=
  match slab_obj_alloc s with
  | (none, s1) => (none, s1)
  | (some a, s1) =>
    (some a, { s1 with objs := Function.update s1.objs a (some ⟨1, 0, none, none⟩) })

/-- Embedding of `anon_create`, which initialises the object without testing the result of
the allocator: a failed allocation is a NULL dereference, `none`. -/
def anon_create (s : Vm) : Option (Nat × Vm) :=
  match slab_obj_alloc s with
  | (none, _) => none
  | (some a, s1) =>
    some (a, { s1 with objs := Function.update s1.objs a (some ⟨1, 0, none, none⟩) })

/-- Embedding of `o->mmo_ops->ref(o)` (`shadow_ref`, `anon_ref`; the objects of a file
system are taken to follow the same contract): asserts a positive reference count and
increments it. -/
def mmobj_ref (s : Vm) (o : Option Nat) : Option Vm :=
  match o with
  | none => none
  | some a =>
    match s.objs a with
    | none => none
    | some ob =>
      if ¬ (0 < ob.mmo_refcount) then none
      else
        some { s with objs :=
          Function.update s.objs a (some { ob with mmo_refcount := wrap32 (ob.mmo_refcount + 1) }) }

/-- Modelled from the spec: mm/mmobj.h is absent; `mmobj_bottom_obj(o)` is `o` itself for
an object that shadows nothing, else the cached "chain's terminal" `mmo_bottom_obj`.
`none` is a dereference of a dangling pointer. -/
def mmobj_bottom_obj (objs : Nat → Option mmobj_t) (o : Nat) : Option (Option Nat) :=
  match objs o with
  | none => none
  | some ob => some (if ob.mmo_shadowed = none then some o else ob.mmo_bottom_obj)

/-- The assignments `sh->mmo_shadowed = temp; sh->mmo_un.mmo_bottom_obj = bottom`. -/
def set_shadow (s : Vm) (sh : Nat) (temp : Option Nat) (bottom : Option Nat) : Vm :=
  match s.objs sh with
  | none => s
  | some ob =>
    { s with objs :=
      Function.update s.objs sh (some { ob with mmo_shadowed := temp, mmo_bottom_obj := bottom }) }

/-- How case 1 of `vmmap_remove` ends: `return -1` with the area as it then is, or the
shrunk area and the new area that is about to be inserted. -/
inductive split_out where
  | failed (s : Vm) (vma : vmarea_t)
  | split (vma new_vma : vmarea_t) (s : Vm)

/-- Case 1 of `vmmap_remove` up to the call of `vmmap_insert`: the region lies strictly
inside `vma`.  `junk` is the indeterminate `vma_obj` of a freshly allocated area. -/
def split_area (junk : Option Nat) (startvfn endvfn : Nat) (vma : vmarea_t) (s : Vm) :
    Option split_out :=
  match slab_obj_alloc s with
  | (none, s1) => some (split_out.failed s1 vma)
  | (some _, s1) =>
    let off := usub32 ((vma.vma_off + endvfn) % 4294967296) vma.vma_start
    if band vma.vma_flags MAP_PRIVATE = MAP_PRIVATE then
      match shadow_create s1 with
      | (none, s2) => some (split_out.failed s2 { vma with vma_end := startvfn })
      | (some sh1, s2) =>
        match shadow_create s2 with
        | (none, s3) => some (split_out.failed s3 { vma with vma_end := startvfn })
        | (some sh2, s3) =>
          match vma.vma_obj with
          | none => none
          | some temp =>
            match mmobj_bottom_obj s3.objs temp with
            | none => none
            | some none => none
            | some (some bottom) =>
              match mmobj_ref
                  (set_shadow (set_shadow s3 sh1 (some temp) (some bottom)) sh2 (some temp)
                    (some bottom)) (some temp) with
              | none => none
              | some s4 =>
                some (split_out.split { vma with vma_end := startvfn, vma_obj := some sh1 }
                  ⟨endvfn, vma.vma_end, off, vma.vma_prot, vma.vma_flags, none, some sh2⟩ s4)
    else if band vma.vma_flags MAP_SHARED = MAP_SHARED then
      match mmobj_ref s1 vma.vma_obj with
      | none => none
      | some s2 =>
        some (split_out.split { vma with vma_end := startvfn }
          ⟨endvfn, vma.vma_end, off, vma.vma_prot, vma.vma_flags, none, vma.vma_obj⟩ s2)
    else
      some (split_out.split { vma with vma_end := startvfn }
        ⟨endvfn, vma.vma_end, off, vma.vma_prot, vma.vma_flags, none, junk⟩ s1)

/-- Where `vmmap_insert` puts `newvma` while `vmmap_remove` iterates: `full` are the areas
up to the current one, `rest` those from the saved next link on.  The result is the
list up to the saved next link and the list from it on. -/
def insert_split (newvma : vmarea_t) (full rest : List vmarea_t) :
    List vmarea_t × List vmarea_t :=
  if full.any (fun a => insert_here a newvma) then (vmmap_insert_loop newvma full, rest)
  else
    match rest with
    | [] => (full ++ [newvma], [])
    | nxt :: rest1 =>
      if insert_here nxt newvma then (full ++ [newvma], nxt :: rest1)
      else (full, nxt :: vmmap_insert_loop newvma rest1)

/-- The loop of `vmmap_remove`: `done` are the areas before the iterator, `vma :: rest`
those from it on.  `mmo_put` is the `put` operation of the objects.  The calls of
`pt_unmap_range` act on the page table only and are left out.  `none` is a panic or
exhausted fuel. -/
def vmmap_remove_loop (lo hi map : Nat) (mmo_put : Vm → Nat → Vm) (junk : Option Nat)
    (startvfn endvfn : Nat) :
    Nat → List vmarea_t → List vmarea_t → Vm → Option (Int × List vmarea_t × Vm)
  | 0, _, _, _ => none
  | _ + 1, done, [], s => some (0, done, s)
  | fuel + 1, done, vma :: rest, s =>
    if startvfn > vma.vma_start ∧ endvfn < vma.vma_end then
      match split_area junk startvfn endvfn vma s with
      | none => none
      | some (split_out.failed s1 vma1) => some (-1, done ++ vma1 :: rest, s1)
      | some (split_out.split vma1 new_vma s1) =>
        match vmmap_insert lo hi map (done ++ vma1 :: rest) new_vma with
        | none => none
        | some _ =>
          vmmap_remove_loop lo hi map mmo_put junk startvfn endvfn fuel
            (insert_split { new_vma with vma_vmmap := some map } (done ++ [vma1]) rest).1
            (insert_split { new_vma with vma_vmmap := some map } (done ++ [vma1]) rest).2 s1
    else if startvfn > vma.vma_start ∧ startvfn < vma.vma_end ∧ endvfn ≥ vma.vma_end then
      vmmap_remove_loop lo hi map mmo_put junk startvfn endvfn fuel
        (done ++ [{ vma with vma_end := startvfn }]) rest s
    else if startvfn ≤ vma.vma_start ∧ endvfn > vma.vma_start ∧ endvfn < vma.vma_end then
      vmmap_remove_loop lo hi map mmo_put junk startvfn endvfn fuel
        (done ++ [{ vma with
          vma_off := (vma.vma_off + usub32 endvfn vma.vma_start) % 4294967296,
          vma_start := endvfn }]) rest s
    else if startvfn ≤ vma.vma_start ∧ endvfn ≥ vma.vma_end then
      vmmap_remove_loop lo hi map mmo_put junk startvfn endvfn fuel done rest
        (match vma.vma_obj with
          | some o => mmo_put s o
          | none => s)
    else
      vmmap_remove_loop lo hi map mmo_put junk startvfn endvfn fuel (done ++ [vma]) rest s

/-- Embedding of `vmmap_remove` on the map at address `map` with the areas `areas`: the
return value, the areas and the objects afterwards. -/
def vmmap_remove (lo hi map : Nat) (mmo_put : Vm → Nat → Vm) (junk : Option Nat)
    (fuel : Nat) (areas : List vmarea_t) (s : Vm) (lopage npages : Nat) :
    Option (Int × List vmarea_t × Vm) :=
  vmmap_remove_loop lo hi map mmo_put junk lopage ((lopage + npages) % 4294967296) fuel []
    areas s

/-- The loop of `vmmap_is_range_empty`. -/
def is_range_empty_loop (startvfn endvfn : Nat) : List vmarea_t → Int
  | [] => 1
  | vma :: rest =>
    if startvfn ≥ vma.vma_end ∨ endvfn ≤ vma.vma_start then
      is_range_empty_loop startvfn endvfn rest
    else 0

/-- Embedding of `vmmap_is_range_empty`; a failed `KASSERT` is `none`. -/
def vmmap_is_range_empty (lo hi : Nat) (areas : List vmarea_t) (startvfn npages : Nat) :
    Option Int :=
  if ¬ (startvfn < (startvfn + npages) % 4294967296 ∧ lo ≤ startvfn ∧
      hi ≥ (startvfn + npages) % 4294967296) then none
  else some (is_range_empty_loop startvfn ((startvfn + npages) % 4294967296) areas)

/-- What a page of the address space shows of its area: the page number in the object,
`vma_off + (vfn - vma_start)` as a `uint32_t`, the protection bits and the flags; `none`
for an unmapped page. -/
def page_at (areas : List vmarea_t) (vfn : Nat) : Option (Nat × Int × Int) :=
  (vmmap_lookup areas vfn).map
    (fun a => ((a.vma_off + (vfn - a.vma_start)) % 4294967296, a.vma_prot, a.vma_flags))

/-- Spec side: the areas are non-empty and each ends where the later ones have not started. -/
def map_chain (areas : List vmarea_t) : Prop :=
  (∀ a, a ∈ areas → a.vma_start < a.vma_end) ∧
  areas.Pairwise (fun a b => a.vma_end ≤ b.vma_start)

/-- No area meets `[L, H)`. -/
def range_clear (L H : Nat) (areas : List vmarea_t) : Prop :=
  ∀ a, a ∈ areas → a.vma_end ≤ L ∨ H ≤ a.vma_start

/-- A state with no object in which the allocators answer with the addresses given. -/
def poolState (pool : List (Option Nat)) : Vm := ⟨fun _ => none, pool⟩

/-- A heap with one object, at address 5, of reference count 1; the allocators answer
with the addresses given. -/
def oneObjState (pool : List (Option Nat)) : Vm :=
  ⟨fun a => if a = 5 then some ⟨1, 0, none, none⟩ else none, pool⟩

/-! ## vm/vmmap.c: `vmmap_map` -/

/-- Modelled from the spec: mm/page.h is absent; an address or offset is page aligned
when it is a multiple of `PAGE_SIZE`. -/
def PAGE_ALIGNED (PS x : Nat) : Prop := x % PS = 0

instance PAGE_ALIGNED_decidable (PS x : Nat) : Decidable (PAGE_ALIGNED PS x) :=
  inferInstanceAs (Decidable (x % PS = 0))

/-- The result of `vmmap_map`: the return value, the area stored through `new` (when the
call gets that far), the areas of the map and the objects afterwards. -/
structure map_result where
  ret : Int
  new_vma : Option vmarea_t
  areas : List vmarea_t
  vm : Vm

/-- The second half of `vmmap_map`, from `vmarea_alloc` on: `start_vfn` is the start that
was chosen and `retval` the value the variable `retval` holds at that point.
`file` is the vnode to map (`none` for NULL) and `vn_mmap` its `mmap` operation, which
yields its return value and the object it stores. -/
def vmmap_map_tail (lo hi map : Nat) (mmo_put : Vm → Nat → Vm) (junk : Option Nat)
    (vn_mmap : Nat → vmarea_t → Vm → Int × Option Nat × Vm) (areas : List vmarea_t) (s : Vm)
    (file : Option Nat) (start_vfn npages off_page : Nat) (prot flags : Int) (retval : Int) :
    Option map_result :=
  match slab_obj_alloc s with
  | (none, s1) => some ⟨-1, none, areas, s1⟩
  | (some _, s1) =>
    let file_vma : vmarea_t :=
      ⟨start_vfn, (start_vfn + npages) % 4294967296, off_page, prot, flags, none, junk⟩
    let backing : Option (Int × Option Nat × Vm) :=
      match file with
      | none => (anon_create s1).map (fun r => (retval, some r.1, r.2))
      | some f => some (vn_mmap f file_vma s1)
    match backing with
    | none => none
    | some (retval1, new_mmobj, s2) =>
      if file ≠ none ∧ retval1 < 0 then some ⟨retval1, none, areas, s2⟩
      else
        match new_mmobj with
        | none => none
        | some o =>
          match s2.objs o with
          | none => none
          | some ob =>
            match (if ob.mmo_refcount = 0 then mmobj_ref s2 (some o) else some s2) with
            | none => none
            | some s3 =>
              if band flags MAP_PRIVATE = MAP_PRIVATE then
                match shadow_create s3 with
                | (none, s4) => some ⟨-1, none, areas, mmo_put s4 o⟩
                | (some sh, s4) =>
                  match vmmap_insert lo hi map areas { file_vma with vma_obj := some sh } with
                  | none => none
                  | some areas1 =>
                    some ⟨retval1,
                      some { file_vma with vma_obj := some sh, vma_vmmap := some map },
                      areas1, set_shadow s4 sh (some o) (some o)⟩
              else
                let vma1 : vmarea_t :=
                  if band flags MAP_SHARED = MAP_SHARED then { file_vma with vma_obj := some o }
                  else file_vma
                match vmmap_insert lo hi map areas vma1 with
                | none => none
                | some areas1 =>
                  some ⟨retval1, some { vma1 with vma_vmmap := some map }, areas1, s3⟩

/-- Embedding of `vmmap_map`.  `off` is the `off_t` argument; a failed `KASSERT` is
`none`.  The value of `vmmap_remove` is not looked at, as in the source. -/
def vmmap_map (PS lo hi map : Nat) (mmo_put : Vm → Nat → Vm) (junk : Option Nat)
    (fuel : Nat) (vn_mmap : Nat → vmarea_t → Vm → Int × Option Nat × Vm)
    (areas : List vmarea_t) (s : Vm) (file : Option Nat) (lopage npages : Nat)
    (prot flags : Int) (off : Int) (dir : Int) : Option map_result :=
  if ¬ (0 < npages) then none
  else if band (bnot (bor (bor (bor PROT_NONE PROT_READ) PROT_WRITE) PROT_EXEC)) prot ≠ 0 then
    none
  else if band MAP_SHARED flags = 0 ∧ band MAP_PRIVATE flags = 0 then none
  else if ¬ (lopage = 0 ∨ lo ≤ lopage) then none
  else if ¬ (lopage = 0 ∨ hi ≥ (lopage + npages) % 4294967296) then none
  else if ¬ PAGE_ALIGNED PS (toU32 off) then none
  else if lopage ≠ 0 then
    match vmmap_is_range_empty lo hi areas lopage npages with
    | none => none
    | some e =>
      if e = 0 then
        match vmmap_remove lo hi map mmo_put junk fuel areas s lopage npages with
        | none => none
        | some (_, areas1, s1) =>
          vmmap_map_tail lo hi map mmo_put junk vn_mmap areas1 s1 file lopage npages
            (ADDR_TO_PN PS (toU32 off)) prot flags 0
      else
        vmmap_map_tail lo hi map mmo_put junk vn_mmap areas s file lopage npages
          (ADDR_TO_PN PS (toU32 off)) prot flags 0
  else
    match vmmap_find_range lo hi areas npages dir with
    | none => none
    | some retval =>
      if retval < 0 then some ⟨-1, none, areas, s⟩
      else
        vmmap_map_tail lo hi map mmo_put junk vn_mmap areas s file (toU32 retval) npages
          (ADDR_TO_PN PS (toU32 off)) prot flags retval

/-! ## vm/brk.c -/

/-- Modelled from the spec: mm/mm.h is absent; the user range of the x86 port starts at
4 MB. -/
def USER_MEM_LOW : Nat := 0x00400000

/-- Modelled from the spec: mm/mm.h is absent; the user range of the x86 port ends at
3 GB. -/
def USER_MEM_HIGH : Nat := 0xc0000000

/-- Modelled from the spec: the errno header is absent; ENXIO is "device special with no
driver". -/
def ENXIO : Int := 6

/-- Modelled from the spec: the errno header is absent; ECHILD is "waitpid with no matching
child". -/
def ECHILD : Int := 10

/-- Modelled from the spec: the errno header is absent; EINTR is "cancellable sleep was
cancelled". -/
def EINTR : Int := 4

/-- The error domain of the spec: "every negative return is one of" these, negated. -/
def error_domain : List Int :=
  [EBADF, EINVAL, EMFILE, ENOMEM, ENAMETOOLONG, ENOENT, EEXIST, ENOTDIR, EISDIR, ENOTEMPTY,
    ENXIO, EFAULT, ECHILD, EINTR]

/-- Modelled from the spec: mm/mman.h is absent; `MAP_FAILED` is `(void *)-1` as in
mmap(2), so that `(int)MAP_FAILED` is -1. -/
def MAP_FAILED_INT : Int := -1

/-- What `do_mmap` leaves behind: the descriptor layer, the areas of `curproc->p_vmmap`
and the memory objects. -/
structure mmap_state where
  ks : Kstate
  areas : List vmarea_t
  vm : Vm

/-- The tests `do_mmap` makes on the file of a mapping that is not anonymous, in program
order; `vn_busy` says that `vn_flags == VN_BUSY`. -/
def mmap_file_rejected (vn_busy : Nat → Bool) (f : file_t) (v : Nat) (prot flags : Int) :
    Bool :=
  (decide (band flags MAP_PRIVATE = MAP_PRIVATE) &&
      decide (band f.f_mode FMODE_READ ≠ FMODE_READ)) ||
    (decide (band flags MAP_SHARED = MAP_SHARED) &&
      decide (band prot PROT_WRITE = PROT_WRITE) &&
      decide (band f.f_mode FMODE_WRITE ≠ FMODE_WRITE)) ||
    (decide (band prot PROT_WRITE = PROT_WRITE) && decide (f.f_mode = FMODE_APPEND)) ||
    vn_busy v

/-- The part of `do_mmap` from `*ret = NULL` on: the call of `vmmap_map` with `dir =
VMMAP_DIR_HILO`, and what follows it.  `file` is the entry obtained with `fget` and its
vnode, `none` for an anonymous mapping.  The flush of the TLB is left out. -/
def do_mmap_map (PS uml umh map : Nat) (mmo_put : Vm → Nat → Vm) (junk : Option Nat)
    (fuel : Nat) (vn_mmap : Nat → vmarea_t → Vm → Int × Option Nat × Vm) (map_failed : Int)
    (st : mmap_state) (file : Option (Nat × Nat)) (addr len : Nat) (prot flags : Int)
    (off : Int) : Option (Int × Option Nat × mmap_state) :=
  let lopage := ADDR_TO_PN PS addr
  let hipage := (ADDR_TO_PN PS (usub32 ((addr + len) % 4294967296) 1) + 1) % 4294967296
  let npages := usub32 hipage lopage
  match vmmap_map PS (ADDR_TO_PN PS uml) (ADDR_TO_PN PS umh) map mmo_put junk fuel vn_mmap
      st.areas st.vm (file.map (fun x => x.2)) lopage npages prot flags off
      VMMAP_DIR_HILO with
  | none => none
  | some r =>
    let ks1 : Option Kstate :=
      match file with
      | some (p, _) => fput st.ks p
      | none => some st.ks
    match ks1 with
    | none => none
    | some ks2 =>
      if r.ret < 0 then some (map_failed, some 0, ⟨ks2, r.areas, r.vm⟩)
      else
        match r.new_vma with
        | none => none
        | some vma => some (0, some (PN_TO_ADDR PS vma.vma_start), ⟨ks2, r.areas, r.vm⟩)

/-- Embedding of `do_mmap`.  `map_failed` is `(int)MAP_FAILED`; the result is the return
value, the value stored in `*ret` (`none` when nothing is stored, `some 0` for NULL) and
the state. -/
def do_mmap (PS uml umh map : Nat) (mmo_put : Vm → Nat → Vm) (junk : Option Nat)
    (fuel : Nat) (vn_mmap : Nat → vmarea_t → Vm → Int × Option Nat × Vm)
    (vn_busy : Nat → Bool) (map_failed : Int) (st : mmap_state) (addr len : Nat)
    (prot flags fd : Int) (off : Int) : Option (Int × Option Nat × mmap_state) :=
  if band flags MAP_FIXED = MAP_FIXED ∧ (addr < uml ∨ addr ≥ umh) then
    some (map_failed, none, st)
  else if ¬ PAGE_ALIGNED PS addr ∨ ¬ PAGE_ALIGNED PS (toU32 off) then
    some (map_failed, none, st)
  else if len ≤ 0 ∨ len ≥ umh - uml then some (map_failed, none, st)
  else if ¬ (band flags MAP_PRIVATE = MAP_PRIVATE ∨ band flags MAP_SHARED = MAP_SHARED) then
    some (map_failed, none, st)
  else if (fd ≥ NFILES ∨ fd < 0) ∧ band flags MAP_ANON ≠ MAP_ANON then
    some (map_failed, none, st)
  else if band flags MAP_ANON ≠ MAP_ANON then
    match fget st.ks fd with
    | none => none
    | some (none, ks1) => some (map_failed, none, { st with ks := ks1 })
    | some (some p, ks1) =>
      match ks1.files p with
      | none => none
      | some f =>
        match f.f_vnode with
        | none =>
          if (decide (band flags MAP_PRIVATE = MAP_PRIVATE) &&
                decide (band f.f_mode FMODE_READ ≠ FMODE_READ)) ||
              (decide (band flags MAP_SHARED = MAP_SHARED) &&
                decide (band prot PROT_WRITE = PROT_WRITE) &&
                decide (band f.f_mode FMODE_WRITE ≠ FMODE_WRITE)) ||
              (decide (band prot PROT_WRITE = PROT_WRITE) && decide (f.f_mode = FMODE_APPEND))
          then (fput ks1 p).map (fun ks2 => (map_failed, none, { st with ks := ks2 }))
          else none
        | some v =>
          if mmap_file_rejected vn_busy f v prot flags then
            (fput ks1 p).map (fun ks2 => (map_failed, none, { st with ks := ks2 }))
          else
            do_mmap_map PS uml umh map mmo_put junk fuel vn_mmap map_failed
              { st with ks := ks1 } (some (p, v)) addr len prot flags off
  else
    do_mmap_map PS uml umh map mmo_put junk fuel vn_mmap map_failed st none addr len prot
      flags off

/-- A state with an empty descriptor table and an empty map, in which every allocation
succeeds. -/
def mmapState : mmap_state := ⟨emptyState, [], poolState [some 1, some 2, some 3]⟩

/-! ## proc/fork.c: the address space of the child -/

/-- Embedding of `vmmap_destroy` as far as the memory objects go: `put` on the object of
every area that has one.  The frees of the areas and of the map are left out. -/
def vmmap_destroy_loop (mmo_put : Vm → Nat → Vm) : List vmarea_t → Vm → Vm
  | [], s => s
  | vma :: rest, s =>
    match vma.vma_obj with
    | some o => vmmap_destroy_loop mmo_put rest (mmo_put s o)
    | none => vmmap_destroy_loop mmo_put rest s

/-- The loop of `vmmap_clone` over the areas of `map`: the areas of the new map, or NULL
when `vmarea_alloc` fails (the areas made so far have no object, so that destroying the
new map puts nothing). -/
def vmmap_clone_loop (new_vmmap : Nat) : List vmarea_t → Vm → Option (List vmarea_t) × Vm
  | [], s => (some [], s)
  | vma :: rest, s =>
    match slab_obj_alloc s with
    | (none, s1) => (none, s1)
    | (some _, s1) =>
      match vmmap_clone_loop new_vmmap rest s1 with
      | (none, s2) => (none, s2)
      | (some l, s2) =>
        (some (⟨vma.vma_start, vma.vma_end, vma.vma_off, vma.vma_prot, vma.vma_flags,
          some new_vmmap, none⟩ :: l), s2)

/-- Embedding of `vmmap_clone`: the address of the new map with its areas, or NULL. -/
def vmmap_clone (areas : List vmarea_t) (s : Vm) : Option (Nat × List vmarea_t) × Vm :=
  match slab_obj_alloc s with
  | (none, s1) => (none, s1)
  | (some m, s1) =>
    match vmmap_clone_loop m areas s1 with
    | (none, s2) => (none, s2)
    | (some l, s2) => (some (m, l), s2)

/-- The first loop of `do_fork` ("For new process"), over the areas of the new map with
`link` running over the areas of the old one.  The result says whether the loop ran to its
end (`false`: a `shadow_create` failed), and gives the areas of the new map and the
objects at that point. -/
def fork_child_loop : List vmarea_t → List vmarea_t → Vm → Option (Bool × List vmarea_t × Vm)
  | [], _, s => some (true, [], s)
  | _ :: _, [], _ => none
  | new_vma :: news, old_vma :: olds, s =>
    if band new_vma.vma_flags MAP_PRIVATE = MAP_PRIVATE then
      match shadow_create s with
      | (none, s1) => some (false, new_vma :: news, s1)
      | (some sh, s1) =>
        match old_vma.vma_obj with
        | none => none
        | some o =>
          match mmobj_bottom_obj s1.objs o with
          | none => none
          | some b =>
            match mmobj_ref (set_shadow s1 sh (some o) b) old_vma.vma_obj with
            | none => none
            | some s2 =>
              (fork_child_loop news olds s2).map
                (fun r => (r.1, { new_vma with vma_obj := some sh } :: r.2.1, r.2.2))
    else
      let new_vma1 : vmarea_t :=
        if band new_vma.vma_flags MAP_SHARED = MAP_SHARED then
          { new_vma with vma_obj := old_vma.vma_obj }
        else new_vma
      match mmobj_ref s old_vma.vma_obj with
      | none => none
      | some s1 =>
        (fork_child_loop news olds s1).map (fun r => (r.1, new_vma1 :: r.2.1, r.2.2))

/-- The second loop of `do_fork` ("For old process"), over the areas of the old map. -/
def fork_parent_loop : List vmarea_t → Vm → Option (Bool × List vmarea_t × Vm)
  | [], s => some (true, [], s)
  | old_vma :: olds, s =>
    if band old_vma.vma_flags MAP_PRIVATE = MAP_PRIVATE then
      match shadow_create s with
      | (none, s1) => some (false, old_vma :: olds, s1)
      | (some sh, s1) =>
        match old_vma.vma_obj with
        | none => none
        | some o =>
          match mmobj_bottom_obj s1.objs o with
          | none => none
          | some b =>
            (fork_parent_loop olds (set_shadow s1 sh (some o) b)).map
              (fun r => (r.1, { old_vma with vma_obj := some sh } :: r.2.1, r.2.2))
    else
      (fork_parent_loop olds s).map (fun r => (r.1, old_vma :: r.2.1, r.2.2))

/-- The result of the part of `do_fork` that builds the address space of the child:
`ret` is the value returned when the function returns there (`none`: it goes on to
`proc_create`), then the areas of the parent, those of the new map and the objects. -/
structure fork_result where
  ret : Option Int
  parent : List vmarea_t
  child : List vmarea_t
  vm : Vm

/-- Embedding of `do_fork` from `vmmap_clone` to the end of the two loops over the areas.
The result of `vmmap_clone` is not tested, so a NULL map is a NULL dereference,
`none`.  The lists `vma_olink` of the bottom objects are not modelled. -/
def do_fork_vm (mmo_put : Vm → Nat → Vm) (areas : List vmarea_t) (s : Vm) :
    Option fork_result :=
  match vmmap_clone areas s with
  | (none, _) => none
  | (some (_, news), s1) =>
    match fork_child_loop news areas s1 with
    | none => none
    | some (false, news1, s2) => some ⟨some (-1), areas, [], vmmap_destroy_loop mmo_put news1 s2⟩
    | some (true, news1, s2) =>
      match fork_parent_loop areas s2 with
      | none => none
      | some (false, olds1, s3) =>
        some ⟨some (-1), olds1, [], vmmap_destroy_loop mmo_put news1 s3⟩
      | some (true, olds1, s3) => some ⟨none, olds1, news1, s3⟩

/-- Number of areas of a map whose object is `o`. -/
def refs_on (o : Nat) (areas : List vmarea_t) : Nat :=
  areas.countP (fun v => decide (v.vma_obj = some o))

/-- Number of private areas of a map. -/
def private_count (areas : List vmarea_t) : Nat :=
  areas.countP (fun v => decide (band v.vma_flags MAP_PRIVATE = MAP_PRIVATE))

/-- The numeric fields of two areas agree. -/
def same_range (a b : vmarea_t) : Prop :=
  b.vma_start = a.vma_start ∧ b.vma_end = a.vma_end ∧ b.vma_off = a.vma_off ∧
    b.vma_prot = a.vma_prot ∧ b.vma_flags = a.vma_flags

instance same_range_decidable (a b : vmarea_t) : Decidable (same_range a b) :=
  inferInstanceAs (Decidable (_ ∧ _ ∧ _ ∧ _ ∧ _))

/-- The reference count of the object of an area; 0 when the area has no object or the
object is not allocated. -/
def area_refcount (objs : Nat → Option mmobj_t) (v : vmarea_t) : Int :=
  match v.vma_obj.bind objs with
  | some ob => ob.mmo_refcount
  | none => 0

/-- Every area of the map has an object that is allocated, with a positive reference
count that `n` more references do not overflow. -/
def objs_live (objs : Nat → Option mmobj_t) (n : Nat) (areas : List vmarea_t) : Prop :=
  ∀ v ∈ areas, 0 < area_refcount objs v ∧ area_refcount objs v + n < 2147483648

instance objs_live_decidable (objs : Nat → Option mmobj_t) (n : Nat) (areas : List vmarea_t) :
    Decidable (objs_live objs n areas) :=
  List.decidableBAll _ areas

/-- A heap with one object, at address 5, that two areas refer to; the allocators answer
with the addresses 20, 21, and so on. -/
def sharedState : Vm :=
  ⟨fun a => if a = 5 then some ⟨2, 0, none, none⟩ else none,
    [some 20, some 21, some 22, some 23, some 24, some 25, some 26, some 27]⟩

/-- A map of two shared areas on the same object, as `vmmap_remove` leaves it when it
splits a shared area. -/
def sharedMap : List vmarea_t :=
  [⟨100, 101, 0, 3, 1, some 9, some 5⟩, ⟨102, 103, 2, 3, 1, some 9, some 5⟩]

/-- A map of a private area on object 5 and a shared area on object 6. -/
def mixedMap : List vmarea_t :=
  [⟨100, 102, 0, 3, 2, some 9, some 5⟩, ⟨200, 201, 0, 1, 1, some 9, some 6⟩]

/-- A heap with object 5, which shadows object 4 of bottom 4, and object 6; the allocators
answer with the addresses 20, 21, and so on. -/
def mixedState : Vm :=
  ⟨fun a =>
      if a = 4 then some ⟨1, 0, none, none⟩
      else if a = 5 then some ⟨1, 0, some 4, some 4⟩
      else if a = 6 then some ⟨1, 0, none, none⟩
      else none,
    [some 20, some 21, some 22, some 23, some 24]⟩

/-- The area `vmmap_clone` makes of `vma` in the new map `m`. -/
def clone_area (m : Nat) (vma : vmarea_t) : vmarea_t :=
  ⟨vma.vma_start, vma.vma_end, vma.vma_off, vma.vma_prot, vma.vma_flags, some m, none⟩

/-- What `do_fork` makes of the area `v`, seen in the objects `objs`: `x` has the numeric
fields of `v`; when `v` is private, the object of `x` is a shadow object taken from
`used`, of reference count 1, that shadows the object of `v` and has the bottom object of
it; when `v` is shared and not private, `x` has the object of `v`. -/
def shadow_of (objs : Nat → Option mmobj_t) (used : List Nat) (v x : vmarea_t) : Prop :=
  same_range v x ∧
  (band v.vma_flags MAP_PRIVATE = MAP_PRIVATE →
    ∃ sh o b, v.vma_obj = some o ∧ x.vma_obj = some sh ∧ sh ∈ used ∧
      objs sh = some ⟨1, 0, some o, b⟩ ∧ mmobj_bottom_obj objs o = some b) ∧
  (band v.vma_flags MAP_PRIVATE ≠ MAP_PRIVATE → band v.vma_flags MAP_SHARED = MAP_SHARED →
    x.vma_obj = v.vma_obj)

/-! ## Concrete inputs for failing driver operations -/

/-- Descriptor 3 open for reading and writing at position 30 on the regular file vnode 0,
descriptor 4 open at position 30 on the directory vnode 1. -/
def posState : Kstate :=
  ⟨fun i => if i = 3 then some 7 else if i = 4 then some 8 else none,
   fun p =>
     if p = 7 then some ⟨1, 30, 3, some 0⟩
     else if p = 8 then some ⟨1, 30, 1, some 1⟩
     else none,
   fun v => if v = 1 then ⟨S_IFDIR, 0, true⟩ else ⟨S_IFREG, 100, false⟩, []⟩

/-- Drivers whose `read`, `write` and `readdir` fail with `-EINVAL`. -/
def failEnv : Env :=
  ⟨fun vn _ _ => (0, 0, vn), fun _ _ _ _ => -EINVAL, fun _ v _ _ => (-EINVAL, v),
   fun _ _ _ => -EINVAL, 40⟩

/-! ## vm/vmmap.c: `vmmap_write` -/

/-- The `for` loop of `vmmap_write`, at page `i` with `buf` the current source.
`pframe_lookup obj pagenum forwrite` is the result of
`pframe_lookup(obj, pagenum, forwrite, &pf)`: the return value and `pf->pf_addr`.  `none`
is a NULL dereference (unmapped page) or exhausted fuel.  The dirty flag set by
`pframe_dirty` is not modelled. -/
def vmmap_write_loop (PS : Nat) (areas : List vmarea_t)
    (pframe_lookup : Option Nat → Nat → Int → Int × Nat)
    (count first_vfn last_vfn vaddr_offset last_vaddr : Nat) :
    Nat → Nat → (Nat → Nat) → Nat → Option (Int × (Nat → Nat))
  | 0, _, _, _ => none
  | fuel + 1, i, mem, buf =>
    if ¬ (i ≤ last_vfn) then some (0, mem)
    else
      match vmmap_lookup areas i with
      | none => none
      | some vma =>
        let pagenum := (vma.vma_off + usub32 i vma.vma_start) % 4294967296
        let forwrite : Int := 0
        let r := pframe_lookup vma.vma_obj pagenum forwrite
        if r.1 < 0 then some (r.1, mem)
        else if i = first_vfn then
          let start_addr := (r.2 + vaddr_offset) % 4294967296
          let page_end_addr := (r.2 + PS) % 4294967296
          let num_bytes :=
            if (start_addr + count) % 4294967296 < page_end_addr then count
            else usub32 page_end_addr start_addr
          if first_vfn = last_vfn then some (0, memcpy mem start_addr buf num_bytes)
          else
            vmmap_write_loop PS areas pframe_lookup count first_vfn last_vfn vaddr_offset
              last_vaddr fuel ((i + 1) % 4294967296) (memcpy mem start_addr buf num_bytes)
              ((buf + num_bytes) % 4294967296)
        else if i = last_vfn then
          let num_bytes := usub32 last_vaddr (PN_TO_ADDR PS last_vfn)
          vmmap_write_loop PS areas pframe_lookup count first_vfn last_vfn vaddr_offset
            last_vaddr fuel ((i + 1) % 4294967296) (memcpy mem r.2 buf num_bytes)
            ((buf + num_bytes) % 4294967296)
        else
          vmmap_write_loop PS areas pframe_lookup count first_vfn last_vfn vaddr_offset
            last_vaddr fuel ((i + 1) % 4294967296) (memcpy mem r.2 buf PS)
            ((buf + PS) % 4294967296)

/-- Embedding of `vmmap_write`: the return value and the memory afterwards.  The loop runs
at most once per page from `first_vfn` to `last_vfn`. -/
def vmmap_write (PS : Nat) (areas : List vmarea_t)
    (pframe_lookup : Option Nat → Nat → Int → Int × Nat) (mem : Nat → Nat)
    (vaddr buf count : Nat) : Option (Int × (Nat → Nat)) :=
  let last_vaddr := usub32 ((vaddr + count) % 4294967296) 1
  let first_vfn := ADDR_TO_PN PS vaddr
  let last_vfn := ADDR_TO_PN PS last_vaddr
  vmmap_write_loop PS areas pframe_lookup count first_vfn last_vfn (PAGE_OFFSET PS vaddr)
    last_vaddr (last_vfn - first_vfn + 2) first_vfn mem buf

/-- Modelled from the spec: mm/pframe.c is absent; `pframe_lookup(o, n, forwrite, &pf)`
"requests a page frame" of the object through its `lookuppage` operation, here that of
the shadow objects of `objs`; the address of a frame is its number.  A NULL object or a
failed walk yields -1. -/
def pframe_lookup_shadow (objs : Nat → Option mmobj_t) (P : PageOps) (fuel : Nat) :
    Option Nat → Nat → Int → Int × Nat :=
  fun obj pagenum forwrite =>
    match obj with
    | none => (-1, 0)
    | some o =>
      match shadow_lookuppage objs P fuel o pagenum forwrite with
      | some (ret, some pf) => (ret, pf)
      | _ => (-1, 0)

/-- Page 0 is resident in object 2 only, in the frame at address 0x20000; `pframe_get`
yields for object `a` the frame at `0x10000 * a + 0x1000 * n`, so 0x30000 for page 0 of
object 3; the bottom object's `lookuppage` yields the frame at 0x10000. -/
def cowOps : PageOps :=
  ⟨fun a n => if a = 2 ∧ n = 0 then some 0x20000 else none,
   fun a n => (0, some (0x10000 * a + 0x1000 * n)),
   fun _ _ _ => (0, some 0x10000)⟩

/-- A private area covering page 0x08048 whose object is the shadow object 3 of
`chainHeap`, on top of the chain 3, 2, 1. -/
def cowArea : vmarea_t := ⟨0x08048, 0x08049, 0, 3, 2, some 9, some 3⟩

/-- A memory with the bytes 1, 2, 3, 4 at the addresses 500..503 and 0 elsewhere. -/
def srcMem : Nat → Nat := fun a => if 500 ≤ a ∧ a < 504 then a - 499 else 0

/-! ## Concrete inputs for `do_mmap` and `do_fork` -/

/-- The tests `do_mmap` makes on its arguments before it looks at the file, all passed. -/
def mmap_checks_pass (PS uml umh addr len : Nat) (flags fd off : Int) : Prop :=
  ¬ (band flags MAP_FIXED = MAP_FIXED ∧ (addr < uml ∨ addr ≥ umh)) ∧
  ¬ (¬ PAGE_ALIGNED PS addr ∨ ¬ PAGE_ALIGNED PS (toU32 off)) ∧
  ¬ (len ≤ 0 ∨ len ≥ umh - uml) ∧
  (band flags MAP_PRIVATE = MAP_PRIVATE ∨ band flags MAP_SHARED = MAP_SHARED) ∧
  ¬ ((fd ≥ NFILES ∨ fd < 0) ∧ band flags MAP_ANON ≠ MAP_ANON)

instance mmap_checks_pass_decidable (PS uml umh addr len : Nat) (flags fd off : Int) :
    Decidable (mmap_checks_pass PS uml umh addr len flags fd off) :=
  inferInstanceAs (Decidable (_ ∧ _ ∧ _ ∧ _ ∧ _))

/-- The `lopage` that `do_mmap` passes to `vmmap_map`. -/
def mmap_lopage (PS addr : Nat) : Nat := ADDR_TO_PN PS addr

/-- The `npages` that `do_mmap` passes to `vmmap_map`: `hipage - lopage` with
`hipage = ADDR_TO_PN(addr + len - 1) + 1`, in `uint32_t`. -/
def mmap_npages (PS addr len : Nat) : Nat :=
  usub32 ((ADDR_TO_PN PS (usub32 ((addr + len) % 4294967296) 1) + 1) % 4294967296)
    (ADDR_TO_PN PS addr)

/-- A map of two private areas, on object 5 and on object 6. -/
def privateMap : List vmarea_t :=
  [⟨100, 102, 0, 3, 2, some 9, some 5⟩, ⟨200, 201, 0, 1, 2, some 9, some 6⟩]

/-- The heap of `mixedState` with an allocator that serves the new map, its two areas, the
two shadow objects of the child and one shadow object of the parent, and then fails. -/
def shortPoolState : Vm :=
  ⟨mixedState.objs, [some 20, some 21, some 22, some 23, some 24, some 25, none]⟩

/-! ## proc/proc.c: processes -/

/-- Modelled from the spec: proc/proc.h is absent; "PIDs 0 and 1 are reserved for the idle
and init processes". -/
def PID_IDLE : Int := 0

/-- Modelled from the spec: proc/proc.h is absent; "PIDs 0 and 1 are reserved for the idle
and init processes". -/
def PID_INIT : Int := 1

/-- Modelled from the spec: proc/proc.h is absent; a process has "a state ∈ {RUNNING,
DEAD}". -/
def PROC_RUNNING : Int := 1

/-- Modelled from the spec: proc/proc.h is absent; a process has "a state ∈ {RUNNING,
DEAD}". -/
def PROC_DEAD : Int := 2

/-- Modelled from the spec: proc/kthread.h is absent; the state of a thread that runs or
can run. -/
def KT_RUN : Int := 1

/-- Modelled from the spec: proc/kthread.h is absent; `thread_exit` "sets
curthr.state=EXITED". -/
def KT_EXITED : Int := 4

/-- The fields of `proc_t` that the sources use.  Pointers are addresses (`Nat`), `none`
is NULL; `p_children` lists the processes linked in the child list, in list order;
`p_threads` lists the `kt_state` of the threads of the process.  For `curproc` the
descriptor table is the one of `Kstate`. -/
structure proc_t where
  p_pid : Int
  p_pproc : Option Nat
  p_children : List Nat
  p_threads : List Int
  p_status : Int
  p_state : Int
  p_pagedir : Option Nat
  p_files : Nat → Option Nat
  p_cwd : Option Nat
  p_vmmap : Option Nat
  p_brk : Nat
  p_start_brk : Nat

/-- The process table: the allocated `proc_t` objects (`none` = not allocated), the global
list `_proc_list` in list order, `proc_initproc`, `next_pid`, the reference counts of the
vnodes, and the answers the slab allocators will give, in program order. -/
structure Procs where
  procs : Nat → Option proc_t
  proc_list : List Nat
  proc_initproc : Option Nat
  next_pid : Int
  vn_refcount : Nat → Int
  pool : List (Option Nat)

/-- The scan of `_proc_list` in `_proc_getid`: whether a process of the list has
`p_pid == pid`; `none` is a dangling link. -/
def getid_scan (procs : Nat → Option proc_t) (pid : Int) : List Nat → Option Bool
  | [] => some false
  | a :: rest =>
    match procs a with
    | none => none
    | some p => if p.p_pid = pid then some true else getid_scan procs pid rest

/-- The loop of `_proc_getid` with candidate `pid`; every `goto failed` takes one unit of
fuel.  `max` is PROC_MAX_COUNT (config.h is absent).  The result is the value returned
and the value of `next_pid` afterwards. -/
def _proc_getid_loop (max : Int) (procs : Nat → Option proc_t) (proc_list : List Nat)
    (next_pid : Int) : Nat → Int → Option (Int × Int)
  | 0, _ => none
  | fuel + 1, pid =>
    match getid_scan procs pid proc_list with
    | none => none
    | some true =>
      if Int.tmod (wrap32 (pid + 1)) max = next_pid then some (-1, next_pid)
      else _proc_getid_loop max procs proc_list next_pid fuel (Int.tmod (wrap32 (pid + 1)) max)
    | some false => some (pid, Int.tmod (wrap32 (pid + 1)) max)

/-- Embedding of `_proc_getid`. -/
def _proc_getid (max : Int) (fuel : Nat) (s : Procs) : Option (Int × Procs) :=
  (_proc_getid_loop max s.procs s.proc_list s.next_pid fuel s.next_pid).map
    (fun r => (r.1, { s with next_pid := r.2 }))

/-- Modelled from the spec: mm/slab.c is absent; the next answer of the allocator, NULL
once the pool is exhausted. -/
def proc_alloc (s : Procs) : Option Nat × Procs :=
  match s.pool with
  | [] => (none, s)
  | a :: rest => (a, { s with pool := rest })

/-- Embedding of `proc_create`.  `raw` is the indeterminate content of the allocated
object, `pagedir` the result of `pt_create_pagedir`, `curproc` the global of that name.
The name and the wait queue are not modelled. -/
def proc_create (max : Int) (fuel : Nat) (raw : proc_t) (pagedir : Option Nat)
    (vfs_root_vn : Option Nat) (s : Procs) (curproc : Option Nat) :
    Option (Option Nat × Procs) :=
  match proc_alloc s with
  | (none, _) => none
  | (some newProc, s1) =>
    match _proc_getid max fuel s1 with
    | none => none
    | some (pid, s2) =>
      if ¬ (PID_IDLE ≠ pid ∨ s2.proc_list = []) then none
      else if pid = PID_INIT ∧ (curproc.bind s2.procs).map (fun c => c.p_pid) ≠ some PID_IDLE
      then none
      else
        let linked : Option (Option Nat × (Nat → Option proc_t)) :=
          if pid ≠ PID_IDLE then
            match curproc with
            | none => none
            | some c =>
              match s2.procs c with
              | none => none
              | some cp =>
                some (cp.p_cwd,
                  Function.update s2.procs c
                    (some { cp with p_children := cp.p_children ++ [newProc] }))
          else some (vfs_root_vn, s2.procs)
        match linked with
        | none => none
        | some (cwd, procs1) =>
          let np : proc_t :=
            { raw with
              p_pid := pid
              p_pproc := if pid ≠ PID_IDLE then curproc else none
              p_children := []
              p_threads := []
              p_status := 0
              p_state := PROC_RUNNING
              p_pagedir := pagedir
              p_files := fun _ => none
              p_cwd := cwd }
          let s3 : Procs :=
            { s2 with
              procs := Function.update procs1 newProc (some np)
              proc_list := s2.proc_list ++ [newProc]
              proc_initproc := if pid = PID_INIT then some newProc else s2.proc_initproc
              vn_refcount :=
                match cwd with
                | some v =>
                  if pid ≠ PID_IDLE ∧ pid ≠ PID_INIT then
                    Function.update s2.vn_refcount v (s2.vn_refcount v + 1)
                  else s2.vn_refcount
                | none => s2.vn_refcount }
          match proc_alloc s3 with
          | (none, s4) =>
            some (none, { s4 with procs := Function.update s4.procs newProc none })
          | (some m, s4) =>
            some (some newProc,
              { s4 with
                procs := Function.update s4.procs newProc (some { np with p_vmmap := some m }) })

/-- How `do_waitpid` ends: it returns `ret` with the value stored in `*status` (`none`
when nothing is stored), or it sleeps on `curproc->p_wait` because no matching child is
dead. -/
inductive waitpid_out where
  | returned (ret : Int) (status : Option Int) (s : Procs)
  | blocked

/-- The body of `do_waitpid` for a dead child: the status is stored when `status` is not
NULL, every thread is asserted to be exited and destroyed, the child is unlinked from the
child list of `curproc` and from `_proc_list`, its page directory is asserted and
destroyed, and the object is freed. -/
def waitpid_reap (s : Procs) (cur : Nat) (cp : proc_t) (child : Nat) (c : proc_t)
    (status : Bool) (ret : Int) : Option waitpid_out :=
  if ¬ (∀ t ∈ c.p_threads, KT_EXITED = t) then none
  else if c.p_pagedir = none then none
  else
    some (waitpid_out.returned ret (if status then some c.p_status else none)
      { s with
        procs :=
          Function.update
            (Function.update s.procs cur
              (some { cp with p_children := cp.p_children.erase child }))
            child none
        proc_list := s.proc_list.erase child })

/-- The scan of the children for `pid == -1`: the first dead child is reaped. -/
def waitpid_any (s : Procs) (cur : Nat) (cp : proc_t) (status : Bool) :
    List Nat → Option waitpid_out
  | [] => some waitpid_out.blocked
  | child :: rest =>
    match s.procs child with
    | none => none
    | some c =>
      if c.p_state = PROC_DEAD then waitpid_reap s cur cp child c status c.p_pid
      else waitpid_any s cur cp status rest

/-- The first scan of the children for `pid > 0`: whether some child has that pid. -/
def has_child_pid (s : Procs) (pid : Int) : List Nat → Option Bool
  | [] => some false
  | child :: rest =>
    match s.procs child with
    | none => none
    | some c => (has_child_pid s pid rest).map (fun b => decide (c.p_pid = pid) || b)

/-- The second scan of the children for `pid > 0`: the first dead child with that pid is
reaped. -/
def waitpid_pid (s : Procs) (cur : Nat) (cp : proc_t) (status : Bool) (pid : Int) :
    List Nat → Option waitpid_out
  | [] => some waitpid_out.blocked
  | child :: rest =>
    match s.procs child with
    | none => none
    | some c =>
      if c.p_pid = pid ∧ c.p_state = PROC_DEAD then waitpid_reap s cur cp child c status pid
      else waitpid_pid s cur cp status pid rest

/-- Embedding of `do_waitpid` in the process at `cur`; `status` says that the pointer
`status` is not NULL.  What happens after the sleep is not modelled. -/
def do_waitpid (s : Procs) (cur : Nat) (pid options : Int) (status : Bool) :
    Option waitpid_out :=
  if ¬ (pid = -1 ∨ pid > 0) then none
  else if ¬ (options = 0) then none
  else
    match s.procs cur with
    | none => none
    | some cp =>
      if cp.p_children = [] then some (waitpid_out.returned (-ECHILD) none s)
      else if pid = -1 then waitpid_any s cur cp status cp.p_children
      else
        match has_child_pid s pid cp.p_children with
        | none => none
        | some false => some (waitpid_out.returned (-ECHILD) none s)
        | some true => waitpid_pid s cur cp status pid cp.p_children

/-- The loop of `proc_cleanup` over the descriptors. -/
def close_all : List Nat → Kstate → Option Kstate
  | [], ks => some ks
  | fd :: rest, ks =>
    if ks.p_files fd ≠ none then
      match do_close ks (fd : Int) with
      | none => none
      | some (_, ks1) => close_all rest ks1
    else close_all rest ks

/-- The loop of `proc_cleanup` over the children of `curproc` (the iteration keeps the
next link before it runs the body): the child gets `proc_initproc` as parent, is removed
from the child list of `curproc` and inserted at the tail of that of `proc_initproc`. -/
def reparent (init cur : Nat) : List Nat → (Nat → Option proc_t) → Option (Nat → Option proc_t)
  | [], procs => some procs
  | child :: rest, procs =>
    match procs child with
    | none => none
    | some c =>
      let procs1 := Function.update procs child (some { c with p_pproc := some init })
      match procs1 cur with
      | none => none
      | some cp =>
        let procs2 :=
          Function.update procs1 cur (some { cp with p_children := cp.p_children.erase child })
        match procs2 init with
        | none => none
        | some ip =>
          reparent init cur rest
            (Function.update procs2 init
              (some { ip with p_children := ip.p_children ++ [child] }))

/-- What `proc_cleanup` works on: the descriptors of `curproc`, the process table and the
memory objects. -/
structure exit_state where
  ks : Kstate
  ps : Procs
  vm : Vm

/-- Embedding of `proc_cleanup` in the process at `cur`, whose map has the areas `areas`.
The wake-up of the parent only reads the parent here. -/
def proc_cleanup (mmo_put : Vm → Nat → Vm) (areas : List vmarea_t) (status : Int) (cur : Nat)
    (st : exit_state) : Option exit_state :=
  match st.ps.proc_initproc with
  | none => none
  | some init =>
    match st.ps.procs cur with
    | none => none
    | some cp =>
      if ¬ (1 ≤ cp.p_pid) then none
      else
        match cp.p_pproc with
        | none => none
        | some par =>
          match close_all (List.range NFILES) st.ks with
          | none => none
          | some ks1 =>
            let vn1 : Nat → Int :=
              match cp.p_cwd with
              | some v => Function.update st.ps.vn_refcount v (st.ps.vn_refcount v - 1)
              | none => st.ps.vn_refcount
            let vm1 : Vm :=
              if cp.p_vmmap ≠ none then vmmap_destroy_loop mmo_put areas st.vm else st.vm
            match st.ps.procs par with
            | none => none
            | some _ =>
              let procs1 := Function.update st.ps.procs cur (some { cp with p_cwd := none })
              match (if cur ≠ init then reparent init cur cp.p_children procs1
                  else some procs1) with
              | none => none
              | some procs2 =>
                match procs2 cur with
                | none => none
                | some cp2 =>
                  some ⟨ks1,
                    { st.ps with
                      procs := Function.update procs2 cur
                        (some { cp2 with p_status := status, p_state := PROC_DEAD })
                      vn_refcount := vn1 },
                    vm1⟩

/-- Modelled from the spec: fs/file.c is absent; `fref` takes one more reference on a file
entry ("incrementing each file entry's refcount"). -/
def fref (files : Nat → Option file_t) (p : Nat) : Option (Nat → Option file_t) :=
  match files p with
  | none => none
  | some f => some (Function.update files p (some { f with f_refcount := f.f_refcount + 1 }))

/-- The loop of `do_fork` over the descriptors: `cf` is the table of the child. -/
def fork_files_loop (parent_files : Nat → Option Nat) :
    List Nat → (Nat → Option Nat) → (Nat → Option file_t) →
      Option ((Nat → Option Nat) × (Nat → Option file_t))
  | [], cf, files => some (cf, files)
  | i :: rest, cf, files =>
    match parent_files i with
    | none => fork_files_loop parent_files rest cf files
    | some p =>
      match fref files p with
      | none => none
      | some files1 =>
        fork_files_loop parent_files rest (Function.update cf i (some p)) files1

/-- What `do_fork` leaves when it gets to its end: the value returned, the address of the
new process, the process table and the descriptor layer of the parent. -/
structure fork_out where
  ret : Int
  child : Nat
  ps : Procs
  ks : Kstate

/-- Embedding of `do_fork` from the call of `proc_create` on, in the process at `cur`:
`new_map` is the map made by `vmmap_clone`, `kstack` the result of `alloc_stack` in
`kthread_clone`, `curthr_state` the state of `curthr`.  The thread context, the page table
and the run queue are not modelled. -/
def do_fork_tail (max : Int) (fuel : Nat) (raw : proc_t) (pagedir vfs_root_vn : Option Nat)
    (kstack : Option Nat) (curthr_state : Int) (new_map : Option Nat) (ps : Procs)
    (ks : Kstate) (cur : Nat) : Option fork_out :=
  match proc_create max fuel raw pagedir vfs_root_vn ps (some cur) with
  | none => none
  | some (none, _) => none
  | some (some new_proc, ps1) =>
    match ps1.procs new_proc with
    | none => none
    | some np =>
      if np.p_state ≠ PROC_RUNNING then none
      else if np.p_pagedir = none then none
      else if np.p_vmmap = none then none
      else if KT_RUN ≠ curthr_state then none
      else
        match proc_alloc ps1 with
        | (none, _) => none
        | (some _, ps2) =>
          if kstack = none then none
          else
            match fork_files_loop ks.p_files (List.range NFILES) np.p_files ks.files with
            | none => none
            | some (cf, files1) =>
              match ps2.procs cur with
              | none => none
              | some cp =>
                some ⟨np.p_pid, new_proc,
                  { ps2 with
                    procs := Function.update ps2.procs new_proc
                      (some { np with
                        p_vmmap := new_map
                        p_threads := np.p_threads ++ [curthr_state]
                        p_files := cf
                        p_status := cp.p_status
                        p_brk := cp.p_brk
                        p_start_brk := cp.p_start_brk }) },
                  { ks with files := files1 }⟩

/-- Embedding of `do_fork` in the process at `cur` (the argument `regs` is taken to be
not NULL): the assertion on the state of `curproc`, the part on the address space
(`do_fork_vm`), which returns -1 when a shadow object cannot be allocated, and then
`do_fork_tail`.  The result is the value returned, what the first part leaves, and what
the second part leaves when it is reached. -/
def do_fork (mmo_put : Vm → Nat → Vm) (max : Int) (fuel : Nat) (raw : proc_t)
    (pagedir vfs_root_vn : Option Nat) (kstack : Option Nat) (curthr_state : Int)
    (areas : List vmarea_t) (vm : Vm) (ps : Procs) (ks : Kstate) (cur : Nat) :
    Option (Int × fork_result × Option fork_out) :=
  match ps.procs cur with
  | none => none
  | some cp =>
    if ¬ (cp.p_state = PROC_RUNNING) then none
    else
      match do_fork_vm mmo_put areas vm with
      | none => none
      | some r =>
        match r.ret with
        | some e => some (e, r, none)
        | none =>
          (do_fork_tail max fuel raw pagedir vfs_root_vn kstack curthr_state
            ((vmmap_clone areas vm).1.map (fun x => x.1)) ps ks cur).map
            (fun o => (o.ret, r, some o))

/-- Number of the slots listed in `idx` that hold the entry `p`. -/
def slots_on (p_files : Nat → Option Nat) (idx : List Nat) (p : Nat) : Nat :=
  idx.countP (fun i => decide (p_files i = some p))

/-- Slot `i` is empty or holds an entry that has at least as many references as slots of
the table hold it. -/
def counted_slot (s : Kstate) (i : Nat) : Bool :=
  match s.p_files i with
  | none => true
  | some p => decide (slots_on s.p_files (List.range NFILES) p ≤ refcount s p)

/-- Every entry in the table has at least one reference per slot that holds it. -/
def counted_table (s : Kstate) : Prop := ∀ i, i < NFILES → counted_slot s i = true

instance counted_table_decidable (s : Kstate) : Decidable (counted_table s) :=
  inferInstanceAs (Decidable (∀ i, i < NFILES → counted_slot s i = true))

/-! ## Concrete process tables -/

/-- The content of a freshly allocated `proc_t`, taken to be zero. -/
def rawProc : proc_t := ⟨0, none, [], [], 0, 0, none, fun _ => none, none, none, 0, 0⟩

/-- A running process with the given pid, parent, children, working directory and break,
one running thread and a page directory. -/
def runningProc (pid : Int) (par : Option Nat) (children : List Nat) (cwd : Option Nat)
    (brk : Nat) : proc_t :=
  ⟨pid, par, children, [KT_RUN], 0, PROC_RUNNING, some 1, fun _ => none, cwd, some 2, brk, brk⟩

/-- A dead process with the given pid, parent and exit status, its thread exited. -/
def deadProc (pid : Int) (par : Option Nat) (status : Int) : proc_t :=
  ⟨pid, par, [], [KT_EXITED], status, PROC_DEAD, some 1, fun _ => none, none, some 2, 0, 0⟩

/-- The table after boot: the idle process (pid 0) at address 100 and the init process
(pid 1) at address 101, its child; `next_pid` is 2 and every vnode has one reference. -/
def bootProcs (pool : List (Option Nat)) : Procs :=
  ⟨fun a =>
      if a = 100 then some (runningProc 0 none [101] (some 0) 0)
      else if a = 101 then some (runningProc 1 (some 100) [] (some 0) 0x08050500)
      else none,
    [100, 101], some 101, 2, fun _ => 1, pool⟩

/-- A table in which pid 2 has been reaped: idle (pid 0), init (pid 1) and a child of init
with pid 3 at address 103, `next_pid` being 4. -/
def gapProcs (pool : List (Option Nat)) : Procs :=
  ⟨fun a =>
      if a = 100 then some (runningProc 0 none [101] (some 0) 0)
      else if a = 101 then some (runningProc 1 (some 100) [103] (some 0) 0)
      else if a = 103 then some (runningProc 3 (some 101) [] (some 0) 0)
      else none,
    [100, 101, 103], some 101, 4, fun _ => 1, pool⟩

/-- Init (at 101) with three children in list order: pid 2 running (at 102), pid 3 dead
with status 7 (at 103), pid 4 dead with status 9 (at 104). -/
def zombieProcs : Procs :=
  ⟨fun a =>
      if a = 100 then some (runningProc 0 none [101] (some 0) 0)
      else if a = 101 then some (runningProc 1 (some 100) [102, 103, 104] (some 0) 0)
      else if a = 102 then some (runningProc 2 (some 101) [] (some 0) 0)
      else if a = 103 then some (deadProc 3 (some 101) 7)
      else if a = 104 then some (deadProc 4 (some 101) 9)
      else none,
    [100, 101, 102, 103, 104], some 101, 5, fun _ => 1, []⟩

/-- Init (at 101) with the single child pid 2 (at 102), which has exited with status 7:
the state after `fork` and `exit(7)` in the child. -/
def oneZombieProcs : Procs :=
  ⟨fun a =>
      if a = 100 then some (runningProc 0 none [101] (some 0) 0)
      else if a = 101 then some (runningProc 1 (some 100) [102] (some 0) 0)
      else if a = 102 then some (deadProc 2 (some 101) 7)
      else none,
    [100, 101, 102], some 101, 3, fun _ => 1, []⟩

/-- The return value and the stored status of a `do_waitpid` that returns. -/
def waitpid_ret (o : Option waitpid_out) : Option (Int × Option Int) :=
  match o with
  | some (waitpid_out.returned ret status _) => some (ret, status)
  | _ => none

/-- The process table after a `do_waitpid` that returns. -/
def waitpid_state (o : Option waitpid_out) : Option Procs :=
  match o with
  | some (waitpid_out.returned _ _ s) => some s
  | _ => none

/-- Init (at 101, child of idle) with child pid 2 at 102, which has the children pid 3
(at 103) and pid 4 (at 104); init has the further child pid 5 (at 105). -/
def treeProcs : Procs :=
  ⟨fun a =>
      if a = 100 then some (runningProc 0 none [101] (some 0) 0)
      else if a = 101 then some (runningProc 1 (some 100) [105, 102] (some 0) 0)
      else if a = 102 then some (runningProc 2 (some 101) [103, 104] (some 6) 0)
      else if a = 103 then some (runningProc 3 (some 102) [] (some 0) 0)
      else if a = 104 then some (runningProc 4 (some 102) [] (some 0) 0)
      else if a = 105 then some (runningProc 5 (some 101) [] (some 0) 0)
      else none,
    [100, 101, 102, 103, 104, 105], some 101, 6, fun _ => 1, []⟩

/-- Descriptors 3 and 5 on entry 7 (two references), descriptor 4 on entry 8 (one
reference). -/
def dupState : Kstate :=
  ⟨fun i => if i = 3 then some 7 else if i = 4 then some 8 else if i = 5 then some 7 else none,
   fun p =>
     if p = 7 then some ⟨2, 0, 1, some 0⟩ else if p = 8 then some ⟨1, 0, 3, some 1⟩ else none,
   fun _ => ⟨S_IFREG, 0, false⟩, []⟩

/-- The pids of the processes of a list, in list order. -/
def pids_of (procs : Nat → Option proc_t) (l : List Nat) : List Int :=
  l.filterMap (fun a => (procs a).map (fun p => p.p_pid))

/-- Every link of the list points at an allocated process. -/
def procs_live (procs : Nat → Option proc_t) (l : List Nat) : Prop :=
  ∀ a ∈ l, (procs a).isSome = true

instance procs_live_decidable (procs : Nat → Option proc_t) (l : List Nat) :
    Decidable (procs_live procs l) :=
  inferInstanceAs (Decidable (∀ a ∈ l, (procs a).isSome = true))

/-- The process table after the child at `child` of the process at `cur` (whose object is
`cp`) has been reaped: the child is taken out of the child list of `cur` and out of
`_proc_list`, the other links keeping their order, and its object is freed. -/
def reap_state (s : Procs) (cur : Nat) (cp : proc_t) (child : Nat) : Procs :=
  { s with
    procs :=
      Function.update
        (Function.update s.procs cur (some { cp with p_children := cp.p_children.erase child }))
        child none
    proc_list := s.proc_list.erase child }

/-- The child at `a` is allocated and dead. -/
def is_dead (s : Procs) (a : Nat) : Bool :=
  decide ((s.procs a).map (fun c => c.p_state) = some PROC_DEAD)

/-- The child at `a` is allocated, has the pid `pid` and is dead. -/
def is_dead_pid (s : Procs) (pid : Int) (a : Nat) : Bool :=
  decide ((s.procs a).map (fun c => (c.p_pid, c.p_state)) = some (pid, PROC_DEAD))

/-- The table `oneZombieProcs` after init has reaped its child. -/
def reapedProcs : Procs :=
  reap_state oneZombieProcs 101 (runningProc 1 (some 100) [102] (some 0) 0) 102

/-- What a failing `do_fork` leaves of the area `a` of the parent: `p` has the numeric
fields and the map of `a`, and is `a` itself unless `a` is private. -/
def kept_area (a p : vmarea_t) : Prop :=
  same_range a p ∧ p.vma_vmmap = a.vma_vmmap ∧
  (band a.vma_flags MAP_PRIVATE ≠ MAP_PRIVATE → p = a)

/-- The heap of `mixedState` with an allocator that serves the new map, its two areas and
one shadow object of the child, and is then exhausted. -/
def childShortState : Vm :=
  ⟨mixedState.objs, [some 20, some 21, some 22, some 23]⟩

/-- The heap of `mixedState` with an allocator that serves the new map, its two areas, the
two shadow objects of the child and one shadow object of the parent, and is then
exhausted. -/
def parentShortState : Vm :=
  ⟨mixedState.objs, [some 20, some 21, some 22, some 23, some 24, some 25]⟩

/-! ## Bit-level facts -/

theorem toU32_lt (x : Int) : toU32 x < 4294967296 := by
  unfold toU32
  have h := Int.emod_lt_of_pos x (show (0 : Int) < 4294967296 by norm_num)
  have h0 := Int.emod_nonneg x (show (4294967296 : Int) ≠ 0 by norm_num)
  omega

theorem ofU32_eq_zero {n : Nat} (h : n < 4294967296) : ofU32 n = 0 ↔ n = 0 := by
  unfold ofU32
  split <;> omega

theorem ofU32_small {n : Nat} (h : n < 2147483648) : ofU32 n = (n : Int) := by
  unfold ofU32
  simp [h]

theorem toU32_ofNat {n : Nat} (h : n < 4294967296) : toU32 (n : Int) = n := by
  unfold toU32
  omega

theorem band_small (x : Int) {m : Nat} (h : m < 2147483648) :
    band x (m : Int) = ((toU32 x &&& m : Nat) : Int) := by
  unfold band
  rw [toU32_ofNat (by omega)]
  apply ofU32_small
  exact lt_of_le_of_lt Nat.and_le_right h

theorem band_one (x : Int) : band x 1 = ((toU32 x % 2 : Nat) : Int) := by
  have h := band_small x (show 1 < 2147483648 by norm_num)
  simpa using h

theorem land_two_pow (n k : Nat) : n &&& 2 ^ k = 2 ^ k * (n / 2 ^ k % 2) := by
  apply Nat.eq_of_testBit_eq
  intro i
  rw [Nat.testBit_and, Nat.testBit_two_pow]
  by_cases h : k = i
  · subst h
    rcases Nat.mod_two_eq_zero_or_one (n / 2 ^ k) with h0 | h1
    · have : n.testBit k = false := by simp [Nat.testBit_to_div_mod, h0]
      simp [this, h0]
    · have : n.testBit k = true := by simp [Nat.testBit_to_div_mod, h1]
      simp [this, h1, Nat.testBit_two_pow_self]
  · rcases Nat.mod_two_eq_zero_or_one (n / 2 ^ k) with h0 | h1
    · simp [h, h0]
    · simp [h, h1, Nat.testBit_two_pow_of_ne h]

theorem band_two (x : Int) : band x 2 = ((2 * (toU32 x / 2 % 2) : Nat) : Int) := by
  have h := band_small x (show 2 < 2147483648 by norm_num)
  have h2 := land_two_pow (toU32 x) 1
  simp only [pow_one] at h2
  rw [← h2]
  exact_mod_cast h

theorem band_0x400 (x : Int) : band x 0x400 = ((1024 * (toU32 x / 1024 % 2) : Nat) : Int) := by
  have h := band_small x (show 1024 < 2147483648 by norm_num)
  have h2 := land_two_pow (toU32 x) 10
  norm_num at h2
  rw [← h2]
  exact_mod_cast h

theorem band_three (x : Int) : band x 3 = ((toU32 x % 4 : Nat) : Int) := by
  have h := band_small x (show 3 < 2147483648 by norm_num)
  have h2 := Nat.and_pow_two_sub_one_eq_mod (toU32 x) 2
  norm_num at h2
  rw [← h2]
  exact_mod_cast h

theorem toU32_bnot_0x703 : toU32 (bnot 0x703) = 4294965500 := by decide

/-- The first validation test of `do_open` fires as soon as one bit outside
`0x703` is set. -/
theorem invalid_bit_detected (x : Int) (i : Nat) (hi : i ∉ [0, 1, 8, 9, 10])
    (hb : (toU32 x).testBit i = true) : band x (bnot 0x703) ≠ 0 := by
  unfold band
  rw [toU32_bnot_0x703]
  have hlt : toU32 x &&& 4294965500 < 4294967296 :=
    lt_of_le_of_lt Nat.and_le_right (by norm_num)
  rw [Ne, ofU32_eq_zero hlt]
  intro h0
  have hi32 : i < 32 := by
    by_contra hge
    have hx : toU32 x < 2 ^ i :=
      lt_of_lt_of_le (toU32_lt x)
        (by
          have : 2 ^ 32 ≤ 2 ^ i := Nat.pow_le_pow_right (by norm_num) (by omega)
          simpa using this)
    rw [Nat.testBit_lt_two_pow hx] at hb
    exact Bool.noConfusion hb
  have hbit : (toU32 x &&& 4294965500).testBit i = true := by
    rw [Nat.testBit_and, hb]
    simp only [List.mem_cons, List.mem_singleton, List.not_mem_nil, or_false, not_or] at hi
    obtain ⟨h0, h1, h8, h9, h10⟩ := hi
    interval_cases i <;> first | contradiction | decide
  rw [h0] at hbit
  simp at hbit

/-! ## Flag validation of `do_open` -/

/-- C1 (as stated) fails: `oflags = 0x200` has bit 9 set, a bit other than bits 0-1, 8 and
10, yet `do_open` on an empty table does not return `-EINVAL`: it returns descriptor 0
and fills slot 0. -/
theorem do_open_bit9_accepted :
    (toU32 0x200).testBit 9 = true ∧ 9 ∉ [0, 1, 8, 10] ∧
    retval (do_open okEnv (some 7) emptyState "/file1" 0x200) = some 0 ∧
    (do_open okEnv (some 7) emptyState "/file1" 0x200).map (fun r => r.2.p_files 0)
      = some (some 7) := by
  refine ⟨by decide, by decide, by decide, by decide⟩

/-- C1 (amended): for every `oflags` with a bit set other than bits 0-1 (access mode),
bit 8 (CREAT), bit 9 and bit 10 (APPEND), `do_open` returns `-EINVAL` and the whole
state, descriptor table included, is left as it was. -/
theorem do_open_invalid_bits (env : Env) (alloc : Option Nat) (s : Kstate)
    (filename : String) (oflags : Int) (i : Nat) (hi : i ∉ [0, 1, 8, 9, 10])
    (hb : (toU32 oflags).testBit i = true) :
    do_open env alloc s filename oflags = some (-EINVAL, s) := by
  have h := invalid_bit_detected oflags i hi hb
  unfold do_open
  rw [if_pos h]

/-- Witness for `do_open_invalid_bits`: bit 2 (`oflags = 4`). -/
theorem do_open_invalid_bits_witness :
    do_open okEnv (some 7) emptyState "/file1" 4 = some (-EINVAL, emptyState) :=
  do_open_invalid_bits okEnv (some 7) emptyState "/file1" 4 2 (by decide) (by decide)

/-- C2: for every `oflags` whose two low bits are both set (access mode 3), whatever the
filename, `do_open` returns the negative error `-EINVAL` and leaves the state unchanged:
no descriptor is allocated. -/
theorem do_open_access_mode_3 (env : Env) (alloc : Option Nat) (s : Kstate)
    (filename : String) (oflags : Int) (h : band oflags 3 = 3) :
    do_open env alloc s filename oflags = some (-EINVAL, s) ∧ -EINVAL < 0 := by
  refine ⟨?_, by decide⟩
  have h1 : band oflags 0x1 = 0x1 := by
    rw [band_three] at h
    rw [band_one]
    omega
  have h2 : band oflags 0x2 = 0x2 := by
    rw [band_three] at h
    rw [band_two]
    omega
  unfold do_open
  by_cases hv : band oflags (bnot 0x703) ≠ 0
  · rw [if_pos hv]
  · rw [if_neg hv, if_pos ⟨h1, h2⟩]

/-- Witness for `do_open_access_mode_3`: the call `do_open("/file1", 0x3)` of `test_open`. -/
theorem do_open_access_mode_3_witness :
    do_open okEnv (some 7) emptyState "/file1" 0x3 = some (-EINVAL, emptyState) ∧
      -EINVAL < 0 :=
  do_open_access_mode_3 okEnv (some 7) emptyState "/file1" 0x3 (by decide)

/-! ## `get_empty_fd` -/

theorem get_empty_fd_loop_spec (pf : Nat → Option Nat) :
    ∀ n fd : Nat,
      (get_empty_fd_loop pf n fd = -EMFILE ∧ ∀ j, fd ≤ j → j < fd + n → pf j ≠ none) ∨
      (∃ k, fd ≤ k ∧ k < fd + n ∧ get_empty_fd_loop pf n fd = (k : Int) ∧ pf k = none ∧
        ∀ j, fd ≤ j → j < k → pf j ≠ none) := by
  intro n
  induction n with
  | zero =>
    intro fd
    left
    refine ⟨rfl, ?_⟩
    intro j h1 h2
    omega
  | succ n ih =>
    intro fd
    by_cases h : pf fd = none
    · right
      refine ⟨fd, le_refl _, by omega, ?_, h, ?_⟩
      · simp [get_empty_fd_loop, h]
      · intro j h1 h2
        omega
    · rcases ih (fd + 1) with ⟨he, hall⟩ | ⟨k, hk1, hk2, hk3, hk4, hk5⟩
      · left
        refine ⟨?_, ?_⟩
        · simp [get_empty_fd_loop, h, he]
        · intro j h1 h2
          by_cases hj : j = fd
          · rw [hj]
            exact h
          · exact hall j (by omega) (by omega)
      · right
        refine ⟨k, by omega, by omega, ?_, hk4, ?_⟩
        · simp [get_empty_fd_loop, h, hk3]
        · intro j h1 h2
          by_cases hj : j = fd
          · rw [hj]
            exact h
          · exact hk5 j (by omega) h2

/-- The result of `get_empty_fd`: `-EMFILE` when slots `0 .. NFILES-1` are all in use, else the
lowest-numbered empty slot. -/
theorem get_empty_fd_spec (s : Kstate) :
    (get_empty_fd s = -EMFILE ∧ ∀ j, j < NFILES → s.p_files j ≠ none) ∨
    (∃ k, k < NFILES ∧ get_empty_fd s = (k : Int) ∧ s.p_files k = none ∧
      ∀ j, j < k → s.p_files j ≠ none) := by
  rcases get_empty_fd_loop_spec s.p_files NFILES 0 with ⟨he, hall⟩ | ⟨k, _, hk2, hk3, hk4, hk5⟩
  · left
    exact ⟨he, fun j hj => hall j (Nat.zero_le _) (by omega)⟩
  · right
    exact ⟨k, by omega, hk3, hk4, fun j hj => hk5 j (Nat.zero_le _) hj⟩

theorem get_empty_fd_congr (s t : Kstate) (h : t.p_files = s.p_files) :
    get_empty_fd t = get_empty_fd s := by
  unfold get_empty_fd
  rw [h]

/-! ## The mode derived by `do_open` -/

theorem open_fmode_eq_spec (oflags : Int)
    (hm : ¬ (band oflags 0x1 = 0x1 ∧ band oflags 0x2 = 0x2)) :
    open_fmode oflags = spec_fmode oflags := by
  rw [band_one, band_two] at hm
  unfold open_fmode spec_fmode
  rw [band_one, band_two, band_0x400, Nat.testBit_to_div_mod]
  have e10 : toU32 oflags / 2 ^ 10 = toU32 oflags / 1024 := by norm_num
  rw [e10]
  rcases Nat.mod_two_eq_zero_or_one (toU32 oflags) with a0 | a0 <;>
  rcases Nat.mod_two_eq_zero_or_one (toU32 oflags / 2) with a1 | a1 <;>
  rcases Nat.mod_two_eq_zero_or_one (toU32 oflags / 1024) with a10 | a10 <;>
  (have e4 : toU32 oflags % 4 = toU32 oflags % 2 + 2 * (toU32 oflags / 2 % 2) := by omega
   rw [e4]
   rw [a0, a1] at hm
   simp only [a0, a1, a10]
   first
     | decide
     | (exfalso; exact hm (by decide)))

/-! ## State bookkeeping -/

theorem set_fd_clear (s1 s2 : Kstate) (k : Nat) (p : Nat) (pf : Nat → Option Nat)
    (h1 : s1.p_files = Function.update pf k (some p)) (h2 : s2.p_files = s1.p_files)
    (hk : pf k = none) : (set_fd s2 k none).p_files = pf := by
  unfold set_fd
  simp only
  rw [h2, h1, Function.update_idem, ← hk, Function.update_eq_self]

theorem fput_p_files (s s1 : Kstate) (p : Nat) (h : fput s p = some s1) :
    s1.p_files = s.p_files := by
  unfold fput at h
  split at h
  · exact Option.noConfusion h
  · split_ifs at h <;> (injection h with h; rw [← h])

theorem modify_file_p_files (s s1 : Kstate) (p : Nat) (g : file_t → file_t)
    (h : modify_file s p g = some s1) : s1.p_files = s.p_files := by
  unfold modify_file at h
  split at h
  · exact Option.noConfusion h
  · injection h with h
    rw [← h]

/-- Symbolic run of `do_open` once the flags are accepted, slot `k` is the lowest empty
slot and the allocator hands out `p`. -/
theorem do_open_run (env : Env) (s : Kstate) (filename : String) (oflags : Int) (k p : Nat)
    (hv1 : band oflags (bnot 0x703) = 0)
    (hv2 : ¬ (band oflags 0x1 = 0x1 ∧ band oflags 0x2 = 0x2))
    (hke : get_empty_fd s = (k : Int)) :
    do_open env (some p) s filename oflags =
      if (env.open_namev s.vnodes filename oflags).1 = 0 then
        if S_ISDIR ((env.open_namev s.vnodes filename oflags).2.2
              (env.open_namev s.vnodes filename oflags).2.1).vn_mode = true ∧
            ¬ band (open_fmode oflags) FMODE_WRITE = 0 then
          some (-EISDIR,
            { p_files := Function.update s.p_files k none
              files := Function.update s.files p none
              vnodes := (env.open_namev s.vnodes filename oflags).2.2
              trace := s.trace ++ [Event.fget p, Event.fput p,
                Event.vput (env.open_namev s.vnodes filename oflags).2.1] })
        else
          some ((k : Int),
            { p_files := Function.update s.p_files k (some p)
              files := Function.update s.files p
                (some ⟨1, 0, open_fmode oflags,
                  some (env.open_namev s.vnodes filename oflags).2.1⟩)
              vnodes := (env.open_namev s.vnodes filename oflags).2.2
              trace := s.trace ++ [Event.fget p] })
      else
        some ((env.open_namev s.vnodes filename oflags).1,
          { p_files := Function.update s.p_files k none
            files := Function.update s.files p none
            vnodes := (env.open_namev s.vnodes filename oflags).2.2
            trace := s.trace ++ [Event.fget p, Event.fput p] }) := by
  have hne : ¬ ((k : Int) = -EMFILE) := by
    unfold EMFILE
    omega
  unfold do_open
  simp only [hke, hv1, ne_eq, not_true_eq_false, if_false, hv2, hne, fget_new,
    Int.toNat_ofNat]
  simp [modify_file, set_fd, fput]

/-- C4: whenever `do_open` returns a negative value, the descriptor table
`curproc->p_files` after the call is the table before the call, slot by slot. -/
theorem do_open_error_keeps_table (env : Env) (alloc : Option Nat) (s : Kstate)
    (filename : String) (oflags : Int) (r : Int)
    (hr : retval (do_open env alloc s filename oflags) = some r) (hneg : r < 0) :
    ∃ s1, do_open env alloc s filename oflags = some (r, s1) ∧
      ∀ i, s1.p_files i = s.p_files i := by
  unfold retval at hr
  by_cases hv1 : band oflags (bnot 0x703) = 0
  swap
  · unfold do_open at hr ⊢
    simp_all
  by_cases hv2 : band oflags 0x1 = 0x1 ∧ band oflags 0x2 = 0x2
  · unfold do_open at hr ⊢
    simp_all
  have hv1n : ¬ (band oflags (bnot 0x703) ≠ 0) := fun h => h hv1
  rcases get_empty_fd_spec s with ⟨he, _⟩ | ⟨k, hk, hke, hkn, _⟩
  · unfold do_open at hr ⊢
    rw [if_neg hv1n, if_neg hv2] at hr ⊢
    simp only [he, if_true, Option.map_some', Option.some.injEq] at hr ⊢
    exact ⟨s, by rw [hr], fun i => rfl⟩
  cases alloc with
  | none =>
    have hne : ¬ ((k : Int) = -EMFILE) := by
      unfold EMFILE
      omega
    unfold do_open at hr ⊢
    rw [if_neg hv1n, if_neg hv2] at hr ⊢
    simp only [hke, hne, if_false, fget_new, Option.map_some', Option.some.injEq] at hr ⊢
    exact ⟨s, by rw [hr], fun i => rfl⟩
  | some p =>
    rw [do_open_run env s filename oflags k p hv1 hv2 hke] at hr ⊢
    have hclear : Function.update s.p_files k none = s.p_files := by
      rw [← hkn, Function.update_eq_self]
    split_ifs at hr ⊢
    · simp only [Option.map_some', Option.some.injEq] at hr
      exact ⟨_, by rw [hr], fun i => by simp only [hclear]⟩
    · simp only [Option.map_some', Option.some.injEq] at hr
      omega
    · simp only [Option.map_some', Option.some.injEq] at hr
      exact ⟨_, by rw [hr], fun i => by simp only [hclear]⟩

/-- Witness for `do_open_error_keeps_table`: opening a missing file without CREAT. -/
theorem do_open_error_keeps_table_witness :
    ∃ s1, do_open noentEnv (some 7) emptyState "/nofile" 0 = some (-2, s1) ∧
      ∀ i, s1.p_files i = emptyState.p_files i :=
  do_open_error_keeps_table noentEnv (some 7) emptyState "/nofile" 0 (-2)
    (by decide) (by decide)

/-- C3: for every `oflags` accepted by the validation of `do_open`, the mode computed from
it is READ for RDONLY, WRITE for WRONLY, READ|WRITE for RDWR, with APPEND or-ed in
exactly when bit 10 is set, and when the call succeeds (path resolution returning 0 or a
negative error, result `fd >= 0`) the entry in slot `fd` carries exactly that mode. -/
theorem do_open_stores_fmode (env : Env) (alloc : Option Nat) (s : Kstate)
    (filename : String) (oflags : Int) (fd : Int)
    (hv1 : band oflags (bnot 0x703) = 0)
    (hv2 : ¬ (band oflags 0x1 = 0x1 ∧ band oflags 0x2 = 0x2))
    (hnv : (env.open_namev s.vnodes filename oflags).1 ≤ 0)
    (hr : retval (do_open env alloc s filename oflags) = some fd) (hfd : 0 ≤ fd) :
    open_fmode oflags = spec_fmode oflags ∧
    ∃ s1 p f, do_open env alloc s filename oflags = some (fd, s1) ∧
      s1.p_files fd.toNat = some p ∧ s1.files p = some f ∧
      f.f_mode = spec_fmode oflags := by
  refine ⟨open_fmode_eq_spec oflags hv2, ?_⟩
  unfold retval at hr
  have hv1n : ¬ (band oflags (bnot 0x703) ≠ 0) := fun h => h hv1
  rcases get_empty_fd_spec s with ⟨he, _⟩ | ⟨k, hk, hke, hkn, _⟩
  · exfalso
    unfold do_open at hr
    rw [if_neg hv1n, if_neg hv2] at hr
    simp only [he, if_true, Option.map_some', Option.some.injEq] at hr
    unfold EMFILE at hr
    omega
  cases alloc with
  | none =>
    exfalso
    have hne : ¬ ((k : Int) = -EMFILE) := by
      unfold EMFILE
      omega
    unfold do_open at hr
    rw [if_neg hv1n, if_neg hv2] at hr
    simp only [hke, hne, if_false, fget_new, Option.map_some', Option.some.injEq] at hr
    unfold ENOMEM at hr
    omega
  | some p =>
    rw [do_open_run env s filename oflags k p hv1 hv2 hke] at hr ⊢
    split_ifs at hr ⊢
    · simp only [Option.map_some', Option.some.injEq] at hr
      unfold EISDIR at hr
      omega
    · simp only [Option.map_some', Option.some.injEq] at hr
      subst hr
      refine ⟨_, p, ⟨1, 0, open_fmode oflags,
        some (env.open_namev s.vnodes filename oflags).2.1⟩, rfl, ?_, ?_, ?_⟩
      · simp only [Int.toNat_ofNat, Function.update_same]
      · simp only [Function.update_same]
      · exact open_fmode_eq_spec oflags hv2
    · simp only [Option.map_some', Option.some.injEq] at hr
      omega

/-- Witness for `do_open_stores_fmode`: `O_RDWR | O_APPEND` on an empty table. -/
theorem do_open_stores_fmode_witness :
    open_fmode 0x402 = spec_fmode 0x402 ∧
    ∃ s1 p f, do_open okEnv (some 7) emptyState "/file1" 0x402 = some (0, s1) ∧
      s1.p_files (0 : Int).toNat = some p ∧ s1.files p = some f ∧
      f.f_mode = spec_fmode 0x402 :=
  do_open_stores_fmode okEnv (some 7) emptyState "/file1" 0x402 0
    (by decide) (by decide) (by decide) (by decide) (by decide)

/-! ## `do_close` and `do_dup` -/

theorem valid_table_entry (s : Kstate) (hv : valid_table s) (i p : Nat) (hi : i < NFILES)
    (hp : s.p_files i = some p) : ∃ f, s.files p = some f ∧ 1 ≤ f.f_refcount := by
  have h := hv i hi
  unfold valid_slot at h
  rw [hp] at h
  simp only [decide_eq_true_eq] at h
  unfold refcount at h
  cases hf : s.files p with
  | none =>
    rw [hf] at h
    simp at h
  | some f =>
    rw [hf] at h
    exact ⟨f, rfl, h⟩

theorem fd_range {fd : Int} (h0 : 0 ≤ fd) (h1 : fd < NFILES) :
    ¬ (fd ≥ (NFILES : Int) ∨ fd < 0) ∧ ¬ (fd < 0 ∨ fd ≥ (NFILES : Int)) ∧ fd.toNat < NFILES := by
  refine ⟨by omega, by omega, by omega⟩

/-- C5: in a state whose table is valid, `do_close(fd)` on an open `fd` returns 0, empties
slot `fd`, leaves every other slot unchanged and changes the reference count of the entry
by exactly -1 (no other entry's count changes); for `fd` out of range or an empty slot it
returns `-EBADF` and the state is unchanged. -/
theorem do_close_spec (s : Kstate) (fd : Int) (hv : valid_table s) :
    (∀ p, 0 ≤ fd → fd < NFILES → s.p_files fd.toNat = some p →
      ∃ s1, do_close s fd = some (0, s1) ∧ s1.p_files fd.toNat = none ∧
        (∀ i, i ≠ fd.toNat → s1.p_files i = s.p_files i) ∧
        (refcount s1 p : Int) - (refcount s p : Int) = -1 ∧
        (∀ q, q ≠ p → refcount s1 q = refcount s q)) ∧
    ((fd < 0 ∨ (NFILES : Int) ≤ fd ∨ s.p_files fd.toNat = none) →
      do_close s fd = some (-EBADF, s)) := by
  constructor
  · intro p h0 h1 hp
    obtain ⟨hr1, hr2, hr3⟩ := fd_range h0 h1
    obtain ⟨f, hf, hrc⟩ := valid_table_entry s hv fd.toNat p hr3 hp
    have hne : f.f_refcount ≠ 0 := by omega
    unfold do_close
    simp only [hr1, fget, hr2, hp, hf, fput, set_fd, if_false, Function.update_same,
      Nat.add_sub_cancel, Nat.add_one_ne_zero, hne]
    by_cases hlast : f.f_refcount - 1 = 0
    · simp only [hlast, if_true]
      refine ⟨_, rfl, ?_, ?_, ?_, ?_⟩
      · simp only [Function.update_same]
      · intro i hi
        simp only [Function.update_noteq hi]
      · simp only [refcount, Function.update_same, hf]
        omega
      · intro q hq
        simp only [refcount, Function.update_noteq hq]
    · simp only [hlast, if_false]
      refine ⟨_, rfl, ?_, ?_, ?_, ?_⟩
      · simp only [Function.update_same]
      · intro i hi
        simp only [Function.update_noteq hi]
      · simp only [refcount, Function.update_same, hf]
        omega
      · intro q hq
        simp only [refcount, Function.update_noteq hq]
  · intro h
    unfold do_close
    by_cases hr : fd ≥ (NFILES : Int) ∨ fd < 0
    · rw [if_pos hr]
    · rw [if_neg hr]
      have hn : s.p_files fd.toNat = none := by
        rcases h with h | h | h
        · omega
        · omega
        · exact h
      have hr2 : ¬ (fd < 0 ∨ fd ≥ (NFILES : Int)) := by omega
      simp only [fget, hr2, if_false, hn]

/-- Witness for `do_close_spec`: closing descriptor 3 of `oneFileState`. -/
theorem do_close_spec_witness :
    ∃ s1, do_close oneFileState 3 = some (0, s1) ∧ s1.p_files (3 : Int).toNat = none ∧
      (∀ i, i ≠ (3 : Int).toNat → s1.p_files i = oneFileState.p_files i) ∧
      (refcount s1 7 : Int) - (refcount oneFileState 7 : Int) = -1 ∧
      (∀ q, q ≠ 7 → refcount s1 q = refcount oneFileState q) :=
  (do_close_spec oneFileState 3 (by decide)).1 7 (by decide) (by decide) (by decide)

theorem get_empty_fd_full (s : Kstate) (h : ∀ j, j < NFILES → s.p_files j ≠ none) :
    get_empty_fd s = -EMFILE := by
  rcases get_empty_fd_spec s with ⟨he, _⟩ | ⟨k, hk, _, hkn, _⟩
  · exact he
  · exact absurd hkn (h k hk)

theorem get_empty_fd_lowest (s : Kstate) (nfd : Nat) (h1 : nfd < NFILES)
    (h2 : s.p_files nfd = none) (h3 : ∀ j, j < nfd → s.p_files j ≠ none) :
    get_empty_fd s = (nfd : Int) := by
  rcases get_empty_fd_spec s with ⟨_, hall⟩ | ⟨k, hk, hke, hkn, hkl⟩
  · exact absurd h2 (hall nfd h1)
  · rcases Nat.lt_trichotomy k nfd with hlt | heq | hgt
    · exact absurd hkn (h3 k hlt)
    · rw [hke, heq]
    · exact absurd h2 (hkl nfd hgt)

/-- C6: in a state whose table is valid, `do_dup(fd)` returns `-EBADF` (state unchanged)
for `fd` out of range or an empty slot; for an open `fd` on entry `p` it returns `-EMFILE`
with the table and the count of `p` unchanged when no slot is free, and otherwise returns
the lowest-numbered free slot `nfd`, stores `p` there, leaves every other slot unchanged,
and raises the count of `p` by exactly 1 (no other count changes). -/
theorem do_dup_spec (s : Kstate) (fd : Int) (hv : valid_table s) :
    ((fd < 0 ∨ (NFILES : Int) ≤ fd ∨ s.p_files fd.toNat = none) →
      do_dup s fd = some (-EBADF, s)) ∧
    (∀ p, 0 ≤ fd → fd < NFILES → s.p_files fd.toNat = some p →
      ((∀ j, j < NFILES → s.p_files j ≠ none) →
        ∃ s1, do_dup s fd = some (-EMFILE, s1) ∧ (∀ i, s1.p_files i = s.p_files i) ∧
          ∀ q, refcount s1 q = refcount s q) ∧
      (∀ nfd, nfd < NFILES → s.p_files nfd = none → (∀ j, j < nfd → s.p_files j ≠ none) →
        ∃ s1, do_dup s fd = some ((nfd : Int), s1) ∧ s1.p_files nfd = s.p_files fd.toNat ∧
          (∀ i, i ≠ nfd → s1.p_files i = s.p_files i) ∧
          refcount s1 p = refcount s p + 1 ∧
          ∀ q, q ≠ p → refcount s1 q = refcount s q)) := by
  constructor
  · intro h
    unfold do_dup
    by_cases hr : fd ≥ (NFILES : Int) ∨ fd < 0
    · rw [if_pos hr]
    · rw [if_neg hr]
      have hn : s.p_files fd.toNat = none := by
        rcases h with h | h | h
        · omega
        · omega
        · exact h
      have hr2 : ¬ (fd < 0 ∨ fd ≥ (NFILES : Int)) := by omega
      simp only [fget, hr2, if_false, hn]
  · intro p h0 h1 hp
    obtain ⟨hr1, hr2, hr3⟩ := fd_range h0 h1
    obtain ⟨f, hf, hrc⟩ := valid_table_entry s hv fd.toNat p hr3 hp
    have hne : f.f_refcount ≠ 0 := by omega
    constructor
    · intro hfull
      have hg : get_empty_fd_loop s.p_files NFILES 0 = -EMFILE := get_empty_fd_full s hfull
      unfold do_dup
      simp only [hr1, fget, hr2, hp, hf, if_false, get_empty_fd, hg]
      simp only [if_true, fput, Function.update_same, Nat.add_sub_cancel, Nat.add_one_ne_zero,
        hne, if_false]
      refine ⟨_, rfl, fun i => rfl, ?_⟩
      intro q
      simp only [refcount]
      by_cases hq : q = p
      · subst hq
        simp only [Function.update_same, hf]
      · simp only [Function.update_noteq hq]
    · intro nfd hn1 hn2 hn3
      have hg : get_empty_fd_loop s.p_files NFILES 0 = (nfd : Int) :=
        get_empty_fd_lowest s nfd hn1 hn2 hn3
      have hne2 : ¬ ((nfd : Int) = -EMFILE) := by
        unfold EMFILE
        omega
      unfold do_dup
      simp only [hr1, fget, hr2, hp, hf, if_false, get_empty_fd, hg]
      simp only [hne2, if_false, set_fd, Int.toNat_ofNat]
      refine ⟨_, rfl, ?_, ?_, ?_, ?_⟩
      · simp only [Function.update_same]
      · intro i hi
        simp only [Function.update_noteq hi]
      · simp only [refcount, Function.update_same, hf]
      · intro q hq
        simp only [refcount, Function.update_noteq hq]

/-- Witness for `do_dup_spec`: duplicating descriptor 3 of `oneFileState` yields
descriptor 0. -/
theorem do_dup_spec_witness :
    ∃ s1, do_dup oneFileState 3 = some (((0 : Nat) : Int), s1) ∧
      s1.p_files 0 = oneFileState.p_files (3 : Int).toNat ∧
      (∀ i, i ≠ 0 → s1.p_files i = oneFileState.p_files i) ∧
      refcount s1 7 = refcount oneFileState 7 + 1 ∧
      ∀ q, q ≠ 7 → refcount s1 q = refcount oneFileState q :=
  ((do_dup_spec oneFileState 3 (by decide)).2 7 (by decide) (by decide) (by decide)).2 0
    (by decide) (by decide) (by decide)

/-! ## `do_dup2` -/

theorem fget_open (s : Kstate) (fd : Int) (p : Nat) (f : file_t) (h0 : 0 ≤ fd)
    (h1 : fd < NFILES) (hp : s.p_files fd.toNat = some p) (hf : s.files p = some f) :
    fget s fd = some (some p, ref_taken s p f) := by
  obtain ⟨_, hr2, _⟩ := fd_range h0 h1
  simp only [fget, hr2, if_false, hp, hf, ref_taken]

theorem fget_closed (s : Kstate) (fd : Int)
    (h : fd < 0 ∨ (NFILES : Int) ≤ fd ∨ s.p_files fd.toNat = none) :
    fget s fd = some (none, s) := by
  unfold fget
  by_cases hr : fd < 0 ∨ fd ≥ (NFILES : Int)
  · rw [if_pos hr]
  · rw [if_neg hr]
    have hn : s.p_files fd.toNat = none := by
      rcases h with h | h | h
      · omega
      · omega
      · exact h
    simp only [hn]

/-- Effect of `do_close` on an open descriptor whose entry is live. -/
theorem do_close_run (s : Kstate) (fd : Int) (p : Nat) (f : file_t) (h0 : 0 ≤ fd)
    (h1 : fd < NFILES) (hp : s.p_files fd.toNat = some p) (hf : s.files p = some f)
    (hrc : 1 ≤ f.f_refcount) :
    ∃ s1, do_close s fd = some (0, s1) ∧
      s1.p_files = Function.update s.p_files fd.toNat none ∧
      s1.files = Function.update s.files p
        (if f.f_refcount = 1 then none else some { f with f_refcount := f.f_refcount - 1 }) := by
  obtain ⟨hr1, hr2, hr3⟩ := fd_range h0 h1
  have hne : f.f_refcount ≠ 0 := by omega
  unfold do_close
  simp only [hr1, fget, hr2, hp, hf, fput, set_fd, if_false, Function.update_same,
    Nat.add_sub_cancel, Nat.add_one_ne_zero, hne]
  by_cases hlast : f.f_refcount - 1 = 0
  · have h1 : f.f_refcount = 1 := by omega
    simp only [hlast, if_true, h1]
    refine ⟨_, rfl, rfl, ?_⟩
    simp only [Function.update_idem]
  · have h1 : ¬ f.f_refcount = 1 := by omega
    simp only [hlast, if_false, h1]
    refine ⟨_, rfl, rfl, ?_⟩
    simp only [Function.update_idem]

/-- C7: in a state whose table is valid, with `ofd` and `nfd` in range and `ofd` open on
entry `p`: if `ofd = nfd`, `do_dup2` returns `nfd` and leaves the table and every reference
count unchanged; if `ofd ≠ nfd` it returns `nfd`, slot `nfd` then holds `p` (as slot `ofd`
still does), the other slots are unchanged, an entry `q ≠ p` previously in slot `nfd` has
lost exactly one reference, and the count of `p` is its previous count plus one, or
unchanged when slot `nfd` already held `p`. -/
theorem do_dup2_spec (s : Kstate) (ofd nfd : Int) (p : Nat) (hv : valid_table s)
    (ho0 : 0 ≤ ofd) (ho1 : ofd < NFILES) (hn0 : 0 ≤ nfd) (hn1 : nfd < NFILES)
    (hp : s.p_files ofd.toNat = some p) :
    (ofd = nfd →
      ∃ s1, do_dup2 s ofd nfd = some (nfd, s1) ∧ (∀ i, s1.p_files i = s.p_files i) ∧
        ∀ q, refcount s1 q = refcount s q) ∧
    (ofd ≠ nfd →
      ∃ s1, do_dup2 s ofd nfd = some (nfd, s1) ∧
        s1.p_files nfd.toNat = some p ∧ s1.p_files ofd.toNat = some p ∧
        (∀ i, i ≠ nfd.toNat → s1.p_files i = s.p_files i) ∧
        (s.p_files nfd.toNat = none →
          refcount s1 p = refcount s p + 1 ∧ ∀ r, r ≠ p → refcount s1 r = refcount s r) ∧
        (∀ q, s.p_files nfd.toNat = some q → q ≠ p →
          refcount s1 q + 1 = refcount s q ∧ refcount s1 p = refcount s p + 1 ∧
            ∀ r, r ≠ p → r ≠ q → refcount s1 r = refcount s r) ∧
        (s.p_files nfd.toNat = some p → ∀ r, refcount s1 r = refcount s r)) := by
  obtain ⟨hro1, _, hro3⟩ := fd_range ho0 ho1
  obtain ⟨hrn1, _, hrn3⟩ := fd_range hn0 hn1
  obtain ⟨f, hf, hrc⟩ := valid_table_entry s hv ofd.toNat p hro3 hp
  have hne : f.f_refcount ≠ 0 := by omega
  have hget := fget_open s ofd p f ho0 ho1 hp hf
  constructor
  · intro heq
    unfold do_dup2
    rw [if_neg hro1, if_neg hrn1, hget]
    simp only [heq, if_true, fput, ref_taken, Function.update_same, Nat.add_sub_cancel,
      Nat.add_one_ne_zero, hne, if_false]
    refine ⟨_, rfl, fun i => rfl, ?_⟩
    intro q
    simp only [refcount]
    by_cases hq : q = p
    · subst hq
      simp only [Function.update_same, hf]
    · simp only [Function.update_noteq hq]
  · intro hneq
    have hidx : ofd.toNat ≠ nfd.toNat := by omega
    unfold do_dup2
    rw [if_neg hro1, if_neg hrn1, hget]
    simp only [hneq, if_false]
    cases hq : s.p_files nfd.toNat with
    | none =>
      have hq1 : (ref_taken s p f).p_files nfd.toNat = none := hq
      simp only [hq1, ne_eq, not_true_eq_false, if_false, set_fd]
      simp only [ref_taken]
      refine ⟨_, rfl, ?_, ?_, ?_, ?_, ?_, ?_⟩
      · simp only [Function.update_same]
      · simp only [Function.update_noteq hidx, hp]
      · intro i hi
        simp only [Function.update_noteq hi]
      · intro _
        refine ⟨?_, ?_⟩
        · simp only [refcount, Function.update_same, hf]
        · intro r hr
          simp only [refcount, Function.update_noteq hr]
      · intro q hq2
        exact Option.noConfusion hq2
      · intro hq2
        exact Option.noConfusion hq2
    | some q =>
      have hq1 : (ref_taken s p f).p_files nfd.toNat = some q := hq
      have hnn : (some q : Option Nat) ≠ none := fun h => Option.noConfusion h
      obtain ⟨g, hg, hgrc⟩ := valid_table_entry s hv nfd.toNat q hrn3 hq
      simp only [hq1, hnn, if_true]
      by_cases hqp : q = p
      · subst hqp
        have hg1 : (ref_taken s q f).files q
            = some { f with f_refcount := f.f_refcount + 1 } := by
          simp only [ref_taken, Function.update_same]
        obtain ⟨s2, hc, hpf, hfl⟩ :=
          do_close_run (ref_taken s q f) nfd q _ hn0 hn1 hq1 hg1 (by simp)
        rw [hc]
        simp only [ne_eq, not_true_eq_false, if_false, set_fd]
        refine ⟨_, rfl, ?_, ?_, ?_, ?_, ?_, ?_⟩
        · simp only [Function.update_same]
        · simp only [hpf, Function.update_noteq hidx, ref_taken, hp]
        · intro i hi
          simp only [hpf, Function.update_noteq hi, ref_taken]
        · intro h
          exact h.elim
        · intro q2 hq2 hq3
          injection hq2 with hq2
          exact absurd hq2.symm hq3
        · intro _ r
          simp only [refcount, hfl, ref_taken, Function.update_idem]
          by_cases hr : r = q
          · subst hr
            have h1 : ¬ f.f_refcount + 1 = 1 := by omega
            simp only [Function.update_same, h1, if_false, Nat.add_sub_cancel, hf]
          · simp only [Function.update_noteq hr]
      · have hg1 : (ref_taken s p f).files q = some g := by
          simp only [ref_taken, Function.update_noteq hqp, hg]
        obtain ⟨s2, hc, hpf, hfl⟩ :=
          do_close_run (ref_taken s p f) nfd q g hn0 hn1 hq1 hg1 hgrc
        rw [hc]
        simp only [ne_eq, not_true_eq_false, if_false, set_fd]
        have hpq : p ≠ q := fun h => hqp h.symm
        refine ⟨_, rfl, ?_, ?_, ?_, ?_, ?_, ?_⟩
        · simp only [Function.update_same]
        · simp only [hpf, Function.update_noteq hidx, ref_taken, hp]
        · intro i hi
          simp only [hpf, Function.update_noteq hi, ref_taken]
        · intro h
          exact h.elim
        · intro q2 hq2 _
          injection hq2 with hq2
          subst hq2
          refine ⟨?_, ?_, ?_⟩
          · simp only [refcount, hfl, Function.update_same, hg]
            by_cases hl : g.f_refcount = 1
            · simp only [hl, if_true]
            · simp only [hl, if_false]
              omega
          · simp only [refcount, hfl, Function.update_noteq hpq, ref_taken,
              Function.update_same, hf]
          · intro r hr1 hr2
            simp only [refcount, hfl, Function.update_noteq hr2, ref_taken,
              Function.update_noteq hr1]
        · intro h
          injection h with h
          exact absurd h hqp

/-- Witness for `do_dup2_spec`: `dup2(3, 4)` on `twoFileState`. -/
theorem do_dup2_spec_witness :
    ∃ s1, do_dup2 twoFileState 3 4 = some (4, s1) ∧
      s1.p_files (4 : Int).toNat = some 7 ∧ s1.p_files (3 : Int).toNat = some 7 ∧
      (∀ i, i ≠ (4 : Int).toNat → s1.p_files i = twoFileState.p_files i) ∧
      (twoFileState.p_files (4 : Int).toNat = none →
        refcount s1 7 = refcount twoFileState 7 + 1 ∧
          ∀ r, r ≠ 7 → refcount s1 r = refcount twoFileState r) ∧
      (∀ q, twoFileState.p_files (4 : Int).toNat = some q → q ≠ 7 →
        refcount s1 q + 1 = refcount twoFileState q ∧
          refcount s1 7 = refcount twoFileState 7 + 1 ∧
          ∀ r, r ≠ 7 → r ≠ q → refcount s1 r = refcount twoFileState r) ∧
      (twoFileState.p_files (4 : Int).toNat = some 7 →
        ∀ r, refcount s1 r = refcount twoFileState r) :=
  (do_dup2_spec twoFileState 3 4 7 (by decide) (by decide) (by decide) (by decide)
    (by decide) (by decide)).2 (by decide)

/-! ## `do_lseek` -/

/-- Symbolic run of `do_lseek` on an open descriptor whose entry `f` is live. -/
theorem do_lseek_run (s : Kstate) (fd offset whence : Int) (p : Nat) (f : file_t)
    (h0 : 0 ≤ fd) (h1 : fd < NFILES) (hp : s.p_files fd.toNat = some p)
    (hf : s.files p = some f) (hrc : 1 ≤ f.f_refcount) :
    do_lseek s fd offset whence =
      if ¬ (whence = SEEK_SET ∨ whence = SEEK_CUR ∨ whence = SEEK_END) then
        some (-EINVAL, settle s p f [Event.fget p, Event.fput p])
      else if whence = SEEK_SET ∧ offset ≥ 0 then
        some (offset, settle s p { f with f_pos := offset } [Event.fget p, Event.fput p])
      else if whence = SEEK_CUR ∧ wrap32 (f.f_pos + offset) ≥ 0 then
        some (wrap32 (f.f_pos + offset),
          settle s p { f with f_pos := wrap32 (f.f_pos + offset) } [Event.fget p, Event.fput p])
      else if whence = SEEK_END then
        match f.f_vnode with
        | none => none
        | some v =>
          if wrap32 ((s.vnodes v).vn_len + offset) ≥ 0 then
            some (wrap32 ((s.vnodes v).vn_len + offset),
              settle s p { f with f_pos := wrap32 ((s.vnodes v).vn_len + offset) }
                [Event.fget p, Event.fput p])
          else some (-EINVAL, settle s p f [Event.fget p, Event.fput p])
      else some (-EINVAL, settle s p f [Event.fget p, Event.fput p]) := by
  obtain ⟨hr1, _, _⟩ := fd_range h0 h1
  have hne : f.f_refcount ≠ 0 := by omega
  unfold do_lseek
  rw [if_neg hr1, fget_open s fd p f h0 h1 hp hf]
  simp only [ref_taken, Function.update_same, modify_file, fput, Nat.add_sub_cancel,
    Nat.add_one_ne_zero, hne, if_false, settle, Function.update_idem, List.append_assoc,
    List.singleton_append]

theorem wrap32_of_range (x : Int) (h : int_range x) : wrap32 x = x := by
  unfold int_range at h
  unfold wrap32 ofU32 toU32
  split <;> omega

/-- C8: for an open `fd` (live entry `f` at `p`, vnode `v`) and `whence` among SEEK_SET,
SEEK_CUR, SEEK_END, with target `offset`, `f_pos + offset` or `vn_len + offset`: a negative
target gives `-EINVAL` and leaves the entry, `f_pos` included, as it was; otherwise `f_pos`
becomes the target, which is returned.  Any other `whence` gives `-EINVAL` with the entry
unchanged.  The sums are `int` sums, equal to the mathematical sums whenever these are
representable. -/
theorem do_lseek_spec (s : Kstate) (fd offset whence : Int) (p v : Nat) (f : file_t)
    (h0 : 0 ≤ fd) (h1 : fd < NFILES) (hp : s.p_files fd.toNat = some p)
    (hf : s.files p = some f) (hrc : 1 ≤ f.f_refcount) (hvn : f.f_vnode = some v) :
    ((whence = SEEK_SET ∨ whence = SEEK_CUR ∨ whence = SEEK_END) →
      (lseek_target f.f_pos (s.vnodes v).vn_len offset whence < 0 →
        ∃ s1, do_lseek s fd offset whence = some (-EINVAL, s1) ∧ s1.files p = some f) ∧
      (0 ≤ lseek_target f.f_pos (s.vnodes v).vn_len offset whence →
        ∃ s1, do_lseek s fd offset whence
            = some (lseek_target f.f_pos (s.vnodes v).vn_len offset whence, s1) ∧
          s1.files p = some
            { f with f_pos := lseek_target f.f_pos (s.vnodes v).vn_len offset whence })) ∧
    (¬ (whence = SEEK_SET ∨ whence = SEEK_CUR ∨ whence = SEEK_END) →
      ∃ s1, do_lseek s fd offset whence = some (-EINVAL, s1) ∧ s1.files p = some f) ∧
    (int_range (f.f_pos + offset) →
      lseek_target f.f_pos (s.vnodes v).vn_len offset SEEK_CUR = f.f_pos + offset) ∧
    (int_range ((s.vnodes v).vn_len + offset) →
      lseek_target f.f_pos (s.vnodes v).vn_len offset SEEK_END
        = (s.vnodes v).vn_len + offset) := by
  rw [do_lseek_run s fd offset whence p f h0 h1 hp hf hrc]
  refine ⟨?_, ?_, ?_, ?_⟩
  · intro hw
    rw [if_neg (not_not.mpr hw)]
    unfold lseek_target
    rcases hw with hw | hw | hw
    · subst hw
      simp only [SEEK_SET, SEEK_CUR, SEEK_END, if_true, true_and]
      constructor
      · intro hneg
        have h2 : ¬ offset ≥ 0 := by omega
        simp only [h2, if_false, false_and, hvn]
        norm_num
        simp only [settle, Function.update_same]
      · intro hpos
        have h2 : offset ≥ 0 := hpos
        simp only [h2, if_true]
        exact ⟨_, rfl, by simp only [settle, Function.update_same]⟩
    · subst hw
      simp only [SEEK_SET, SEEK_CUR, SEEK_END, if_true, true_and]
      norm_num
      constructor
      · intro hneg
        have h2 : ¬ 0 ≤ wrap32 (f.f_pos + offset) := by omega
        simp only [h2, if_false]
        exact ⟨_, rfl, by simp only [settle, Function.update_same]⟩
      · intro hpos
        simp only [hpos, if_true]
        exact ⟨_, rfl, by simp only [settle, Function.update_same]⟩
    · subst hw
      simp only [SEEK_SET, SEEK_CUR, SEEK_END, if_true, true_and, hvn]
      norm_num
      constructor
      · intro hneg
        have h2 : ¬ 0 ≤ wrap32 ((s.vnodes v).vn_len + offset) := by omega
        simp only [h2, if_false]
        exact ⟨_, rfl, by simp only [settle, Function.update_same]⟩
      · intro hpos
        simp only [hpos, if_true]
        exact ⟨_, rfl, by simp only [settle, Function.update_same]⟩
  · intro hw
    rw [if_pos hw]
    exact ⟨_, rfl, by simp only [settle, Function.update_same]⟩
  · intro hr
    unfold lseek_target
    simp only [SEEK_SET, SEEK_CUR]
    norm_num
    exact wrap32_of_range _ hr
  · intro hr
    unfold lseek_target
    simp only [SEEK_SET, SEEK_CUR, SEEK_END]
    norm_num
    exact wrap32_of_range _ hr

/-- Witness for `do_lseek_spec`: seeking to position -1 from position 0 is refused. -/
theorem do_lseek_spec_witness :
    ∃ s1, do_lseek oneFileState 3 (-1) SEEK_CUR = some (-EINVAL, s1) ∧
      s1.files 7 = some ⟨1, 0, 1, some 0⟩ :=
  ((do_lseek_spec oneFileState 3 (-1) SEEK_CUR 7 0 ⟨1, 0, 1, some 0⟩ (by decide) (by decide)
    (by decide) (by decide) (by decide) (by decide)).1 (by decide)).1 (by decide)

/-- C9: for an open `fd` and every `int` `k >= 0`, `do_lseek(fd, k, SEEK_SET)` returns `k`
and sets `f_pos` to `k`, and an immediately following `do_lseek(fd, 0, SEEK_CUR)` returns
`k` and leaves `f_pos` equal to `k`. -/
theorem lseek_set_then_cur (s : Kstate) (fd k : Int) (p : Nat) (f : file_t)
    (h0 : 0 ≤ fd) (h1 : fd < NFILES) (hp : s.p_files fd.toNat = some p)
    (hf : s.files p = some f) (hrc : 1 ≤ f.f_refcount) (hk0 : 0 ≤ k)
    (hk1 : k < 2147483648) :
    ∃ s1 s2, do_lseek s fd k SEEK_SET = some (k, s1) ∧
      s1.files p = some { f with f_pos := k } ∧
      do_lseek s1 fd 0 SEEK_CUR = some (k, s2) ∧
      s2.files p = some { f with f_pos := k } := by
  have hw : wrap32 (k + 0) = k := by
    rw [wrap32_of_range (k + 0) ⟨by omega, by omega⟩]
    omega
  have e1 : do_lseek s fd k SEEK_SET
      = some (k, settle s p { f with f_pos := k } [Event.fget p, Event.fput p]) := by
    rw [do_lseek_run s fd k SEEK_SET p f h0 h1 hp hf hrc]
    have hge : k ≥ 0 := hk0
    simp only [SEEK_SET, SEEK_CUR, SEEK_END, true_or, not_true_eq_false, if_false, hge,
      and_self, if_true]
  have hf1 : (settle s p { f with f_pos := k } [Event.fget p, Event.fput p]).files p
      = some { f with f_pos := k } := by
    simp only [settle, Function.update_same]
  have e2 : do_lseek (settle s p { f with f_pos := k } [Event.fget p, Event.fput p]) fd 0
        SEEK_CUR
      = some (k, settle (settle s p { f with f_pos := k } [Event.fget p, Event.fput p]) p
          { f with f_pos := k } [Event.fget p, Event.fput p]) := by
    rw [do_lseek_run (settle s p { f with f_pos := k } [Event.fget p, Event.fput p]) fd 0
      SEEK_CUR p { f with f_pos := k } h0 h1 hp hf1 hrc]
    have h10 : ¬ ((1 : Int) = 0) := by decide
    have h12 : ¬ ((1 : Int) = 2) := by decide
    have hge2 : k ≥ 0 := hk0
    simp only [SEEK_SET, SEEK_CUR, SEEK_END, hw, hge2, h10, h12, true_or, or_true,
      not_true_eq_false, if_false, false_and, and_self, if_true]
  exact ⟨_, _, e1, hf1, e2, by simp only [settle, Function.update_same]⟩

/-- Witness for `lseek_set_then_cur`: `k = 5` on descriptor 3 of `oneFileState`. -/
theorem lseek_set_then_cur_witness :
    ∃ s1 s2, do_lseek oneFileState 3 5 SEEK_SET = some (5, s1) ∧
      s1.files 7 = some ⟨1, 5, 1, some 0⟩ ∧
      do_lseek s1 3 0 SEEK_CUR = some (5, s2) ∧
      s2.files 7 = some ⟨1, 5, 1, some 0⟩ :=
  lseek_set_then_cur oneFileState 3 5 7 ⟨1, 0, 1, some 0⟩ (by decide) (by decide) (by decide)
    (by decide) (by decide) (by decide) (by decide)

/-! ## Reference-count balance of the position system calls -/

theorem balanced_refl (s : Kstate) : balanced s s :=
  ⟨fun _ => rfl, fun _ => Nat.add_comm _ _⟩

theorem balanced_of (s s1 : Kstate) (p : Nat) (f g : file_t) (evs : List Event)
    (hf : s.files p = some f) (hfiles : s1.files = Function.update s.files p (some g))
    (hrc : g.f_refcount = f.f_refcount) (htrace : s1.trace = s.trace ++ evs)
    (hev : ∀ q, evs.count (Event.fget q) = evs.count (Event.fput q)) : balanced s s1 := by
  constructor
  · intro q
    unfold refcount
    rw [hfiles]
    by_cases hq : q = p
    · subst hq
      simp only [Function.update_same, hf, hrc]
    · simp only [Function.update_noteq hq]
  · intro q
    unfold fgets fputs
    rw [htrace, List.count_append, List.count_append, hev q]
    omega

theorem count_pair (p q : Nat) :
    [Event.fget p, Event.fput p].count (Event.fget q)
      = [Event.fget p, Event.fput p].count (Event.fput q) := by
  by_cases h : p = q
  · subst h
    simp [List.count_cons]
  · have h1 : ¬ (Event.fget p = Event.fget q) := fun e => h (by injection e)
    have h2 : ¬ (Event.fput p = Event.fput q) := fun e => h (by injection e)
    simp [List.count_cons, h1, h2]

theorem balanced_settle (s : Kstate) (p : Nat) (f g : file_t) (evs : List Event)
    (hf : s.files p = some f) (hrc : g.f_refcount = f.f_refcount)
    (hev : ∀ q, evs.count (Event.fget q) = evs.count (Event.fput q)) :
    balanced s (settle s p g evs) :=
  balanced_of s _ p f g evs hf rfl hrc rfl hev

theorem balanced_settle_vn (s : Kstate) (p : Nat) (f g : file_t) (vn : Nat → vnode_t)
    (evs : List Event) (hf : s.files p = some f) (hrc : g.f_refcount = f.f_refcount)
    (hev : ∀ q, evs.count (Event.fget q) = evs.count (Event.fput q)) :
    balanced s (settle_vn s p g vn evs) :=
  balanced_of s _ p f g evs hf rfl hrc rfl hev

/-- Symbolic run of `do_read` on an open descriptor whose entry `f` is live. -/
theorem do_read_run (env : Env) (s : Kstate) (fd : Int) (nbytes : Nat) (p : Nat)
    (f : file_t) (h0 : 0 ≤ fd) (h1 : fd < NFILES) (hp : s.p_files fd.toNat = some p)
    (hf : s.files p = some f) (hrc : 1 ≤ f.f_refcount) :
    do_read env s fd nbytes =
      if band f.f_mode FMODE_READ ≠ 0x1 then
        some (-EBADF, settle s p f [Event.fget p, Event.fput p])
      else
        match f.f_vnode with
        | none => none
        | some v =>
          if S_ISDIR (s.vnodes v).vn_mode then
            some (-EISDIR, settle s p f [Event.fget p, Event.fput p])
          else
            some (env.read v (s.vnodes v) f.f_pos nbytes,
              settle s p
                { f with f_pos := wrap32 (f.f_pos + env.read v (s.vnodes v) f.f_pos nbytes) }
                [Event.fget p, Event.read v f.f_pos nbytes, Event.fput p]) := by
  obtain ⟨hr1, _, _⟩ := fd_range h0 h1
  have hne : f.f_refcount ≠ 0 := by omega
  unfold do_read
  rw [if_neg hr1, fget_open s fd p f h0 h1 hp hf]
  simp only [ref_taken, Function.update_same, modify_file, fput, Nat.add_sub_cancel,
    Nat.add_one_ne_zero, hne, if_false, settle, Function.update_idem, List.append_assoc,
    List.singleton_append, List.cons_append, List.nil_append]

/-- Symbolic run of `do_getdent` on an open descriptor whose entry `f` is live. -/
theorem do_getdent_run (env : Env) (s : Kstate) (fd : Int) (p : Nat)
    (f : file_t) (h0 : 0 ≤ fd) (h1 : fd < NFILES) (hp : s.p_files fd.toNat = some p)
    (hf : s.files p = some f) (hrc : 1 ≤ f.f_refcount) :
    do_getdent env s fd =
      match f.f_vnode with
      | none => none
      | some v =>
        if (s.vnodes v).vn_mode ≠ S_IFDIR ∨ (s.vnodes v).has_readdir = false then
          some (-ENOTDIR, settle s p f [Event.fget p, Event.fput p])
        else
          if env.readdir v (s.vnodes v) f.f_pos ≠ 0 then
            some (env.sizeof_dirent,
              settle s p { f with f_pos := wrap32 (f.f_pos + env.readdir v (s.vnodes v) f.f_pos) }
                [Event.fget p, Event.readdir v f.f_pos, Event.fput p])
          else
            some (0,
              settle s p { f with f_pos := wrap32 (f.f_pos + env.readdir v (s.vnodes v) f.f_pos) }
                [Event.fget p, Event.readdir v f.f_pos, Event.fput p]) := by
  obtain ⟨hr1, _, _⟩ := fd_range h0 h1
  have hne : f.f_refcount ≠ 0 := by omega
  unfold do_getdent
  rw [if_neg hr1, fget_open s fd p f h0 h1 hp hf]
  simp only [ref_taken, Function.update_same, modify_file, fput, Nat.add_sub_cancel,
    Nat.add_one_ne_zero, hne, if_false, settle, Function.update_idem, List.append_assoc,
    List.singleton_append, List.cons_append, List.nil_append]

/-- Symbolic run of `do_write` on an open descriptor whose entry `f` is live. -/
theorem do_write_run (env : Env) (s : Kstate) (fd : Int) (nbytes : Nat) (p : Nat)
    (f : file_t) (h0 : 0 ≤ fd) (h1 : fd < NFILES) (hp : s.p_files fd.toNat = some p)
    (hf : s.files p = some f) (hrc : 1 ≤ f.f_refcount) :
    do_write env s fd nbytes =
      if band f.f_mode FMODE_WRITE ≠ 0x2 then
        some (-EBADF, settle s p f [Event.fget p, Event.fput p])
      else
        match f.f_vnode with
        | none => none
        | some v =>
          if band f.f_mode FMODE_APPEND = 0x4 then
            if wrap32 ((s.vnodes v).vn_len + 0) ≥ 0 then
              write_tail env s p f v (wrap32 ((s.vnodes v).vn_len + 0)) nbytes
                [Event.fget p, Event.fget p, Event.fput p]
            else
              some (-EINVAL,
                settle s p f [Event.fget p, Event.fget p, Event.fput p, Event.fput p])
          else write_tail env s p f v f.f_pos nbytes [Event.fget p] := by
  obtain ⟨hr1, _, _⟩ := fd_range h0 h1
  have hne : f.f_refcount ≠ 0 := by omega
  have hp1 : (ref_taken s p f).p_files fd.toNat = some p := hp
  have hf1 : (ref_taken s p f).files p = some { f with f_refcount := f.f_refcount + 1 } := by
    simp only [ref_taken, Function.update_same]
  have hseek := do_lseek_run (ref_taken s p f) fd 0 SEEK_END p
    { f with f_refcount := f.f_refcount + 1 } h0 h1 hp1 hf1 (by simp)
  unfold do_write
  rw [if_neg hr1, fget_open s fd p f h0 h1 hp hf]
  simp only [hf1, hseek]
  by_cases hw : band f.f_mode FMODE_WRITE ≠ 0x2
  · simp only [hw, if_true, ne_eq, not_false_eq_true]
    simp only [ref_taken, Function.update_same, modify_file, fput, Nat.add_sub_cancel,
      Nat.add_one_ne_zero, hne, if_false, settle, Function.update_idem, List.append_assoc,
      List.singleton_append, List.cons_append, List.nil_append]
  · simp only [hw, if_false]
    cases hvn : f.f_vnode with
    | none =>
      by_cases ha : band f.f_mode FMODE_APPEND = 0x4
      · simp [ha, hvn, SEEK_SET, SEEK_CUR, SEEK_END]
      · simp [ha, hvn, ref_taken]
    | some v =>
      by_cases ha : band f.f_mode FMODE_APPEND = 0x4
      · by_cases hl : 0 ≤ wrap32 (s.vnodes v).vn_len
        · have hl2 : ¬ wrap32 (s.vnodes v).vn_len < 0 := not_lt.mpr hl
          simp [ha, hvn, SEEK_SET, SEEK_CUR, SEEK_END, hl, hl2, write_tail, settle, settle_vn,
            ref_taken, modify_file, fput, hne]
        · have hl2 : wrap32 (s.vnodes v).vn_len < 0 := not_le.mp hl
          have hl3 : ¬ 0 ≤ wrap32 (s.vnodes v).vn_len := hl
          simp [ha, hvn, SEEK_SET, SEEK_CUR, SEEK_END, hl2, hl3, write_tail, settle, settle_vn,
            ref_taken, modify_file, fput, hne, EINVAL]
          rw [← hvn]
      · simp [ha, hvn, write_tail, settle, settle_vn, ref_taken, modify_file, fput, hne]

theorem balanced_some_settle {s s1 : Kstate} {p : Nat} {f g : file_t} {evs : List Event}
    {r r0 : Int} (h : some (r0, settle s p g evs) = some (r, s1)) (hf : s.files p = some f)
    (hrc : g.f_refcount = f.f_refcount)
    (hev : ∀ q, evs.count (Event.fget q) = evs.count (Event.fput q)) : balanced s s1 := by
  injection h with h
  injection h with _ h
  rw [← h]
  exact balanced_settle s p f g evs hf hrc hev

theorem balanced_write_tail {env : Env} {s s1 : Kstate} {p v : Nat} {f : file_t} {pos r : Int}
    {nbytes : Nat} {pre : List Event}
    (h : write_tail env s p f v pos nbytes pre = some (r, s1)) (hf : s.files p = some f)
    (hev : ∀ q, (pre ++ [Event.write v pos nbytes, Event.fput p]).count (Event.fget q)
      = (pre ++ [Event.write v pos nbytes, Event.fput p]).count (Event.fput q)) :
    balanced s s1 := by
  unfold write_tail at h
  split_ifs at h
  injection h with h
  injection h with _ h
  rw [← h]
  exact balanced_settle_vn s p f _ _ _ hf rfl hev

theorem closed_fd_cases (s : Kstate) (fd : Int)
    (h : fd < 0 ∨ (NFILES : Int) ≤ fd ∨ s.p_files fd.toNat = none) (env : Env) (nbytes : Nat)
    (offset whence : Int) :
    do_read env s fd nbytes = some (-EBADF, s) ∧ do_write env s fd nbytes = some (-EBADF, s) ∧
    do_lseek s fd offset whence = some (-EBADF, s) ∧ do_getdent env s fd = some (-EBADF, s) := by
  have hget := fget_closed s fd h
  by_cases hr : fd ≥ (NFILES : Int) ∨ fd < 0
  · refine ⟨?_, ?_, ?_, ?_⟩
    · unfold do_read
      rw [if_pos hr]
    · unfold do_write
      rw [if_pos hr]
    · unfold do_lseek
      rw [if_pos hr]
    · unfold do_getdent
      rw [if_pos hr]
  · refine ⟨?_, ?_, ?_, ?_⟩
    · unfold do_read
      rw [if_neg hr, hget]
    · unfold do_write
      rw [if_neg hr, hget]
    · unfold do_lseek
      rw [if_neg hr, hget]
    · unfold do_getdent
      rw [if_neg hr, hget]

/-- C10: in a state whose table is valid, on every return path (success and every error)
of `do_read`, `do_write`, `do_lseek` and `do_getdent`, for every file entry the number of
`fput` calls made equals the number of `fget` calls made, and every entry, that of slot
`fd` included, has the same reference count after the call as before it. -/
theorem position_calls_balanced (env : Env) (s : Kstate) (fd : Int) (nbytes : Nat)
    (offset whence : Int) (hv : valid_table s) :
    (∀ r s1, do_read env s fd nbytes = some (r, s1) → balanced s s1) ∧
    (∀ r s1, do_write env s fd nbytes = some (r, s1) → balanced s s1) ∧
    (∀ r s1, do_lseek s fd offset whence = some (r, s1) → balanced s s1) ∧
    (∀ r s1, do_getdent env s fd = some (r, s1) → balanced s s1) := by
  by_cases hc : fd < 0 ∨ (NFILES : Int) ≤ fd ∨ s.p_files fd.toNat = none
  · obtain ⟨e1, e2, e3, e4⟩ := closed_fd_cases s fd hc env nbytes offset whence
    rw [e1, e2, e3, e4]
    have key : ∀ r s1, some (-EBADF, s) = some (r, s1) → balanced s s1 := by
      intro r s1 h
      injection h with h
      injection h with _ h
      rw [← h]
      exact balanced_refl s
    exact ⟨key, key, key, key⟩
  · have h0 : 0 ≤ fd := by omega
    have h1 : fd < NFILES := by omega
    cases hp : s.p_files fd.toNat with
    | none => exact absurd (Or.inr (Or.inr hp)) hc
    | some p =>
      obtain ⟨f, hf, hrc⟩ := valid_table_entry s hv fd.toNat p (by omega) hp
      have c2 : ∀ q, [Event.fget p, Event.fput p].count (Event.fget q)
          = [Event.fget p, Event.fput p].count (Event.fput q) := count_pair p
      have c3 : ∀ e : Event, (∀ q, e ≠ Event.fget q) → (∀ q, e ≠ Event.fput q) →
          ∀ q, [Event.fget p, e, Event.fput p].count (Event.fget q)
            = [Event.fget p, e, Event.fput p].count (Event.fput q) := by
        intro e he1 he2 q
        have a1 := he1 q
        have a2 := he2 q
        by_cases hq : p = q
        · subst hq
          simp [List.count_cons, a1, a2]
        · simp [List.count_cons, a1, a2, hq]
      have c4 : ∀ q, [Event.fget p, Event.fget p, Event.fput p, Event.fput p].count (Event.fget q)
          = [Event.fget p, Event.fget p, Event.fput p, Event.fput p].count (Event.fput q) := by
        intro q
        by_cases hq : p = q
        · subst hq
          simp [List.count_cons]
        · simp [List.count_cons, hq]
      have c5 : ∀ e : Event, (∀ q, e ≠ Event.fget q) → (∀ q, e ≠ Event.fput q) →
          ∀ q, ([Event.fget p, Event.fget p, Event.fput p] ++ [e, Event.fput p]).count (Event.fget q)
            = ([Event.fget p, Event.fget p, Event.fput p] ++ [e, Event.fput p]).count
              (Event.fput q) := by
        intro e he1 he2 q
        have a1 := he1 q
        have a2 := he2 q
        by_cases hq : p = q
        · subst hq
          simp [List.count_cons, a1, a2]
        · simp [List.count_cons, a1, a2, hq]
      have nR : ∀ (v : Nat) (pos : Int) (n : Nat),
          (∀ q, Event.read v pos n ≠ Event.fget q) ∧ (∀ q, Event.read v pos n ≠ Event.fput q) :=
        fun _ _ _ => ⟨fun _ e => Event.noConfusion e, fun _ e => Event.noConfusion e⟩
      have nW : ∀ (v : Nat) (pos : Int) (n : Nat),
          (∀ q, Event.write v pos n ≠ Event.fget q) ∧ (∀ q, Event.write v pos n ≠ Event.fput q) :=
        fun _ _ _ => ⟨fun _ e => Event.noConfusion e, fun _ e => Event.noConfusion e⟩
      have nD : ∀ (v : Nat) (pos : Int),
          (∀ q, Event.readdir v pos ≠ Event.fget q) ∧ (∀ q, Event.readdir v pos ≠ Event.fput q) :=
        fun _ _ => ⟨fun _ e => Event.noConfusion e, fun _ e => Event.noConfusion e⟩
      refine ⟨?_, ?_, ?_, ?_⟩
      · intro r s1 h
        rw [do_read_run env s fd nbytes p f h0 h1 hp hf hrc] at h
        cases hvn : f.f_vnode with
        | none =>
          simp only [hvn] at h
          split_ifs at h
          exact balanced_some_settle h hf rfl c2
        | some v =>
          simp only [hvn] at h
          split_ifs at h
          · exact balanced_some_settle h hf rfl c2
          · exact balanced_some_settle h hf rfl c2
          · exact balanced_some_settle h hf rfl (c3 _ (nR _ _ _).1 (nR _ _ _).2)
      · intro r s1 h
        rw [do_write_run env s fd nbytes p f h0 h1 hp hf hrc] at h
        cases hvn : f.f_vnode with
        | none =>
          simp only [hvn] at h
          split_ifs at h
          exact balanced_some_settle h hf rfl c2
        | some v =>
          simp only [hvn] at h
          split_ifs at h
          · exact balanced_some_settle h hf rfl c2
          · exact balanced_write_tail h hf (c5 _ (nW _ _ _).1 (nW _ _ _).2)
          · exact balanced_some_settle h hf rfl c4
          · exact balanced_write_tail h hf (c3 _ (nW _ _ _).1 (nW _ _ _).2)
      · intro r s1 h
        rw [do_lseek_run s fd offset whence p f h0 h1 hp hf hrc] at h
        cases hvn : f.f_vnode with
        | none =>
          simp only [hvn] at h
          split_ifs at h <;> exact balanced_some_settle h hf rfl c2
        | some v =>
          simp only [hvn] at h
          split_ifs at h <;> exact balanced_some_settle h hf rfl c2
      · intro r s1 h
        rw [do_getdent_run env s fd p f h0 h1 hp hf hrc] at h
        cases hvn : f.f_vnode with
        | none =>
          simp only [hvn] at h
          exact Option.noConfusion h
        | some v =>
          simp only [hvn] at h
          split_ifs at h
          · exact balanced_some_settle h hf rfl c2
          · exact balanced_some_settle h hf rfl (c3 _ (nD _ _).1 (nD _ _).2)
          · exact balanced_some_settle h hf rfl (c3 _ (nD _ _).1 (nD _ _).2)

/-- Witness for `position_calls_balanced`: each of the four calls returns on a valid table
and is balanced there. -/
theorem position_calls_balanced_witness :
    (∃ r s1, do_read okEnv twoFileState 4 10 = some (r, s1) ∧ balanced twoFileState s1) ∧
    (∃ r s1, do_write okEnv twoFileState 4 10 = some (r, s1) ∧ balanced twoFileState s1) ∧
    (∃ r s1, do_lseek twoFileState 4 0 2 = some (r, s1) ∧ balanced twoFileState s1) ∧
    (∃ r s1, do_getdent okEnv twoFileState 4 = some (r, s1) ∧ balanced twoFileState s1) :=
  ⟨⟨_, _, rfl, (position_calls_balanced okEnv twoFileState 4 10 0 2 (by decide)).1 _ _ rfl⟩,
   ⟨_, _, rfl, (position_calls_balanced okEnv twoFileState 4 10 0 2 (by decide)).2.1 _ _ rfl⟩,
   ⟨_, _, rfl, (position_calls_balanced okEnv twoFileState 4 10 0 2 (by decide)).2.2.1 _ _ rfl⟩,
   ⟨_, _, rfl, (position_calls_balanced okEnv twoFileState 4 10 0 2 (by decide)).2.2.2 _ _ rfl⟩⟩

/-! ## `do_read` and `do_write` -/

/-- C11: on a valid table, `do_read` returns `-EBADF` when `fd` is out of range or its slot
is empty (state unchanged) or when the entry lacks FMODE_READ, and `-EISDIR` when the
entry is readable and its vnode is a directory; in these cases the entry, `f_pos`
included, is unchanged and the trace shows no driver call.  Otherwise the driver `read`
is called exactly once, at offset `f_pos`; its result `r` is returned and `f_pos` becomes
the `int` sum `f_pos + r` (the mathematical sum whenever representable). -/
theorem do_read_spec (env : Env) (s : Kstate) (fd : Int) (nbytes : Nat)
    (hv : valid_table s) :
    ((fd < 0 ∨ (NFILES : Int) ≤ fd ∨ s.p_files fd.toNat = none) →
      do_read env s fd nbytes = some (-EBADF, s)) ∧
    (∀ p f, 0 ≤ fd → fd < NFILES → s.p_files fd.toNat = some p → s.files p = some f →
      (band f.f_mode FMODE_READ ≠ 0x1 →
        ∃ s1, do_read env s fd nbytes = some (-EBADF, s1) ∧ s1.files p = some f ∧
          s1.trace = s.trace ++ [Event.fget p, Event.fput p]) ∧
      (∀ v, band f.f_mode FMODE_READ = 0x1 → f.f_vnode = some v →
        (S_ISDIR (s.vnodes v).vn_mode = true →
          ∃ s1, do_read env s fd nbytes = some (-EISDIR, s1) ∧ s1.files p = some f ∧
            s1.trace = s.trace ++ [Event.fget p, Event.fput p]) ∧
        (S_ISDIR (s.vnodes v).vn_mode = false →
          ∃ s1, do_read env s fd nbytes
              = some (env.read v (s.vnodes v) f.f_pos nbytes, s1) ∧
            s1.files p = some
              { f with f_pos := wrap32 (f.f_pos + env.read v (s.vnodes v) f.f_pos nbytes) } ∧
            s1.trace = s.trace ++ [Event.fget p, Event.read v f.f_pos nbytes, Event.fput p] ∧
            (int_range (f.f_pos + env.read v (s.vnodes v) f.f_pos nbytes) →
              wrap32 (f.f_pos + env.read v (s.vnodes v) f.f_pos nbytes)
                = f.f_pos + env.read v (s.vnodes v) f.f_pos nbytes)))) := by
  constructor
  · intro h
    exact (closed_fd_cases s fd h env nbytes 0 0).1
  · intro p f h0 h1 hp hf
    obtain ⟨f1, hf1, hrc1⟩ := valid_table_entry s hv fd.toNat p (fd_range h0 h1).2.2 hp
    have hff : f1 = f := by
      rw [hf] at hf1
      injection hf1 with h
      exact h.symm
    subst hff
    rw [do_read_run env s fd nbytes p f1 h0 h1 hp hf hrc1]
    constructor
    · intro hm
      rw [if_pos hm]
      exact ⟨_, rfl, by simp only [settle, Function.update_same], rfl⟩
    · intro v hm hvn
      have hm2 : ¬ (band f1.f_mode FMODE_READ ≠ 0x1) := fun h => h hm
      rw [if_neg hm2]
      simp only [hvn]
      constructor
      · intro hd
        rw [if_pos hd]
        exact ⟨_, rfl, by simp only [settle, Function.update_same], rfl⟩
      · intro hd
        have hd2 : ¬ (S_ISDIR (s.vnodes v).vn_mode = true) := by
          rw [hd]
          exact Bool.false_ne_true
        rw [if_neg hd2]
        exact ⟨_, rfl, by simp only [settle, Function.update_same], rfl,
          fun hr => wrap32_of_range _ hr⟩

/-- Witness for `do_read_spec`: reading 10 bytes from descriptor 3 of `oneFileState` with a
driver that returns 3 moves `f_pos` from 0 to 3. -/
theorem do_read_spec_witness :
    ∃ s1, do_read threeEnv oneFileState 3 10 = some (3, s1) ∧
      s1.files 7 = some ⟨1, wrap32 (0 + 3), 1, some 0⟩ ∧
      s1.trace = oneFileState.trace ++ [Event.fget 7, Event.read 0 0 10, Event.fput 7] ∧
      (int_range (0 + 3) → wrap32 (0 + 3) = 0 + 3) :=
  ((do_read_spec threeEnv oneFileState 3 10 (by decide)).2 7 ⟨1, 0, 1, some 0⟩ (by decide)
    (by decide) (by decide) (by decide)).2 0 (by decide) (by decide) |>.2 (by decide)

/-- C12: for an open `fd` whose live entry has FMODE_WRITE and FMODE_APPEND and whose
vnode `v` has a length `len` that is a non-negative `int`, `do_write` runs the driver
`write` at offset `len` whatever `f_pos` was; when the call returns (the `KASSERT` after
the write holds), it returns the driver's result `w`, the trace shows that single driver
call at offset `len`, and `f_pos` is the `int` sum `len + w` (the mathematical sum
whenever representable).  An entry without FMODE_WRITE yields `-EBADF`, the entry,
`f_pos` included, unchanged and no driver call. -/
theorem do_write_append_spec (env : Env) (s : Kstate) (fd : Int) (nbytes : Nat)
    (p v : Nat) (f : file_t) (h0 : 0 ≤ fd) (h1 : fd < NFILES)
    (hp : s.p_files fd.toNat = some p) (hf : s.files p = some f)
    (hrc : 1 ≤ f.f_refcount) (hvn : f.f_vnode = some v) :
    (band f.f_mode FMODE_WRITE = 0x2 → band f.f_mode FMODE_APPEND = 0x4 →
      0 ≤ (s.vnodes v).vn_len → (s.vnodes v).vn_len < 2147483648 →
      do_write env s fd nbytes
        = write_tail env s p f v (s.vnodes v).vn_len nbytes
            [Event.fget p, Event.fget p, Event.fput p] ∧
      ((env.write v (s.vnodes v) (s.vnodes v).vn_len nbytes).1 < 0 ∨
        S_ISCHR (env.write v (s.vnodes v) (s.vnodes v).vn_len nbytes).2.vn_mode = true ∨
        S_ISBLK (env.write v (s.vnodes v) (s.vnodes v).vn_len nbytes).2.vn_mode = true ∨
        (S_ISREG (env.write v (s.vnodes v) (s.vnodes v).vn_len nbytes).2.vn_mode = true ∧
          wrap32 ((s.vnodes v).vn_len + (env.write v (s.vnodes v) (s.vnodes v).vn_len nbytes).1)
            ≤ (env.write v (s.vnodes v) (s.vnodes v).vn_len nbytes).2.vn_len) →
        ∃ s1, do_write env s fd nbytes
            = some ((env.write v (s.vnodes v) (s.vnodes v).vn_len nbytes).1, s1) ∧
          s1.trace = s.trace ++ [Event.fget p, Event.fget p, Event.fput p,
            Event.write v (s.vnodes v).vn_len nbytes, Event.fput p] ∧
          s1.files p = some { f with f_pos := wrap32 ((s.vnodes v).vn_len +
            (env.write v (s.vnodes v) (s.vnodes v).vn_len nbytes).1) } ∧
          (int_range ((s.vnodes v).vn_len +
              (env.write v (s.vnodes v) (s.vnodes v).vn_len nbytes).1) →
            wrap32 ((s.vnodes v).vn_len +
              (env.write v (s.vnodes v) (s.vnodes v).vn_len nbytes).1)
              = (s.vnodes v).vn_len +
                (env.write v (s.vnodes v) (s.vnodes v).vn_len nbytes).1))) ∧
    (band f.f_mode FMODE_WRITE ≠ 0x2 →
      ∃ s1, do_write env s fd nbytes = some (-EBADF, s1) ∧ s1.files p = some f ∧
        s1.trace = s.trace ++ [Event.fget p, Event.fput p]) := by
  rw [do_write_run env s fd nbytes p f h0 h1 hp hf hrc]
  constructor
  · intro hw ha hl0 hl1
    have hw2 : ¬ (band f.f_mode FMODE_WRITE ≠ 0x2) := fun h => h hw
    have hz : wrap32 ((s.vnodes v).vn_len + 0) = (s.vnodes v).vn_len := by
      rw [wrap32_of_range ((s.vnodes v).vn_len + 0) ⟨by omega, by omega⟩]
      omega
    have hge : wrap32 ((s.vnodes v).vn_len + 0) ≥ 0 := by
      rw [hz]
      exact hl0
    rw [if_neg hw2]
    simp only [hvn]
    rw [if_pos ha, if_pos hge, hz]
    refine ⟨rfl, ?_⟩
    intro hk
    have hcond : ¬ ((env.write v (s.vnodes v) (s.vnodes v).vn_len nbytes).1 ≥ 0 ∧
        ¬ (S_ISCHR (env.write v (s.vnodes v) (s.vnodes v).vn_len nbytes).2.vn_mode ∨
          S_ISBLK (env.write v (s.vnodes v) (s.vnodes v).vn_len nbytes).2.vn_mode ∨
          (S_ISREG (env.write v (s.vnodes v) (s.vnodes v).vn_len nbytes).2.vn_mode ∧
            wrap32 ((s.vnodes v).vn_len +
                (env.write v (s.vnodes v) (s.vnodes v).vn_len nbytes).1)
              ≤ (env.write v (s.vnodes v) (s.vnodes v).vn_len nbytes).2.vn_len))) := by
      rintro ⟨hge0, hnot⟩
      rcases hk with hk | hk | hk | hk
      · omega
      · exact hnot (Or.inl hk)
      · exact hnot (Or.inr (Or.inl hk))
      · exact hnot (Or.inr (Or.inr hk))
    unfold write_tail
    rw [if_neg hcond]
    exact ⟨_, rfl, by simp only [settle_vn, List.cons_append, List.nil_append],
      by simp only [settle_vn, Function.update_same, hvn], fun hr => wrap32_of_range _ hr⟩
  · intro hw
    rw [if_pos hw]
    exact ⟨_, rfl, by simp only [settle, Function.update_same], rfl⟩

/-- Witness for `do_write_append_spec`: an append write of 3 bytes to a file of length 9
through a descriptor positioned at 2 is issued at offset 9 and leaves `f_pos` at 12. -/
theorem do_write_append_spec_witness :
    ∃ s1, do_write threeEnv appendState 3 10 = some (3, s1) ∧
      s1.trace = appendState.trace ++ [Event.fget 7, Event.fget 7, Event.fput 7,
        Event.write 1 9 10, Event.fput 7] ∧
      s1.files 7 = some ⟨1, wrap32 (9 + 3), 6, some 1⟩ ∧
      (int_range (9 + 3) → wrap32 (9 + 3) = 9 + 3) :=
  ((do_write_append_spec threeEnv appendState 3 10 7 1 ⟨1, 2, 6, some 1⟩ (by decide)
    (by decide) (by decide) (by decide) (by decide) (by decide)).1 (by decide) (by decide)
    (by decide) (by decide)).2 (by decide)

/-! ## `vmmap_insert` -/

/-- C19 (as stated) fails: with the single existing area `[5, 8)`, the new area `[3, 10)`
passes every assertion of `vmmap_insert`, and `[5, 8)` is the first area whose start
exceeds 3, yet the new area is placed at the tail, after it. -/
theorem vmmap_insert_overlap_goes_last :
    vmmap_insert 0 100 1 [area 5 8] (area 3 10)
      = some [area 5 8, { area 3 10 with vma_vmmap := some 1 }] ∧
    (area 5 8).vma_start > (area 3 10).vma_start := by
  refine ⟨by decide, by decide⟩

theorem vmmap_insert_loop_split (newvma : vmarea_t) (areas : List vmarea_t) :
    ∃ pre post, areas = pre ++ post ∧ vmmap_insert_loop newvma areas = pre ++ newvma :: post ∧
      (∀ a, a ∈ pre → insert_here a newvma = false) ∧
      (∀ a, post.head? = some a → insert_here a newvma = true) := by
  induction areas with
  | nil =>
    refine ⟨[], [], rfl, rfl, ?_, ?_⟩
    · intro a ha
      exact absurd ha (List.not_mem_nil a)
    · intro a ha
      exact Option.noConfusion ha
  | cons oldvma rest ih =>
    by_cases h : insert_here oldvma newvma = true
    · refine ⟨[], oldvma :: rest, rfl, ?_, ?_, ?_⟩
      · simp only [vmmap_insert_loop, h, if_true, List.nil_append]
      · intro a ha
        exact absurd ha (List.not_mem_nil a)
      · intro a ha
        simp only [List.head?_cons, Option.some.injEq] at ha
        rw [← ha]
        exact h
    · obtain ⟨pre, post, h1, h2, h3, h4⟩ := ih
      refine ⟨oldvma :: pre, post, ?_, ?_, ?_, h4⟩
      · rw [h1, List.cons_append]
      · simp only [vmmap_insert_loop, h, if_false, h2, List.cons_append]
        rfl
      · intro a ha
        rcases List.mem_cons.mp ha with ha | ha
        · rw [ha]
          simpa using h
        · exact h3 a ha

/-- C19 (amended): for every map and every new area passing the assertions of
`vmmap_insert` (no owner yet, `start < end`, inside the user range), the area gets the map
as owner and is placed immediately before the first existing area whose start and whose
end both strictly exceed those of the new area, or at the tail if there is none; the
existing areas keep their order.  When no existing area (each with `start < end`) overlaps
the new one, that is the first existing area whose start strictly exceeds the new start. -/
theorem vmmap_insert_spec (lo hi map : Nat) (areas : List vmarea_t) (newvma : vmarea_t)
    (hown : newvma.vma_vmmap = none) (hlt : newvma.vma_start < newvma.vma_end)
    (hlo : lo ≤ newvma.vma_start) (hhi : newvma.vma_end ≤ hi) :
    ∃ pre post, areas = pre ++ post ∧
      vmmap_insert lo hi map areas newvma
        = some (pre ++ { newvma with vma_vmmap := some map } :: post) ∧
      (∀ a, a ∈ pre → ¬ (a.vma_start > newvma.vma_start ∧ a.vma_end > newvma.vma_end)) ∧
      (∀ a, post.head? = some a →
        a.vma_start > newvma.vma_start ∧ a.vma_end > newvma.vma_end) ∧
      ((∀ a, a ∈ areas → a.vma_start < a.vma_end ∧
          (a.vma_end ≤ newvma.vma_start ∨ newvma.vma_end ≤ a.vma_start)) →
        (∀ a, a ∈ pre → ¬ (a.vma_start > newvma.vma_start)) ∧
        (∀ a, post.head? = some a → a.vma_start > newvma.vma_start)) := by
  obtain ⟨pre, post, h1, h2, h3, h4⟩ :=
    vmmap_insert_loop_split { newvma with vma_vmmap := some map } areas
  have hpre : ∀ a, a ∈ pre →
      ¬ (a.vma_start > newvma.vma_start ∧ a.vma_end > newvma.vma_end) := by
    intro a ha hc
    have := h3 a ha
    simp [insert_here, hc.1, hc.2] at this
  have hpost : ∀ a, post.head? = some a →
      a.vma_start > newvma.vma_start ∧ a.vma_end > newvma.vma_end := by
    intro a ha
    have := h4 a ha
    simpa [insert_here] using this
  refine ⟨pre, post, h1, ?_, hpre, hpost, ?_⟩
  · unfold vmmap_insert
    have c1 : ¬ (newvma.vma_vmmap ≠ none) := fun h => h hown
    have c2 : ¬ ¬ (newvma.vma_start < newvma.vma_end) := fun h => h hlt
    have c3 : ¬ ¬ (lo ≤ newvma.vma_start ∧ hi ≥ newvma.vma_end) := fun h => h ⟨hlo, hhi⟩
    rw [if_neg c1, if_neg c2, if_neg c3, h2]
  · intro hdis
    constructor
    · intro a ha hgt
      have hmem : a ∈ areas := by
        rw [h1]
        exact List.mem_append_left _ ha
      obtain ⟨hw, hd⟩ := hdis a hmem
      apply hpre a ha
      refine ⟨hgt, ?_⟩
      rcases hd with hd | hd <;> omega
    · intro a ha
      exact (hpost a ha).1

/-- Witness for `vmmap_insert_spec`: inserting `[5, 8)` between `[2, 4)` and `[9, 12)`. -/
theorem vmmap_insert_spec_witness :
    ∃ pre post, [area 2 4, area 9 12] = pre ++ post ∧
      vmmap_insert 0 100 1 [area 2 4, area 9 12] (area 5 8)
        = some (pre ++ { area 5 8 with vma_vmmap := some 1 } :: post) ∧
      (∀ a, a ∈ pre →
        ¬ (a.vma_start > (area 5 8).vma_start ∧ a.vma_end > (area 5 8).vma_end)) ∧
      (∀ a, post.head? = some a →
        a.vma_start > (area 5 8).vma_start ∧ a.vma_end > (area 5 8).vma_end) ∧
      ((∀ a, a ∈ [area 2 4, area 9 12] → a.vma_start < a.vma_end ∧
          (a.vma_end ≤ (area 5 8).vma_start ∨ (area 5 8).vma_end ≤ a.vma_start)) →
        (∀ a, a ∈ pre → ¬ (a.vma_start > (area 5 8).vma_start)) ∧
        (∀ a, post.head? = some a → a.vma_start > (area 5 8).vma_start)) :=
  vmmap_insert_spec 0 100 1 [area 2 4, area 9 12] (area 5 8) (by decide) (by decide)
    (by decide) (by decide)

/-! ## `vmmap_find_range` -/

theorem agrees_buf_of (l : List Char) : agrees (buf_of l) 0 l := by
  intro j
  simp only [buf_of, Nat.zero_add]

theorem agrees_head (B : Nat → Char) (i : Nat) (l : List Char) (h : agrees B i l) :
    B i = l.getD 0 NUL := by
  have := h 0
  simpa using this

theorem agrees_tail (B : Nat → Char) (i : Nat) (x : Char) (xs : List Char)
    (h : agrees B i (x :: xs)) : agrees B (i + 1) xs := by
  intro j
  have := h (j + 1)
  simp only [List.getD_cons_succ] at this
  rw [← this]
  congr 1
  omega

theorem agrees_drop (B : Nat → Char) (i : Nat) (l : List Char) (k : Nat) (h : agrees B i l) :
    agrees B (i + k) (l.drop k) := by
  intro j
  have := h (k + j)
  rw [Nat.add_assoc, this]
  simp [List.getD_eq_getElem?_getD, List.getElem?_drop]

theorem agrees_append_right (B : Nat → Char) (i : Nat) (a b : List Char)
    (h : agrees B i (a ++ b)) : agrees B (i + a.length) b := by
  have := agrees_drop B i (a ++ b) a.length h
  simpa using this

theorem scan_while_agrees (test : Char → Bool) (htest : test NUL = false) :
    ∀ (l : List Char) (fuel i : Nat) (B : Nat → Char), agrees B i l → l.length < fuel →
      scan_while test B fuel i = i + (l.takeWhile test).length := by
  intro l
  induction l with
  | nil =>
    intro fuel i B h hf
    have hB : B i = NUL := by simpa using agrees_head B i [] h
    cases fuel with
    | zero => simp at hf
    | succ fuel => simp [scan_while, hB, htest]
  | cons x xs ih =>
    intro fuel i B h hf
    have hB : B i = x := by simpa using agrees_head B i (x :: xs) h
    cases fuel with
    | zero => simp at hf
    | succ fuel =>
      by_cases hx : test x = true
      · have := ih fuel (i + 1) B (agrees_tail B i x xs h) (by simpa using hf)
        simp only [scan_while, hB, hx, if_true, this, List.takeWhile_cons, List.length_cons]
        omega
      · simp [scan_while, hB, hx, List.takeWhile_cons]

theorem strnlen_eq (B : Nat → Char) :
    ∀ (maxlen i n : Nat), (∀ j, j < n → B (i + j) ≠ NUL) → B (i + n) = NUL →
      strnlen B i maxlen = min n maxlen := by
  intro maxlen
  induction maxlen with
  | zero =>
    intro i n _ _
    simp [strnlen]
  | succ m ih =>
    intro i n h1 h2
    cases n with
    | zero =>
      have : B i = NUL := by simpa using h2
      simp [strnlen, this]
    | succ n =>
      have h0 : B i ≠ NUL := by simpa using h1 0 (Nat.succ_pos n)
      have := ih (i + 1) n
        (fun j hj => by
          have := h1 (j + 1) (by omega)
          rwa [show i + (j + 1) = i + 1 + j by omega] at this)
        (by rwa [show i + (n + 1) = i + 1 + n by omega] at h2)
      simp only [strnlen, h0, if_false, this]
      omega

theorem getD_of_lt_ne_nul (l : List Char) (hnul : ∀ c, c ∈ l → c ≠ NUL) (j : Nat)
    (hj : j < l.length) : l.getD j NUL ≠ NUL := by
  rw [List.getD_eq_getElem l NUL hj]
  exact hnul _ (List.getElem_mem hj)

theorem strnlen_agrees (B : Nat → Char) (i : Nat) (l : List Char) (maxlen : Nat)
    (h : agrees B i l) (hnul : ∀ c, c ∈ l → c ≠ NUL) :
    strnlen B i maxlen = min l.length maxlen := by
  apply strnlen_eq
  · intro j hj
    rw [h j]
    exact getD_of_lt_ne_nul l hnul j hj
  · rw [h l.length]
    simp

theorem read_name_eq (B : Nat → Char) :
    ∀ (w : List Char) (i : Nat), (∀ j, j < w.length → B (i + j) = w.getD j NUL) →
      read_name B i w.length = w := by
  intro w
  induction w with
  | nil =>
    intro i _
    rfl
  | cons x xs ih =>
    intro i h
    have h0 : B i = x := by simpa using h 0 (by simp)
    have := ih (i + 1) (fun j hj => by
      have := h (j + 1) (by simpa using hj)
      simp only [List.getD_cons_succ] at this
      rwa [show i + (j + 1) = i + 1 + j by omega] at this)
    simp only [List.length_cons, read_name, h0, this]

theorem zero_slashes_spec :
    ∀ (k fuel i : Nat) (B : Nat → Char), (∀ j, j < k → B (i + j) = '/') → B (i + k) ≠ '/' →
      k < fuel →
      zero_slashes B fuel i = (fun x => if i ≤ x ∧ x < i + k then NUL else B x, i + k) := by
  intro k
  induction k with
  | zero =>
    intro fuel i B _ h2 hf
    have h2' : B i ≠ '/' := by simpa using h2
    cases fuel with
    | zero => simp at hf
    | succ fuel =>
      simp only [zero_slashes, h2', if_false, Nat.add_zero]
      congr 1
      funext x
      have : ¬ (i ≤ x ∧ x < i) := by omega
      simp only [this, if_false]
  | succ k ih =>
    intro fuel i B h1 h2 hf
    have h0 : B i = '/' := by simpa using h1 0 (Nat.succ_pos k)
    cases fuel with
    | zero => simp at hf
    | succ fuel =>
      have hB : ∀ x, x ≠ i → Function.update B i NUL x = B x :=
        fun x hx => Function.update_noteq hx _ _
      have := ih fuel (i + 1) (Function.update B i NUL)
        (fun j hj => by
          rw [hB _ (by omega)]
          have := h1 (j + 1) (by omega)
          rwa [show i + (j + 1) = i + 1 + j by omega] at this)
        (by
          rw [hB _ (by omega)]
          rwa [show i + (k + 1) = i + 1 + k by omega] at h2)
        (by omega)
      simp only [zero_slashes, h0, if_true, this]
      refine Prod.ext ?_ (by simp only; omega)
      funext x
      simp only
      by_cases hx : x = i
      · subst hx
        have c1 : ¬ (x + 1 ≤ x ∧ x < x + 1 + k) := by omega
        have c2 : x ≤ x ∧ x < x + (k + 1) := by omega
        rw [if_neg c1, if_pos c2, Function.update_same]
      · rw [hB x hx]
        by_cases hr : i + 1 ≤ x ∧ x < i + 1 + k
        · have c2 : i ≤ x ∧ x < i + (k + 1) := by omega
          rw [if_pos hr, if_pos c2]
        · have c2 : ¬ (i ≤ x ∧ x < i + (k + 1)) := by omega
          rw [if_neg hr, if_neg c2]

theorem strip_tail_spec :
    ∀ (t e : Nat) (B : Nat → Char), (∀ j, j < t → B (e - j) = '/') → t ≤ e →
      B (e - t) ≠ '/' →
      strip_tail B e = fun x => if e - t < x ∧ x ≤ e then NUL else B x := by
  intro t
  induction t with
  | zero =>
    intro e B _ _ h3
    have h3' : B e ≠ '/' := by simpa using h3
    have hfun : (fun x => if e - 0 < x ∧ x ≤ e then NUL else B x) = B := by
      funext x
      have : ¬ (e - 0 < x ∧ x ≤ e) := by omega
      simp only [this, if_false]
    rw [hfun]
    cases e with
    | zero => simp only [strip_tail, h3', if_false]
    | succ e => simp only [strip_tail, h3', if_false]
  | succ t ih =>
    intro e B h1 h2 h3
    cases e with
    | zero => omega
    | succ e =>
      have h0 : B (e + 1) = '/' := by simpa using h1 0 (Nat.succ_pos t)
      have hB : ∀ x, x ≠ e + 1 → Function.update B (e + 1) NUL x = B x :=
        fun x hx => Function.update_noteq hx _ _
      have := ih e (Function.update B (e + 1) NUL)
        (fun j hj => by
          rw [hB _ (by omega)]
          have := h1 (j + 1) (by omega)
          rwa [show e + 1 - (j + 1) = e - j by omega] at this)
        (by omega)
        (by
          rw [hB _ (by omega)]
          rwa [show e + 1 - (t + 1) = e - t by omega] at h3)
      simp only [strip_tail, h0, if_true, this]
      funext x
      by_cases hx : x = e + 1
      · subst hx
        have c1 : ¬ (e - t < e + 1 ∧ e + 1 ≤ e) := by omega
        have c2 : e + 1 - (t + 1) < e + 1 ∧ e + 1 ≤ e + 1 := by omega
        rw [if_neg c1, if_pos c2, Function.update_same]
      · rw [hB x hx]
        by_cases hr : e - t < x ∧ x ≤ e
        · have c2 : e + 1 - (t + 1) < x ∧ x ≤ e + 1 := by omega
          rw [if_pos hr, if_pos c2]
        · have c2 : ¬ (e + 1 - (t + 1) < x ∧ x ≤ e + 1) := by omega
          rw [if_neg hr, if_neg c2]

/-! ## Components of a path -/

theorem pieces_head (l : List Char) :
    ∀ off, ∃ w rest, pieces off l = (off, w) :: rest := by
  induction l with
  | nil =>
    intro off
    exact ⟨[], [], rfl⟩
  | cons c cs ih =>
    intro off
    by_cases hc : c = '/'
    · exact ⟨[], pieces (off + 1) cs, by simp only [pieces, hc, if_true]⟩
    · obtain ⟨w, rest, h⟩ := ih (off + 1)
      exact ⟨c :: w, rest, by simp only [pieces, hc, if_false, h]⟩

theorem pieces_cons_slash (off : Nat) (cs : List Char) :
    pieces off ('/' :: cs) = (off, []) :: pieces (off + 1) cs := by
  simp only [pieces, if_true]

theorem pieces_cons_other (off : Nat) (c : Char) (cs w : List Char)
    (rest : List (Nat × List Char)) (hc : c ≠ '/')
    (h : pieces (off + 1) cs = (off + 1, w) :: rest) :
    pieces off (c :: cs) = (off, c :: w) :: rest := by
  simp only [pieces, hc, if_false, h]

theorem pieces_append_slash (l m : List Char) :
    ∀ off, pieces off (l ++ '/' :: m) = pieces off l ++ pieces (off + l.length + 1) m := by
  induction l with
  | nil =>
    intro off
    rw [List.nil_append, pieces_cons_slash]
    rfl
  | cons c cs ih =>
    intro off
    have e : off + (c :: cs).length + 1 = off + 1 + cs.length + 1 := by
      simp only [List.length_cons]
      omega
    rw [e, List.cons_append]
    by_cases hc : c = '/'
    · rw [hc, pieces_cons_slash, pieces_cons_slash, ih (off + 1), List.cons_append]
    · obtain ⟨w, rest, h⟩ := pieces_head cs (off + 1)
      have h2 : pieces (off + 1) (cs ++ '/' :: m)
          = (off + 1, w) :: (rest ++ pieces (off + 1 + cs.length + 1) m) := by
        rw [ih (off + 1), h, List.cons_append]
      rw [pieces_cons_other off c _ w _ hc h2, pieces_cons_other off c cs w rest hc h,
        List.cons_append]

theorem pieces_no_slash (w : List Char) (h : ∀ c, c ∈ w → c ≠ '/') :
    ∀ off, pieces off w = [(off, w)] := by
  induction w with
  | nil =>
    intro off
    rfl
  | cons c cs ih =>
    intro off
    have hc : c ≠ '/' := h c (List.mem_cons_self c cs)
    have := ih (fun x hx => h x (List.mem_cons_of_mem c hx)) (off + 1)
    simp only [pieces, hc, if_false, this]

theorem components_from_nil (off : Nat) : components_from off [] = [] := by
  simp [components_from, pieces]

theorem components_from_word (w : List Char) (hne : w ≠ []) (h : ∀ c, c ∈ w → c ≠ '/')
    (off : Nat) : components_from off w = [(off, w)] := by
  unfold components_from
  rw [pieces_no_slash w h off]
  cases w with
  | nil => exact absurd rfl hne
  | cons c cs => simp

theorem components_from_append_slash (l m : List Char) (off : Nat) :
    components_from off (l ++ '/' :: m)
      = components_from off l ++ components_from (off + l.length + 1) m := by
  unfold components_from
  rw [pieces_append_slash, List.filter_append]

theorem components_from_slashes (sl : List Char) (h : ∀ c, c ∈ sl → c = '/')
    (l : List Char) :
    ∀ off, components_from off (sl ++ l) = components_from (off + sl.length) l := by
  induction sl with
  | nil =>
    intro off
    simp
  | cons c cs ih =>
    intro off
    have hc : c = '/' := h c (List.mem_cons_self c cs)
    have := components_from_append_slash [] (cs ++ l) off
    simp only [List.nil_append, components_from_nil, List.length_nil, Nat.add_zero] at this
    rw [hc, List.cons_append, this, ih (fun x hx => h x (List.mem_cons_of_mem c hx)) (off + 1)]
    congr 1
    simp only [List.length_cons]
    omega

theorem components_from_all_slashes (sl : List Char) (h : ∀ c, c ∈ sl → c = '/')
    (off : Nat) : components_from off sl = [] := by
  have := components_from_slashes sl h [] off
  rw [List.append_nil] at this
  rw [this, components_from_nil]

theorem components_from_trailing (l sl : List Char) (h : ∀ c, c ∈ sl → c = '/')
    (off : Nat) : components_from off (l ++ sl) = components_from off l := by
  cases sl with
  | nil => simp
  | cons c cs =>
    have hc : c = '/' := h c (List.mem_cons_self c cs)
    rw [hc, components_from_append_slash,
      components_from_all_slashes cs (fun x hx => h x (List.mem_cons_of_mem c hx)),
      List.append_nil]

theorem components_from_step (w sl r : List Char) (hne : w ≠ [])
    (hw : ∀ c, c ∈ w → c ≠ '/') (hsl : ∀ c, c ∈ sl → c = '/') (hsl0 : sl ≠ []) (off : Nat) :
    components_from off (w ++ sl ++ r)
      = (off, w) :: components_from (off + w.length + sl.length) r := by
  cases sl with
  | nil => exact absurd rfl hsl0
  | cons c cs =>
    have hc : c = '/' := hsl c (List.mem_cons_self c cs)
    rw [hc, List.append_assoc, List.cons_append, components_from_append_slash,
      components_from_word w hne hw,
      components_from_slashes cs (fun x hx => hsl x (List.mem_cons_of_mem c hx))]
    simp only [List.singleton_append, List.length_cons]
    congr 2
    omega

theorem components_from_ne_nil (r : List Char) (hne : r ≠ [])
    (hhead : ∀ c, r.head? = some c → c ≠ '/') (off : Nat) :
    ∃ c cs, components_from off r = c :: cs := by
  cases r with
  | nil => exact absurd rfl hne
  | cons x xs =>
    have hx : x ≠ '/' := hhead x rfl
    obtain ⟨w, rest, h⟩ := pieces_head xs (off + 1)
    refine ⟨(off, x :: w), rest.filter (fun x => !x.2.isEmpty), ?_⟩
    simp [components_from, pieces, hx, h]

theorem in_name_iff (c : Char) : in_name c = true ↔ c ≠ '/' ∧ c ≠ NUL := by
  simp [in_name]

theorem split_component (r : List Char) (hnul : ∀ c, c ∈ r → c ≠ NUL)
    (hhead : ∀ c, r.head? = some c → c ≠ '/') (hne : r ≠ [])
    (hlast : ∀ c, r.getLast? = some c → c ≠ '/') :
    ∃ w, w ≠ [] ∧ (∀ c, c ∈ w → c ≠ '/') ∧ r.takeWhile in_name = w ∧
      (r = w ∨ ∃ sl r1, r = w ++ sl ++ r1 ∧ sl ≠ [] ∧ (∀ c, c ∈ sl → c = '/') ∧ r1 ≠ [] ∧
        (∀ c, r1.head? = some c → c ≠ '/') ∧ (∀ c, r1.getLast? = some c → c ≠ '/') ∧
        (∀ c, c ∈ r1 → c ≠ NUL)) := by
  have hsplit := List.takeWhile_append_dropWhile in_name r
  refine ⟨r.takeWhile in_name, ?_, ?_, rfl, ?_⟩
  · cases r with
    | nil => exact absurd rfl hne
    | cons x xs =>
      have hx : in_name x = true :=
        (in_name_iff x).mpr ⟨hhead x rfl, hnul x (List.mem_cons_self x xs)⟩
      simp [List.takeWhile_cons, hx]
  · intro c hc
    exact ((in_name_iff c).mp (List.mem_takeWhile_imp hc)).1
  · cases hrest : r.dropWhile in_name with
    | nil =>
      left
      rw [hrest, List.append_nil] at hsplit
      exact hsplit.symm
    | cons x rest0 =>
      right
      have hsl := List.takeWhile_append_dropWhile (fun c => decide (c = '/')) (x :: rest0)
      have hmem : ∀ c, c ∈ x :: rest0 → c ∈ r := by
        intro c hc
        rw [← hsplit, hrest]
        exact List.mem_append_right _ hc
      have hx : x = '/' := by
        have h1 := List.head?_dropWhile_not in_name r
        rw [hrest] at h1
        simp only [List.head?_cons, Option.all_some, Bool.not_eq_eq_eq_not,
          Bool.not_true] at h1
        by_contra hx
        have : in_name x = true :=
          (in_name_iff x).mpr ⟨hx, hnul x (hmem x (List.mem_cons_self x rest0))⟩
        rw [this] at h1
        exact Bool.noConfusion h1
      have hr : r = r.takeWhile in_name ++ (x :: rest0).takeWhile (fun c => decide (c = '/'))
          ++ (x :: rest0).dropWhile (fun c => decide (c = '/')) := by
        rw [List.append_assoc, hsl, ← hrest, hsplit]
      refine ⟨(x :: rest0).takeWhile (fun c => decide (c = '/')),
        (x :: rest0).dropWhile (fun c => decide (c = '/')), hr, ?_, ?_, ?_, ?_, ?_, ?_⟩
      · simp [List.takeWhile_cons, hx]
      · intro c hc
        simpa using List.mem_takeWhile_imp hc
      · intro hnil
        rw [hnil, List.append_nil] at hr
        have hall : ∀ c, c ∈ (x :: rest0).takeWhile (fun c => decide (c = '/')) → c = '/' := by
          intro c hc
          simpa using List.mem_takeWhile_imp hc
        have hne2 : (x :: rest0).takeWhile (fun c => decide (c = '/')) ≠ [] := by
          simp [List.takeWhile_cons, hx]
        obtain ⟨z, hz⟩ := Option.ne_none_iff_exists'.mp
          (fun h => hne2 (List.getLast?_eq_none_iff.mp h))
        have hzmem := List.mem_of_getLast?_eq_some hz
        have hlast2 : r.getLast? = some z := by
          rw [hr, List.getLast?_append_of_ne_nil _ hne2, hz]
        exact hlast z hlast2 (hall z hzmem)
      · intro c hc
        have h1 := List.head?_dropWhile_not (fun c => decide (c = '/')) (x :: rest0)
        rw [hc] at h1
        simpa using h1
      · intro c hc
        by_cases hnil : (x :: rest0).dropWhile (fun c => decide (c = '/')) = []
        · rw [hnil] at hc
          exact Option.noConfusion hc
        · apply hlast c
          rw [hr, List.getLast?_append_of_ne_nil _ hnil, hc]
      · intro c hc
        apply hnul c
        apply hmem c
        rw [← hsl]
        exact List.mem_append_right _ hc

/-! ## The component loop of `dir_namev` against `walk` -/

theorem getD_all_slashes (sl : List Char) (h : ∀ c, c ∈ sl → c = '/') (j : Nat)
    (hj : j < sl.length) : sl.getD j NUL = '/' := by
  rw [List.getD_eq_getElem sl NUL hj]
  exact h _ (List.getElem_mem hj)

theorem getD_zero_of_head (r : List Char) (hne : r ≠ [])
    (hhead : ∀ c, r.head? = some c → c ≠ '/') : r.getD 0 NUL ≠ '/' := by
  cases r with
  | nil => exact absurd rfl hne
  | cons x xs => exact hhead x rfl

theorem slash_ne_nul : ('/' : Char) ≠ NUL := by decide

theorem walk_last (L : Limits) (fs : FsOps) (s : Vfs) (dir : Nat) (held : Bool) (off : Nat)
    (w : List Char) :
    walk L fs s dir held [(off, w)] =
      if w.length > L.NAME_LEN then
        some (-ENAMETOOLONG, none, vput (if held then s else vref s dir) dir)
      else some (0, some ⟨dir, some off, w.length⟩, if held then s else vref s dir) := by
  simp only [walk]

theorem walk_cons (L : Limits) (fs : FsOps) (s : Vfs) (dir : Nat) (held : Bool) (off : Nat)
    (w : List Char) (c : Nat × List Char) (cs : List (Nat × List Char)) :
    walk L fs s dir held ((off, w) :: c :: cs) =
      if w.length > L.NAME_LEN then some (-ENAMETOOLONG, none, s)
      else
        if (lookup fs s dir w none).1 ≠ 0 then
          some ((lookup fs s dir w none).1, none,
            if held then vput (lookup fs s dir w none).2.2 dir
            else (lookup fs s dir w none).2.2)
        else
          match (lookup fs s dir w none).2.1 with
          | none => none
          | some next =>
            walk L fs (if held then vput (lookup fs s dir w none).2.2 dir
              else (lookup fs s dir w none).2.2) next true (c :: cs) := by
  simp only [walk]

theorem dir_namev_loop_walk (L : Limits) (fs : FsOps) :
    ∀ (fuel : Nat) (r : List Char) (cur : Nat) (B : Nat → Char) (base : Nat) (nd : Bool)
      (s : Vfs), agrees B cur r → (∀ c, c ∈ r → c ≠ NUL) →
      (∀ c, r.head? = some c → c ≠ '/') → r ≠ [] →
      (∀ c, r.getLast? = some c → c ≠ '/') → r.length < fuel →
      cur + r.length ≤ L.MAXPATHLEN →
      (dir_namev_loop L fs fuel B cur (cur + (r.takeWhile in_name).length) base nd (!nd)
        s).map (dir_namev_tail L) = walk L fs s base nd (components_from cur r) := by
  intro fuel
  induction fuel with
  | zero =>
    intro r cur B base nd s _ _ _ _ _ hf _
    simp at hf
  | succ fuel ih =>
    intro r cur B base nd s hag hnul hhead hne hlast hf hmax
    obtain ⟨w, hwne, hw, htw, hcase⟩ := split_component r hnul hhead hne hlast
    rw [htw]
    rcases hcase with hrw | ⟨sl, r1, hr, hslne, hsl, hr1ne, hr1head, hr1last, hr1nul⟩
    · -- the last component
      subst hrw
      have hend : B (cur + r.length) = NUL := by
        rw [hag r.length]
        simp
      have hlen := strnlen_agrees B cur r (L.NAME_LEN + 1) hag hnul
      rw [components_from_word r hne hw, walk_last]
      simp only [dir_namev_loop, hend, if_true, Option.map_some', dir_namev_tail, hlen]
      by_cases hlong : r.length > L.NAME_LEN
      · have h1 : min r.length (L.NAME_LEN + 1) > L.NAME_LEN := by omega
        rw [if_pos h1, if_pos hlong]
        cases nd <;> rfl
      · have h1 : ¬ min r.length (L.NAME_LEN + 1) > L.NAME_LEN := by omega
        have h2 : min r.length (L.NAME_LEN + 1) = r.length := by omega
        rw [if_neg h1, if_neg hlong, h2]
        cases nd <;> rfl
    · -- an intermediate component
      have hlenr : r.length = w.length + sl.length + r1.length := by
        rw [hr]
        simp only [List.length_append]
      have hk : 0 < sl.length := List.length_pos.mpr hslne
      have hBw : ∀ j, j < w.length → B (cur + j) = w.getD j NUL := by
        intro j hj
        rw [hag j, hr, List.append_assoc, List.getD_append _ _ _ _ hj]
      have hBsl : ∀ j, j < sl.length → B (cur + w.length + j) = '/' := by
        intro j hj
        rw [Nat.add_assoc, hag (w.length + j), hr, List.append_assoc,
          List.getD_append_right _ _ _ _ (by omega),
          List.getD_append _ _ _ _ (by omega)]
        rw [show w.length + j - w.length = j by omega]
        exact getD_all_slashes sl hsl j hj
      have hBr1 : ∀ j, B (cur + w.length + sl.length + j) = r1.getD j NUL := by
        intro j
        rw [show cur + w.length + sl.length + j = cur + (w.length + sl.length + j) by omega,
          hag, hr, List.getD_append_right _ _ _ _ (by simp only [List.length_append]; omega)]
        congr 1
        simp only [List.length_append]
        omega
      have hnext : B (cur + w.length) ≠ NUL := by
        have := hBsl 0 hk
        rw [Nat.add_zero] at this
        rw [this]
        exact slash_ne_nul
      have hz := zero_slashes_spec sl.length (L.MAXPATHLEN + 1) (cur + w.length) B hBsl
        (by
          have h0 := hBr1 0
          rw [Nat.add_zero] at h0
          rw [h0]
          exact getD_zero_of_head r1 hr1ne hr1head)
        (by omega)
      have hB1w : ∀ j, j < w.length →
          (zero_slashes B (L.MAXPATHLEN + 1) (cur + w.length)).1 (cur + j) = w.getD j NUL := by
        intro j hj
        rw [hz]
        have c : ¬ (cur + w.length ≤ cur + j ∧ cur + j < cur + w.length + sl.length) := by
          omega
        simp only
        rw [if_neg c]
        exact hBw j hj
      have hB1end : (zero_slashes B (L.MAXPATHLEN + 1) (cur + w.length)).1 (cur + w.length)
          = NUL := by
        rw [hz]
        have c : cur + w.length ≤ cur + w.length ∧
            cur + w.length < cur + w.length + sl.length := by omega
        simp only
        rw [if_pos c]
      have hB1r1 : agrees (zero_slashes B (L.MAXPATHLEN + 1) (cur + w.length)).1
          (cur + w.length + sl.length) r1 := by
        intro j
        rw [hz]
        have c : ¬ (cur + w.length ≤ cur + w.length + sl.length + j ∧
            cur + w.length + sl.length + j < cur + w.length + sl.length) := by omega
        simp only
        rw [if_neg c]
        exact hBr1 j
      have hz2 : (zero_slashes B (L.MAXPATHLEN + 1) (cur + w.length)).2
          = cur + w.length + sl.length := by
        rw [hz]
      have hlen : strnlen (zero_slashes B (L.MAXPATHLEN + 1) (cur + w.length)).1 cur
          (L.NAME_LEN + 1) = min w.length (L.NAME_LEN + 1) :=
        strnlen_eq _ (L.NAME_LEN + 1) cur w.length
          (fun j hj => by
            rw [hB1w j hj]
            exact getD_of_lt_ne_nul w
              (fun c hc => hnul c (by
                rw [hr]
                exact List.mem_append_left _ (List.mem_append_left _ hc))) j hj)
          hB1end
      obtain ⟨c0, cs0, hcs⟩ := components_from_ne_nil r1 hr1ne hr1head
        (cur + w.length + sl.length)
      have hcomp : components_from cur r = (cur, w) :: c0 :: cs0 := by
        rw [hr, components_from_step w sl r1 hwne hw hsl hslne cur, hcs]
      have hscan := scan_while_agrees in_name (by decide) r1 (L.MAXPATHLEN + 1)
        (cur + w.length + sl.length)
        (zero_slashes B (L.MAXPATHLEN + 1) (cur + w.length)).1 hB1r1 (by omega)
      rw [hcomp, walk_cons]
      simp only [dir_namev_loop, hnext, if_false, hlen]
      by_cases hlong : w.length > L.NAME_LEN
      · have h1 : min w.length (L.NAME_LEN + 1) > L.NAME_LEN := by omega
        rw [if_pos h1, if_pos hlong]
        rfl
      · have h1 : ¬ min w.length (L.NAME_LEN + 1) > L.NAME_LEN := by omega
        have h2 : min w.length (L.NAME_LEN + 1) = w.length := by omega
        rw [if_neg h1, if_neg hlong, h2, read_name_eq _ w cur hB1w]
        by_cases hret : (lookup fs s base w none).1 ≠ 0
        · rw [if_pos hret, if_pos hret]
          cases nd <;> rfl
        · rw [if_neg hret, if_neg hret]
          cases hnb : (lookup fs s base w none).2.1 with
          | none => rfl
          | some nb =>
            simp only
            rw [hz2, hscan, ← hcs]
            have := ih r1 (cur + w.length + sl.length)
              (zero_slashes B (L.MAXPATHLEN + 1) (cur + w.length)).1 nb true
              (if nd = true then vput (lookup fs s base w none).2.2 base
                else (lookup fs s base w none).2.2)
              hB1r1 hr1nul hr1head hr1ne hr1last (by omega) (by omega)
            simpa using this

/-! ## `dir_namev` against `walk` -/

theorem all_slashes_loop_true :
    ∀ (sl : List Char) (fuel i : Nat) (B : Nat → Char), agrees B i sl →
      (∀ c, c ∈ sl → c = '/') → all_slashes_loop B fuel i = true := by
  intro sl
  induction sl with
  | nil =>
    intro fuel i B h _
    have hB : B i = NUL := by simpa using agrees_head B i [] h
    cases fuel with
    | zero => rfl
    | succ fuel => simp only [all_slashes_loop, hB, if_true]
  | cons x xs ih =>
    intro fuel i B h hall
    have hB : B i = '/' := by
      have := agrees_head B i (x :: xs) h
      rw [this]
      exact hall x (List.mem_cons_self x xs)
    cases fuel with
    | zero => rfl
    | succ fuel =>
      have := ih fuel (i + 1) B (agrees_tail B i x xs h)
        (fun c hc => hall c (List.mem_cons_of_mem x hc))
      simp only [all_slashes_loop, hB, slash_ne_nul, if_false, ne_eq, not_true_eq_false, this]

theorem all_slashes_loop_false :
    ∀ (sl : List Char) (x : Char) (m : List Char) (fuel i : Nat) (B : Nat → Char),
      agrees B i (sl ++ x :: m) → (∀ c, c ∈ sl → c = '/') → x ≠ '/' → x ≠ NUL →
      sl.length < fuel → all_slashes_loop B fuel i = false := by
  intro sl
  induction sl with
  | nil =>
    intro x m fuel i B h _ hx hxn hf
    have hB : B i = x := by simpa using agrees_head B i (x :: m) h
    cases fuel with
    | zero => simp at hf
    | succ fuel => simp only [all_slashes_loop, hB, hxn, if_false, ne_eq, hx,
        not_false_eq_true, if_true]
  | cons y ys ih =>
    intro x m fuel i B h hall hx hxn hf
    have hB : B i = '/' := by
      have := agrees_head B i (y :: ys ++ x :: m) h
      rw [this]
      exact hall y (List.mem_cons_self y ys)
    cases fuel with
    | zero => simp at hf
    | succ fuel =>
      have := ih x m fuel (i + 1) B (agrees_tail B i y (ys ++ x :: m) h)
        (fun c hc => hall c (List.mem_cons_of_mem y hc)) hx hxn (by simpa using hf)
      simp only [all_slashes_loop, hB, slash_ne_nul, if_false, ne_eq, not_true_eq_false, this]

theorem strip_trailing (q : List Char) :
    q ≠ [] → (∀ c, q.head? = some c → c ≠ '/') →
    ∃ r trail, q = r ++ trail ∧ (∀ c, c ∈ trail → c = '/') ∧ r ≠ [] ∧
      (∀ c, r.head? = some c → c ≠ '/') ∧ (∀ c, r.getLast? = some c → c ≠ '/') := by
  induction q using List.reverseRecOn with
  | nil =>
    intro h _
    exact absurd rfl h
  | append_singleton q0 z ih =>
    intro _ hhead
    by_cases hz : z = '/'
    · have hq0 : q0 ≠ [] := by
        intro h0
        rw [h0] at hhead
        exact hhead z rfl hz
      have hh : ∀ c, q0.head? = some c → c ≠ '/' := by
        intro c hc
        apply hhead c
        rw [List.head?_append_of_ne_nil _ hq0, hc]
      obtain ⟨r, trail, h1, h2, h3, h4, h5⟩ := ih hq0 hh
      refine ⟨r, trail ++ [z], ?_, ?_, h3, h4, h5⟩
      · rw [h1, List.append_assoc]
      · intro c hc
        rcases List.mem_append.mp hc with hc | hc
        · exact h2 c hc
        · rw [List.mem_singleton.mp hc]
          exact hz
    · refine ⟨q0 ++ [z], [], (List.append_nil _).symm, ?_, ?_, hhead, ?_⟩
      · intro c hc
        exact absurd hc (List.not_mem_nil c)
      · simp
      · intro c hc
        rw [List.getLast?_concat] at hc
        injection hc with hc
        rw [← hc]
        exact hz

theorem path_shape (p : List Char) (hns : ∃ c, c ∈ p ∧ c ≠ '/') :
    ∃ r trail, p = p.takeWhile (fun c => decide (c = '/')) ++ r ++ trail ∧
      (∀ c, c ∈ trail → c = '/') ∧ r ≠ [] ∧ (∀ c, r.head? = some c → c ≠ '/') ∧
      (∀ c, r.getLast? = some c → c ≠ '/') := by
  have hsplit := List.takeWhile_append_dropWhile (fun c => decide (c = '/')) p
  have hq : p.dropWhile (fun c => decide (c = '/')) ≠ [] := by
    intro h
    obtain ⟨c, hc, hcs⟩ := hns
    have := (List.dropWhile_eq_nil_iff.mp h) c hc
    exact hcs (by simpa using this)
  have hh : ∀ c, (p.dropWhile (fun c => decide (c = '/'))).head? = some c → c ≠ '/' := by
    intro c hc
    have h1 := List.head?_dropWhile_not (fun c => decide (c = '/')) p
    rw [hc] at h1
    simpa using h1
  obtain ⟨r, trail, h1, h2, h3, h4, h5⟩ := strip_trailing _ hq hh
  refine ⟨r, trail, ?_, h2, h3, h4, h5⟩
  rw [List.append_assoc, ← h1, hsplit]

theorem getD_last (r : List Char) (hne : r ≠ []) (hlast : ∀ c, r.getLast? = some c → c ≠ '/') :
    r.getD (r.length - 1) NUL ≠ '/' := by
  have hpos : 0 < r.length := List.length_pos.mpr hne
  have h1 : r.getLast? = some (r.getD (r.length - 1) NUL) := by
    rw [List.getLast?_eq_getElem?, List.getD_eq_getElem r NUL (by omega),
      List.getElem?_eq_getElem (by omega)]
  exact hlast _ h1

theorem buf_of_beyond (p : List Char) (x : Nat) (h : p.length ≤ x) : buf_of p x = NUL :=
  List.getD_eq_default p NUL h

theorem takeWhile_lead (lead r rest : List Char) (hlead : ∀ c, c ∈ lead → c = '/')
    (hrne : r ≠ []) (hrhead : ∀ c, r.head? = some c → c ≠ '/') :
    (lead ++ r ++ rest).takeWhile (fun c => decide (c = '/')) = lead := by
  cases r with
  | nil => exact absurd rfl hrne
  | cons x xs =>
    have hx : x ≠ '/' := hrhead x rfl
    rw [List.append_assoc, List.takeWhile_append_of_pos (by simpa using hlead)]
    simp [List.takeWhile_cons, hx]

/-- On a path made of leading slashes, a part `r` that neither starts nor ends with a
slash, and trailing slashes, `dir_namev` is the walk over the components of `r`. -/
theorem dir_namev_shape (L : Limits) (fs : FsOps) (s : Vfs) (p lead r trail : List Char)
    (base : Option Nat) (hp : p = lead ++ r ++ trail) (hnul : ∀ c, c ∈ p → c ≠ NUL)
    (hlen : p.length ≤ L.MAXPATHLEN) (hlead : ∀ c, c ∈ lead → c = '/')
    (htrail : ∀ c, c ∈ trail → c = '/') (hrne : r ≠ [])
    (hrhead : ∀ c, r.head? = some c → c ≠ '/')
    (hrlast : ∀ c, r.getLast? = some c → c ≠ '/') :
    dir_namev L fs s p base
      = walk L fs s (start_vnode s p base) false (components_from lead.length r) := by
  have htw : p.takeWhile (fun c => decide (c = '/')) = lead := by
    rw [hp]
    exact takeWhile_lead lead r trail hlead hrne hrhead
  have hplen : p.length
      = lead.length + r.length + trail.length := by
    conv_lhs => rw [hp]
    simp only [List.length_append]
  have hrpos : 0 < r.length := List.length_pos.mpr hrne
  have hpos : 0 < p.length := by omega
  have hbuf : ∀ x, buf_of p x = (lead ++ r ++ trail).getD x NUL := by
    intro x
    rw [← hp]
    rfl
  have hrnul : ∀ c, c ∈ r → c ≠ NUL := by
    intro c hc
    apply hnul c
    rw [hp]
    exact List.mem_append_left _ (List.mem_append_right _ hc)
  -- the length and the copy
  have hslen : strnlen (buf_of p) 0 (L.MAXPATHLEN + 1) = p.length := by
    rw [strnlen_agrees (buf_of p) 0 p (L.MAXPATHLEN + 1) (agrees_buf_of p) hnul]
    omega
  have hcopy : (fun i => if i < p.length then buf_of p i else NUL) = buf_of p := by
    funext i
    by_cases hi : i < p.length
    · rw [if_pos hi]
    · rw [if_neg hi, buf_of_beyond p i (by omega)]
  -- the start vnode
  have hstart : (if buf_of p 0 = '/' then s.vfs_root_vn
      else
        match base with
        | some b => b
        | none => s.p_cwd) = start_vnode s p base := by
    unfold start_vnode
    cases p with
    | nil => simp at hpos
    | cons x xs =>
      have : buf_of (x :: xs) 0 = x := rfl
      rw [this]
      simp only [List.head?_cons, Option.some.injEq]
  -- not only slashes
  have hnotall : all_slashes_loop (buf_of p) (L.MAXPATHLEN + 1) 0 = false := by
    cases r with
    | nil => exact absurd rfl hrne
    | cons x xs =>
      have hx : x ≠ '/' := hrhead x rfl
      have hxn : x ≠ NUL := hrnul x (List.mem_cons_self x xs)
      have hag : agrees (buf_of p) 0
          (lead ++ x :: (xs ++ trail)) := by
        have e : p = lead ++ x :: (xs ++ trail) := by
          rw [hp, List.append_assoc, List.cons_append]
        intro j
        rw [agrees_buf_of p j]
        exact congrArg (fun l => l.getD j NUL) e
      exact all_slashes_loop_false _ x (xs ++ trail) (L.MAXPATHLEN + 1) 0 (buf_of p) hag
        hlead hx hxn (by omega)
  -- the first component starts after the leading slashes
  have hcur : scan_while (fun c => decide (c = '/')) (buf_of p) (L.MAXPATHLEN + 1) 0
      = lead.length := by
    rw [scan_while_agrees (fun c => decide (c = '/')) (by decide) p (L.MAXPATHLEN + 1) 0
      (buf_of p) (agrees_buf_of p) (by omega), htw]
    omega
  -- the buffer without its trailing slashes
  have hstrip : strip_tail (buf_of p) (p.length - 1)
      = fun x => if p.length - 1 - trail.length < x ∧ x ≤ p.length - 1 then NUL
          else buf_of p x := by
    apply strip_tail_spec
    · intro j hj
      have : buf_of p (p.length - 1 - j) = trail.getD (trail.length - 1 - j) NUL := by
        rw [hbuf, List.getD_append_right _ _ _ _ (by simp only [List.length_append]; omega)]
        congr 1
        simp only [List.length_append]
        omega
      rw [this]
      exact getD_all_slashes trail htrail _ (by omega)
    · omega
    · have : buf_of p (p.length - 1 - trail.length) = r.getD (r.length - 1) NUL := by
        rw [hbuf, List.getD_append _ _ _ _ (by simp only [List.length_append]; omega),
          List.getD_append_right _ _ _ _ (by omega)]
        congr 1
        omega
      rw [this]
      exact getD_last r hrne hrlast
  have hag : agrees (strip_tail (buf_of p) (p.length - 1))
      lead.length r := by
    intro j
    rw [hstrip]
    simp only
    by_cases hj : j < r.length
    · have c : ¬ (p.length - 1 - trail.length
            < lead.length + j ∧
          lead.length + j ≤ p.length - 1) := by omega
      rw [if_neg c]
      rw [hbuf, List.getD_append _ _ _ _ (by simp only [List.length_append]; omega),
        List.getD_append_right _ _ _ _ (by omega)]
      congr 1
      omega
    · rw [List.getD_eq_default r NUL (by omega)]
      by_cases hx : lead.length + j ≤ p.length - 1
      · have c : p.length - 1 - trail.length
            < lead.length + j ∧
          lead.length + j ≤ p.length - 1 := by omega
        rw [if_pos c]
      · have c : ¬ (p.length - 1 - trail.length
            < lead.length + j ∧
          lead.length + j ≤ p.length - 1) := by omega
        rw [if_neg c]
        exact buf_of_beyond p _ (by omega)
  have hnext := scan_while_agrees in_name (by decide) r (L.MAXPATHLEN + 1)
    lead.length
    (strip_tail (buf_of p) (p.length - 1)) hag (by omega)
  have hloop := dir_namev_loop_walk L fs (L.MAXPATHLEN + 1) r
    lead.length (strip_tail (buf_of p) (p.length - 1))
    (start_vnode s p base) false s hag hrnul hrhead hrne hrlast (by omega) (by omega)
  have hrange : ¬ (p.length > L.MAXPATHLEN ∨ p.length ≤ 0) := by omega
  unfold dir_namev
  simp only [hslen, hcopy, hnotall, hcur, hnext]
  rw [if_neg hrange, if_pos hpos, hstart, ← hloop]
  rfl

/-- On a path with a character other than `'/'`, without `'\0'` and of length at most
`MAXPATHLEN`, `dir_namev` is the walk over the components of the path. -/
theorem dir_namev_refines (L : Limits) (fs : FsOps) (s : Vfs) (p : List Char)
    (base : Option Nat) (hnul : ∀ c, c ∈ p → c ≠ NUL) (hlen : p.length ≤ L.MAXPATHLEN)
    (hns : ∃ c, c ∈ p ∧ c ≠ '/') :
    dir_namev L fs s p base = walk L fs s (start_vnode s p base) false (components p) := by
  obtain ⟨r, trail, hp, htrail, hrne, hrhead, hrlast⟩ := path_shape p hns
  have hlead : ∀ c, c ∈ p.takeWhile (fun c => decide (c = '/')) → c = '/' := by
    intro c hc
    simpa using List.mem_takeWhile_imp hc
  have hcomps : components p
      = components_from (p.takeWhile (fun c => decide (c = '/'))).length r := by
    unfold components
    have e : components_from 0 p
        = components_from 0 (p.takeWhile (fun c => decide (c = '/')) ++ r ++ trail) :=
      congrArg (components_from 0) hp
    rw [e, List.append_assoc, components_from_slashes _ hlead, Nat.zero_add,
      components_from_trailing r trail htrail]
  rw [hcomps]
  exact dir_namev_shape L fs s p _ r trail base hp hnul hlen hlead htrail hrne hrhead hrlast

/-! ## `dir_namev` on paths without a component -/

theorem dir_namev_strnlen (L : Limits) (p : List Char) (hnul : ∀ c, c ∈ p → c ≠ NUL) :
    strnlen (buf_of p) 0 (L.MAXPATHLEN + 1) = min p.length (L.MAXPATHLEN + 1) :=
  strnlen_agrees (buf_of p) 0 p (L.MAXPATHLEN + 1) (agrees_buf_of p) hnul

/-- A path longer than `MAXPATHLEN`, or empty, is rejected with `-EINVAL` and the state is
untouched. -/
theorem dir_namev_bad_length (L : Limits) (fs : FsOps) (s : Vfs) (p : List Char)
    (base : Option Nat) (hnul : ∀ c, c ∈ p → c ≠ NUL)
    (h : L.MAXPATHLEN < p.length ∨ p.length = 0) :
    dir_namev L fs s p base = some (-EINVAL, none, s) := by
  unfold dir_namev
  simp only [dir_namev_strnlen L p hnul]
  rw [if_pos]
  rcases h with h | h
  · left
    rw [Nat.min_def]
    split <;> omega
  · right
    rw [Nat.min_def]
    split <;> omega

theorem all_slashes_no_nul (p : List Char) (hall : ∀ c, c ∈ p → c = '/') :
    ∀ c, c ∈ p → c ≠ NUL := by
  intro c hc
  rw [hall c hc]
  exact slash_ne_nul

/-- A non-empty path of slashes only, of length at most `MAXPATHLEN`, yields the root with
`name = NULL` and `namelen = 0`; the only change to the state is one `vref` of the root. -/
theorem dir_namev_all_slashes (L : Limits) (fs : FsOps) (s : Vfs) (p : List Char)
    (base : Option Nat) (hpos : 0 < p.length) (hlen : p.length ≤ L.MAXPATHLEN)
    (hall : ∀ c, c ∈ p → c = '/') :
    dir_namev L fs s p base
      = some (0, some ⟨s.vfs_root_vn, none, 0⟩, vref s s.vfs_root_vn) := by
  have hslen : strnlen (buf_of p) 0 (L.MAXPATHLEN + 1) = p.length := by
    rw [dir_namev_strnlen L p (all_slashes_no_nul p hall)]
    omega
  have hcopy : (fun i => if i < p.length then buf_of p i else NUL) = buf_of p := by
    funext i
    by_cases hi : i < p.length
    · rw [if_pos hi]
    · rw [if_neg hi, buf_of_beyond p i (by omega)]
  have hloop := all_slashes_loop_true p (L.MAXPATHLEN + 1) 0 (buf_of p) (agrees_buf_of p) hall
  have hrange : ¬ (p.length > L.MAXPATHLEN ∨ p.length ≤ 0) := by omega
  unfold dir_namev
  simp only [hslen, hcopy, hloop]
  rw [if_neg hrange]
  rfl

/-! ## Components and the characters of the path -/

theorem pieces_mem (l : List Char) :
    ∀ (k off : Nat) (w : List Char), (off, w) ∈ pieces k l →
      k ≤ off ∧ w <+: l.drop (off - k) ∧ (∀ c, c ∈ w → c ∈ l ∧ c ≠ '/') := by
  induction l with
  | nil =>
    intro k off w h
    simp only [pieces, List.mem_singleton, Prod.mk.injEq] at h
    obtain ⟨h1, h2⟩ := h
    subst h1
    subst h2
    refine ⟨Nat.le_refl _, ?_, ?_⟩
    · simp
    · intro c hc
      exact absurd hc (List.not_mem_nil c)
  | cons c cs ih =>
    intro k off w h
    by_cases hc : c = '/'
    · subst hc
      rw [pieces_cons_slash] at h
      rcases List.mem_cons.mp h with h | h
      · simp only [Prod.mk.injEq] at h
        obtain ⟨h1, h2⟩ := h
        subst h1
        subst h2
        refine ⟨Nat.le_refl _, List.nil_prefix, ?_⟩
        intro c hc
        exact absurd hc (List.not_mem_nil c)
      · obtain ⟨h1, h2, h3⟩ := ih (k + 1) off w h
        refine ⟨by omega, ?_, ?_⟩
        · have e : off - k = (off - (k + 1)) + 1 := by omega
          rw [e, List.drop_succ_cons]
          exact h2
        · intro c hc
          exact ⟨List.mem_cons_of_mem _ (h3 c hc).1, (h3 c hc).2⟩
    · obtain ⟨w1, rest, hp⟩ := pieces_head cs (k + 1)
      rw [pieces_cons_other k c cs w1 rest hc hp] at h
      have hhead : (k + 1, w1) ∈ pieces (k + 1) cs := by
        rw [hp]
        exact List.mem_cons_self _ _
      rcases List.mem_cons.mp h with h | h
      · simp only [Prod.mk.injEq] at h
        obtain ⟨h1, h2⟩ := h
        subst h1
        subst h2
        obtain ⟨_, h2, h3⟩ := ih _ _ w1 hhead
        rw [Nat.sub_self, List.drop_zero] at h2
        refine ⟨Nat.le_refl _, ?_, ?_⟩
        · rw [Nat.sub_self, List.drop_zero]
          exact List.cons_prefix_cons.mpr ⟨rfl, h2⟩
        · intro x hx
          rcases List.mem_cons.mp hx with hx | hx
          · rw [hx]
            exact ⟨List.mem_cons_self _ _, hc⟩
          · exact ⟨List.mem_cons_of_mem _ (h3 x hx).1, (h3 x hx).2⟩
      · have hm : (off, w) ∈ pieces (k + 1) cs := by
          rw [hp]
          exact List.mem_cons_of_mem _ h
        obtain ⟨h1, h2, h3⟩ := ih (k + 1) off w hm
        refine ⟨by omega, ?_, ?_⟩
        · have e : off - k = (off - (k + 1)) + 1 := by omega
          rw [e, List.drop_succ_cons]
          exact h2
        · intro x hx
          exact ⟨List.mem_cons_of_mem _ (h3 x hx).1, (h3 x hx).2⟩

/-- A component `(off, w)` of a path is non-empty, free of slashes, and is the text of the
path at offset `off`. -/
theorem components_mem (p : List Char) (off : Nat) (w : List Char)
    (h : (off, w) ∈ components p) :
    w ≠ [] ∧ (p.drop off).take w.length = w ∧ (∀ c, c ∈ w → c ∈ p ∧ c ≠ '/') := by
  unfold components components_from at h
  obtain ⟨h1, h2⟩ := List.mem_filter.mp h
  obtain ⟨_, h3, h4⟩ := pieces_mem p 0 off w h1
  refine ⟨?_, ?_, h4⟩
  · intro e
    rw [e] at h2
    simp at h2
  · rw [Nat.sub_zero] at h3
    exact (List.prefix_iff_eq_take.mp h3).symm

/-! ## `strncmp` against "." and ".." -/

theorem char_diff_ne (a b : Char) (h : a ≠ b) : (a.toNat : Int) - (b.toNat : Int) ≠ 0 := by
  intro e
  apply h
  have e1 : a.toNat = b.toNat := by omega
  rw [← Char.ofNat_toNat a, ← Char.ofNat_toNat b, e1]

/-- On a name of `w.length` characters none of which is `'\0'`, comparison with "." over
that length is 0 exactly for the name ".". -/
theorem strncmp_dot (w rest : List Char) (hne : w ≠ []) (hnul : ∀ c, c ∈ w → c ≠ NUL) :
    strncmp (w ++ rest) ['.'] w.length = 0 ↔ w = ['.'] := by
  cases w with
  | nil => exact absurd rfl hne
  | cons a w1 =>
    have ha : a ≠ NUL := hnul a (List.mem_cons_self _ _)
    by_cases had : a = '.'
    · subst had
      cases w1 with
      | nil => simp [strncmp]
      | cons b w2 =>
        have hb : b ≠ NUL := hnul b (List.mem_cons_of_mem _ (List.mem_cons_self _ _))
        have := char_diff_ne b NUL hb
        simp [strncmp, ha, hb, this]
    · have t : ¬ ((a.toNat : Int) - 46 = 0) := char_diff_ne a '.' had
      simp [strncmp, had, t]

/-- On a name of `w.length` characters none of which is `'\0'` and which is not ".",
comparison with ".." over that length is 0 exactly for the name "..". -/
theorem strncmp_dotdot (w rest : List Char) (hne : w ≠ []) (hnul : ∀ c, c ∈ w → c ≠ NUL)
    (hdot : w ≠ ['.']) :
    strncmp (w ++ rest) ['.', '.'] w.length = 0 ↔ w = ['.', '.'] := by
  cases w with
  | nil => exact absurd rfl hne
  | cons a w1 =>
    have ha : a ≠ NUL := hnul a (List.mem_cons_self _ _)
    by_cases had : a = '.'
    · subst had
      cases w1 with
      | nil => exact absurd rfl hdot
      | cons b w2 =>
        have hb : b ≠ NUL := hnul b (List.mem_cons_of_mem _ (List.mem_cons_self _ _))
        by_cases hbd : b = '.'
        · subst hbd
          cases w2 with
          | nil => simp [strncmp]
          | cons c w3 =>
            have hc : c ≠ NUL :=
              hnul c (List.mem_cons_of_mem _ (List.mem_cons_of_mem _ (List.mem_cons_self _ _)))
            have := char_diff_ne c NUL hc
            simp [strncmp, ha, hb, hc, this]
        · have t : ¬ ((b.toNat : Int) - 46 = 0) := char_diff_ne b '.' hbd
          simp [strncmp, ha, hbd, t]
    · have t : ¬ ((a.toNat : Int) - 46 = 0) := char_diff_ne a '.' had
      simp [strncmp, had, t]

/-! ## What a walk changes -/

theorem lookups_added_refl (s : Vfs) : lookups_added s s :=
  ⟨[], (List.append_nil _).symm, fun c hc => absurd hc (List.not_mem_nil c)⟩

theorem lookups_added_trans (s s1 s2 : Vfs) (h1 : lookups_added s s1)
    (h2 : lookups_added s1 s2) : lookups_added s s2 := by
  obtain ⟨l1, e1, a1⟩ := h1
  obtain ⟨l2, e2, a2⟩ := h2
  refine ⟨l1 ++ l2, ?_, ?_⟩
  · rw [e2, e1, List.append_assoc]
  · intro c hc
    rcases List.mem_append.mp hc with hc | hc
    · exact a1 c hc
    · exact a2 c hc

theorem namev_frame_refl (s : Vfs) : namev_frame s s :=
  ⟨rfl, rfl, rfl, lookups_added_refl s⟩

theorem namev_frame_trans (s s1 s2 : Vfs) (h1 : namev_frame s s1) (h2 : namev_frame s1 s2) :
    namev_frame s s2 := by
  obtain ⟨a1, b1, c1, d1⟩ := h1
  obtain ⟨a2, b2, c2, d2⟩ := h2
  exact ⟨a2.trans a1, b2.trans b1, c2.trans c1, lookups_added_trans s s1 s2 d1 d2⟩

theorem namev_frame_vref (s : Vfs) (v : Nat) : namev_frame s (vref s v) :=
  ⟨rfl, rfl, rfl, lookups_added_refl s⟩

theorem namev_frame_vput (s : Vfs) (v : Nat) : namev_frame s (vput s v) :=
  ⟨rfl, rfl, rfl, lookups_added_refl s⟩

theorem namev_frame_lookup (fs : FsOps) (s : Vfs) (dir : Nat) (w : List Char)
    (r : Option Nat) : namev_frame s (lookup fs s dir w r).2.2 := by
  have hadd : lookups_added s { s with calls := s.calls ++ [FsCall.lookup dir w] } := by
    refine ⟨[FsCall.lookup dir w], rfl, ?_⟩
    intro c hc
    exact ⟨dir, w, List.mem_singleton.mp hc⟩
  unfold lookup
  split_ifs
  · exact namev_frame_refl s
  · exact ⟨rfl, rfl, rfl, hadd⟩
  · exact ⟨rfl, rfl, rfl, hadd⟩

theorem namev_frame_step (fs : FsOps) (s : Vfs) (dir : Nat) (w : List Char) (held : Bool) :
    namev_frame s (if held = true then vput (lookup fs s dir w none).2.2 dir
      else (lookup fs s dir w none).2.2) := by
  cases held
  · exact namev_frame_lookup fs s dir w none
  · exact namev_frame_trans _ _ _ (namev_frame_lookup fs s dir w none) (namev_frame_vput _ _)

theorem lookup_ok (fs : FsOps) (s : Vfs) (dir : Nat) (w : List Char) (r : Option Nat)
    (h1 : fs.has_lookup dir = true) (h2 : s.vn_mode dir = S_IFDIR)
    (h3 : (fs.lookup dir w).1 = 0) :
    lookup fs s dir w r = (0, some (fs.lookup dir w).2,
      vref { s with calls := s.calls ++ [FsCall.lookup dir w] } (fs.lookup dir w).2) := by
  unfold lookup
  have c : ¬ (fs.has_lookup dir = false ∨ s.vn_mode dir ≠ S_IFDIR) := by
    rw [h1, h2]
    simp
  rw [if_neg c, if_pos h3]

theorem lookup_zero (fs : FsOps) (s : Vfs) (dir : Nat) (w : List Char) (r : Option Nat)
    (h : (lookup fs s dir w r).1 = 0) :
    fs.has_lookup dir = true ∧ s.vn_mode dir = S_IFDIR ∧ (fs.lookup dir w).1 = 0 := by
  unfold lookup at h
  by_cases c : fs.has_lookup dir = false ∨ s.vn_mode dir ≠ S_IFDIR
  · rw [if_pos c] at h
    have h20 : (-ENOTDIR : Int) = 0 := h
    exact absurd h20 (by decide)
  · rw [if_neg c] at h
    have c1 : fs.has_lookup dir = true := by
      cases hb : fs.has_lookup dir
      · exact absurd (Or.inl hb) c
      · rfl
    have c2 : s.vn_mode dir = S_IFDIR := by
      by_contra hne
      exact c (Or.inr hne)
    refine ⟨c1, c2, ?_⟩
    by_cases c3 : (fs.lookup dir w).1 = 0
    · exact c3
    · rw [if_neg c3] at h
      exact absurd h c3

/-- A failed lookup leaves every reference count as it was. -/
theorem lookup_fail_refcount (fs : FsOps) (s : Vfs) (dir : Nat) (w : List Char)
    (r : Option Nat) (h : (lookup fs s dir w r).1 ≠ 0) :
    (lookup fs s dir w r).2.2.vn_refcount = s.vn_refcount := by
  unfold lookup at h ⊢
  split_ifs with c1 c2
  · rfl
  · rw [if_neg c1, if_pos c2] at h
    exact absurd rfl h
  · rfl

theorem step_refcount (s : Vfs) (cl : List FsCall) (next dir : Nat) (held : Bool) (v : Nat) :
    (if held = true then vput (vref { s with calls := cl } next) dir
      else vref { s with calls := cl } next).vn_refcount v
      = s.vn_refcount v + (if v = next then 1 else 0)
          - (if held = true ∧ v = dir then 1 else 0) := by
  cases held
  · simp only [Bool.false_eq_true, if_false, false_and, vref, Function.update_apply]
    split_ifs with h
    · rw [h]
      omega
    · omega
  · simp only [if_true, true_and, vref, vput, Function.update_apply]
    split_ifs <;> simp_all

theorem resolve_cons (fs : FsOps) (m : Nat → Int) (dir : Nat) (w : List Char)
    (ws : List (List Char)) (h1 : fs.has_lookup dir = true) (h2 : m dir = S_IFDIR)
    (h3 : (fs.lookup dir w).1 = 0) :
    resolve fs m dir (w :: ws) = resolve fs m (fs.lookup dir w).2 ws := by
  have c : ¬ (fs.has_lookup dir = false ∨ m dir ≠ S_IFDIR) := by
    rw [h1, h2]
    simp
  simp only [resolve]
  rw [if_neg c, if_pos h3]

theorem resolve_cons_some (fs : FsOps) (m : Nat → Int) (dir : Nat) (w : List Char)
    (ws : List (List Char)) (d : Nat) (h : resolve fs m dir (w :: ws) = some d) :
    fs.has_lookup dir = true ∧ m dir = S_IFDIR ∧ (fs.lookup dir w).1 = 0 ∧
      resolve fs m (fs.lookup dir w).2 ws = some d := by
  simp only [resolve] at h
  by_cases c : fs.has_lookup dir = false ∨ m dir ≠ S_IFDIR
  · rw [if_pos c] at h
    exact absurd h (by simp)
  · rw [if_neg c] at h
    have c1 : fs.has_lookup dir = true := by
      cases hb : fs.has_lookup dir
      · exact absurd (Or.inl hb) c
      · rfl
    have c2 : m dir = S_IFDIR := by
      by_contra hne
      exact c (Or.inr hne)
    by_cases c3 : (fs.lookup dir w).1 = 0
    · rw [if_pos c3] at h
      exact ⟨c1, c2, c3, h⟩
    · rw [if_neg c3] at h
      exact absurd h (by simp)

/-- Whatever a walk returns, it leaves modes, root and working directory alone and asks the
driver for lookups only. -/
theorem walk_frame (L : Limits) (fs : FsOps) :
    ∀ (comps : List (Nat × List Char)) (s : Vfs) (dir : Nat) (held : Bool)
      (r : Int × Option namev_out × Vfs),
      walk L fs s dir held comps = some r → namev_frame s r.2.2 := by
  intro comps
  induction comps with
  | nil =>
    intro s dir held r h
    simp only [walk] at h
    exact absurd h (by simp)
  | cons x rest ih =>
    intro s dir held r h
    obtain ⟨off, w⟩ := x
    cases rest with
    | nil =>
      rw [walk_last] at h
      have e1 : namev_frame s (if held = true then s else vref s dir) := by
        cases held
        · exact namev_frame_vref s dir
        · exact namev_frame_refl s
      by_cases c : w.length > L.NAME_LEN
      · rw [if_pos c] at h
        injection h with h
        rw [← h]
        exact namev_frame_trans _ _ _ e1 (namev_frame_vput _ _)
      · rw [if_neg c] at h
        injection h with h
        rw [← h]
        exact e1
    | cons c cs =>
      rw [walk_cons] at h
      have e1 := namev_frame_step fs s dir w held
      by_cases c1 : w.length > L.NAME_LEN
      · rw [if_pos c1] at h
        injection h with h
        rw [← h]
        exact namev_frame_refl s
      · rw [if_neg c1] at h
        by_cases c2 : (lookup fs s dir w none).1 ≠ 0
        · rw [if_pos c2] at h
          injection h with h
          rw [← h]
          exact e1
        · rw [if_neg c2] at h
          cases hn : (lookup fs s dir w none).2.1 with
          | none =>
            rw [hn] at h
            exact absurd h (by simp)
          | some next =>
            rw [hn] at h
            exact namev_frame_trans _ _ _ e1 (ih _ next true r h)

/-- A walk that returns 0: the components end in the basename `(off, w)`, which is at most
`NAME_LEN` long; the directory returned is reached by looking up the components before it
in order; and the reference counts are those of before, with one more reference on the
directory returned and the held reference on the start directory released. -/
theorem walk_success (L : Limits) (fs : FsOps) :
    ∀ (comps : List (Nat × List Char)) (s : Vfs) (dir : Nat) (held : Bool)
      (o : namev_out) (s1 : Vfs),
      walk L fs s dir held comps = some (0, some o, s1) →
      (∃ pre off w, comps = pre ++ [(off, w)] ∧ o.name = some off ∧ o.namelen = w.length ∧
        w.length ≤ L.NAME_LEN ∧ (∀ x, x ∈ pre → x.2.length ≤ L.NAME_LEN) ∧
        resolve fs s.vn_mode dir (pre.map Prod.snd) = some o.res_vnode) ∧
      (∀ v, s1.vn_refcount v = s.vn_refcount v + (if v = o.res_vnode then 1 else 0)
          - (if held = true ∧ v = dir then 1 else 0)) := by
  intro comps
  induction comps with
  | nil =>
    intro s dir held o s1 h
    simp only [walk] at h
    exact absurd h (by simp)
  | cons x rest ih =>
    intro s dir held o s1 h
    obtain ⟨off, w⟩ := x
    cases rest with
    | nil =>
      rw [walk_last] at h
      by_cases c : w.length > L.NAME_LEN
      · rw [if_pos c] at h
        simp only [Option.some.injEq, Prod.mk.injEq] at h
        exact absurd h.2.1 (by simp)
      · rw [if_neg c] at h
        simp only [Option.some.injEq, Prod.mk.injEq, true_and] at h
        obtain ⟨ho, hs⟩ := h
        subst ho
        subst hs
        refine ⟨⟨[], off, w, rfl, rfl, rfl, by omega, ?_, rfl⟩, ?_⟩
        · intro x hx
          exact absurd hx (List.not_mem_nil x)
        · intro v
          cases held
          · simp only [Bool.false_eq_true, if_false, false_and, vref, Function.update_apply]
            split_ifs with hv
            · rw [hv]
              omega
            · omega
          · simp only [if_true, true_and]
            split_ifs <;> omega
    | cons c cs =>
      rw [walk_cons] at h
      by_cases c1 : w.length > L.NAME_LEN
      · rw [if_pos c1] at h
        simp only [Option.some.injEq, Prod.mk.injEq] at h
        exact absurd h.2.1 (by simp)
      · rw [if_neg c1] at h
        by_cases c2 : (lookup fs s dir w none).1 ≠ 0
        · rw [if_pos c2] at h
          simp only [Option.some.injEq, Prod.mk.injEq] at h
          exact absurd h.2.1 (by simp)
        · rw [if_neg c2] at h
          have c3 : (lookup fs s dir w none).1 = 0 := by
            by_contra hne
            exact c2 hne
          obtain ⟨k1, k2, k3⟩ := lookup_zero fs s dir w none c3
          have hl := lookup_ok fs s dir w none k1 k2 k3
          rw [hl] at h
          simp only at h
          obtain ⟨⟨pre, off1, w1, e1, e2, e3, e4, e5, e6⟩, hrc⟩ :=
            ih _ (fs.lookup dir w).2 true o s1 h
          have hmode : (if held = true then
                vput (vref { s with calls := s.calls ++ [FsCall.lookup dir w] }
                  (fs.lookup dir w).2) dir
              else vref { s with calls := s.calls ++ [FsCall.lookup dir w] }
                (fs.lookup dir w).2).vn_mode = s.vn_mode := by
            cases held <;> rfl
          rw [hmode] at e6
          refine ⟨⟨(off, w) :: pre, off1, w1, ?_, e2, e3, e4, ?_, ?_⟩, ?_⟩
          · rw [e1, List.cons_append]
          · intro x hx
            rcases List.mem_cons.mp hx with hx | hx
            · rw [hx]
              show w.length ≤ L.NAME_LEN
              omega
            · exact e5 x hx
          · rw [List.map_cons, resolve_cons fs s.vn_mode dir w _ k1 k2 k3]
            exact e6
          · intro v
            rw [hrc v, step_refcount]
            simp only [true_and]
            split_ifs <;> omega

theorem walk_step_ok (L : Limits) (fs : FsOps) (s : Vfs) (dir : Nat) (held : Bool)
    (off : Nat) (w : List Char) (c : Nat × List Char) (cs : List (Nat × List Char))
    (hw : w.length ≤ L.NAME_LEN) (h1 : fs.has_lookup dir = true)
    (h2 : s.vn_mode dir = S_IFDIR) (h3 : (fs.lookup dir w).1 = 0) :
    walk L fs s dir held ((off, w) :: c :: cs)
      = walk L fs
          (if held = true then
            vput (vref { s with calls := s.calls ++ [FsCall.lookup dir w] }
              (fs.lookup dir w).2) dir
          else vref { s with calls := s.calls ++ [FsCall.lookup dir w] } (fs.lookup dir w).2)
          (fs.lookup dir w).2 true (c :: cs) := by
  have hl := lookup_ok fs s dir w none h1 h2 h3
  have c1 : ¬ w.length > L.NAME_LEN := by omega
  have c2 : ¬ (lookup fs s dir w none).1 ≠ 0 := by
    rw [hl]
    simp
  rw [walk_cons, if_neg c1, if_neg c2, hl]

theorem step_mode (s : Vfs) (cl : List FsCall) (next dir : Nat) (held : Bool) :
    (if held = true then vput (vref { s with calls := cl } next) dir
      else vref { s with calls := cl } next).vn_mode = s.vn_mode := by
  cases held <;> rfl

/-- When the components before the basename are short enough and resolve, and the
basename is short enough, the walk returns 0 with the directory reached. -/
theorem walk_ok (L : Limits) (fs : FsOps) (off : Nat) (w : List Char) (parent : Nat)
    (hw : w.length ≤ L.NAME_LEN) :
    ∀ (pre : List (Nat × List Char)) (s : Vfs) (dir : Nat) (held : Bool),
      (∀ x, x ∈ pre → x.2.length ≤ L.NAME_LEN) →
      resolve fs s.vn_mode dir (pre.map Prod.snd) = some parent →
      ∃ s1, walk L fs s dir held (pre ++ [(off, w)])
        = some (0, some ⟨parent, some off, w.length⟩, s1) := by
  intro pre
  induction pre with
  | nil =>
    intro s dir held _ hres
    simp only [List.map_nil, resolve, Option.some.injEq] at hres
    rw [List.nil_append, walk_last, if_neg (by omega), hres]
    exact ⟨_, rfl⟩
  | cons x pre1 ih =>
    intro s dir held hpre hres
    obtain ⟨o1, w1⟩ := x
    rw [List.map_cons] at hres
    obtain ⟨k1, k2, k3, k4⟩ := resolve_cons_some fs s.vn_mode dir w1 _ parent hres
    obtain ⟨c, cs, hcs⟩ : ∃ c cs, pre1 ++ [(off, w)] = c :: cs := by
      cases pre1 with
      | nil => exact ⟨_, _, rfl⟩
      | cons y ys => exact ⟨_, _, rfl⟩
    have hw1 : w1.length ≤ L.NAME_LEN := hpre (o1, w1) (List.mem_cons_self _ _)
    rw [List.cons_append, hcs, walk_step_ok L fs s dir held o1 w1 c cs hw1 k1 k2 k3, ← hcs]
    apply ih
    · intro y hy
      exact hpre y (List.mem_cons_of_mem _ hy)
    · rw [step_mode]
      exact k4

/-- When the components before an over-long one are short enough and resolve, the walk
returns `-ENAMETOOLONG`. -/
theorem walk_toolong (L : Limits) (fs : FsOps) (off : Nat) (w : List Char)
    (post : List (Nat × List Char)) (d : Nat) (hw : L.NAME_LEN < w.length) :
    ∀ (pre : List (Nat × List Char)) (s : Vfs) (dir : Nat) (held : Bool),
      (∀ x, x ∈ pre → x.2.length ≤ L.NAME_LEN) →
      resolve fs s.vn_mode dir (pre.map Prod.snd) = some d →
      ∃ s1, walk L fs s dir held (pre ++ (off, w) :: post)
        = some (-ENAMETOOLONG, none, s1) := by
  intro pre
  induction pre with
  | nil =>
    intro s dir held _ _
    rw [List.nil_append]
    cases post with
    | nil =>
      rw [walk_last, if_pos (by omega)]
      exact ⟨_, rfl⟩
    | cons c cs =>
      rw [walk_cons, if_pos (by omega)]
      exact ⟨_, rfl⟩
  | cons x pre1 ih =>
    intro s dir held hpre hres
    obtain ⟨o1, w1⟩ := x
    rw [List.map_cons] at hres
    obtain ⟨k1, k2, k3, k4⟩ := resolve_cons_some fs s.vn_mode dir w1 _ d hres
    obtain ⟨c, cs, hcs⟩ : ∃ c cs, pre1 ++ (off, w) :: post = c :: cs := by
      cases pre1 with
      | nil => exact ⟨_, _, rfl⟩
      | cons y ys => exact ⟨_, _, rfl⟩
    have hw1 : w1.length ≤ L.NAME_LEN := hpre (o1, w1) (List.mem_cons_self _ _)
    rw [List.cons_append, hcs, walk_step_ok L fs s dir held o1 w1 c cs hw1 k1 k2 k3, ← hcs]
    apply ih
    · intro y hy
      exact hpre y (List.mem_cons_of_mem _ hy)
    · rw [step_mode]
      exact k4

/-! ## `dir_namev` as a whole -/

theorem components_of_slashes (p : List Char) (hall : ∀ c, c ∈ p → c = '/') :
    components p = [] :=
  components_from_all_slashes p hall 0

theorem not_all_slashes (p : List Char) (h : components p ≠ []) : ∃ c, c ∈ p ∧ c ≠ '/' := by
  by_contra hno
  apply h
  apply components_of_slashes
  intro c hc
  by_contra hne
  exact hno ⟨c, hc, hne⟩

/-- Whatever `dir_namev` returns, it leaves modes, root and working directory alone and
asks the driver for lookups only. -/
theorem dir_namev_frame (L : Limits) (fs : FsOps) (s : Vfs) (p : List Char)
    (base : Option Nat) (hnul : ∀ c, c ∈ p → c ≠ NUL)
    (r : Int × Option namev_out × Vfs) (h : dir_namev L fs s p base = some r) :
    namev_frame s r.2.2 := by
  by_cases hbad : L.MAXPATHLEN < p.length ∨ p.length = 0
  · rw [dir_namev_bad_length L fs s p base hnul hbad] at h
    injection h with h
    rw [← h]
    exact namev_frame_refl s
  · by_cases hns : ∃ c, c ∈ p ∧ c ≠ '/'
    · rw [dir_namev_refines L fs s p base hnul (by omega) hns] at h
      exact walk_frame L fs _ s _ false r h
    · have hall : ∀ c, c ∈ p → c = '/' := by
        intro c hc
        by_contra hne
        exact hns ⟨c, hc, hne⟩
      rw [dir_namev_all_slashes L fs s p base (by omega) (by omega) hall] at h
      injection h with h
      rw [← h]
      exact namev_frame_vref s _

/-- A call of `dir_namev` that returns 0: the directory returned has one more reference
and no other count changed; and either the path is made of slashes only and the root is
returned with `name = NULL`, `namelen = 0`, or the path ends in a basename `(off, w)` of at
most `NAME_LEN` characters and the directory is reached by looking up the components
before it. -/
theorem dir_namev_success (L : Limits) (fs : FsOps) (s : Vfs) (p : List Char)
    (base : Option Nat) (hnul : ∀ c, c ∈ p → c ≠ NUL) (o : namev_out) (s1 : Vfs)
    (h : dir_namev L fs s p base = some (0, some o, s1)) :
    (∀ v, s1.vn_refcount v = s.vn_refcount v + (if v = o.res_vnode then 1 else 0)) ∧
    ((components p = [] ∧ o = ⟨s.vfs_root_vn, none, 0⟩) ∨
      (∃ pre off w, components p = pre ++ [(off, w)] ∧ o.name = some off ∧
        o.namelen = w.length ∧ w.length ≤ L.NAME_LEN ∧
        (∀ x, x ∈ pre → x.2.length ≤ L.NAME_LEN) ∧
        resolve fs s.vn_mode (start_vnode s p base) (pre.map Prod.snd)
          = some o.res_vnode)) := by
  by_cases hbad : L.MAXPATHLEN < p.length ∨ p.length = 0
  · rw [dir_namev_bad_length L fs s p base hnul hbad] at h
    simp only [Option.some.injEq, Prod.mk.injEq] at h
    exact absurd h.2.1 (by simp)
  · by_cases hns : ∃ c, c ∈ p ∧ c ≠ '/'
    · rw [dir_namev_refines L fs s p base hnul (by omega) hns] at h
      obtain ⟨h1, h2⟩ := walk_success L fs _ s _ false o s1 h
      refine ⟨?_, Or.inr h1⟩
      intro v
      rw [h2 v]
      simp
    · have hall : ∀ c, c ∈ p → c = '/' := by
        intro c hc
        by_contra hne
        exact hns ⟨c, hc, hne⟩
      rw [dir_namev_all_slashes L fs s p base (by omega) (by omega) hall] at h
      simp only [Option.some.injEq, Prod.mk.injEq, true_and] at h
      obtain ⟨ho, hs⟩ := h
      subst ho
      subst hs
      refine ⟨?_, Or.inl ⟨components_of_slashes p hall, rfl⟩⟩
      intro v
      simp only [vref, Function.update_apply]
      split_ifs with hv
      · rw [hv]
      · omega

/-! ## Claims about `dir_namev` -/

/-- C15: for every non-empty path of length at most `MAXPATHLEN` that consists of `'/'`
characters only, `dir_namev` returns 0 with `*res_vnode` the root vnode, `*name = NULL`
and `*namelen = 0`, makes no driver call (no lookup), and raises the reference count of
the root by exactly one, leaving every other count as it was. -/
theorem dir_namev_only_slashes (L : Limits) (fs : FsOps) (s : Vfs) (p : List Char)
    (base : Option Nat) (hne : p ≠ []) (hlen : p.length ≤ L.MAXPATHLEN)
    (hall : ∀ c, c ∈ p → c = '/') :
    ∃ s1, dir_namev L fs s p base = some (0, some ⟨s.vfs_root_vn, none, 0⟩, s1) ∧
      s1.calls = s.calls ∧
      s1.vn_refcount s.vfs_root_vn = s.vn_refcount s.vfs_root_vn + 1 ∧
      ∀ v, v ≠ s.vfs_root_vn → s1.vn_refcount v = s.vn_refcount v := by
  refine ⟨vref s s.vfs_root_vn,
    dir_namev_all_slashes L fs s p base (List.length_pos.mpr hne) hlen hall, rfl, ?_, ?_⟩
  · simp only [vref, Function.update_same]
  · intro v hv
    simp only [vref, Function.update_noteq hv]

theorem dir_namev_only_slashes_witness :
    "///".toList ≠ [] ∧ "///".toList.length ≤ smallLimits.MAXPATHLEN ∧
    (∀ c, c ∈ "///".toList → c = '/') ∧
    ∃ s1, dir_namev smallLimits treeFs treeState "///".toList none
        = some (0, some ⟨treeState.vfs_root_vn, none, 0⟩, s1) ∧
      s1.calls = treeState.calls ∧
      s1.vn_refcount treeState.vfs_root_vn = treeState.vn_refcount treeState.vfs_root_vn + 1 ∧
      ∀ v, v ≠ treeState.vfs_root_vn → s1.vn_refcount v = treeState.vn_refcount v :=
  ⟨by decide, by decide, by decide,
    dir_namev_only_slashes smallLimits treeFs treeState "///".toList none (by decide)
      (by decide) (by decide)⟩

/-- C16 (counterexample): on "/a///b/", with `/a/b` existing, `dir_namev` returns 0 with
the parent `/a` (vnode 1) and `namelen = 1`, and `*name` at offset 5 of the path, where the
character `'b'` is; offset 6 is the trailing slash. -/
theorem dir_namev_example_offset :
    (dir_namev smallLimits treeFs treeState "/a///b/".toList none).map
        (fun r => (r.1, r.2.1)) = some (0, some ⟨1, some 5, 1⟩) ∧
      "/a///b/".toList.getD 5 NUL = 'b' ∧ "/a///b/".toList.getD 6 NUL = '/' := by
  decide

/-- C16 (amended): for every path of length at most `MAXPATHLEN` whose last non-empty
component is `w` at offset `off`, when the components before it are at most `NAME_LEN`
long and resolve in order from the start vnode to `parent`, and `w` is at most `NAME_LEN`
long, `dir_namev` returns 0 with `*res_vnode = parent`, `*name` at offset `off` of the
original path and `*namelen` the length of `w`; the `namelen` characters at that offset
are `w`, which is non-empty and without slash. -/
theorem dir_namev_basename (L : Limits) (fs : FsOps) (s : Vfs) (p : List Char)
    (base : Option Nat) (pre : List (Nat × List Char)) (off : Nat) (w : List Char)
    (parent : Nat) (hnul : ∀ c, c ∈ p → c ≠ NUL) (hlen : p.length ≤ L.MAXPATHLEN)
    (hcomp : components p = pre ++ [(off, w)])
    (hpre : ∀ x, x ∈ pre → x.2.length ≤ L.NAME_LEN) (hw : w.length ≤ L.NAME_LEN)
    (hres : resolve fs s.vn_mode (start_vnode s p base) (pre.map Prod.snd) = some parent) :
    (∃ s1, dir_namev L fs s p base = some (0, some ⟨parent, some off, w.length⟩, s1)) ∧
      (p.drop off).take w.length = w ∧ w ≠ [] ∧ (∀ c, c ∈ w → c ≠ '/') := by
  have hns : ∃ c, c ∈ p ∧ c ≠ '/' := by
    apply not_all_slashes
    rw [hcomp]
    simp
  have hmem : (off, w) ∈ components p := by
    rw [hcomp]
    simp
  obtain ⟨m1, m2, m3⟩ := components_mem p off w hmem
  refine ⟨?_, m2, m1, fun c hc => (m3 c hc).2⟩
  rw [dir_namev_refines L fs s p base hnul hlen hns, hcomp]
  exact walk_ok L fs off w parent hw pre s _ false hpre hres

theorem dir_namev_basename_witness :
    (∀ c, c ∈ "/a///b/".toList → c ≠ NUL) ∧
    "/a///b/".toList.length ≤ smallLimits.MAXPATHLEN ∧
    components "/a///b/".toList = [(1, ['a'])] ++ [(5, ['b'])] ∧
    (∀ x, x ∈ [((1 : Nat), ['a'])] → x.2.length ≤ smallLimits.NAME_LEN) ∧
    ['b'].length ≤ smallLimits.NAME_LEN ∧
    resolve treeFs treeState.vn_mode (start_vnode treeState "/a///b/".toList none)
      ([((1 : Nat), ['a'])].map Prod.snd) = some 1 ∧
    ((∃ s1, dir_namev smallLimits treeFs treeState "/a///b/".toList none
        = some (0, some ⟨1, some 5, ['b'].length⟩, s1)) ∧
      ("/a///b/".toList.drop 5).take ['b'].length = ['b'] ∧ ['b'] ≠ [] ∧
      (∀ c, c ∈ ['b'] → c ≠ '/')) :=
  ⟨by decide, by decide, by decide, by decide, by decide, by decide,
    dir_namev_basename smallLimits treeFs treeState "/a///b/".toList none [(1, ['a'])] 5
      ['b'] 1 (by decide) (by decide) (by decide) (by decide) (by decide) (by decide)⟩

/-- C17 (counterexample): a path of 17 characters under `MAXPATHLEN = 16` is rejected with
`-EINVAL`, not `-ENAMETOOLONG`; and "x/bbbb/c", whose second component is longer than
`NAME_LEN = 3`, is rejected with `-ENOENT` because the lookup of "x" fails first. -/
theorem dir_namev_long_not_enametoolong :
    smallLimits.MAXPATHLEN < (List.replicate 17 'a').length ∧
      (dir_namev smallLimits treeFs treeState (List.replicate 17 'a') none).map
        (fun r => r.1) = some (-EINVAL) ∧
      -EINVAL ≠ -ENAMETOOLONG ∧
      components "x/bbbb/c".toList = [(0, ['x']), (2, ['b', 'b', 'b', 'b']), (7, ['c'])] ∧
      (dir_namev smallLimits treeFs treeState "x/bbbb/c".toList none).map
        (fun r => r.1) = some (-ENOENT) ∧
      -ENOENT ≠ -ENAMETOOLONG := by
  decide

/-- C17 (amended): `dir_namev` returns `-EINVAL` for every path whose length exceeds
`MAXPATHLEN`; and for every path of length at most `MAXPATHLEN` with a component longer
than `NAME_LEN`, it returns `-ENAMETOOLONG` when the components before the first such
component are at most `NAME_LEN` long and resolve in order from the start vnode. -/
theorem dir_namev_too_long (L : Limits) (fs : FsOps) (s : Vfs) (p : List Char)
    (base : Option Nat) (hnul : ∀ c, c ∈ p → c ≠ NUL) :
    (L.MAXPATHLEN < p.length → dir_namev L fs s p base = some (-EINVAL, none, s)) ∧
    (∀ (pre post : List (Nat × List Char)) (off : Nat) (w : List Char) (d : Nat),
      p.length ≤ L.MAXPATHLEN → components p = pre ++ (off, w) :: post →
      (∀ x, x ∈ pre → x.2.length ≤ L.NAME_LEN) → L.NAME_LEN < w.length →
      resolve fs s.vn_mode (start_vnode s p base) (pre.map Prod.snd) = some d →
      ∃ s1, dir_namev L fs s p base = some (-ENAMETOOLONG, none, s1)) := by
  refine ⟨fun h => dir_namev_bad_length L fs s p base hnul (Or.inl h), ?_⟩
  intro pre post off w d hlen hcomp hpre hw hres
  have hns : ∃ c, c ∈ p ∧ c ≠ '/' := by
    apply not_all_slashes
    rw [hcomp]
    simp
  rw [dir_namev_refines L fs s p base hnul hlen hns, hcomp]
  exact walk_toolong L fs off w post d hw pre s _ false hpre hres

theorem dir_namev_too_long_witness :
    (∀ c, c ∈ List.replicate 17 'a' → c ≠ NUL) ∧
    smallLimits.MAXPATHLEN < (List.replicate 17 'a').length ∧
    dir_namev smallLimits treeFs treeState (List.replicate 17 'a') none
      = some (-EINVAL, none, treeState) ∧
    (∀ c, c ∈ "a/bbbb/c".toList → c ≠ NUL) ∧
    "a/bbbb/c".toList.length ≤ smallLimits.MAXPATHLEN ∧
    components "a/bbbb/c".toList
      = [(0, ['a'])] ++ (2, ['b', 'b', 'b', 'b']) :: [(7, ['c'])] ∧
    (∀ x, x ∈ [((0 : Nat), ['a'])] → x.2.length ≤ smallLimits.NAME_LEN) ∧
    smallLimits.NAME_LEN < ['b', 'b', 'b', 'b'].length ∧
    resolve treeFs treeState.vn_mode (start_vnode treeState "a/bbbb/c".toList none)
      ([((0 : Nat), ['a'])].map Prod.snd) = some 1 ∧
    ∃ s1, dir_namev smallLimits treeFs treeState "a/bbbb/c".toList none
      = some (-ENAMETOOLONG, none, s1) :=
  ⟨by decide, by decide,
    (dir_namev_too_long smallLimits treeFs treeState (List.replicate 17 'a') none
      (by decide)).1 (by decide),
    by decide, by decide, by decide, by decide, by decide, by decide,
    (dir_namev_too_long smallLimits treeFs treeState "a/bbbb/c".toList none (by decide)).2
      [(0, ['a'])] [(7, ['c'])] 2 ['b', 'b', 'b', 'b'] 1 (by decide) (by decide) (by decide)
      (by decide) (by decide)⟩

/-- C18 (code evaluation): with "a" an existing directory (vnode 1, one reference) and a
second component of 4 characters under `NAME_LEN = 3`, `dir_namev` on "a/bbbb/c" returns
`-ENAMETOOLONG` and leaves vnode 1 with 2 references: the reference taken by the lookup
of "a" is not released. -/
theorem dir_namev_toolong_keeps_reference :
    treeState.vn_refcount 1 = 1 ∧
      (dir_namev smallLimits treeFs treeState "a/bbbb/c".toList none).map
        (fun r => (r.1, r.2.2.vn_refcount 1)) = some (-ENAMETOOLONG, 2) := by
  decide

/-! ## The basename that `dir_namev` hands to its callers -/

theorem dir_namev_of_map (L : Limits) (fs : FsOps) (s : Vfs) (p : List Char)
    (base : Option Nat) (o : namev_out)
    (h : (dir_namev L fs s p base).map (fun r => (r.1, r.2.1)) = some (0, some o)) :
    ∃ s1, dir_namev L fs s p base = some (0, some o, s1) := by
  cases hd : dir_namev L fs s p base with
  | none =>
    rw [hd] at h
    simp at h
  | some r =>
    rw [hd] at h
    obtain ⟨r1, r2, r3⟩ := r
    simp only [Option.map_some', Option.some.injEq, Prod.mk.injEq] at h
    obtain ⟨h1, h2⟩ := h
    subst h1
    subst h2
    exact ⟨r3, rfl⟩

theorem final_component_last (p : List Char) (pre : List (Nat × List Char)) (off : Nat)
    (w : List Char) (h : components p = pre ++ [(off, w)]) : final_component p = some w := by
  unfold final_component
  rw [h, List.getLast?_concat]
  rfl

theorem final_component_none (p : List Char) (h : components p = []) :
    final_component p = none := by
  unfold final_component
  rw [h]
  rfl

/-- After a call of `dir_namev` that returns 0, either the path has no component and the
root is returned with `name = NULL`, `namelen = 0`, or `name` and `namelen` delimit the
final component of the path. -/
theorem dir_namev_named (L : Limits) (fs : FsOps) (s : Vfs) (p : List Char)
    (base : Option Nat) (hnul : ∀ c, c ∈ p → c ≠ NUL) (o : namev_out) (s1 : Vfs)
    (h : dir_namev L fs s p base = some (0, some o, s1)) :
    (final_component p = none ∧ o = ⟨s.vfs_root_vn, none, 0⟩) ∨
    (∃ off w rest, final_component p = some w ∧ o.name = some off ∧ o.namelen = w.length ∧
      p.drop off = w ++ rest ∧ w ≠ [] ∧ (∀ c, c ∈ w → c ≠ NUL)) := by
  rcases (dir_namev_success L fs s p base hnul o s1 h).2 with ⟨h1, h2⟩ | h1
  · exact Or.inl ⟨final_component_none p h1, h2⟩
  · obtain ⟨pre, off, w, e1, e2, e3, _, _, _⟩ := h1
    have hmem : (off, w) ∈ components p := by
      rw [e1]
      simp
    obtain ⟨m1, m2, m3⟩ := components_mem p off w hmem
    refine Or.inr ⟨off, w, (p.drop off).drop w.length, final_component_last p pre off w e1,
      e2, e3, ?_, m1, fun c hc => hnul c (m3 c hc).1⟩
    conv_lhs => rw [← List.take_append_drop w.length (p.drop off)]
    rw [m2]

theorem lookup_ret_frame (fs : FsOps) (s s1 : Vfs) (dir : Nat) (w : List Char)
    (r : Option Nat) (h : s1.vn_mode = s.vn_mode) :
    (lookup fs s1 dir w r).1 = (lookup fs s dir w r).1 := by
  unfold lookup
  rw [h]
  split_ifs <;> rfl

theorem vput_vref_refcount (s s1 : Vfs) (d : Nat) (cl : List FsCall)
    (h : ∀ v, s1.vn_refcount v = s.vn_refcount v + (if v = d then 1 else 0)) :
    (vput { s1 with calls := cl } d).vn_refcount = s.vn_refcount := by
  funext v
  simp only [vput, Function.update_apply]
  split_ifs with hv
  · rw [hv, h d, if_pos rfl]
    omega
  · rw [h v, if_neg hv]
    omega

/-! ## Claims about `do_mknod` and `do_rmdir` -/

/-- C13: `do_mknod(path, mode, devid)` returns `-EINVAL` for every mode other than
`S_IFBLK` and `S_IFCHR`, with the state untouched (the path is not resolved); for a valid
mode and a path that `dir_namev` resolves to a parent with final component `w`, if the
lookup of `w` in the parent succeeds it returns `-EEXIST` and the driver was only asked for
lookups (no `mknod` call), and if the lookup reports `-ENOENT` it returns exactly what the
`mknod` operation of the parent returns. -/
theorem do_mknod_spec (L : Limits) (fs : FsOps) (s : Vfs) (path : List Char) (mode : Int)
    (devid : Nat) (result : Option Nat) (hnul : ∀ c, c ∈ path → c ≠ NUL) :
    ((mode ≠ S_IFBLK ∧ mode ≠ S_IFCHR) →
      do_mknod L fs s path mode devid result = some (-EINVAL, s)) ∧
    (∀ (o : namev_out) (w : List Char), (mode = S_IFBLK ∨ mode = S_IFCHR) →
      (dir_namev L fs s path none).map (fun r => (r.1, r.2.1)) = some (0, some o) →
      final_component path = some w →
      ((lookup fs s o.res_vnode w result).1 = 0 →
        ∃ s2, do_mknod L fs s path mode devid result = some (-EEXIST, s2) ∧
          lookups_added s s2) ∧
      ((lookup fs s o.res_vnode w result).1 = -ENOENT → fs.has_mknod o.res_vnode = true →
        ∃ s2, do_mknod L fs s path mode devid result
          = some (fs.mknod o.res_vnode w mode devid, s2))) := by
  refine ⟨?_, ?_⟩
  · intro hm
    unfold do_mknod
    rw [if_pos hm]
  · intro o w hm hmap hfin
    obtain ⟨s1, hdn⟩ := dir_namev_of_map L fs s path none o hmap
    have hframe := dir_namev_frame L fs s path none hnul _ hdn
    have hmode : ¬ (mode ≠ S_IFBLK ∧ mode ≠ S_IFCHR) := by
      rcases hm with hm | hm
      · exact fun c => c.1 hm
      · exact fun c => c.2 hm
    rcases dir_namev_named L fs s path none hnul o s1 hdn with ⟨h1, _⟩ | h1
    · rw [h1] at hfin
      exact absurd hfin (by simp)
    · obtain ⟨off, w1, rest, e1, e2, e3, e4, _, _⟩ := h1
      have hw : w1 = w := by
        rw [e1] at hfin
        exact Option.some.inj hfin
      subst hw
      have hname : (path.drop off).take o.namelen = w1 := by
        rw [e3, e4]
        exact List.take_left _ _
      have hret : (lookup fs s1 o.res_vnode w1 result).1 = (lookup fs s o.res_vnode w1 result).1 :=
        lookup_ret_frame fs s s1 o.res_vnode w1 result hframe.1
      have hz : ¬ ((0 : Int) ≠ 0) := by simp
      refine ⟨?_, ?_⟩
      · intro hl
        rw [← hret] at hl
        have c1 : ¬ ((lookup fs s1 o.res_vnode w1 result).1 = -ENOENT) := by
          rw [hl]
          decide
        have c2 : ¬ ((lookup fs s1 o.res_vnode w1 result).1 ≠ 0) := by
          rw [hl]
          simp
        unfold do_mknod
        rw [if_neg hmode, hdn]
        simp only [e2, hname]
        rw [if_neg hz, if_neg c1, if_neg c2]
        refine ⟨_, rfl, ?_⟩
        have hf2 := namev_frame_lookup fs s1 o.res_vnode w1 result
        have hf3 : namev_frame (lookup fs s1 o.res_vnode w1 result).2.2
            (match (lookup fs s1 o.res_vnode w1 result).2.1 with
              | some v => vput (lookup fs s1 o.res_vnode w1 result).2.2 v
              | none => (lookup fs s1 o.res_vnode w1 result).2.2) := by
          cases (lookup fs s1 o.res_vnode w1 result).2.1 with
          | none => exact namev_frame_refl _
          | some v => exact namev_frame_vput _ v
        exact (namev_frame_trans _ _ _ hframe
          (namev_frame_trans _ _ _ hf2
            (namev_frame_trans _ _ _ hf3 (namev_frame_vput _ _)))).2.2.2
      · intro hl hop
        rw [← hret] at hl
        have c3 : ¬ (fs.has_mknod o.res_vnode = false) := by
          rw [hop]
          simp
        unfold do_mknod
        rw [if_neg hmode, hdn]
        simp only [e2, hname]
        rw [if_neg hz, if_pos hl, if_neg c3]
        exact ⟨_, rfl⟩

theorem do_mknod_spec_witness :
    (∀ c, c ∈ "/a/b".toList → c ≠ NUL) ∧
    ((0 : Int) ≠ S_IFBLK ∧ (0 : Int) ≠ S_IFCHR) ∧
    do_mknod smallLimits treeFs treeState "/a/b".toList 0 3 none
      = some (-EINVAL, treeState) ∧
    (S_IFCHR = S_IFBLK ∨ S_IFCHR = S_IFCHR) ∧
    (dir_namev smallLimits treeFs treeState "/a/b".toList none).map
      (fun r => (r.1, r.2.1)) = some (0, some ⟨1, some 3, 1⟩) ∧
    final_component "/a/b".toList = some ['b'] ∧
    (lookup treeFs treeState 1 ['b'] none).1 = 0 ∧
    (∃ s2, do_mknod smallLimits treeFs treeState "/a/b".toList S_IFCHR 3 none
        = some (-EEXIST, s2) ∧ lookups_added treeState s2) ∧
    (∀ c, c ∈ "/a/c".toList → c ≠ NUL) ∧
    (dir_namev smallLimits treeFs treeState "/a/c".toList none).map
      (fun r => (r.1, r.2.1)) = some (0, some ⟨1, some 3, 1⟩) ∧
    final_component "/a/c".toList = some ['c'] ∧
    (lookup treeFs treeState 1 ['c'] none).1 = -ENOENT ∧
    treeFs.has_mknod 1 = true ∧
    ∃ s2, do_mknod smallLimits treeFs treeState "/a/c".toList S_IFCHR 3 none
      = some (treeFs.mknod 1 ['c'] S_IFCHR 3, s2) :=
  ⟨by decide, by decide,
    (do_mknod_spec smallLimits treeFs treeState "/a/b".toList 0 3 none (by decide)).1
      (by decide),
    by decide, by decide, by decide, by decide,
    ((do_mknod_spec smallLimits treeFs treeState "/a/b".toList S_IFCHR 3 none
      (by decide)).2 ⟨1, some 3, 1⟩ ['b'] (by decide) (by decide) (by decide)).1 (by decide),
    by decide, by decide, by decide, by decide, by decide,
    ((do_mknod_spec smallLimits treeFs treeState "/a/c".toList S_IFCHR 3 none
      (by decide)).2 ⟨1, some 3, 1⟩ ['c'] (by decide) (by decide) (by decide)).2 (by decide)
      (by decide)⟩

/-- C14 (counterexample): `dir_namev` resolves "/" to the root, a directory, and the path
has no final component; `do_rmdir` returns `-EINVAL` although the final component is not
".". -/
theorem do_rmdir_root_einval :
    (dir_namev smallLimits treeFs treeState "/".toList none).map (fun r => (r.1, r.2.1))
        = some (0, some ⟨0, none, 0⟩) ∧
      S_ISDIR (treeState.vn_mode 0) = true ∧
      final_component "/".toList = none ∧
      (do_rmdir smallLimits treeFs treeState "/".toList).map (fun r => r.1)
        = some (-EINVAL) := by
  decide

/-- C14 (amended): for every path that `dir_namev` resolves to a directory parent,
`do_rmdir` returns `-EINVAL` when the path has no component (slashes only) or its final
component is ".", returns `-ENOTEMPTY` when the final component is "..", and for every
other final component `w` returns the result of the `rmdir` operation of the parent on `w`;
in each case every reference count, that of the parent included, is on return what it was
before the call. -/
theorem do_rmdir_spec (L : Limits) (fs : FsOps) (s : Vfs) (path : List Char)
    (o : namev_out) (hnul : ∀ c, c ∈ path → c ≠ NUL)
    (hres : (dir_namev L fs s path none).map (fun r => (r.1, r.2.1)) = some (0, some o))
    (hdir : S_ISDIR (s.vn_mode o.res_vnode) = true) :
    ((final_component path = none ∨ final_component path = some ['.']) →
      ∃ s2, do_rmdir L fs s path = some (-EINVAL, s2) ∧ s2.vn_refcount = s.vn_refcount) ∧
    (final_component path = some ['.', '.'] →
      ∃ s2, do_rmdir L fs s path = some (-ENOTEMPTY, s2) ∧
        s2.vn_refcount = s.vn_refcount) ∧
    (∀ w, final_component path = some w → w ≠ ['.'] → w ≠ ['.', '.'] →
      fs.has_rmdir o.res_vnode = true →
      ∃ s2, do_rmdir L fs s path = some (fs.rmdir o.res_vnode w, s2) ∧
        s2.vn_refcount = s.vn_refcount) := by
  obtain ⟨s1, hdn⟩ := dir_namev_of_map L fs s path none o hres
  have hframe := dir_namev_frame L fs s path none hnul _ hdn
  have hrc := (dir_namev_success L fs s path none hnul o s1 hdn).1
  have hdir1 : ¬ (S_ISDIR (s1.vn_mode o.res_vnode) = false) := by
    rw [hframe.1, hdir]
    simp
  have z1 : ¬ ((0 : Int) = -ENOENT) := by decide
  have z2 : ¬ ((0 : Int) = -ENAMETOOLONG) := by decide
  have z3 : ¬ ((0 : Int) ≠ 0) := by simp
  have hback : (vput s1 o.res_vnode).vn_refcount = s.vn_refcount :=
    vput_vref_refcount s s1 o.res_vnode s1.calls hrc
  rcases dir_namev_named L fs s path none hnul o s1 hdn with ⟨h1, h2⟩ | h1
  · -- no component: the root with `name = NULL`, `namelen = 0`
    have hrun : do_rmdir L fs s path = some (-EINVAL, vput s1 o.res_vnode) := by
      unfold do_rmdir
      rw [hdn]
      simp only
      rw [if_neg z1, if_neg z2, if_neg z3, if_neg hdir1]
      have hs : strncmp (match o.name with
          | some off => path.drop off
          | none => []) ['.'] o.namelen = 0 := by
        rw [h2]
        rfl
      rw [if_pos hs]
    refine ⟨fun _ => ⟨_, hrun, hback⟩, ?_, ?_⟩
    · intro hf
      rw [h1] at hf
      exact absurd hf (by simp)
    · intro w hf
      rw [h1] at hf
      exact absurd hf (by simp)
  · obtain ⟨off, w1, rest, e1, e2, e3, e4, e5, e6⟩ := h1
    have hname : (match o.name with
        | some off => path.drop off
        | none => []) = w1 ++ rest := by
      rw [e2]
      exact e4
    have hdot := strncmp_dot w1 rest e5 e6
    refine ⟨?_, ?_, ?_⟩
    · intro hf
      rcases hf with hf | hf
      · rw [e1] at hf
        exact absurd hf (by simp)
      · rw [e1] at hf
        have hw : w1 = ['.'] := Option.some.inj hf
        have hs : strncmp (w1 ++ rest) ['.'] w1.length = 0 := hdot.mpr hw
        refine ⟨vput s1 o.res_vnode, ?_, hback⟩
        unfold do_rmdir
        rw [hdn]
        simp only
        rw [if_neg z1, if_neg z2, if_neg z3, if_neg hdir1, hname, e3, if_pos hs]
    · intro hf
      rw [e1] at hf
      have hw : w1 = ['.', '.'] := Option.some.inj hf
      have hnd : w1 ≠ ['.'] := by
        rw [hw]
        decide
      have hs1 : ¬ (strncmp (w1 ++ rest) ['.'] w1.length = 0) := fun c => hnd (hdot.mp c)
      have hs2 : strncmp (w1 ++ rest) ['.', '.'] w1.length = 0 :=
        (strncmp_dotdot w1 rest e5 e6 hnd).mpr hw
      refine ⟨vput s1 o.res_vnode, ?_, hback⟩
      unfold do_rmdir
      rw [hdn]
      simp only
      rw [if_neg z1, if_neg z2, if_neg z3, if_neg hdir1, hname, e3, if_neg hs1, if_pos hs2]
    · intro w hf hnd hndd hop
      rw [e1] at hf
      have hw : w1 = w := Option.some.inj hf
      subst hw
      have hs1 : ¬ (strncmp (w1 ++ rest) ['.'] w1.length = 0) := fun c => hnd (hdot.mp c)
      have hs2 : ¬ (strncmp (w1 ++ rest) ['.', '.'] w1.length = 0) :=
        fun c => hndd ((strncmp_dotdot w1 rest e5 e6 hnd).mp c)
      have hop1 : ¬ (fs.has_rmdir o.res_vnode = false) := by
        rw [hop]
        simp
      have htake : (w1 ++ rest).take w1.length = w1 := List.take_left _ _
      refine ⟨vput { s1 with calls := s1.calls ++ [FsCall.rmdir o.res_vnode w1] } o.res_vnode,
        ?_, vput_vref_refcount s s1 o.res_vnode _ hrc⟩
      unfold do_rmdir
      rw [hdn]
      simp only
      rw [if_neg z1, if_neg z2, if_neg z3, if_neg hdir1, hname, e3, if_neg hs1, if_neg hs2,
        if_neg hop1, htake]

theorem do_rmdir_spec_witness :
    (∀ c, c ∈ "/a/b".toList → c ≠ NUL) ∧
    (dir_namev smallLimits treeFs treeState "/a/b".toList none).map
      (fun r => (r.1, r.2.1)) = some (0, some ⟨1, some 3, 1⟩) ∧
    S_ISDIR (treeState.vn_mode 1) = true ∧
    final_component "/a/b".toList = some ['b'] ∧ ['b'] ≠ ['.'] ∧ ['b'] ≠ ['.', '.'] ∧
    treeFs.has_rmdir 1 = true ∧
    (∃ s2, do_rmdir smallLimits treeFs treeState "/a/b".toList
        = some (treeFs.rmdir 1 ['b'], s2) ∧ s2.vn_refcount = treeState.vn_refcount) ∧
    (∀ c, c ∈ "/a/.".toList → c ≠ NUL) ∧
    (dir_namev smallLimits treeFs treeState "/a/.".toList none).map
      (fun r => (r.1, r.2.1)) = some (0, some ⟨1, some 3, 1⟩) ∧
    final_component "/a/.".toList = some ['.'] ∧
    (∃ s2, do_rmdir smallLimits treeFs treeState "/a/.".toList = some (-EINVAL, s2) ∧
      s2.vn_refcount = treeState.vn_refcount) ∧
    (∀ c, c ∈ "/a/..".toList → c ≠ NUL) ∧
    (dir_namev smallLimits treeFs treeState "/a/..".toList none).map
      (fun r => (r.1, r.2.1)) = some (0, some ⟨1, some 3, 2⟩) ∧
    final_component "/a/..".toList = some ['.', '.'] ∧
    ∃ s2, do_rmdir smallLimits treeFs treeState "/a/..".toList = some (-ENOTEMPTY, s2) ∧
      s2.vn_refcount = treeState.vn_refcount :=
  ⟨by decide, by decide, by decide, by decide, by decide, by decide, by decide,
    (do_rmdir_spec smallLimits treeFs treeState "/a/b".toList ⟨1, some 3, 1⟩ (by decide)
      (by decide) (by decide)).2.2 ['b'] (by decide) (by decide) (by decide) (by decide),
    by decide, by decide, by decide,
    (do_rmdir_spec smallLimits treeFs treeState "/a/.".toList ⟨1, some 3, 1⟩ (by decide)
      (by decide) (by decide)).1 (Or.inr (by decide)),
    by decide, by decide, by decide,
    (do_rmdir_spec smallLimits treeFs treeState "/a/..".toList ⟨1, some 3, 2⟩ (by decide)
      (by decide) (by decide)).2.1 (by decide)⟩

/-! ## `vmmap_find_range`: first fit -/

theorem usub32_of_le (a b : Nat) (h : b ≤ a) (ha : a < 4294967296) : usub32 a b = a - b := by
  unfold usub32
  omega

/-- In a well-formed map each area ends where the later ones have not started yet. -/
theorem wf_map_chain (areas : List vmarea_t) (h : wf_map areas) :
    areas.Pairwise (fun a b => a.vma_end ≤ b.vma_start) := by
  obtain ⟨hne, hp⟩ := h
  induction areas with
  | nil => exact List.Pairwise.nil
  | cons x xs ih =>
    rw [List.pairwise_cons] at hp ⊢
    refine ⟨?_, ih (fun a ha => hne a (List.mem_cons_of_mem _ ha)) hp.2⟩
    intro b hb
    obtain ⟨h1, h2⟩ := hp.1 b hb
    rcases h2 with h2 | h2
    · exact h2
    · have := hne b (List.mem_cons_of_mem _ hb)
      omega

theorem find_range_lohi_loop_spec (npages : Nat) :
    ∀ (rest : List vmarea_t) (prev : vmarea_t),
      (∀ a, a ∈ prev :: rest → a.vma_start < a.vma_end ∧ a.vma_end < 4294967296) →
      (prev :: rest).Pairwise (fun a b => a.vma_end ≤ b.vma_start) →
      (∀ r0 last, find_range_lohi_loop npages prev rest = (some r0, last) →
        (prev.vma_end ≤ r0 ∧ ∀ a, a ∈ rest → a.vma_end ≤ r0 ∨ r0 + npages ≤ a.vma_start) ∧
        ∀ r, prev.vma_end ≤ r →
          (∀ a, a ∈ rest → a.vma_end ≤ r ∨ r + npages ≤ a.vma_start) → r0 ≤ r) ∧
      (∀ last, find_range_lohi_loop npages prev rest = (none, last) →
        (∀ a, a ∈ prev :: rest → a.vma_end ≤ last.vma_end) ∧
        ∀ r, prev.vma_end ≤ r →
          (∀ a, a ∈ rest → a.vma_end ≤ r ∨ r + npages ≤ a.vma_start) →
          last.vma_end ≤ r) := by
  intro rest
  induction rest with
  | nil =>
    intro prev _ _
    refine ⟨?_, ?_⟩
    · intro r0 last h
      simp [find_range_lohi_loop] at h
    · intro last h
      simp only [find_range_lohi_loop, Prod.mk.injEq, true_and] at h
      subst h
      refine ⟨?_, fun r hr _ => hr⟩
      intro a ha
      rw [List.mem_singleton.mp ha]
  | cons cur rest1 ih =>
    intro prev hb hp
    rw [List.pairwise_cons] at hp
    obtain ⟨hp1, hp2⟩ := hp
    have hpc : prev.vma_end ≤ cur.vma_start := hp1 cur (List.mem_cons_self _ _)
    have hcb := hb cur (List.mem_cons_of_mem _ (List.mem_cons_self _ _))
    have hgap : usub32 cur.vma_start prev.vma_end = cur.vma_start - prev.vma_end :=
      usub32_of_le _ _ hpc (by omega)
    have hih := ih cur (fun a ha => hb a (List.mem_cons_of_mem _ ha)) hp2
    rw [List.pairwise_cons] at hp2
    by_cases hg : cur.vma_start - prev.vma_end ≥ npages
    · have hrun : find_range_lohi_loop npages prev (cur :: rest1)
          = (some prev.vma_end, prev) := by
        simp only [find_range_lohi_loop, hgap]
        rw [if_pos hg]
      refine ⟨?_, ?_⟩
      · intro r0 last h
        rw [hrun] at h
        simp only [Prod.mk.injEq, Option.some.injEq] at h
        obtain ⟨h1, _⟩ := h
        subst h1
        refine ⟨⟨Nat.le_refl _, ?_⟩, fun r hr _ => hr⟩
        intro a ha
        right
        rcases List.mem_cons.mp ha with ha | ha
        · rw [ha]
          omega
        · have := hp2.1 a ha
          omega
      · intro last h
        rw [hrun] at h
        simp at h
    · have hrun : find_range_lohi_loop npages prev (cur :: rest1)
          = find_range_lohi_loop npages cur rest1 := by
        simp only [find_range_lohi_loop, hgap]
        rw [if_neg hg]
      have hconv : ∀ r, prev.vma_end ≤ r →
          (∀ a, a ∈ cur :: rest1 → a.vma_end ≤ r ∨ r + npages ≤ a.vma_start) →
          cur.vma_end ≤ r ∧ ∀ a, a ∈ rest1 → a.vma_end ≤ r ∨ r + npages ≤ a.vma_start := by
        intro r hr hall
        refine ⟨?_, fun a ha => hall a (List.mem_cons_of_mem _ ha)⟩
        rcases hall cur (List.mem_cons_self _ _) with h | h
        · exact h
        · omega
      refine ⟨?_, ?_⟩
      · intro r0 last h
        rw [hrun] at h
        obtain ⟨⟨h1, h2⟩, h3⟩ := hih.1 r0 last h
        refine ⟨⟨by omega, ?_⟩, ?_⟩
        · intro a ha
          rcases List.mem_cons.mp ha with ha | ha
          · rw [ha]
            exact Or.inl h1
          · exact h2 a ha
        · intro r hr hall
          obtain ⟨c1, c2⟩ := hconv r hr hall
          exact h3 r c1 c2
      · intro last h
        rw [hrun] at h
        obtain ⟨h1, h2⟩ := hih.2 last h
        refine ⟨?_, ?_⟩
        · intro a ha
          rcases List.mem_cons.mp ha with ha | ha
          · rw [ha]
            have := h1 cur (List.mem_cons_self _ _)
            omega
          · exact h1 a ha
        · intro r hr hall
          obtain ⟨c1, c2⟩ := hconv r hr hall
          exact h2 r c1 c2

theorem find_range_hilo_loop_spec (npages : Nat) :
    ∀ (rest : List vmarea_t) (prev : vmarea_t),
      (∀ a, a ∈ prev :: rest → a.vma_start < a.vma_end ∧ a.vma_end < 4294967296) →
      (prev :: rest).Pairwise (fun a b => b.vma_end ≤ a.vma_start) →
      (∀ r0 last, find_range_hilo_loop npages prev rest = (some r0, last) →
        (r0 + npages ≤ prev.vma_start ∧
          ∀ a, a ∈ rest → a.vma_end ≤ r0 ∨ r0 + npages ≤ a.vma_start) ∧
        ∀ r, r + npages ≤ prev.vma_start →
          (∀ a, a ∈ rest → a.vma_end ≤ r ∨ r + npages ≤ a.vma_start) → r ≤ r0) ∧
      (∀ last, find_range_hilo_loop npages prev rest = (none, last) →
        (∀ a, a ∈ prev :: rest → last.vma_start ≤ a.vma_start) ∧
        ∀ r, r + npages ≤ prev.vma_start →
          (∀ a, a ∈ rest → a.vma_end ≤ r ∨ r + npages ≤ a.vma_start) →
          r + npages ≤ last.vma_start) := by
  intro rest
  induction rest with
  | nil =>
    intro prev _ _
    refine ⟨?_, ?_⟩
    · intro r0 last h
      simp [find_range_hilo_loop] at h
    · intro last h
      simp only [find_range_hilo_loop, Prod.mk.injEq, true_and] at h
      subst h
      refine ⟨?_, fun r hr _ => hr⟩
      intro a ha
      rw [List.mem_singleton.mp ha]
  | cons cur rest1 ih =>
    intro prev hb hp
    rw [List.pairwise_cons] at hp
    obtain ⟨hp1, hp2⟩ := hp
    have hpc : cur.vma_end ≤ prev.vma_start := hp1 cur (List.mem_cons_self _ _)
    have hpb := hb prev (List.mem_cons_self _ _)
    have hcb := hb cur (List.mem_cons_of_mem _ (List.mem_cons_self _ _))
    have hgap : usub32 prev.vma_start cur.vma_end = prev.vma_start - cur.vma_end :=
      usub32_of_le _ _ hpc (by omega)
    have hih := ih cur (fun a ha => hb a (List.mem_cons_of_mem _ ha)) hp2
    rw [List.pairwise_cons] at hp2
    by_cases hg : prev.vma_start - cur.vma_end ≥ npages
    · have hsub : usub32 prev.vma_start npages = prev.vma_start - npages :=
        usub32_of_le _ _ (by omega) (by omega)
      have hrun : find_range_hilo_loop npages prev (cur :: rest1)
          = (some (prev.vma_start - npages), prev) := by
        simp only [find_range_hilo_loop, hgap, hsub]
        rw [if_pos hg]
      refine ⟨?_, ?_⟩
      · intro r0 last h
        rw [hrun] at h
        simp only [Prod.mk.injEq, Option.some.injEq] at h
        obtain ⟨h1, _⟩ := h
        subst h1
        refine ⟨⟨by omega, ?_⟩, fun r hr _ => by omega⟩
        intro a ha
        left
        rcases List.mem_cons.mp ha with ha | ha
        · rw [ha]
          omega
        · have := hp2.1 a ha
          have := hb a (List.mem_cons_of_mem _ (List.mem_cons_of_mem _ ha))
          omega
      · intro last h
        rw [hrun] at h
        simp at h
    · have hrun : find_range_hilo_loop npages prev (cur :: rest1)
          = find_range_hilo_loop npages cur rest1 := by
        simp only [find_range_hilo_loop, hgap]
        rw [if_neg hg]
      have hconv : ∀ r, r + npages ≤ prev.vma_start →
          (∀ a, a ∈ cur :: rest1 → a.vma_end ≤ r ∨ r + npages ≤ a.vma_start) →
          r + npages ≤ cur.vma_start ∧
            ∀ a, a ∈ rest1 → a.vma_end ≤ r ∨ r + npages ≤ a.vma_start := by
        intro r hr hall
        refine ⟨?_, fun a ha => hall a (List.mem_cons_of_mem _ ha)⟩
        rcases hall cur (List.mem_cons_self _ _) with h | h
        · omega
        · exact h
      refine ⟨?_, ?_⟩
      · intro r0 last h
        rw [hrun] at h
        obtain ⟨⟨h1, h2⟩, h3⟩ := hih.1 r0 last h
        refine ⟨⟨by omega, ?_⟩, ?_⟩
        · intro a ha
          rcases List.mem_cons.mp ha with ha | ha
          · rw [ha]
            exact Or.inr h1
          · exact h2 a ha
        · intro r hr hall
          obtain ⟨c1, c2⟩ := hconv r hr hall
          exact h3 r c1 c2
      · intro last h
        rw [hrun] at h
        obtain ⟨h1, h2⟩ := hih.2 last h
        refine ⟨?_, ?_⟩
        · intro a ha
          rcases List.mem_cons.mp ha with ha | ha
          · rw [ha]
            have := h1 cur (List.mem_cons_self _ _)
            omega
          · exact h1 a ha
        · intro r hr hall
          obtain ⟨c1, c2⟩ := hconv r hr hall
          exact h2 r c1 c2

theorem find_range_lohi_min (lo hi : Nat) (areas : List vmarea_t) (npages : Nat)
    (hhi : hi < 2147483648) (hwf : wf_map areas) (hin : in_user_range lo hi areas)
    (hn : 0 < npages) (hex : ∃ r, free_run lo hi areas npages r) :
    ∃ r0 : Nat, vmmap_find_range lo hi areas npages VMMAP_DIR_LOHI = some (r0 : Int) ∧
      free_run lo hi areas npages r0 ∧ ∀ r, free_run lo hi areas npages r → r0 ≤ r := by
  obtain ⟨rs, hrs1, hrs2, hrs3⟩ := hex
  have hchain := wf_map_chain areas hwf
  have hnn : ¬ ¬ (0 < npages) := not_not.mpr hn
  unfold vmmap_find_range
  rw [if_neg hnn, if_pos rfl]
  cases areas with
  | nil =>
    refine ⟨lo, ?_, ⟨Nat.le_refl _, by omega, ?_⟩, fun r hr => hr.1⟩
    · simp only
      rw [ofU32_small (by omega)]
    · intro a ha
      exact absurd ha (List.not_mem_nil a)
  | cons head tail =>
    simp only
    have hb : ∀ a, a ∈ head :: tail → a.vma_start < a.vma_end ∧ a.vma_end < 4294967296 := by
      intro a ha
      have := hin a ha
      exact ⟨hwf.1 a ha, by omega⟩
    have hhd := hin head (List.mem_cons_self _ _)
    have hhne := hwf.1 head (List.mem_cons_self _ _)
    have hsub : usub32 head.vma_start lo = head.vma_start - lo :=
      usub32_of_le _ _ hhd.1 (by omega)
    have hpw := hchain
    rw [List.pairwise_cons] at hpw
    by_cases c : head.vma_start ≠ lo ∧ usub32 head.vma_start lo ≥ npages
    · rw [if_pos c]
      rw [hsub] at c
      refine ⟨lo, by rw [ofU32_small (by omega)], ⟨Nat.le_refl _, by omega, ?_⟩,
        fun r hr => hr.1⟩
      intro a ha
      right
      rcases List.mem_cons.mp ha with ha | ha
      · rw [ha]
        omega
      · have := hpw.1 a ha
        omega
    · rw [if_neg c]
      rw [hsub] at c
      have hfree : ∀ r, free_run lo hi (head :: tail) npages r →
          head.vma_end ≤ r ∧ ∀ a, a ∈ tail → a.vma_end ≤ r ∨ r + npages ≤ a.vma_start := by
        intro r hr
        refine ⟨?_, fun a ha => hr.2.2 a (List.mem_cons_of_mem _ ha)⟩
        rcases hr.2.2 head (List.mem_cons_self _ _) with h | h
        · exact h
        · exfalso
          apply c
          have := hr.1
          exact ⟨by omega, by omega⟩
      have hspec := find_range_lohi_loop_spec npages tail head hb hchain
      obtain ⟨q1, q2⟩ := hfree rs ⟨hrs1, hrs2, hrs3⟩
      cases hl : find_range_lohi_loop npages head tail with
      | mk o last =>
        cases o with
        | none =>
          simp only
          obtain ⟨h1, h2⟩ := hspec.2 last hl
          have hle := h2 rs q1 q2
          have hsub2 : usub32 hi last.vma_end = hi - last.vma_end :=
            usub32_of_le _ _ (by omega) (by omega)
          have c2 : usub32 hi last.vma_end ≥ npages := by
            rw [hsub2]
            omega
          rw [if_pos c2]
          have hlo := h1 head (List.mem_cons_self _ _)
          refine ⟨last.vma_end, by rw [ofU32_small (by omega)], ⟨by omega, by omega, ?_⟩, ?_⟩
          · intro a ha
            exact Or.inl (h1 a ha)
          · intro r hr
            obtain ⟨p1, p2⟩ := hfree r hr
            exact h2 r p1 p2
        | some r0 =>
          simp only
          obtain ⟨⟨h1, h2⟩, h3⟩ := hspec.1 r0 last hl
          have hle := h3 rs q1 q2
          refine ⟨r0, by rw [ofU32_small (by omega)], ⟨by omega, by omega, ?_⟩, ?_⟩
          · intro a ha
            rcases List.mem_cons.mp ha with ha | ha
            · rw [ha]
              exact Or.inl h1
            · exact h2 a ha
          · intro r hr
            obtain ⟨p1, p2⟩ := hfree r hr
            exact h3 r p1 p2

theorem find_range_hilo_max (lo hi : Nat) (areas : List vmarea_t) (npages : Nat)
    (hhi : hi < 2147483648) (hwf : wf_map areas) (hin : in_user_range lo hi areas)
    (hn : 0 < npages) (hex : ∃ r, free_run lo hi areas npages r) :
    ∃ r1 : Nat, vmmap_find_range lo hi areas npages VMMAP_DIR_HILO = some (r1 : Int) ∧
      free_run lo hi areas npages r1 ∧ ∀ r, free_run lo hi areas npages r → r ≤ r1 := by
  obtain ⟨rs, hrs1, hrs2, hrs3⟩ := hex
  have hchain := wf_map_chain areas hwf
  have hrchain : areas.reverse.Pairwise (fun a b => b.vma_end ≤ a.vma_start) :=
    List.pairwise_reverse.mpr hchain
  have hnn : ¬ ¬ (0 < npages) := not_not.mpr hn
  have hdir : ¬ (VMMAP_DIR_HILO = VMMAP_DIR_LOHI) := by decide
  unfold vmmap_find_range
  rw [if_neg hnn, if_neg hdir, if_pos rfl]
  cases hr : areas.reverse with
  | nil =>
    have hnil : areas = [] := List.reverse_eq_nil_iff.mp hr
    have hsub : usub32 hi npages = hi - npages := usub32_of_le _ _ (by omega) (by omega)
    simp only
    rw [hsub]
    refine ⟨hi - npages, by rw [ofU32_small (by omega)], ⟨by omega, by omega, ?_⟩, ?_⟩
    · intro a ha
      rw [hnil] at ha
      exact absurd ha (List.not_mem_nil a)
    · intro r hr
      have := hr.2.1
      omega
  | cons last before =>
    simp only
    rw [hr] at hrchain
    have hmem : ∀ a, a ∈ last :: before ↔ a ∈ areas := by
      intro a
      rw [← hr]
      exact List.mem_reverse
    have hb : ∀ a, a ∈ last :: before → a.vma_start < a.vma_end ∧ a.vma_end < 4294967296 := by
      intro a ha
      have := hin a ((hmem a).mp ha)
      exact ⟨hwf.1 a ((hmem a).mp ha), by omega⟩
    have hld := hin last ((hmem last).mp (List.mem_cons_self _ _))
    have hlne := hwf.1 last ((hmem last).mp (List.mem_cons_self _ _))
    have hsub : usub32 hi last.vma_end = hi - last.vma_end :=
      usub32_of_le _ _ hld.2 (by omega)
    have hpw := hrchain
    rw [List.pairwise_cons] at hpw
    have hall : ∀ r, (∀ a, a ∈ areas → a.vma_end ≤ r ∨ r + npages ≤ a.vma_start) ↔
        (∀ a, a ∈ last :: before → a.vma_end ≤ r ∨ r + npages ≤ a.vma_start) := by
      intro r
      constructor
      · intro h a ha
        exact h a ((hmem a).mp ha)
      · intro h a ha
        exact h a ((hmem a).mpr ha)
    by_cases c : usub32 hi last.vma_end ≥ npages
    · rw [if_pos c]
      rw [hsub] at c
      have hsub2 : usub32 hi npages = hi - npages := usub32_of_le _ _ (by omega) (by omega)
      rw [hsub2]
      refine ⟨hi - npages, by rw [ofU32_small (by omega)], ⟨by omega, by omega, ?_⟩, ?_⟩
      · rw [hall]
        intro a ha
        left
        rcases List.mem_cons.mp ha with ha | ha
        · rw [ha]
          omega
        · have := hpw.1 a ha
          omega
      · intro r hr
        have := hr.2.1
        omega
    · rw [if_neg c]
      rw [hsub] at c
      have hfree : ∀ r, free_run lo hi areas npages r →
          r + npages ≤ last.vma_start ∧
            ∀ a, a ∈ before → a.vma_end ≤ r ∨ r + npages ≤ a.vma_start := by
        intro r hr
        have h2 := (hall r).mp hr.2.2
        refine ⟨?_, fun a ha => h2 a (List.mem_cons_of_mem _ ha)⟩
        rcases h2 last (List.mem_cons_self _ _) with h | h
        · have := hr.2.1
          omega
        · exact h
      have hspec := find_range_hilo_loop_spec npages before last hb hrchain
      obtain ⟨q1, q2⟩ := hfree rs ⟨hrs1, hrs2, hrs3⟩
      cases hl : find_range_hilo_loop npages last before with
      | mk o first =>
        cases o with
        | none =>
          simp only
          obtain ⟨h1, h2⟩ := hspec.2 first hl
          have hle := h2 rs q1 q2
          have hfs := h1 last (List.mem_cons_self _ _)
          have hsub3 : usub32 first.vma_start npages = first.vma_start - npages :=
            usub32_of_le _ _ (by omega) (by omega)
          have c2 : first.vma_start ≥ npages := by omega
          have c3 : usub32 first.vma_start npages ≥ lo := by
            rw [hsub3]
            omega
          rw [if_pos c2, if_pos c3, hsub3]
          refine ⟨first.vma_start - npages, by rw [ofU32_small (by omega)],
            ⟨by omega, by omega, ?_⟩, ?_⟩
          · rw [hall]
            intro a ha
            right
            have := h1 a ha
            omega
          · intro r hr
            obtain ⟨p1, p2⟩ := hfree r hr
            have := h2 r p1 p2
            omega
        | some r0 =>
          simp only
          obtain ⟨⟨h1, h2⟩, h3⟩ := hspec.1 r0 first hl
          have hle := h3 rs q1 q2
          refine ⟨r0, by rw [ofU32_small (by omega)], ⟨by omega, by omega, ?_⟩, ?_⟩
          · rw [hall]
            intro a ha
            rcases List.mem_cons.mp ha with ha | ha
            · rw [ha]
              exact Or.inr h1
            · exact h2 a ha
          · intro r hr
            obtain ⟨p1, p2⟩ := hfree r hr
            exact h3 r p1 p2

/-- C21: for every map whose areas are non-empty, in ascending order, pairwise
non-overlapping and inside the user range `[lo, hi)`, and every `npages > 0` for which a
free run exists: with `dir = LOHI`, `vmmap_find_range` returns the smallest `r` such that
`[r, r + npages)` is free and inside the user range; with `dir = HILO` it returns the
largest such `r`. -/
theorem vmmap_find_range_first_fit (lo hi : Nat) (areas : List vmarea_t) (npages : Nat)
    (hhi : hi < 2147483648) (hwf : wf_map areas) (hin : in_user_range lo hi areas)
    (hn : 0 < npages) (hex : ∃ r, free_run lo hi areas npages r) :
    (∃ r0 : Nat, vmmap_find_range lo hi areas npages VMMAP_DIR_LOHI = some (r0 : Int) ∧
      free_run lo hi areas npages r0 ∧ ∀ r, free_run lo hi areas npages r → r0 ≤ r) ∧
    (∃ r1 : Nat, vmmap_find_range lo hi areas npages VMMAP_DIR_HILO = some (r1 : Int) ∧
      free_run lo hi areas npages r1 ∧ ∀ r, free_run lo hi areas npages r → r ≤ r1) :=
  ⟨find_range_lohi_min lo hi areas npages hhi hwf hin hn hex,
    find_range_hilo_max lo hi areas npages hhi hwf hin hn hex⟩

theorem vmmap_find_range_first_fit_witness :
    (100 : Nat) < 2147483648 ∧ wf_map [area 10 20, area 30 40] ∧
    in_user_range 5 100 [area 10 20, area 30 40] ∧ 0 < 8 ∧
    (∃ r, free_run 5 100 [area 10 20, area 30 40] 8 r) ∧
    ((∃ r0 : Nat, vmmap_find_range 5 100 [area 10 20, area 30 40] 8 VMMAP_DIR_LOHI
        = some (r0 : Int) ∧ free_run 5 100 [area 10 20, area 30 40] 8 r0 ∧
        ∀ r, free_run 5 100 [area 10 20, area 30 40] 8 r → r0 ≤ r) ∧
      (∃ r1 : Nat, vmmap_find_range 5 100 [area 10 20, area 30 40] 8 VMMAP_DIR_HILO
        = some (r1 : Int) ∧ free_run 5 100 [area 10 20, area 30 40] 8 r1 ∧
        ∀ r, free_run 5 100 [area 10 20, area 30 40] 8 r → r ≤ r1)) :=
  ⟨by decide, by decide, by decide, by decide, ⟨20, by decide⟩,
    vmmap_find_range_first_fit 5 100 [area 10 20, area 30 40] 8 (by decide) (by decide)
      (by decide) (by decide) ⟨20, by decide⟩⟩

/-! ## `vmmap_read` -/

/-- C25, the code on the example of its own comment (pages of 4 bytes, identity mapping,
`vaddr = 2`, `count = 7`): the three pages are mapped and every frame lookup succeeds,
`vmmap_read` returns 0, the first six bytes of `buf` (at address 1000) are the bytes at
addresses 2..7, but the seventh byte is not copied: `buf[6]` keeps its old value 0 while
the byte at address 8 is 18. -/
theorem vmmap_read_drops_last_byte :
    (vmmap_read 4 [mapped_area 0 3 0 5] (fun _ n => (0, 4 * n)) smallMem 2 1000 7).map
      (fun r => (r.1, [r.2 1000, r.2 1001, r.2 1002, r.2 1003, r.2 1004, r.2 1005, r.2 1006]))
      = some (0, [12, 13, 14, 15, 16, 17, 0]) ∧
    smallMem (2 + 6) = 18 := by
  decide

/-! ## `handle_pagefault` -/

theorem land_two_ne_zero (n : Nat) : n &&& 2 ≠ 0 ↔ n &&& 2 = 2 := by
  have h := land_two_pow n 1
  simp only [pow_one] at h
  rw [h]
  rcases Nat.mod_two_eq_zero_or_one (n / 2) with h0 | h1
  · rw [h0]
    simp
  · rw [h1]
    simp

/-- C28 (counterexample): the fault address lies in an area with READ, WRITE and EXEC, the
cause is a plain user read, so none of the permission conditions holds; the object's
`lookuppage` fails, and `handle_pagefault` kills `curproc` with EFAULT. -/
theorem handle_pagefault_kills_on_lookup_failure :
    vmmap_lookup [mapped_area 0 3 0 5] (ADDR_TO_PN 4096 4100) = some (mapped_area 0 3 0 5) ∧
      ¬ fault_denied (mapped_area 0 3 0 5).vma_prot FAULT_USER ∧
      handle_pagefault 4096 [mapped_area 0 3 0 5] (fun _ _ _ => (-1, 0)) (fun a => a) 4100
        FAULT_USER = some (pagefault_out.killed EFAULT) := by
  decide

/-- C28 (amended): for a fault address inside an area `v` with object `o`,
`handle_pagefault` kills `curproc` with status EFAULT when `v.prot` lacks READ, or the
cause has WRITE and `v.prot` lacks WRITE, or the cause has the RESERVED bit, or the cause
has EXEC and `v.prot` lacks EXEC; otherwise it looks up object page
`v.off + (vfn - v.start)` with `forwrite = 1` iff the cause has WRITE, kills `curproc` with
EFAULT when that lookup returns a negative value, and else maps the page with
PD_WRITE/PT_WRITE set iff the cause has WRITE, PRESENT and USER always set. -/
theorem handle_pagefault_spec (PS : Nat) (areas : List vmarea_t)
    (lookuppage : Nat → Nat → Int → Int × Nat) (pt_virt_to_phys : Nat → Nat)
    (vaddr cause : Nat) (v : vmarea_t) (o : Nat)
    (hv : vmmap_lookup areas (ADDR_TO_PN PS vaddr) = some v) (ho : v.vma_obj = some o) :
    (fault_denied v.vma_prot cause →
      handle_pagefault PS areas lookuppage pt_virt_to_phys vaddr cause
        = some (pagefault_out.killed EFAULT)) ∧
    (¬ fault_denied v.vma_prot cause →
      ∃ forwrite pdflags ptflags,
        (forwrite = 1 ↔ cause &&& FAULT_WRITE ≠ 0) ∧ (forwrite = 0 ∨ forwrite = 1) ∧
        (pdflags &&& PD_WRITE ≠ 0 ↔ cause &&& FAULT_WRITE ≠ 0) ∧
        (ptflags &&& PT_WRITE ≠ 0 ↔ cause &&& FAULT_WRITE ≠ 0) ∧
        pdflags &&& PD_PRESENT ≠ 0 ∧ pdflags &&& PD_USER ≠ 0 ∧
        ptflags &&& PT_PRESENT ≠ 0 ∧ ptflags &&& PT_USER ≠ 0 ∧
        handle_pagefault PS areas lookuppage pt_virt_to_phys vaddr cause
          = if (lookuppage o ((v.vma_off + usub32 (ADDR_TO_PN PS vaddr) v.vma_start)
                % 4294967296) forwrite).1 < 0 then some (pagefault_out.killed EFAULT)
            else some (pagefault_out.mapped
              ((v.vma_off + usub32 (ADDR_TO_PN PS vaddr) v.vma_start) % 4294967296)
              forwrite (PAGE_ALIGN_DOWN PS vaddr)
              (pt_virt_to_phys (lookuppage o ((v.vma_off
                + usub32 (ADDR_TO_PN PS vaddr) v.vma_start) % 4294967296) forwrite).2)
              pdflags ptflags)) := by
  refine ⟨?_, ?_⟩
  · intro hd
    unfold handle_pagefault
    rw [hv]
    simp only
    unfold fault_denied at hd
    by_cases c1 : band v.vma_prot PROT_READ = 0
    · rw [if_pos c1]
    · rw [if_neg c1]
      by_cases c2 : cause &&& FAULT_WRITE ≠ 0 ∧ band v.vma_prot PROT_WRITE = 0
      · rw [if_pos c2]
      · rw [if_neg c2]
        by_cases c3 : cause &&& FAULT_RESERVED ≠ 0
        · rw [if_pos c3]
        · rw [if_neg c3]
          by_cases c4 : cause &&& FAULT_EXEC ≠ 0 ∧ band v.vma_prot PROT_EXEC = 0
          · rw [if_pos c4]
          · exfalso
            rcases hd with h | h | h | h
            · exact c1 h
            · exact c2 h
            · exact c3 h
            · exact c4 h
  · intro hd
    unfold fault_denied at hd
    have c1 : ¬ (band v.vma_prot PROT_READ = 0) := fun h => hd (Or.inl h)
    have c2 : ¬ (cause &&& FAULT_WRITE ≠ 0 ∧ band v.vma_prot PROT_WRITE = 0) :=
      fun h => hd (Or.inr (Or.inl h))
    have c3 : ¬ (cause &&& FAULT_RESERVED ≠ 0) := fun h => hd (Or.inr (Or.inr (Or.inl h)))
    have c4 : ¬ (cause &&& FAULT_EXEC ≠ 0 ∧ band v.vma_prot PROT_EXEC = 0) :=
      fun h => hd (Or.inr (Or.inr (Or.inr h)))
    have hw := land_two_ne_zero cause
    by_cases cw : cause &&& FAULT_WRITE = FAULT_WRITE
    · refine ⟨1, PD_PRESENT ||| PD_USER ||| PD_WRITE, PT_PRESENT ||| PT_USER ||| PT_WRITE,
        ?_, Or.inr rfl, ?_, ?_, by decide, by decide, by decide, by decide, ?_⟩
      · exact ⟨fun _ => hw.mpr cw, fun _ => rfl⟩
      · exact ⟨fun _ => hw.mpr cw, fun _ => by decide⟩
      · exact ⟨fun _ => hw.mpr cw, fun _ => by decide⟩
      · unfold handle_pagefault
        rw [hv]
        simp only
        rw [if_neg c1, if_neg c2, if_neg c3, if_neg c4, ho]
        simp only [if_pos cw]
    · have cw0 : ¬ (cause &&& FAULT_WRITE ≠ 0) := fun h => cw (hw.mp h)
      refine ⟨0, PD_PRESENT ||| PD_USER, PT_PRESENT ||| PT_USER,
        ?_, Or.inl rfl, ?_, ?_, by decide, by decide, by decide, by decide, ?_⟩
      · exact ⟨fun h => absurd h (by decide), fun h => absurd h cw0⟩
      · exact ⟨fun h => absurd h (by decide), fun h => absurd h cw0⟩
      · exact ⟨fun h => absurd h (by decide), fun h => absurd h cw0⟩
      · unfold handle_pagefault
        rw [hv]
        simp only
        rw [if_neg c1, if_neg c2, if_neg c3, if_neg c4, ho]
        simp only [if_neg cw]

theorem handle_pagefault_spec_witness :
    vmmap_lookup [mapped_area 0 3 0 5] (ADDR_TO_PN 4096 4100) = some (mapped_area 0 3 0 5) ∧
    (mapped_area 0 3 0 5).vma_obj = some 5 ∧
    fault_denied (mapped_area 0 3 0 5).vma_prot FAULT_RESERVED ∧
    handle_pagefault 4096 [mapped_area 0 3 0 5] (fun _ n _ => (0, 4096 * n)) (fun a => a)
      4100 FAULT_RESERVED = some (pagefault_out.killed EFAULT) ∧
    ¬ fault_denied (mapped_area 0 3 0 5).vma_prot 6 ∧
    (∃ forwrite pdflags ptflags,
      (forwrite = 1 ↔ 6 &&& FAULT_WRITE ≠ 0) ∧ (forwrite = 0 ∨ forwrite = 1) ∧
      (pdflags &&& PD_WRITE ≠ 0 ↔ 6 &&& FAULT_WRITE ≠ 0) ∧
      (ptflags &&& PT_WRITE ≠ 0 ↔ 6 &&& FAULT_WRITE ≠ 0) ∧
      pdflags &&& PD_PRESENT ≠ 0 ∧ pdflags &&& PD_USER ≠ 0 ∧
      ptflags &&& PT_PRESENT ≠ 0 ∧ ptflags &&& PT_USER ≠ 0 ∧
      handle_pagefault 4096 [mapped_area 0 3 0 5] (fun _ n _ => (0, 4096 * n)) (fun a => a)
          4100 6
        = if ((fun (_ : Nat) (n : Nat) (_ : Int) => ((0 : Int), 4096 * n)) 5
              (((mapped_area 0 3 0 5).vma_off
                + usub32 (ADDR_TO_PN 4096 4100) (mapped_area 0 3 0 5).vma_start)
                % 4294967296) forwrite).1 < 0 then some (pagefault_out.killed EFAULT)
          else some (pagefault_out.mapped
            (((mapped_area 0 3 0 5).vma_off
              + usub32 (ADDR_TO_PN 4096 4100) (mapped_area 0 3 0 5).vma_start) % 4294967296)
            forwrite (PAGE_ALIGN_DOWN 4096 4100)
            ((fun a => a) ((fun (_ : Nat) (n : Nat) (_ : Int) => ((0 : Int), 4096 * n)) 5
              (((mapped_area 0 3 0 5).vma_off
                + usub32 (ADDR_TO_PN 4096 4100) (mapped_area 0 3 0 5).vma_start)
                % 4294967296) forwrite).2)
            pdflags ptflags)) :=
  ⟨by decide, by decide, by decide,
    (handle_pagefault_spec 4096 [mapped_area 0 3 0 5] (fun _ n _ => (0, 4096 * n))
      (fun a => a) 4100 FAULT_RESERVED (mapped_area 0 3 0 5) 5 (by decide) (by decide)).1
      (by decide),
    by decide,
    (handle_pagefault_spec 4096 [mapped_area 0 3 0 5] (fun _ n _ => (0, 4096 * n))
      (fun a => a) 4100 6 (mapped_area 0 3 0 5) 5 (by decide) (by decide)).2 (by decide)⟩

/-! ## `shadow_lookuppage` -/

theorem shadow_walk_chain (objs : Nat → Option mmobj_t) (P : PageOps) (n : Nat) :
    ∀ (l : List Nat) (start : Option Nat) (fuel : Nat), chain_from objs start l →
      l.length < fuel →
      shadow_walk objs P n fuel start
        = some ((l.find? (fun a => (P.pframe_get_resident a n).isSome)).bind
            (fun a => P.pframe_get_resident a n)) := by
  intro l
  induction l with
  | nil =>
    intro start fuel hc hf
    cases start with
    | some a => exact hc.elim
    | none =>
      cases fuel with
      | zero => simp at hf
      | succ fuel => rfl
  | cons x rest ih =>
    intro start fuel hc hf
    cases start with
    | none => exact hc.elim
    | some a =>
      obtain ⟨hax, ob, hob, hrest⟩ := hc
      subst hax
      cases fuel with
      | zero => simp at hf
      | succ fuel =>
        simp only [shadow_walk, hob]
        cases hres : P.pframe_get_resident a n with
        | some pf =>
          simp only [List.find?_cons, hres, Option.isSome_some, Option.bind_some]
          rw [Option.some_bind, hres]
        | none =>
          simp only [List.find?_cons, hres, Option.isSome_none]
          exact ih ob.mmo_shadowed fuel hrest (by simpa using hf)

/-- C29: for a shadow object `o` whose chain of shadowed objects is the finite list `l`
(starting at `o`, following `mmo_shadowed`) and whose bottom object is `b`:
`shadow_lookuppage(o, n, 0)` returns 0 with the resident frame for page `n` of the first
object of the chain that has page `n` resident, and only if no object of the chain has it
resident does it give the frame of the bottom object's own `lookuppage(n, 0)` (returning
-1 when that fails, else 0); with `forwrite` non-zero the frame is that of
`pframe_get(o, n)`, a frame of `o` itself. -/
theorem shadow_lookuppage_spec (objs : Nat → Option mmobj_t) (P : PageOps) (fuel : Nat)
    (o n : Nat) (l : List Nat) (ob : mmobj_t) (b : Nat)
    (hc : chain_from objs (some o) l) (hf : l.length < fuel) (hob : objs o = some ob)
    (hb : ob.mmo_bottom_obj = some b) :
    (∀ a pf, l.find? (fun a => (P.pframe_get_resident a n).isSome) = some a →
      P.pframe_get_resident a n = some pf →
      shadow_lookuppage objs P fuel o n 0 = some (0, some pf)) ∧
    (l.find? (fun a => (P.pframe_get_resident a n).isSome) = none →
      shadow_lookuppage objs P fuel o n 0
        = some (if (P.lookuppage b n 0).1 < 0 then -1 else 0, (P.lookuppage b n 0).2)) ∧
    (∀ forwrite, forwrite ≠ 0 →
      shadow_lookuppage objs P fuel o n forwrite
        = some (if (P.pframe_get o n).1 < 0 then -1 else 0, (P.pframe_get o n).2)) := by
  have hw := shadow_walk_chain objs P n l (some o) fuel hc hf
  refine ⟨?_, ?_, ?_⟩
  · intro a pf hfind hres
    unfold shadow_lookuppage
    rw [if_pos rfl, hw, hfind, Option.some_bind, hres]
  · intro hfind
    unfold shadow_lookuppage
    rw [if_pos rfl, hw, hfind]
    simp only [Option.bind_none, hob, hb]
    split_ifs <;> rfl
  · intro forwrite hfw
    unfold shadow_lookuppage
    rw [if_neg hfw]
    split_ifs <;> rfl

theorem shadow_lookuppage_spec_witness :
    chain_from chainHeap (some 3) [3, 2, 1] ∧ [3, 2, 1].length < 5 ∧
    chainHeap 3 = some ⟨1, 0, some 2, some 1⟩ ∧
    (⟨1, 0, some 2, some 1⟩ : mmobj_t).mmo_bottom_obj = some 1 ∧
    [3, 2, 1].find? (fun a => (chainOps.pframe_get_resident a 7).isSome) = some 2 ∧
    chainOps.pframe_get_resident 2 7 = some 70 ∧
    shadow_lookuppage chainHeap chainOps 5 3 7 0 = some (0, some 70) ∧
    [3, 2, 1].find? (fun a => (chainOps.pframe_get_resident a 8).isSome) = none ∧
    shadow_lookuppage chainHeap chainOps 5 3 8 0
      = some (if (chainOps.lookuppage 1 8 0).1 < 0 then -1 else 0,
          (chainOps.lookuppage 1 8 0).2) ∧
    (1 : Int) ≠ 0 ∧
    shadow_lookuppage chainHeap chainOps 5 3 7 1
      = some (if (chainOps.pframe_get 3 7).1 < 0 then -1 else 0,
          (chainOps.pframe_get 3 7).2) :=
  ⟨⟨rfl, _, rfl, rfl, _, rfl, rfl, _, rfl, trivial⟩, by decide, rfl, rfl, by decide,
    by decide,
    (shadow_lookuppage_spec chainHeap chainOps 5 3 7 [3, 2, 1] ⟨1, 0, some 2, some 1⟩ 1
      ⟨rfl, _, rfl, rfl, _, rfl, rfl, _, rfl, trivial⟩ (by decide) rfl rfl).1 2 70
      (by decide) (by decide),
    by decide,
    (shadow_lookuppage_spec chainHeap chainOps 5 3 8 [3, 2, 1] ⟨1, 0, some 2, some 1⟩ 1
      ⟨rfl, _, rfl, rfl, _, rfl, rfl, _, rfl, trivial⟩ (by decide) rfl rfl).2.1 (by decide),
    by decide,
    (shadow_lookuppage_spec chainHeap chainOps 5 3 7 [3, 2, 1] ⟨1, 0, some 2, some 1⟩ 1
      ⟨rfl, _, rfl, rfl, _, rfl, rfl, _, rfl, trivial⟩ (by decide) rfl rfl).2.2 1
      (by decide)⟩

/-! ## `vmmap_remove`: what stays and what goes -/

theorem map_chain_append (A C : List vmarea_t) :
    map_chain (A ++ C) ↔ map_chain A ∧ map_chain C ∧
      ∀ a, a ∈ A → ∀ c, c ∈ C → a.vma_end ≤ c.vma_start := by
  unfold map_chain
  rw [List.pairwise_append]
  constructor
  · rintro ⟨h1, h2, h3, h4⟩
    exact ⟨⟨fun a ha => h1 a (List.mem_append_left _ ha), h2⟩,
      ⟨fun a ha => h1 a (List.mem_append_right _ ha), h3⟩, h4⟩
  · rintro ⟨⟨h1, h2⟩, ⟨h3, h4⟩, h5⟩
    refine ⟨?_, h2, h4, h5⟩
    intro a ha
    rcases List.mem_append.mp ha with ha | ha
    · exact h1 a ha
    · exact h3 a ha

theorem map_chain_cons (x : vmarea_t) (C : List vmarea_t) :
    map_chain (x :: C) ↔ x.vma_start < x.vma_end ∧ map_chain C ∧
      ∀ c, c ∈ C → x.vma_end ≤ c.vma_start := by
  unfold map_chain
  rw [List.pairwise_cons]
  constructor
  · rintro ⟨h1, h2, h3⟩
    exact ⟨h1 x (List.mem_cons_self _ _),
      ⟨fun a ha => h1 a (List.mem_cons_of_mem _ ha), h3⟩, h2⟩
  · rintro ⟨h1, ⟨h2, h3⟩, h4⟩
    refine ⟨?_, h4, h3⟩
    intro a ha
    rcases List.mem_cons.mp ha with ha | ha
    · rw [ha]
      exact h1
    · exact h2 a ha

theorem map_chain_nil : map_chain [] :=
  ⟨fun a ha => absurd ha (List.not_mem_nil a), List.Pairwise.nil⟩

theorem wf_map_iff_chain (areas : List vmarea_t) : wf_map areas ↔ map_chain areas := by
  constructor
  · intro h
    exact ⟨h.1, wf_map_chain areas h⟩
  · rintro ⟨h1, h2⟩
    refine ⟨h1, ?_⟩
    induction areas with
    | nil => exact List.Pairwise.nil
    | cons x xs ih =>
      rw [List.pairwise_cons] at h2 ⊢
      refine ⟨?_, ih (fun a ha => h1 a (List.mem_cons_of_mem _ ha)) h2.2⟩
      intro b hb
      have := h2.1 b hb
      have := h1 x (List.mem_cons_self _ _)
      exact ⟨by omega, Or.inl (h2.1 b hb)⟩

theorem page_at_nil (vfn : Nat) : page_at [] vfn = none := rfl

theorem page_at_cons (a : vmarea_t) (l : List vmarea_t) (vfn : Nat) :
    page_at (a :: l) vfn
      = if a.vma_start ≤ vfn ∧ a.vma_end > vfn then
          some ((a.vma_off + (vfn - a.vma_start)) % 4294967296, a.vma_prot, a.vma_flags)
        else page_at l vfn := by
  unfold page_at
  simp only [vmmap_lookup]
  split_ifs <;> rfl

theorem page_at_append (l1 l2 : List vmarea_t) (vfn : Nat) :
    page_at (l1 ++ l2) vfn = (page_at l1 vfn).elim (page_at l2 vfn) some := by
  induction l1 with
  | nil => rfl
  | cons a l ih =>
    rw [List.cons_append, page_at_cons, page_at_cons, ih]
    split_ifs <;> rfl

theorem page_at_congr (A B B1 C : List vmarea_t) (vfn : Nat)
    (h : page_at B vfn = page_at B1 vfn) :
    page_at (A ++ B ++ C) vfn = page_at (A ++ B1 ++ C) vfn := by
  rw [page_at_append, page_at_append A B, page_at_append (A ++ B1), page_at_append A B1, h]

theorem range_clear_append (L H : Nat) (A B : List vmarea_t) :
    range_clear L H (A ++ B) ↔ range_clear L H A ∧ range_clear L H B := by
  unfold range_clear
  constructor
  · intro h
    exact ⟨fun a ha => h a (List.mem_append_left _ ha),
      fun a ha => h a (List.mem_append_right _ ha)⟩
  · rintro ⟨h1, h2⟩ a ha
    rcases List.mem_append.mp ha with ha | ha
    · exact h1 a ha
    · exact h2 a ha

theorem range_clear_single (L H : Nat) (a : vmarea_t) :
    range_clear L H [a] ↔ a.vma_end ≤ L ∨ H ≤ a.vma_start := by
  unfold range_clear
  constructor
  · intro h
    exact h a (List.mem_singleton.mpr rfl)
  · intro h b hb
    rw [List.mem_singleton.mp hb]
    exact h

/-- The numeric fields of the two halves that case 1 of `vmmap_remove` makes of an area. -/
theorem split_area_fields (junk : Option Nat) (L H : Nat) (vma v1 nw : vmarea_t) (s s1 : Vm)
    (h : split_area junk L H vma s = some (split_out.split v1 nw s1)) :
    (v1.vma_start = vma.vma_start ∧ v1.vma_end = L ∧ v1.vma_off = vma.vma_off ∧
      v1.vma_prot = vma.vma_prot ∧ v1.vma_flags = vma.vma_flags) ∧
    (nw.vma_start = H ∧ nw.vma_end = vma.vma_end ∧
      nw.vma_off = usub32 ((vma.vma_off + H) % 4294967296) vma.vma_start ∧
      nw.vma_prot = vma.vma_prot ∧ nw.vma_flags = vma.vma_flags ∧ nw.vma_vmmap = none) := by
  unfold split_area at h
  split at h
  · simp at h
  · simp only at h
    split_ifs at h with c1 c2
    · split at h
      · simp at h
      · split at h
        · simp at h
        · split at h
          · simp at h
          · split at h
            · simp at h
            · simp at h
            · split at h
              · simp at h
              · simp only [Option.some.injEq, split_out.split.injEq] at h
                obtain ⟨e1, e2, _⟩ := h
                subst e1
                subst e2
                exact ⟨⟨rfl, rfl, rfl, rfl, rfl⟩, rfl, rfl, rfl, rfl, rfl, rfl⟩
    · split at h
      · simp at h
      · simp only [Option.some.injEq, split_out.split.injEq] at h
        obtain ⟨e1, e2, _⟩ := h
        subst e1
        subst e2
        exact ⟨⟨rfl, rfl, rfl, rfl, rfl⟩, rfl, rfl, rfl, rfl, rfl, rfl⟩
    · simp only [Option.some.injEq, split_out.split.injEq] at h
      obtain ⟨e1, e2, _⟩ := h
      subst e1
      subst e2
      exact ⟨⟨rfl, rfl, rfl, rfl, rfl⟩, rfl, rfl, rfl, rfl, rfl, rfl⟩

/-- In an ordered map the new half of a split area goes right after the shrunk half, in
front of the saved next link. -/
theorem insert_split_sorted (nw : vmarea_t) (full rest : List vmarea_t)
    (h1 : ∀ a, a ∈ full → a.vma_start ≤ nw.vma_start)
    (h2 : ∀ a, a ∈ rest → nw.vma_start < a.vma_start ∧ nw.vma_end < a.vma_end) :
    insert_split nw full rest = (full ++ [nw], rest) := by
  unfold insert_split
  have c : ¬ (full.any (fun a => insert_here a nw) = true) := by
    rw [List.any_eq_true]
    rintro ⟨a, ha, hp⟩
    unfold insert_here at hp
    simp only [Bool.and_eq_true, decide_eq_true_eq] at hp
    have := h1 a ha
    omega
  rw [if_neg c]
  cases rest with
  | nil => rfl
  | cons nxt rest1 =>
    have hp : insert_here nxt nw = true := by
      unfold insert_here
      simp only [Bool.and_eq_true, decide_eq_true_eq]
      have := h2 nxt (List.mem_cons_self _ _)
      omega
    simp only [hp, if_true]

theorem chain_replace (A C M : List vmarea_t) (vma : vmarea_t)
    (hc : map_chain (A ++ vma :: C)) (hM : map_chain M)
    (hb : ∀ m, m ∈ M → vma.vma_start ≤ m.vma_start ∧ m.vma_end ≤ vma.vma_end) :
    map_chain ((A ++ M) ++ C) := by
  obtain ⟨hcA, hcB, hcAB⟩ := (map_chain_append A (vma :: C)).mp hc
  obtain ⟨_, hcC, hvC⟩ := (map_chain_cons vma C).mp hcB
  rw [map_chain_append, map_chain_append]
  refine ⟨⟨hcA, hM, ?_⟩, hcC, ?_⟩
  · intro a ha m hm
    have := hcAB a ha vma (List.mem_cons_self _ _)
    have := hb m hm
    omega
  · intro x hx c hc1
    rcases List.mem_append.mp hx with hx | hx
    · exact hcAB x hx c (List.mem_cons_of_mem _ hc1)
    · have := hvC c hc1
      have := hb x hx
      omega

theorem page_at_single (a : vmarea_t) (vfn : Nat) :
    page_at [a] vfn
      = if a.vma_start ≤ vfn ∧ a.vma_end > vfn then
          some ((a.vma_off + (vfn - a.vma_start)) % 4294967296, a.vma_prot, a.vma_flags)
        else none := by
  rw [page_at_cons, page_at_nil]

theorem vmmap_remove_loop_inv (lo hi map : Nat) (mmo_put : Vm → Nat → Vm)
    (junk : Option Nat) (L H : Nat) (hLH : L ≤ H) (hH : H < 4294967296) :
    ∀ (fuel : Nat) (done todo : List vmarea_t) (s : Vm) (out : List vmarea_t) (s1 : Vm),
      map_chain (done ++ todo) → range_clear L H done →
      vmmap_remove_loop lo hi map mmo_put junk L H fuel done todo s = some (0, out, s1) →
      map_chain out ∧ range_clear L H out ∧
        ∀ vfn, ¬ (L ≤ vfn ∧ vfn < H) → page_at out vfn = page_at (done ++ todo) vfn := by
  intro fuel
  induction fuel with
  | zero =>
    intro done todo s out s1 _ _ h
    simp [vmmap_remove_loop] at h
  | succ fuel ih =>
    intro done todo s out s1 hc hcl h
    cases todo with
    | nil =>
      simp only [vmmap_remove_loop, Option.some.injEq, Prod.mk.injEq, true_and] at h
      obtain ⟨h1, _⟩ := h
      subst h1
      rw [List.append_nil] at hc
      exact ⟨hc, hcl, fun vfn _ => by rw [List.append_nil]⟩
    | cons vma rest =>
      simp only [vmmap_remove_loop] at h
      obtain ⟨hcA, hcB, hcAB⟩ := (map_chain_append done (vma :: rest)).mp hc
      obtain ⟨hne, hcR, hvR⟩ := (map_chain_cons vma rest).mp hcB
      have key : ∀ (M : List vmarea_t) (s2 : Vm), map_chain M →
          (∀ m, m ∈ M → vma.vma_start ≤ m.vma_start ∧ m.vma_end ≤ vma.vma_end) →
          range_clear L H M →
          (∀ vfn, ¬ (L ≤ vfn ∧ vfn < H) → page_at M vfn = page_at [vma] vfn) →
          vmmap_remove_loop lo hi map mmo_put junk L H fuel (done ++ M) rest s2
            = some (0, out, s1) →
          map_chain out ∧ range_clear L H out ∧
            ∀ vfn, ¬ (L ≤ vfn ∧ vfn < H) →
              page_at out vfn = page_at (done ++ vma :: rest) vfn := by
        intro M s2 hM hb hMc hMp hrun
        obtain ⟨r1, r2, r3⟩ := ih (done ++ M) rest s2 out s1 (chain_replace done rest M vma hc hM hb)
          ((range_clear_append L H done M).mpr ⟨hcl, hMc⟩) hrun
        refine ⟨r1, r2, ?_⟩
        intro vfn hv
        rw [r3 vfn hv]
        have e : done ++ vma :: rest = done ++ [vma] ++ rest := by
          rw [List.append_assoc]
          rfl
        rw [e]
        exact page_at_congr done M [vma] rest vfn (hMp vfn hv)
      by_cases c1 : L > vma.vma_start ∧ H < vma.vma_end
      · rw [if_pos c1] at h
        cases hs : split_area junk L H vma s with
        | none =>
          rw [hs] at h
          simp at h
        | some so =>
          rw [hs] at h
          cases so with
          | failed s2 v2 => simp at h
          | split v1 nw s2 =>
            simp only at h
            obtain ⟨⟨f1, f2, f3, f4, f5⟩, g1, g2, g3, g4, g5, _⟩ :=
              split_area_fields junk L H vma v1 nw s s2 hs
            cases hins : vmmap_insert lo hi map (done ++ v1 :: rest) nw with
            | none =>
              rw [hins] at h
              simp at h
            | some l =>
              rw [hins] at h
              simp only at h
              have hsp : insert_split { nw with vma_vmmap := some map } (done ++ [v1]) rest
                  = ((done ++ [v1]) ++ [{ nw with vma_vmmap := some map }], rest) := by
                apply insert_split_sorted
                · intro a ha
                  show a.vma_start ≤ nw.vma_start
                  rcases List.mem_append.mp ha with ha | ha
                  · have := hcAB a ha vma (List.mem_cons_self _ _)
                    have := hcA.1 a ha
                    omega
                  · rw [List.mem_singleton.mp ha]
                    omega
                · intro a ha
                  show nw.vma_start < a.vma_start ∧ nw.vma_end < a.vma_end
                  have := hvR a ha
                  have := hcR.1 a ha
                  omega
              rw [hsp] at h
              have e2 : (done ++ [v1]) ++ [{ nw with vma_vmmap := some map }]
                  = done ++ [v1, { nw with vma_vmmap := some map }] := by
                rw [List.append_assoc]
                rfl
              rw [e2] at h
              refine key [v1, { nw with vma_vmmap := some map }] s2 ?_ ?_ ?_ ?_ h
              · rw [map_chain_cons, map_chain_cons]
                refine ⟨by omega, ⟨?_, map_chain_nil, ?_⟩, ?_⟩
                · show nw.vma_start < nw.vma_end
                  omega
                · intro c hc1
                  exact absurd hc1 (List.not_mem_nil c)
                · intro c hc1
                  rw [List.mem_singleton.mp hc1]
                  show v1.vma_end ≤ nw.vma_start
                  omega
              · intro m hm
                rcases List.mem_cons.mp hm with hm | hm
                · rw [hm]
                  omega
                · rw [List.mem_singleton.mp hm]
                  show vma.vma_start ≤ nw.vma_start ∧ nw.vma_end ≤ vma.vma_end
                  omega
              · intro m hm
                rcases List.mem_cons.mp hm with hm | hm
                · rw [hm]
                  left
                  omega
                · rw [List.mem_singleton.mp hm]
                  right
                  show H ≤ nw.vma_start
                  omega
              · intro vfn hv
                rw [page_at_cons, page_at_single, page_at_single]
                simp only [f1, f2, f3, f4, f5, g1, g2, g3, g4, g5]
                unfold usub32
                split_ifs <;> first | omega | (congr 2; omega) | rfl
      · rw [if_neg c1] at h
        by_cases c2 : L > vma.vma_start ∧ L < vma.vma_end ∧ H ≥ vma.vma_end
        · rw [if_pos c2] at h
          refine key [{ vma with vma_end := L }] s ?_ ?_ ?_ ?_ h
          · rw [map_chain_cons]
            refine ⟨?_, map_chain_nil, fun c hc1 => absurd hc1 (List.not_mem_nil c)⟩
            show vma.vma_start < L
            omega
          · intro m hm
            rw [List.mem_singleton.mp hm]
            show vma.vma_start ≤ vma.vma_start ∧ L ≤ vma.vma_end
            omega
          · rw [range_clear_single]
            left
            show L ≤ L
            omega
          · intro vfn hv
            rw [page_at_single, page_at_single]
            simp only
            split_ifs <;> first | omega | rfl
        · rw [if_neg c2] at h
          by_cases c3 : L ≤ vma.vma_start ∧ H > vma.vma_start ∧ H < vma.vma_end
          · rw [if_pos c3] at h
            refine key [{ vma with
              vma_off := (vma.vma_off + usub32 H vma.vma_start) % 4294967296,
              vma_start := H }] s ?_ ?_ ?_ ?_ h
            · rw [map_chain_cons]
              refine ⟨?_, map_chain_nil, fun c hc1 => absurd hc1 (List.not_mem_nil c)⟩
              show H < vma.vma_end
              omega
            · intro m hm
              rw [List.mem_singleton.mp hm]
              show vma.vma_start ≤ H ∧ vma.vma_end ≤ vma.vma_end
              omega
            · rw [range_clear_single]
              right
              show H ≤ H
              omega
            · intro vfn hv
              rw [page_at_single, page_at_single]
              simp only
              unfold usub32
              split_ifs <;> first | omega | (congr 2; omega) | rfl
          · rw [if_neg c3] at h
            by_cases c4 : L ≤ vma.vma_start ∧ H ≥ vma.vma_end
            · rw [if_pos c4] at h
              have h2 : vmmap_remove_loop lo hi map mmo_put junk L H fuel (done ++ []) rest
                  (match vma.vma_obj with
                    | some o => mmo_put s o
                    | none => s) = some (0, out, s1) := by
                rw [List.append_nil]
                exact h
              refine key [] _ map_chain_nil ?_ ?_ ?_ h2
              · intro m hm
                exact absurd hm (List.not_mem_nil m)
              · intro m hm
                exact absurd hm (List.not_mem_nil m)
              · intro vfn hv
                rw [page_at_single, page_at_nil]
                split_ifs <;> first | omega | rfl
            · rw [if_neg c4] at h
              refine key [vma] s ?_ ?_ ?_ ?_ h
              · rw [map_chain_cons]
                exact ⟨hne, map_chain_nil, fun c hc1 => absurd hc1 (List.not_mem_nil c)⟩
              · intro m hm
                rw [List.mem_singleton.mp hm]
                omega
              · rw [range_clear_single]
                omega
              · intro vfn _
                rfl

theorem range_clear_lookup (L H : Nat) (l : List vmarea_t) (h : range_clear L H l)
    (vfn : Nat) (h1 : L ≤ vfn) (h2 : vfn < H) : vmmap_lookup l vfn = none := by
  induction l with
  | nil => rfl
  | cons a rest ih =>
    have ha := h a (List.mem_cons_self _ _)
    have c : ¬ (a.vma_start ≤ vfn ∧ a.vma_end > vfn) := by omega
    simp only [vmmap_lookup]
    rw [if_neg c]
    exact ih (fun b hb => h b (List.mem_cons_of_mem _ hb))

theorem range_clear_empty_loop (L H : Nat) (l : List vmarea_t) (h : range_clear L H l) :
    is_range_empty_loop L H l = 1 := by
  induction l with
  | nil => rfl
  | cons a rest ih =>
    have ha := h a (List.mem_cons_self _ _)
    have c : L ≥ a.vma_end ∨ H ≤ a.vma_start := by omega
    simp only [is_range_empty_loop]
    rw [if_pos c]
    exact ih (fun b hb => h b (List.mem_cons_of_mem _ hb))

theorem vmmap_remove_of_map (lo hi map : Nat) (mmo_put : Vm → Nat → Vm) (junk : Option Nat)
    (fuel : Nat) (areas : List vmarea_t) (s : Vm) (lopage npages : Nat)
    (out : List vmarea_t)
    (h : (vmmap_remove lo hi map mmo_put junk fuel areas s lopage npages).map
      (fun r => (r.1, r.2.1)) = some (0, out)) :
    ∃ s1, vmmap_remove lo hi map mmo_put junk fuel areas s lopage npages
      = some (0, out, s1) := by
  cases hd : vmmap_remove lo hi map mmo_put junk fuel areas s lopage npages with
  | none =>
    rw [hd] at h
    simp at h
  | some r =>
    rw [hd] at h
    obtain ⟨r1, r2, r3⟩ := r
    simp only [Option.map_some', Option.some.injEq, Prod.mk.injEq] at h
    obtain ⟨h1, h2⟩ := h
    subst h1
    subst h2
    exact ⟨r3, rfl⟩

/-- C22: for every map whose areas are non-empty, sorted and pairwise non-overlapping and
every `lopage`, `npages > 0` (a range of 32-bit page numbers): after
`vmmap_remove(map, lopage, npages)` returns 0, `vmmap_lookup` is NULL for every vfn in
`[lopage, lopage + npages)`, `vmmap_is_range_empty(map, lopage, npages)` is 1 (for a range
inside the user range, which that function asserts), and the areas of the map are still
non-empty, sorted by start and pairwise non-overlapping. -/
theorem vmmap_remove_clears_range (lo hi map : Nat) (mmo_put : Vm → Nat → Vm)
    (junk : Option Nat) (fuel : Nat) (areas : List vmarea_t) (s : Vm) (lopage npages : Nat)
    (out : List vmarea_t) (hwf : wf_map areas) (hn : 0 < npages)
    (hno : lopage + npages < 4294967296)
    (h : (vmmap_remove lo hi map mmo_put junk fuel areas s lopage npages).map
      (fun r => (r.1, r.2.1)) = some (0, out)) :
    (∀ vfn, lopage ≤ vfn → vfn < lopage + npages → vmmap_lookup out vfn = none) ∧
    (lo ≤ lopage → lopage + npages ≤ hi →
      vmmap_is_range_empty lo hi out lopage npages = some 1) ∧
    wf_map out := by
  obtain ⟨s1, hrun⟩ := vmmap_remove_of_map lo hi map mmo_put junk fuel areas s lopage npages
    out h
  unfold vmmap_remove at hrun
  have hmod : (lopage + npages) % 4294967296 = lopage + npages := Nat.mod_eq_of_lt hno
  rw [hmod] at hrun
  obtain ⟨r1, r2, _⟩ := vmmap_remove_loop_inv lo hi map mmo_put junk lopage (lopage + npages)
    (by omega) hno fuel [] areas s out s1 ((wf_map_iff_chain areas).mp hwf)
    (fun a ha => absurd ha (List.not_mem_nil a)) hrun
  refine ⟨fun vfn h1 h2 => range_clear_lookup _ _ out r2 vfn h1 h2, ?_,
    (wf_map_iff_chain out).mpr r1⟩
  intro h1 h2
  unfold vmmap_is_range_empty
  rw [hmod]
  have c : ¬ ¬ (lopage < lopage + npages ∧ lo ≤ lopage ∧ hi ≥ lopage + npages) := by
    rw [not_not]
    omega
  rw [if_neg c, range_clear_empty_loop _ _ out r2]

theorem vmmap_remove_clears_range_witness :
    wf_map [mapped_area 10 20 0 5, mapped_area 30 40 7 5] ∧ 0 < 20 ∧
    15 + 20 < 4294967296 ∧
    (vmmap_remove 0 100 9 (fun s _ => s) none 5 [mapped_area 10 20 0 5, mapped_area 30 40 7 5]
      (oneObjState []) 15 20).map (fun r => (r.1, r.2.1))
      = some (0, [⟨10, 15, 0, 7, 1, some 0, some 5⟩, ⟨35, 40, 12, 7, 1, some 0, some 5⟩]) ∧
    ((∀ vfn, 15 ≤ vfn → vfn < 15 + 20 →
        vmmap_lookup [⟨10, 15, 0, 7, 1, some 0, some 5⟩, ⟨35, 40, 12, 7, 1, some 0, some 5⟩]
          vfn = none) ∧
      (0 ≤ 15 → 15 + 20 ≤ 100 →
        vmmap_is_range_empty 0 100
          [⟨10, 15, 0, 7, 1, some 0, some 5⟩, ⟨35, 40, 12, 7, 1, some 0, some 5⟩] 15 20
          = some 1) ∧
      wf_map [⟨10, 15, 0, 7, 1, some 0, some 5⟩, ⟨35, 40, 12, 7, 1, some 0, some 5⟩]) :=
  ⟨by decide, by decide, by decide, by decide,
    vmmap_remove_clears_range 0 100 9 (fun s _ => s) none 5
      [mapped_area 10 20 0 5, mapped_area 30 40 7 5] (oneObjState []) 15 20
      [⟨10, 15, 0, 7, 1, some 0, some 5⟩, ⟨35, 40, 12, 7, 1, some 0, some 5⟩]
      (by decide) (by decide) (by decide) (by decide)⟩

/-- C23: for every map whose areas are non-empty, sorted and pairwise non-overlapping and
every `vmmap_remove(map, L, n)` that returns 0 (a range of 32-bit page numbers): for each
vfn outside `[L, L + n)`, vfn is mapped after the call iff it was mapped before, and if
mapped, the object page number `vma_off + (vfn - vma_start)`, the protection bits and the
flags of its area are the same as before. -/
theorem vmmap_remove_frame (lo hi map : Nat) (mmo_put : Vm → Nat → Vm)
    (junk : Option Nat) (fuel : Nat) (areas : List vmarea_t) (s : Vm) (lopage npages : Nat)
    (out : List vmarea_t) (hwf : wf_map areas) (hno : lopage + npages < 4294967296)
    (h : (vmmap_remove lo hi map mmo_put junk fuel areas s lopage npages).map
      (fun r => (r.1, r.2.1)) = some (0, out)) :
    ∀ vfn, ¬ (lopage ≤ vfn ∧ vfn < lopage + npages) →
      ((vmmap_lookup out vfn).isSome = (vmmap_lookup areas vfn).isSome) ∧
      page_at out vfn = page_at areas vfn := by
  obtain ⟨s1, hrun⟩ := vmmap_remove_of_map lo hi map mmo_put junk fuel areas s lopage npages
    out h
  unfold vmmap_remove at hrun
  have hmod : (lopage + npages) % 4294967296 = lopage + npages := Nat.mod_eq_of_lt hno
  rw [hmod] at hrun
  obtain ⟨_, _, r3⟩ := vmmap_remove_loop_inv lo hi map mmo_put junk lopage (lopage + npages)
    (by omega) hno fuel [] areas s out s1 ((wf_map_iff_chain areas).mp hwf)
    (fun a ha => absurd ha (List.not_mem_nil a)) hrun
  intro vfn hv
  have e := r3 vfn hv
  rw [List.nil_append] at e
  refine ⟨?_, e⟩
  have e2 := congrArg Option.isSome e
  unfold page_at at e2
  rw [Option.isSome_map', Option.isSome_map'] at e2
  exact e2

theorem vmmap_remove_frame_witness :
    wf_map [mapped_area 10 20 0 5, mapped_area 30 40 7 5] ∧ 12 + 3 < 4294967296 ∧
    (vmmap_remove 0 100 9 (fun s _ => s) none 5 [mapped_area 10 20 0 5, mapped_area 30 40 7 5]
      (oneObjState [some 50]) 12 3).map (fun r => (r.1, r.2.1))
      = some (0, [⟨10, 12, 0, 7, 1, some 0, some 5⟩, ⟨15, 20, 5, 7, 1, some 9, some 5⟩,
          mapped_area 30 40 7 5]) ∧
    ∀ vfn, ¬ (12 ≤ vfn ∧ vfn < 12 + 3) →
      ((vmmap_lookup [⟨10, 12, 0, 7, 1, some 0, some 5⟩, ⟨15, 20, 5, 7, 1, some 9, some 5⟩,
          mapped_area 30 40 7 5] vfn).isSome
        = (vmmap_lookup [mapped_area 10 20 0 5, mapped_area 30 40 7 5] vfn).isSome) ∧
      page_at [⟨10, 12, 0, 7, 1, some 0, some 5⟩, ⟨15, 20, 5, 7, 1, some 9, some 5⟩,
          mapped_area 30 40 7 5] vfn
        = page_at [mapped_area 10 20 0 5, mapped_area 30 40 7 5] vfn :=
  ⟨by decide, by decide, by decide,
    vmmap_remove_frame 0 100 9 (fun s _ => s) none 5
      [mapped_area 10 20 0 5, mapped_area 30 40 7 5] (oneObjState [some 50]) 12 3
      [⟨10, 12, 0, 7, 1, some 0, some 5⟩, ⟨15, 20, 5, 7, 1, some 9, some 5⟩,
        mapped_area 30 40 7 5] (by decide) (by decide) (by decide)⟩

/-! ## `vmmap_map` -/

/-- C24, the code on the call of the kernel's own test `vmtest_map_destory`,
`vmmap_map(newMap, NULL, 0, 1, 7, 2, 0, 2, &newVma)` on an empty map (user range
`[1024, 786432)`, every allocation succeeding): the new area covers
`[r, r + 1)` with `r = vmmap_find_range(map, 1, 2) = 786431`, has `vma_off = 0` and the
supplied `prot` and `flags`, but the value returned is 786431, not 0. -/
theorem vmmap_map_returns_start_vfn :
    vmmap_find_range 1024 786432 [] 1 2 = some 786431 ∧
      (vmmap_map 4096 1024 786432 9 (fun s _ => s) none 5 (fun _ _ s => (0, none, s)) []
        (poolState [some 1, some 2, some 3]) none 0 1 7 2 0 2).map
        (fun r => (r.ret, r.new_vma, r.areas))
        = some (786431, some ⟨786431, 786432, 0, 7, 2, some 9, some 3⟩,
            [⟨786431, 786432, 0, 7, 2, some 9, some 3⟩]) := by
  decide

/-! ## `do_brk` -/

/-- Whatever `vmmap_map` does, the second half of `do_mmap` returns 0 or `map_failed`. -/
theorem do_mmap_map_ret (PS uml umh map : Nat) (mmo_put : Vm → Nat → Vm) (junk : Option Nat)
    (fuel : Nat) (vn_mmap : Nat → vmarea_t → Vm → Int × Option Nat × Vm) (map_failed : Int)
    (st : mmap_state) (file : Option (Nat × Nat)) (addr len : Nat) (prot flags off : Int)
    (r : Int × Option Nat × mmap_state)
    (h : do_mmap_map PS uml umh map mmo_put junk fuel vn_mmap map_failed st file addr len prot
      flags off = some r) :
    r.1 = 0 ∨ r.1 = map_failed := by
  unfold do_mmap_map at h
  simp only [] at h
  split at h
  · exact absurd h (by simp)
  · split at h
    · exact absurd h (by simp)
    · split at h
      · simp only [Option.some.injEq] at h
        subst h
        exact Or.inr rfl
      · split at h
        · exact absurd h (by simp)
        · simp only [Option.some.injEq] at h
          subst h
          exact Or.inl rfl

/-- Every value `do_mmap` returns is 0 or `(int)MAP_FAILED`. -/
theorem do_mmap_ret (PS uml umh map : Nat) (mmo_put : Vm → Nat → Vm) (junk : Option Nat)
    (fuel : Nat) (vn_mmap : Nat → vmarea_t → Vm → Int × Option Nat × Vm)
    (vn_busy : Nat → Bool) (map_failed : Int) (st : mmap_state) (addr len : Nat)
    (prot flags fd off : Int) (r : Int × Option Nat × mmap_state)
    (h : do_mmap PS uml umh map mmo_put junk fuel vn_mmap vn_busy map_failed st addr len prot
      flags fd off = some r) :
    r.1 = 0 ∨ r.1 = map_failed := by
  unfold do_mmap at h
  by_cases c1 : band flags MAP_FIXED = MAP_FIXED ∧ (addr < uml ∨ addr ≥ umh)
  · rw [if_pos c1] at h
    simp only [Option.some.injEq] at h
    subst h
    exact Or.inr rfl
  rw [if_neg c1] at h
  by_cases c2 : ¬ PAGE_ALIGNED PS addr ∨ ¬ PAGE_ALIGNED PS (toU32 off)
  · rw [if_pos c2] at h
    simp only [Option.some.injEq] at h
    subst h
    exact Or.inr rfl
  rw [if_neg c2] at h
  by_cases c3 : len ≤ 0 ∨ len ≥ umh - uml
  · rw [if_pos c3] at h
    simp only [Option.some.injEq] at h
    subst h
    exact Or.inr rfl
  rw [if_neg c3] at h
  by_cases c4 : ¬ (band flags MAP_PRIVATE = MAP_PRIVATE ∨ band flags MAP_SHARED = MAP_SHARED)
  · rw [if_pos c4] at h
    simp only [Option.some.injEq] at h
    subst h
    exact Or.inr rfl
  rw [if_neg c4] at h
  by_cases c5 : (fd ≥ NFILES ∨ fd < 0) ∧ band flags MAP_ANON ≠ MAP_ANON
  · rw [if_pos c5] at h
    simp only [Option.some.injEq] at h
    subst h
    exact Or.inr rfl
  rw [if_neg c5] at h
  by_cases c6 : band flags MAP_ANON ≠ MAP_ANON
  · rw [if_pos c6] at h
    cases hg : fget st.ks fd with
    | none => rw [hg] at h; exact absurd h (by simp)
    | some g =>
      obtain ⟨po, ks1⟩ := g
      rw [hg] at h
      cases po with
      | none =>
        simp only [Option.some.injEq] at h
        subst h
        exact Or.inr rfl
      | some p =>
        simp only [] at h
        cases hf : ks1.files p with
        | none => rw [hf] at h; exact absurd h (by simp)
        | some f =>
          rw [hf] at h
          simp only [] at h
          cases hv : f.f_vnode with
          | none =>
            rw [hv] at h
            simp only [] at h
            split at h
            · cases hp : fput ks1 p with
              | none => rw [hp] at h; exact absurd h (by simp)
              | some ks2 =>
                rw [hp] at h
                simp only [Option.map_some', Option.some.injEq] at h
                subst h
                exact Or.inr rfl
            · exact absurd h (by simp)
          | some v =>
            rw [hv] at h
            simp only [] at h
            split at h
            · cases hp : fput ks1 p with
              | none => rw [hp] at h; exact absurd h (by simp)
              | some ks2 =>
                rw [hp] at h
                simp only [Option.map_some', Option.some.injEq] at h
                subst h
                exact Or.inr rfl
            · exact do_mmap_map_ret _ _ _ _ _ _ _ _ _ _ _ _ _ _ _ _ _ h
  · rw [if_neg c6] at h
    exact do_mmap_map_ret _ _ _ _ _ _ _ _ _ _ _ _ _ _ _ _ _ h

/-- The value `do_mmap` returns, from the value of the call mapped to its first
component. -/
theorem do_mmap_of_map (PS uml umh map : Nat) (mmo_put : Vm → Nat → Vm) (junk : Option Nat)
    (fuel : Nat) (vn_mmap : Nat → vmarea_t → Vm → Int × Option Nat × Vm)
    (vn_busy : Nat → Bool) (map_failed : Int) (st : mmap_state) (addr len : Nat)
    (prot flags fd off : Int) (v : Int)
    (h : (do_mmap PS uml umh map mmo_put junk fuel vn_mmap vn_busy map_failed st addr len prot
      flags fd off).map (fun r => r.1) = some v) :
    v = 0 ∨ v = map_failed := by
  cases hd : do_mmap PS uml umh map mmo_put junk fuel vn_mmap vn_busy map_failed st addr len
      prot flags fd off with
  | none => rw [hd] at h; exact absurd h (by simp)
  | some r =>
    rw [hd] at h
    simp only [Option.map_some', Option.some.injEq] at h
    subst h
    exact do_mmap_ret _ _ _ _ _ _ _ _ _ _ _ _ _ _ _ _ _ _ hd

/-- C27, counterexample: a call of `do_mmap` with `len = 0` returns `(int)MAP_FAILED`,
that is -1, which is the negation of no code of the documented error domain. -/
theorem do_mmap_returns_map_failed :
    (do_mmap 4096 USER_MEM_LOW USER_MEM_HIGH 9 (fun s _ => s) none 5
        (fun _ _ s => (0, none, s)) (fun _ => false) MAP_FAILED_INT mmapState 0 0 3 10 (-1)
        0).map (fun r => r.1) = some (-1) ∧
      ∀ e ∈ error_domain, (-1 : Int) ≠ -e := by
  decide

/-- C27, amended: `do_mmap` fails with `map_failed = (int)MAP_FAILED` and an untouched
state when a FIXED address is out of the user range, when `addr` or `off` is not
page-aligned, when `len` is 0 or not smaller than the user range, when the flags hold
neither PRIVATE nor SHARED, and when the descriptor of a mapping that is not anonymous is
out of range; and every value it returns at all is 0 or `map_failed`, so with
`(int)MAP_FAILED = -1` no negative return is the negation of a code of the error domain. -/
theorem do_mmap_spec (PS uml umh map : Nat) (mmo_put : Vm → Nat → Vm) (junk : Option Nat)
    (fuel : Nat) (vn_mmap : Nat → vmarea_t → Vm → Int × Option Nat × Vm)
    (vn_busy : Nat → Bool) (map_failed : Int) (st : mmap_state) (addr len : Nat)
    (prot flags fd off : Int) :
    (((band flags MAP_FIXED = MAP_FIXED ∧ (addr < uml ∨ addr ≥ umh)) ∨
        ¬ PAGE_ALIGNED PS addr ∨ ¬ PAGE_ALIGNED PS (toU32 off) ∨
        len = 0 ∨ len ≥ umh - uml ∨
        (band flags MAP_PRIVATE ≠ MAP_PRIVATE ∧ band flags MAP_SHARED ≠ MAP_SHARED) ∨
        ((fd ≥ NFILES ∨ fd < 0) ∧ band flags MAP_ANON ≠ MAP_ANON)) →
      do_mmap PS uml umh map mmo_put junk fuel vn_mmap vn_busy map_failed st addr len prot
        flags fd off = some (map_failed, none, st)) ∧
    (∀ v, (do_mmap PS uml umh map mmo_put junk fuel vn_mmap vn_busy map_failed st addr len
        prot flags fd off).map (fun r => r.1) = some v →
      (v = 0 ∨ v = map_failed) ∧
      (map_failed = MAP_FAILED_INT → v < 0 → ∀ e ∈ error_domain, v ≠ -e)) := by
  refine ⟨?_, ?_⟩
  · intro hbad
    unfold do_mmap
    by_cases c1 : band flags MAP_FIXED = MAP_FIXED ∧ (addr < uml ∨ addr ≥ umh)
    · rw [if_pos c1]
    rw [if_neg c1]
    by_cases c2 : ¬ PAGE_ALIGNED PS addr ∨ ¬ PAGE_ALIGNED PS (toU32 off)
    · rw [if_pos c2]
    rw [if_neg c2]
    by_cases c3 : len ≤ 0 ∨ len ≥ umh - uml
    · rw [if_pos c3]
    rw [if_neg c3]
    by_cases c4 : ¬ (band flags MAP_PRIVATE = MAP_PRIVATE ∨ band flags MAP_SHARED = MAP_SHARED)
    · rw [if_pos c4]
    rw [if_neg c4]
    by_cases c5 : (fd ≥ NFILES ∨ fd < 0) ∧ band flags MAP_ANON ≠ MAP_ANON
    · rw [if_pos c5]
    exfalso
    rcases hbad with hb | hb | hb | hb | hb | hb | hb
    · exact c1 hb
    · exact c2 (Or.inl hb)
    · exact c2 (Or.inr hb)
    · exact c3 (Or.inl (by omega))
    · exact c3 (Or.inr hb)
    · exact c4 (fun hc => hc.elim hb.1 hb.2)
    · exact c5 hb
  · intro v hv
    have h01 := do_mmap_of_map _ _ _ _ _ _ _ _ _ _ _ _ _ _ _ _ _ _ hv
    refine ⟨h01, ?_⟩
    intro hmf hneg e he
    rcases h01 with h0 | h1
    · omega
    · rw [h1, hmf]
      have hall : ∀ e ∈ error_domain, MAP_FAILED_INT ≠ -e := by decide
      exact hall e he

/-- The amended claim C27 on two calls of the same state: a request of length 0 fails with
`(int)MAP_FAILED` and changes nothing, and an anonymous private mapping of one page
returns 0. -/
theorem do_mmap_spec_witness :
    do_mmap 4096 USER_MEM_LOW USER_MEM_HIGH 9 (fun s _ => s) none 5
        (fun _ _ s => (0, none, s)) (fun _ => false) MAP_FAILED_INT mmapState 0 0 3 10 (-1) 0
      = some (MAP_FAILED_INT, none, mmapState) ∧
    ((0 : Int) = 0 ∨ (0 : Int) = MAP_FAILED_INT) ∧
    ∀ e ∈ error_domain, MAP_FAILED_INT ≠ -e :=
  ⟨(do_mmap_spec 4096 USER_MEM_LOW USER_MEM_HIGH 9 (fun s _ => s) none 5
      (fun _ _ s => (0, none, s)) (fun _ => false) MAP_FAILED_INT mmapState 0 0 3 10 (-1) 0).1
      (Or.inr (Or.inr (Or.inr (Or.inl rfl)))),
    ((do_mmap_spec 4096 USER_MEM_LOW USER_MEM_HIGH 9 (fun s _ => s) none 5
      (fun _ _ s => (0, none, s)) (fun _ => false) MAP_FAILED_INT mmapState 0 4096 3 10 (-1)
      0).2 0 (by decide)).1,
    fun e he =>
      ((do_mmap_spec 4096 USER_MEM_LOW USER_MEM_HIGH 9 (fun s _ => s) none 5
        (fun _ _ s => (0, none, s)) (fun _ => false) MAP_FAILED_INT mmapState 0 0 3 10 (-1)
        0).2 (-1) (by decide)).2 rfl (by decide) e he⟩

/-! ## do_fork: the two loops over the areas -/

theorem slab_obj_alloc_cons (s : Vm) (a : Nat) (rest : List (Option Nat))
    (hp : s.pool = some a :: rest) :
    slab_obj_alloc s = (some a, { s with pool := rest }) := by
  unfold slab_obj_alloc
  rw [hp]

theorem shadow_create_cons (s : Vm) (a : Nat) (rest : List (Option Nat))
    (hp : s.pool = some a :: rest) :
    shadow_create s = (some a, ⟨Function.update s.objs a (some ⟨1, 0, none, none⟩), rest⟩) := by
  unfold shadow_create
  rw [slab_obj_alloc_cons s a rest hp]

theorem set_shadow_fresh (objs : Nat → Option mmobj_t) (a : Nat) (rest : List (Option Nat))
    (t b : Option Nat) :
    set_shadow ⟨Function.update objs a (some ⟨1, 0, none, none⟩), rest⟩ a t b
      = ⟨Function.update objs a (some ⟨1, 0, t, b⟩), rest⟩ := by
  unfold set_shadow
  simp

theorem mmobj_ref_live (s : Vm) (o : Nat) (ob : mmobj_t) (ho : s.objs o = some ob)
    (hpos : 0 < ob.mmo_refcount) (hlt : ob.mmo_refcount + 1 < 2147483648) :
    mmobj_ref s (some o)
      = some { s with objs :=
          Function.update s.objs o (some { ob with mmo_refcount := ob.mmo_refcount + 1 }) } := by
  unfold mmobj_ref
  simp only [ho]
  rw [if_neg (by omega), wrap32_of_range _ (by unfold int_range; omega)]

theorem mmobj_bottom_obj_update (objs : Nat → Option mmobj_t) (a o : Nat) (x : Option mmobj_t)
    (h : o ≠ a) : mmobj_bottom_obj (Function.update objs a x) o = mmobj_bottom_obj objs o := by
  unfold mmobj_bottom_obj
  rw [Function.update_noteq h]

theorem area_refcount_pos (objs : Nat → Option mmobj_t) (v : vmarea_t)
    (h : 0 < area_refcount objs v) :
    ∃ o ob, v.vma_obj = some o ∧ objs o = some ob ∧ area_refcount objs v = ob.mmo_refcount := by
  unfold area_refcount at h ⊢
  cases hv : v.vma_obj with
  | none => rw [hv] at h; simp at h
  | some o =>
    rw [hv] at h
    simp only [Option.some_bind] at h ⊢
    cases ho : objs o with
    | none => rw [ho] at h; simp at h
    | some ob => exact ⟨o, ob, rfl, ho, rfl⟩

theorem area_refcount_of (objs : Nat → Option mmobj_t) (v : vmarea_t) (o : Nat) (ob : mmobj_t)
    (hv : v.vma_obj = some o) (ho : objs o = some ob) :
    area_refcount objs v = ob.mmo_refcount := by
  unfold area_refcount
  rw [hv, Option.some_bind, ho]

theorem refs_on_cons (o : Nat) (v : vmarea_t) (rest : List vmarea_t) :
    refs_on o (v :: rest) = refs_on o rest + (if v.vma_obj = some o then 1 else 0) := by
  unfold refs_on
  rw [List.countP_cons]
  simp

theorem private_count_cons (v : vmarea_t) (rest : List vmarea_t) :
    private_count (v :: rest)
      = private_count rest + (if band v.vma_flags MAP_PRIVATE = MAP_PRIVATE then 1 else 0) := by
  unfold private_count
  rw [List.countP_cons]
  simp

theorem refs_on_fresh (objs : Nat → Option mmobj_t) (n : Nat) (areas : List vmarea_t) (a : Nat)
    (hlive : objs_live objs n areas) (ha : objs a = none) : refs_on a areas = 0 := by
  unfold refs_on
  rw [List.countP_eq_zero]
  intro v hv
  obtain ⟨o, ob, h1, h2, _⟩ := area_refcount_pos objs v (hlive v hv).1
  simp only [decide_eq_true_eq]
  intro h3
  rw [h1] at h3
  injection h3 with h4
  rw [h4, ha] at h2
  exact absurd h2 (by simp)

theorem shadow_of_mono (objs : Nat → Option mmobj_t) (used used1 : List Nat)
    (h : ∀ a ∈ used, a ∈ used1) (v x : vmarea_t) (hs : shadow_of objs used v x) :
    shadow_of objs used1 v x := by
  obtain ⟨h1, h2, h3⟩ := hs
  refine ⟨h1, ?_, h3⟩
  intro hp
  obtain ⟨sh, o, b, e1, e2, e3, e4, e5⟩ := h2 hp
  exact ⟨sh, o, b, e1, e2, h sh e3, e4, e5⟩

/-- The loop of `vmmap_clone` while the allocator answers: a clone of every area, the
objects untouched. -/
theorem vmmap_clone_loop_ok (m : Nat) :
    ∀ (areas : List vmarea_t) (s : Vm) (addrs : List Nat),
      s.pool = addrs.map some → areas.length ≤ addrs.length →
      vmmap_clone_loop m areas s
        = (some (areas.map (clone_area m)),
            ⟨s.objs, (addrs.drop areas.length).map some⟩) := by
  intro areas
  induction areas with
  | nil =>
    intro s addrs hp _
    unfold vmmap_clone_loop
    simp only [List.map_nil, List.length_nil, List.drop_zero]
    rw [← hp]
  | cons v rest ih =>
    intro s addrs hp hlen
    cases addrs with
    | nil => simp at hlen
    | cons a addrs1 =>
      have hp1 : s.pool = some a :: addrs1.map some := by rw [hp]; rfl
      unfold vmmap_clone_loop
      rw [slab_obj_alloc_cons s a _ hp1]
      simp only []
      rw [ih ⟨s.objs, addrs1.map some⟩ addrs1 rfl (by simpa using hlen)]
      simp only [List.map_cons, List.length_cons, List.drop_succ_cons]
      rfl

theorem bump_eq (ob : mmobj_t) (a b : Int) (h : a = b) :
    ({ ob with mmo_refcount := a } : mmobj_t) = { ob with mmo_refcount := b } := by
  rw [h]

theorem bottom_of_bump (objs : Nat → Option mmobj_t) (o : Nat) (ob : mmobj_t) (c : Int)
    (h : objs o = some { ob with mmo_refcount := c }) :
    mmobj_bottom_obj objs o
      = some (if ob.mmo_shadowed = none then some o else ob.mmo_bottom_obj) := by
  unfold mmobj_bottom_obj
  rw [h]

theorem mmobj_bottom_obj_mono (objs objs1 : Nat → Option mmobj_t)
    (h : ∀ x y, objs x = some y → objs1 x = some y) (o : Nat) (b : Option Nat)
    (hb : mmobj_bottom_obj objs o = some b) : mmobj_bottom_obj objs1 o = some b := by
  unfold mmobj_bottom_obj at hb ⊢
  cases ho : objs o with
  | none => rw [ho] at hb; exact absurd hb (by simp)
  | some ob =>
    rw [ho] at hb
    rw [h o ob ho]
    exact hb

theorem objs_live_step (objs objs3 : Nat → Option mmobj_t) (o : Nat) (ob : mmobj_t) (n : Nat)
    (v : vmarea_t) (rest : List vmarea_t) (hso : objs o = some ob)
    (h3o : objs3 o = some { ob with mmo_refcount := ob.mmo_refcount + 1 })
    (h3x : ∀ x obx, x ≠ o → objs x = some obx → objs3 x = some obx)
    (hlive : objs_live objs (n + 1) (v :: rest)) : objs_live objs3 n rest := by
  intro w hw
  have hl := hlive w (List.mem_cons_of_mem _ hw)
  obtain ⟨o1, ob1, h1, h2, h3⟩ := area_refcount_pos objs w hl.1
  rw [h3] at hl
  by_cases hoo : o1 = o
  · subst hoo
    rw [hso] at h2
    injection h2 with h2
    subst h2
    rw [area_refcount_of objs3 w o1 _ h1 h3o]
    simp only []
    push_cast at hl
    omega
  · rw [area_refcount_of objs3 w o1 ob1 h1 (h3x o1 ob1 hoo h2)]
    push_cast at hl
    omega

/-- One round of the first loop of `do_fork` on a private area. -/
theorem fork_child_step_private (c v : vmarea_t) (news olds : List vmarea_t) (s : Vm)
    (sh : Nat) (pool1 : List (Option Nat)) (o : Nat) (ob : mmobj_t)
    (hp : s.pool = some sh :: pool1)
    (hpriv : band c.vma_flags MAP_PRIVATE = MAP_PRIVATE)
    (hvo : v.vma_obj = some o) (hso : s.objs o = some ob) (hne : o ≠ sh)
    (hpos : 0 < ob.mmo_refcount) (hlt : ob.mmo_refcount + 1 < 2147483648) :
    fork_child_loop (c :: news) (v :: olds) s
      = (fork_child_loop news olds
          ⟨Function.update
            (Function.update s.objs sh
              (some ⟨1, 0, some o, if ob.mmo_shadowed = none then some o else ob.mmo_bottom_obj⟩))
            o (some { ob with mmo_refcount := ob.mmo_refcount + 1 }), pool1⟩).map
          (fun r => (r.1, { c with vma_obj := some sh } :: r.2.1, r.2.2)) := by
  have hbot : mmobj_bottom_obj s.objs o
      = some (if ob.mmo_shadowed = none then some o else ob.mmo_bottom_obj) := by
    unfold mmobj_bottom_obj
    rw [hso]
  rw [fork_child_loop, if_pos hpriv, shadow_create_cons s sh pool1 hp]
  simp only []
  rw [hvo]
  simp only []
  rw [mmobj_bottom_obj_update _ _ _ _ hne, hbot]
  simp only []
  rw [set_shadow_fresh]
  rw [mmobj_ref_live _ o ob (by simp only []; rw [Function.update_noteq hne]; exact hso) hpos hlt]

/-- One round of the first loop of `do_fork` on an area that is not private. -/
theorem fork_child_step_shared (c v : vmarea_t) (news olds : List vmarea_t) (s : Vm)
    (o : Nat) (ob : mmobj_t)
    (hpriv : ¬ band c.vma_flags MAP_PRIVATE = MAP_PRIVATE)
    (hvo : v.vma_obj = some o) (hso : s.objs o = some ob)
    (hpos : 0 < ob.mmo_refcount) (hlt : ob.mmo_refcount + 1 < 2147483648) :
    fork_child_loop (c :: news) (v :: olds) s
      = (fork_child_loop news olds
          ⟨Function.update s.objs o (some { ob with mmo_refcount := ob.mmo_refcount + 1 }),
            s.pool⟩).map
          (fun r =>
            (r.1,
              (if band c.vma_flags MAP_SHARED = MAP_SHARED then { c with vma_obj := some o }
                else c) :: r.2.1,
              r.2.2)) := by
  rw [fork_child_loop, if_neg hpriv]
  simp only []
  rw [hvo, mmobj_ref_live s o ob hso hpos hlt]

/-- One round of the second loop of `do_fork` on a private area. -/
theorem fork_parent_step_private (v : vmarea_t) (olds : List vmarea_t) (s : Vm)
    (sh : Nat) (pool1 : List (Option Nat)) (o : Nat) (ob : mmobj_t)
    (hp : s.pool = some sh :: pool1)
    (hpriv : band v.vma_flags MAP_PRIVATE = MAP_PRIVATE)
    (hvo : v.vma_obj = some o) (hso : s.objs o = some ob) (hne : o ≠ sh) :
    fork_parent_loop (v :: olds) s
      = (fork_parent_loop olds
          ⟨Function.update s.objs sh
            (some ⟨1, 0, some o, if ob.mmo_shadowed = none then some o else ob.mmo_bottom_obj⟩),
            pool1⟩).map
          (fun r => (r.1, { v with vma_obj := some sh } :: r.2.1, r.2.2)) := by
  have hbot : mmobj_bottom_obj s.objs o
      = some (if ob.mmo_shadowed = none then some o else ob.mmo_bottom_obj) := by
    unfold mmobj_bottom_obj
    rw [hso]
  rw [fork_parent_loop, if_pos hpriv, shadow_create_cons s sh pool1 hp]
  simp only []
  rw [hvo]
  simp only []
  rw [mmobj_bottom_obj_update _ _ _ _ hne, hbot]
  simp only []
  rw [set_shadow_fresh]

/-- The first loop of `do_fork` while the allocator answers with fresh addresses: it runs
to its end, every object that existed gains one reference per area that points at it, and
every area of the new map is as `shadow_of` says. -/
theorem fork_child_loop_ok (m : Nat) :
    ∀ (olds : List vmarea_t) (s : Vm) (addrs : List Nat),
      s.pool = addrs.map some → addrs.Nodup → (∀ a ∈ addrs, s.objs a = none) →
      private_count olds ≤ addrs.length →
      objs_live s.objs olds.length olds →
      ∃ news1 s1,
        fork_child_loop (olds.map (clone_area m)) olds s = some (true, news1, s1) ∧
        s1.pool = (addrs.drop (private_count olds)).map some ∧
        (∀ o ob, s.objs o = some ob →
          s1.objs o = some { ob with mmo_refcount := ob.mmo_refcount + refs_on o olds }) ∧
        (∀ a, s.objs a = none → a ∉ addrs.take (private_count olds) → s1.objs a = none) ∧
        List.Forall₂ (shadow_of s1.objs (addrs.take (private_count olds))) olds news1 := by
  intro olds
  induction olds with
  | nil =>
    intro s addrs hp _ _ _ _
    refine ⟨[], s, ?_, ?_, ?_, ?_, List.Forall₂.nil⟩
    · simp only [List.map_nil]
      rw [fork_child_loop]
    · simp only [private_count, List.countP_nil, List.drop_zero]
      exact hp
    · intro o ob ho
      rw [ho]
      simp [refs_on]
    · intro a ha _
      exact ha
  | cons v rest ih =>
    intro s addrs hp hnd hfresh hk hlive
    have hlv := hlive v (List.mem_cons_self _ _)
    obtain ⟨o, ob, hvo, hso, hrc⟩ := area_refcount_pos s.objs v hlv.1
    rw [hrc] at hlv
    have hpos : 0 < ob.mmo_refcount := hlv.1
    have hlt : ob.mmo_refcount + 1 < 2147483648 := by
      have := hlv.2
      simp only [List.length_cons] at this
      push_cast at this
      omega
    have hliveN : objs_live s.objs (rest.length + 1) (v :: rest) := hlive
    rw [private_count_cons] at hk
    by_cases hpriv : band v.vma_flags MAP_PRIVATE = MAP_PRIVATE
    · rw [if_pos hpriv] at hk
      cases addrs with
      | nil => simp at hk
      | cons sh addrs1 =>
        have hp1 : s.pool = some sh :: addrs1.map some := by rw [hp]; rfl
        have hsh : s.objs sh = none := hfresh sh (List.mem_cons_self _ _)
        have hne : o ≠ sh := by
          intro e
          rw [e, hsh] at hso
          exact absurd hso (by simp)
        have hnd1 := List.nodup_cons.mp hnd
        obtain ⟨news1, s1, hrun, hpool, hE1, hE2, hF⟩ :=
          ih ⟨Function.update
              (Function.update s.objs sh
                (some ⟨1, 0, some o,
                  if ob.mmo_shadowed = none then some o else ob.mmo_bottom_obj⟩))
              o (some { ob with mmo_refcount := ob.mmo_refcount + 1 }), addrs1.map some⟩
            addrs1 rfl hnd1.2
            (by
              intro a ha
              have hao : a ≠ o := by
                intro e
                rw [e] at ha
                rw [hfresh o (List.mem_cons_of_mem _ ha)] at hso
                exact absurd hso (by simp)
              have hash : a ≠ sh := by
                intro e
                rw [e] at ha
                exact hnd1.1 ha
              simp only []
              rw [Function.update_noteq hao, Function.update_noteq hash]
              exact hfresh a (List.mem_cons_of_mem _ ha))
            (by simp only [List.length_cons] at hk; omega)
            (objs_live_step s.objs _ o ob rest.length v rest hso
              (by simp only []; rw [Function.update_same])
              (by
                intro x obx hxo hx
                have hxs : x ≠ sh := by
                  intro e
                  rw [e, hsh] at hx
                  exact absurd hx (by simp)
                simp only []
                rw [Function.update_noteq hxo, Function.update_noteq hxs]
                exact hx)
              hliveN)
        have hs1sh : s1.objs sh = some ⟨1, 0, some o,
            if ob.mmo_shadowed = none then some o else ob.mmo_bottom_obj⟩ := by
          have h := hE1 sh _
            (by simp only []; rw [Function.update_noteq hne.symm, Function.update_same])
          rw [h, refs_on_fresh s.objs rest.length rest sh
            (fun w hw => ⟨(hliveN w (List.mem_cons_of_mem _ hw)).1, by
              have := (hliveN w (List.mem_cons_of_mem _ hw)).2
              push_cast at this
              omega⟩) hsh]
          simp
        have hs1o : s1.objs o = some { ob with
            mmo_refcount := ob.mmo_refcount + refs_on o (v :: rest) } := by
          have h := hE1 o _ (by simp only []; rw [Function.update_same])
          rw [h, refs_on_cons, if_pos hvo]
          exact congrArg some (bump_eq ob _ _ (by push_cast; omega))
        refine ⟨{ clone_area m v with vma_obj := some sh } :: news1, s1, ?_, ?_, ?_, ?_, ?_⟩
        · rw [List.map_cons,
            fork_child_step_private (clone_area m v) v _ rest s sh _ o ob hp1 hpriv hvo hso hne
              hpos hlt, hrun]
          rfl
        · rw [hpool, private_count_cons, if_pos hpriv, List.drop_succ_cons]
        · intro x obx hx
          by_cases hxo : x = o
          · subst hxo
            rw [hso] at hx
            injection hx with hx
            subst hx
            exact hs1o
          · have hxs : x ≠ sh := by
              intro e
              rw [e, hsh] at hx
              exact absurd hx (by simp)
            have h := hE1 x obx
              (by simp only []; rw [Function.update_noteq hxo, Function.update_noteq hxs]; exact hx)
            rw [h, refs_on_cons, if_neg (by rw [hvo]; intro e; injection e with e; exact hxo e.symm)]
            rfl
        · intro a ha hnot
          rw [private_count_cons, if_pos hpriv, List.take_succ_cons] at hnot
          have hash : a ≠ sh := fun e => hnot (by rw [e]; exact List.mem_cons_self _ _)
          have hao : a ≠ o := by
            intro e
            rw [e, hso] at ha
            exact absurd ha (by simp)
          exact hE2 a
            (by simp only []; rw [Function.update_noteq hao, Function.update_noteq hash]; exact ha)
            (fun hin => hnot (List.mem_cons_of_mem _ hin))
        · rw [private_count_cons, if_pos hpriv, List.take_succ_cons]
          refine List.Forall₂.cons ?_ ?_
          · refine ⟨⟨rfl, rfl, rfl, rfl, rfl⟩, ?_, fun hn => absurd hpriv hn⟩
            intro _
            exact ⟨sh, o, _, hvo, rfl, List.mem_cons_self _ _, hs1sh, bottom_of_bump _ _ _ _ hs1o⟩
          · exact List.Forall₂.imp
              (fun a b hab => shadow_of_mono _ _ _ (fun x hx => List.mem_cons_of_mem _ hx) a b hab)
              hF
    · rw [if_neg hpriv, Nat.add_zero] at hk
      have hp1 : s.pool = addrs.map some := hp
      obtain ⟨news1, s1, hrun, hpool, hE1, hE2, hF⟩ :=
        ih ⟨Function.update s.objs o (some { ob with mmo_refcount := ob.mmo_refcount + 1 }),
            s.pool⟩
          addrs hp hnd
          (by
            intro a ha
            have hao : a ≠ o := by
              intro e
              rw [e] at ha
              rw [hfresh o ha] at hso
              exact absurd hso (by simp)
            simp only []
            rw [Function.update_noteq hao]
            exact hfresh a ha)
          hk
          (objs_live_step s.objs _ o ob rest.length v rest hso
            (by simp only []; rw [Function.update_same])
            (by
              intro x obx hxo hx
              simp only []
              rw [Function.update_noteq hxo]
              exact hx)
            hliveN)
      have hs1o : s1.objs o = some { ob with
          mmo_refcount := ob.mmo_refcount + refs_on o (v :: rest) } := by
        have h := hE1 o _ (by simp only []; rw [Function.update_same])
        rw [h, refs_on_cons, if_pos hvo]
        exact congrArg some (bump_eq ob _ _ (by push_cast; omega))
      refine ⟨(if band (clone_area m v).vma_flags MAP_SHARED = MAP_SHARED then
          { clone_area m v with vma_obj := some o } else clone_area m v) :: news1, s1,
        ?_, ?_, ?_, ?_, ?_⟩
      · rw [List.map_cons,
          fork_child_step_shared (clone_area m v) v _ rest s o ob hpriv hvo hso hpos hlt, hrun]
        rfl
      · rw [hpool, private_count_cons, if_neg hpriv, Nat.add_zero]
      · intro x obx hx
        by_cases hxo : x = o
        · subst hxo
          rw [hso] at hx
          injection hx with hx
          subst hx
          exact hs1o
        · have h := hE1 x obx (by simp only []; rw [Function.update_noteq hxo]; exact hx)
          rw [h, refs_on_cons, if_neg (by rw [hvo]; intro e; injection e with e; exact hxo e.symm)]
          rfl
      · intro a ha hnot
        rw [private_count_cons, if_neg hpriv, Nat.add_zero] at hnot
        have hao : a ≠ o := by
          intro e
          rw [e, hso] at ha
          exact absurd ha (by simp)
        exact hE2 a (by simp only []; rw [Function.update_noteq hao]; exact ha) hnot
      · rw [private_count_cons, if_neg hpriv, Nat.add_zero]
        refine List.Forall₂.cons ?_ hF
        refine ⟨?_, fun hp => absurd hp hpriv, ?_⟩
        · by_cases hsh : band (clone_area m v).vma_flags MAP_SHARED = MAP_SHARED
          · rw [if_pos hsh]
            exact ⟨rfl, rfl, rfl, rfl, rfl⟩
          · rw [if_neg hsh]
            exact ⟨rfl, rfl, rfl, rfl, rfl⟩
        · intro _ hshared
          have hsh : band (clone_area m v).vma_flags MAP_SHARED = MAP_SHARED := hshared
          rw [if_pos hsh, hvo]

/-- The second loop of `do_fork` while the allocator answers with fresh addresses: it runs
to its end, no object that existed changes, and every area of the old map is as
`shadow_of` says. -/
theorem fork_parent_loop_ok :
    ∀ (olds : List vmarea_t) (s : Vm) (addrs : List Nat),
      s.pool = addrs.map some → addrs.Nodup → (∀ a ∈ addrs, s.objs a = none) →
      private_count olds ≤ addrs.length →
      (∀ v ∈ olds, ∃ o ob, v.vma_obj = some o ∧ s.objs o = some ob) →
      ∃ olds1 s1,
        fork_parent_loop olds s = some (true, olds1, s1) ∧
        s1.pool = (addrs.drop (private_count olds)).map some ∧
        (∀ o ob, s.objs o = some ob → s1.objs o = some ob) ∧
        List.Forall₂ (shadow_of s1.objs (addrs.take (private_count olds))) olds olds1 := by
  intro olds
  induction olds with
  | nil =>
    intro s addrs hp _ _ _ _
    refine ⟨[], s, ?_, ?_, ?_, List.Forall₂.nil⟩
    · rw [fork_parent_loop]
    · simp only [private_count, List.countP_nil, List.drop_zero]
      exact hp
    · intro o ob ho
      exact ho
  | cons v rest ih =>
    intro s addrs hp hnd hfresh hk hobj
    obtain ⟨o, ob, hvo, hso⟩ := hobj v (List.mem_cons_self _ _)
    rw [private_count_cons] at hk
    by_cases hpriv : band v.vma_flags MAP_PRIVATE = MAP_PRIVATE
    · rw [if_pos hpriv] at hk
      cases addrs with
      | nil => simp at hk
      | cons sh addrs1 =>
        have hp1 : s.pool = some sh :: addrs1.map some := by rw [hp]; rfl
        have hsh : s.objs sh = none := hfresh sh (List.mem_cons_self _ _)
        have hne : o ≠ sh := by
          intro e
          rw [e, hsh] at hso
          exact absurd hso (by simp)
        have hnd1 := List.nodup_cons.mp hnd
        have hkeep : ∀ x obx, s.objs x = some obx →
            Function.update s.objs sh
              (some ⟨1, 0, some o, if ob.mmo_shadowed = none then some o else ob.mmo_bottom_obj⟩)
              x = some obx := by
          intro x obx hx
          have hxs : x ≠ sh := by
            intro e
            rw [e, hsh] at hx
            exact absurd hx (by simp)
          rw [Function.update_noteq hxs]
          exact hx
        obtain ⟨olds1, s1, hrun, hpool, hE1, hF⟩ :=
          ih ⟨Function.update s.objs sh
              (some ⟨1, 0, some o,
                if ob.mmo_shadowed = none then some o else ob.mmo_bottom_obj⟩),
              addrs1.map some⟩
            addrs1 rfl hnd1.2
            (by
              intro a ha
              have hash : a ≠ sh := by
                intro e
                rw [e] at ha
                exact hnd1.1 ha
              simp only []
              rw [Function.update_noteq hash]
              exact hfresh a (List.mem_cons_of_mem _ ha))
            (by simp only [List.length_cons] at hk; omega)
            (by
              intro w hw
              obtain ⟨o1, ob1, h1, h2⟩ := hobj w (List.mem_cons_of_mem _ hw)
              exact ⟨o1, ob1, h1, hkeep o1 ob1 h2⟩)
        have hs1sh : s1.objs sh = some ⟨1, 0, some o,
            if ob.mmo_shadowed = none then some o else ob.mmo_bottom_obj⟩ :=
          hE1 sh _ (by simp only []; rw [Function.update_same])
        have hs1o : s1.objs o = some { ob with mmo_refcount := ob.mmo_refcount } :=
          hE1 o ob (hkeep o ob hso)
        refine ⟨{ v with vma_obj := some sh } :: olds1, s1, ?_, ?_, ?_, ?_⟩
        · rw [fork_parent_step_private v rest s sh _ o ob hp1 hpriv hvo hso hne, hrun]
          rfl
        · rw [hpool, private_count_cons, if_pos hpriv, List.drop_succ_cons]
        · intro x obx hx
          exact hE1 x obx (hkeep x obx hx)
        · rw [private_count_cons, if_pos hpriv, List.take_succ_cons]
          refine List.Forall₂.cons ?_ ?_
          · refine ⟨⟨rfl, rfl, rfl, rfl, rfl⟩, ?_, fun hn => absurd hpriv hn⟩
            intro _
            exact ⟨sh, o, _, hvo, rfl, List.mem_cons_self _ _, hs1sh, bottom_of_bump _ _ _ _ hs1o⟩
          · exact List.Forall₂.imp
              (fun a b hab => shadow_of_mono _ _ _ (fun x hx => List.mem_cons_of_mem _ hx) a b hab)
              hF
    · rw [if_neg hpriv, Nat.add_zero] at hk
      obtain ⟨olds1, s1, hrun, hpool, hE1, hF⟩ :=
        ih s addrs hp hnd hfresh hk (fun w hw => hobj w (List.mem_cons_of_mem _ hw))
      refine ⟨v :: olds1, s1, ?_, ?_, hE1, ?_⟩
      · rw [fork_parent_loop, if_neg hpriv, hrun]
        rfl
      · rw [hpool, private_count_cons, if_neg hpriv, Nat.add_zero]
      · rw [private_count_cons, if_neg hpriv, Nat.add_zero]
        exact List.Forall₂.cons
          ⟨⟨rfl, rfl, rfl, rfl, rfl⟩, fun hp => absurd hp hpriv, fun _ _ => rfl⟩ hF

theorem forall2_get {α β : Type} (R : α → β → Prop) :
    ∀ (l1 : List α) (l2 : List β), List.Forall₂ R l1 l2 →
      ∀ (i : Nat) (a : α), l1.get? i = some a → ∃ b, l2.get? i = some b ∧ R a b := by
  intro l1 l2 h
  induction h with
  | nil =>
    intro i a hi
    simp at hi
  | cons hab _ ih =>
    intro i a hi
    cases i with
    | zero =>
      simp only [List.get?_cons_zero, Option.some.injEq] at hi
      subst hi
      exact ⟨_, rfl, hab⟩
    | succ j =>
      simp only [List.get?_cons_succ] at hi
      obtain ⟨b, hb, hr⟩ := ih j a hi
      exact ⟨b, by simpa using hb, hr⟩

/-- The part of `do_fork` that builds the address space of the child, while the allocator
answers with fresh addresses: it goes on to `proc_create` with both maps as `shadow_of`
says, the shadow objects of the two loops taken from two disjoint parts of the pool, and
every object that existed with one more reference per area that pointed at it. -/
theorem do_fork_vm_ok (mmo_put : Vm → Nat → Vm) (areas : List vmarea_t) (s : Vm)
    (addrs : List Nat) (hpool : s.pool = addrs.map some) (hnodup : addrs.Nodup)
    (hfresh : ∀ a ∈ addrs, s.objs a = none)
    (hlen : 1 + areas.length + 2 * private_count areas ≤ addrs.length)
    (hlive : objs_live s.objs areas.length areas) :
    ∃ (olds1 news1 : List vmarea_t) (s3 : Vm) (usedc usedp : List Nat),
      do_fork_vm mmo_put areas s = some ⟨none, olds1, news1, s3⟩ ∧
      (∀ a ∈ usedc, a ∈ addrs ∧ a ∉ usedp) ∧ (∀ a ∈ usedp, a ∈ addrs) ∧
      (∀ o ob, s.objs o = some ob →
        s3.objs o = some { ob with mmo_refcount := ob.mmo_refcount + refs_on o areas }) ∧
      List.Forall₂ (shadow_of s3.objs usedc) areas news1 ∧
      List.Forall₂ (shadow_of s3.objs usedp) areas olds1 := by
  cases addrs with
  | nil => simp at hlen
  | cons m addrs1 =>
    have hp1 : s.pool = some m :: addrs1.map some := by rw [hpool]; rfl
    have hnd1 := List.nodup_cons.mp hnodup
    simp only [List.length_cons] at hlen
    have hclone := vmmap_clone_loop_ok m areas ⟨s.objs, addrs1.map some⟩ addrs1 rfl (by omega)
    have hndA : (addrs1.drop areas.length).Nodup :=
      List.Nodup.sublist (List.drop_sublist _ _) hnd1.2
    have hmemA : ∀ a ∈ addrs1.drop areas.length, a ∈ addrs1 :=
      fun a ha => List.mem_of_mem_drop ha
    obtain ⟨news1, s2, hrunc, hpoolc, hE1, hE2, hFc⟩ :=
      fork_child_loop_ok m areas ⟨s.objs, (addrs1.drop areas.length).map some⟩
        (addrs1.drop areas.length) rfl hndA
        (fun a ha => hfresh a (List.mem_cons_of_mem _ (hmemA a ha)))
        (by rw [List.length_drop]; omega) hlive
    have hndB : ((addrs1.drop areas.length).drop (private_count areas)).Nodup :=
      List.Nodup.sublist (List.drop_sublist _ _) hndA
    have hdisj := List.disjoint_take_drop hndA (Nat.le_refl (private_count areas))
    obtain ⟨olds1, s3, hrunp, _, hE1p, hFp⟩ :=
      fork_parent_loop_ok areas s2 ((addrs1.drop areas.length).drop (private_count areas))
        hpoolc hndB
        (fun a ha =>
          hE2 a (hfresh a (List.mem_cons_of_mem _ (hmemA a (List.mem_of_mem_drop ha))))
            (fun hin => hdisj hin ha))
        (by rw [List.length_drop, List.length_drop]; omega)
        (by
          intro v hv
          obtain ⟨o, ob, h1, h2, _⟩ := area_refcount_pos s.objs v (hlive v hv).1
          exact ⟨o, _, h1, hE1 o ob h2⟩)
    refine ⟨olds1, news1, s3, (addrs1.drop areas.length).take (private_count areas),
      ((addrs1.drop areas.length).drop (private_count areas)).take (private_count areas),
      ?_, ?_, ?_, ?_, ?_, hFp⟩
    · unfold do_fork_vm vmmap_clone
      rw [slab_obj_alloc_cons s m _ hp1]
      simp only []
      rw [hclone]
      simp only []
      rw [hrunc]
      simp only []
      rw [hrunp]
    · intro a ha
      exact ⟨List.mem_cons_of_mem _ (hmemA a (List.mem_of_mem_take ha)),
        fun hin => hdisj ha (List.mem_of_mem_take hin)⟩
    · intro a ha
      exact List.mem_cons_of_mem _ (hmemA a (List.mem_of_mem_drop (List.mem_of_mem_take ha)))
    · intro o ob ho
      exact hE1p o _ (hE1 o ob ho)
    · refine List.Forall₂.imp ?_ hFc
      intro v c hvc
      obtain ⟨h1, h2, h3⟩ := hvc
      refine ⟨h1, ?_, h3⟩
      intro hp
      obtain ⟨sh, o, b, e1, e2, e3, e4, e5⟩ := h2 hp
      exact ⟨sh, o, b, e1, e2, e3, hE1p sh _ e4, mmobj_bottom_obj_mono _ _ hE1p o b e5⟩

/-- C30, counterexample: a map of two shared areas on the same object, of reference count
2 (what `vmmap_remove` leaves when it splits a shared area).  Every allocation succeeds,
both areas of the child point at the object, and its reference count has gone from 2 to
4: it has increased by 2, not by 1. -/
theorem do_fork_shared_twice :
    sharedState.objs 5 = some ⟨2, 0, none, none⟩ ∧
    (do_fork_vm (fun s _ => s) sharedMap sharedState).map
        (fun r => (r.ret, r.child.map (fun v => v.vma_obj), r.vm.objs 5))
      = some (none, [some 5, some 5], some ⟨4, 0, none, none⟩) := by
  decide

/-- C30, amended: when every allocation of `do_fork` succeeds (the allocator answers with
unused, pairwise different addresses) and every area of the parent has a live object,
`do_fork` gets through its two loops, and for the area at each position, with `p` the area
of the parent and `c` that of the child afterwards: the numeric fields of `p` and `c` are
those of the area; if it is private, `p` and `c` point at two different fresh shadow
objects of reference count 1 whose `mmo_shadowed` is the original object and whose bottom
object is that of the original object; if it is shared and not private, `p` and `c` point
at the original object.  The reference count of every object has increased by the number
of areas of the parent that pointed at it, which is 1 only when no other area shares the
object. -/
theorem do_fork_vm_spec (mmo_put : Vm → Nat → Vm) (areas : List vmarea_t) (s : Vm)
    (addrs : List Nat) (hpool : s.pool = addrs.map some) (hnodup : addrs.Nodup)
    (hfresh : ∀ a ∈ addrs, s.objs a = none)
    (hlen : 1 + areas.length + 2 * private_count areas ≤ addrs.length)
    (hlive : objs_live s.objs areas.length areas) :
    ∃ r, do_fork_vm mmo_put areas s = some r ∧ r.ret = none ∧
      r.parent.length = areas.length ∧ r.child.length = areas.length ∧
      (∀ i a, areas.get? i = some a →
        ∃ p c, r.parent.get? i = some p ∧ r.child.get? i = some c ∧
          same_range a p ∧ same_range a c ∧
          (band a.vma_flags MAP_PRIVATE = MAP_PRIVATE →
            ∃ sp sc o b, a.vma_obj = some o ∧ mmobj_bottom_obj s.objs o = some b ∧
              p.vma_obj = some sp ∧ c.vma_obj = some sc ∧ sp ≠ sc ∧
              s.objs sp = none ∧ s.objs sc = none ∧
              r.vm.objs sp = some ⟨1, 0, some o, b⟩ ∧ r.vm.objs sc = some ⟨1, 0, some o, b⟩) ∧
          (band a.vma_flags MAP_PRIVATE ≠ MAP_PRIVATE →
            band a.vma_flags MAP_SHARED = MAP_SHARED →
            p.vma_obj = a.vma_obj ∧ c.vma_obj = a.vma_obj)) ∧
      (∀ o ob, s.objs o = some ob →
        r.vm.objs o = some { ob with mmo_refcount := ob.mmo_refcount + refs_on o areas }) := by
  obtain ⟨olds1, news1, s3, usedc, usedp, hrun, hc, hp, hE1, hFc, hFp⟩ :=
    do_fork_vm_ok mmo_put areas s addrs hpool hnodup hfresh hlen hlive
  refine ⟨_, hrun, rfl, (List.Forall₂.length_eq hFp).symm, (List.Forall₂.length_eq hFc).symm,
    ?_, hE1⟩
  intro i a hi
  obtain ⟨p, hpi, hpr⟩ := forall2_get _ _ _ hFp i a hi
  obtain ⟨c, hci, hcr⟩ := forall2_get _ _ _ hFc i a hi
  refine ⟨p, c, hpi, hci, hpr.1, hcr.1, ?_, ?_⟩
  · intro hpriv
    obtain ⟨sp, o, b, e1, e2, e3, e4, e5⟩ := hpr.2.1 hpriv
    obtain ⟨sc, o1, b1, f1, f2, f3, f4, f5⟩ := hcr.2.1 hpriv
    have hoo : o1 = o := by
      rw [e1] at f1
      injection f1 with f1
      exact f1.symm
    subst hoo
    obtain ⟨o2, ob2, g1, g2, _⟩ := area_refcount_pos s.objs a (hlive a (List.get?_mem hi)).1
    have hoo2 : o2 = o1 := by
      rw [e1] at g1
      injection g1 with g1
      exact g1.symm
    subst hoo2
    have hb3 := bottom_of_bump s3.objs o2 ob2 _ (hE1 o2 ob2 g2)
    have hb0 : mmobj_bottom_obj s.objs o2
        = some (if ob2.mmo_shadowed = none then some o2 else ob2.mmo_bottom_obj) := by
      unfold mmobj_bottom_obj
      rw [g2]
    have hbb : b = (if ob2.mmo_shadowed = none then some o2 else ob2.mmo_bottom_obj) := by
      rw [e5] at hb3
      injection hb3
    have hbb1 : b1 = b := by
      rw [e5] at f5
      injection f5 with f5
      exact f5.symm
    subst hbb1
    refine ⟨sp, sc, o2, b1, e1, by rw [hb0, hbb], e2, f2, ?_, hfresh sp (hp sp e3),
      hfresh sc (hc sc f3).1, e4, f4⟩
    intro e
    rw [e] at e3
    exact (hc sc f3).2 e3
  · intro hnp hsh
    exact ⟨hpr.2.2 hnp hsh, hcr.2.2 hnp hsh⟩

/-- The amended claim C30 on a map of a private area on object 5, which shadows object 4,
and a shared area on object 6: the hypotheses hold, and the call is evaluated. -/
theorem do_fork_vm_spec_witness :
    (∃ r, do_fork_vm (fun s _ => s) mixedMap mixedState = some r ∧ r.ret = none ∧
      r.parent.length = mixedMap.length ∧ r.child.length = mixedMap.length ∧
      (∀ i a, mixedMap.get? i = some a →
        ∃ p c, r.parent.get? i = some p ∧ r.child.get? i = some c ∧
          same_range a p ∧ same_range a c ∧
          (band a.vma_flags MAP_PRIVATE = MAP_PRIVATE →
            ∃ sp sc o b, a.vma_obj = some o ∧ mmobj_bottom_obj mixedState.objs o = some b ∧
              p.vma_obj = some sp ∧ c.vma_obj = some sc ∧ sp ≠ sc ∧
              mixedState.objs sp = none ∧ mixedState.objs sc = none ∧
              r.vm.objs sp = some ⟨1, 0, some o, b⟩ ∧ r.vm.objs sc = some ⟨1, 0, some o, b⟩) ∧
          (band a.vma_flags MAP_PRIVATE ≠ MAP_PRIVATE →
            band a.vma_flags MAP_SHARED = MAP_SHARED →
            p.vma_obj = a.vma_obj ∧ c.vma_obj = a.vma_obj)) ∧
      (∀ o ob, mixedState.objs o = some ob →
        r.vm.objs o
          = some { ob with mmo_refcount := ob.mmo_refcount + refs_on o mixedMap })) ∧
    (do_fork_vm (fun s _ => s) mixedMap mixedState).map
        (fun r => (r.ret, r.parent.map (fun v => v.vma_obj), r.child.map (fun v => v.vma_obj),
          [4, 5, 6, 23, 24].map r.vm.objs))
      = some (none, [some 24, some 6], [some 23, some 6],
          [some ⟨1, 0, none, none⟩, some ⟨2, 0, some 4, some 4⟩, some ⟨2, 0, none, none⟩,
            some ⟨1, 0, some 5, some 4⟩, some ⟨1, 0, some 5, some 4⟩]) :=
  ⟨do_fork_vm_spec (fun s _ => s) mixedMap mixedState [20, 21, 22, 23, 24] (by decide)
      (by decide) (by decide) (by decide) (by decide),
    by decide⟩

/-! ## Failing driver operations -/

/-- C39, the code on an open readable regular file at position 30 whose `read` operation
fails with `-EINVAL` (-22): `do_read` returns -22, and `f_pos` is 8 afterwards, because
the result of the operation is added to `f_pos` whatever its sign.  The same happens in
`do_write`; `do_getdent` on a directory whose `readdir` fails moves `f_pos` from 30 to 8
too and returns the size of a dirent. -/
theorem do_read_error_moves_f_pos :
    (posState.files 7).map (fun f => f.f_pos) = some 30 ∧
    (do_read failEnv posState 3 10).map (fun r => (r.1, (r.2.files 7).map (fun f => f.f_pos)))
      = some (-22, some 8) ∧
    (do_write failEnv posState 3 10).map (fun r => (r.1, (r.2.files 7).map (fun f => f.f_pos)))
      = some (-22, some 8) ∧
    (do_getdent failEnv posState 4).map (fun r => (r.1, (r.2.files 8).map (fun f => f.f_pos)))
      = some (40, some 8) := by
  decide

/-! ## `vmmap_write` -/

/-- C38, the code on a private area whose object is the top shadow object 3 of the chain
3, 2, 1, page 0 being resident in the shadowed object 2 only: `vmmap_write` of 4 bytes
looks the page up with `forwrite = 0`, so `shadow_lookuppage` walks the chain and yields
the frame of object 2 (at 0x20000), and the bytes are written into that frame; the frame
that `pframe_get` would give object 3 (at 0x30000) is untouched. -/
theorem vmmap_write_hits_shadowed_frame :
    chain_from chainHeap (some 3) [3, 2, 1] ∧
    band cowArea.vma_flags MAP_PRIVATE = MAP_PRIVATE ∧ cowArea.vma_obj = some 3 ∧
    cowOps.pframe_get_resident 2 0 = some 0x20000 ∧
    shadow_lookuppage chainHeap cowOps 5 3 0 1 = some (0, some 0x30000) ∧
    [srcMem 0x20000, srcMem 0x20001, srcMem 0x20002, srcMem 0x20003] = [0, 0, 0, 0] ∧
    (vmmap_write 4096 [cowArea] (pframe_lookup_shadow chainHeap cowOps 5) srcMem 0x08048000
        500 4).map
      (fun r => (r.1, [r.2 0x20000, r.2 0x20001, r.2 0x20002, r.2 0x20003],
        [r.2 0x30000, r.2 0x30001, r.2 0x30002, r.2 0x30003]))
      = some (0, [1, 2, 3, 4], [0, 0, 0, 0]) :=
  ⟨⟨rfl, _, rfl, rfl, _, rfl, rfl, _, rfl, trivial⟩, by decide⟩

/-! ## `do_mmap` and the assertions of `vmmap_map` -/

/-- The second half of `do_mmap` calls `vmmap_map` with `mmap_lopage` and `mmap_npages`. -/
theorem do_mmap_map_args (PS uml umh map : Nat) (mmo_put : Vm → Nat → Vm)
    (junk : Option Nat) (fuel : Nat) (vn_mmap : Nat → vmarea_t → Vm → Int × Option Nat × Vm)
    (map_failed : Int) (st : mmap_state) (file : Option (Nat × Nat)) (addr len : Nat)
    (prot flags off : Int)
    (h : (vmmap_map PS (ADDR_TO_PN PS uml) (ADDR_TO_PN PS umh) map mmo_put junk fuel vn_mmap
      st.areas st.vm (file.map (fun x => x.2)) (mmap_lopage PS addr) (mmap_npages PS addr len)
      prot flags off VMMAP_DIR_HILO).map (fun r => r.ret) = none) :
    do_mmap_map PS uml umh map mmo_put junk fuel vn_mmap map_failed st file addr len prot
      flags off = none := by
  unfold do_mmap_map
  unfold mmap_lopage mmap_npages at h
  simp only []
  cases hv : vmmap_map PS (ADDR_TO_PN PS uml) (ADDR_TO_PN PS umh) map mmo_put junk fuel vn_mmap
      st.areas st.vm (file.map (fun x => x.2)) (ADDR_TO_PN PS addr)
      (usub32 ((ADDR_TO_PN PS (usub32 ((addr + len) % 4294967296) 1) + 1) % 4294967296)
        (ADDR_TO_PN PS addr)) prot flags off VMMAP_DIR_HILO with
  | none => rfl
  | some r =>
    rw [hv] at h
    exact absurd h (by simp)

/-- C37, the code on three anonymous private requests that pass every test of `do_mmap`
(pages of 4096 bytes, user range `[0x00400000, 0xc0000000)`, empty map):
`prot = 8` is handed to `vmmap_map`, whose assertion on `prot` fails; the hint address
0x1000 without MAP_FIXED gives `lopage = 1`, below the first user page, and the assertion
on `lopage` fails; the FIXED address 0xbffff000 with `len = 0x2000` gives
`lopage + npages = 0xc0001`, above the last user page, and the assertion on the upper
bound fails.  In each case the kernel panics (`none`). -/
theorem do_mmap_trips_vmmap_map_asserts :
    (mmap_checks_pass 4096 USER_MEM_LOW USER_MEM_HIGH 0 4096 10 (-1) 0 ∧
      band (bnot (bor (bor (bor PROT_NONE PROT_READ) PROT_WRITE) PROT_EXEC)) 8 ≠ 0 ∧
      (do_mmap 4096 USER_MEM_LOW USER_MEM_HIGH 9 (fun s _ => s) none 5
        (fun _ _ s => (0, none, s)) (fun _ => false) MAP_FAILED_INT mmapState 0 4096 8 10 (-1)
        0).map (fun r => r.1) = none) ∧
    (mmap_checks_pass 4096 USER_MEM_LOW USER_MEM_HIGH 0x1000 4096 10 (-1) 0 ∧
      mmap_lopage 4096 0x1000 = 1 ∧
      ¬ (mmap_lopage 4096 0x1000 = 0 ∨ ADDR_TO_PN 4096 USER_MEM_LOW ≤ mmap_lopage 4096 0x1000) ∧
      (do_mmap 4096 USER_MEM_LOW USER_MEM_HIGH 9 (fun s _ => s) none 5
        (fun _ _ s => (0, none, s)) (fun _ => false) MAP_FAILED_INT mmapState 0x1000 4096 3 10
        (-1) 0).map (fun r => r.1) = none) ∧
    (mmap_checks_pass 4096 USER_MEM_LOW USER_MEM_HIGH 0xbffff000 0x2000 14 (-1) 0 ∧
      mmap_lopage 4096 0xbffff000 + mmap_npages 4096 0xbffff000 0x2000 = 0xc0001 ∧
      ¬ (mmap_lopage 4096 0xbffff000 = 0 ∨
        ADDR_TO_PN 4096 USER_MEM_HIGH
          ≥ (mmap_lopage 4096 0xbffff000 + mmap_npages 4096 0xbffff000 0x2000) % 4294967296) ∧
      (do_mmap 4096 USER_MEM_LOW USER_MEM_HIGH 9 (fun s _ => s) none 5
        (fun _ _ s => (0, none, s)) (fun _ => false) MAP_FAILED_INT mmapState 0xbffff000 0x2000
        3 14 (-1) 0).map (fun r => r.1) = none) := by
  decide

/-! ## `do_fork`: a shadow allocation that fails -/

/-- C32, counterexample: a map of two private areas (on objects 5 and 6) when the
allocator serves the new map, its areas, the two shadow objects of the child and the first
shadow object of the parent, and fails on the second: `do_fork` returns -1, and the first
area of the parent points at the new shadow object 25, not at object 5 as before the call:
its `vma_obj` pointer is not the same. -/
theorem do_fork_failure_changes_parent_map :
    privateMap.map (fun v => v.vma_obj) = [some 5, some 6] ∧
    (do_fork_vm (fun s _ => s) privateMap shortPoolState).map
        (fun r => (r.ret, r.parent.map (fun v => v.vma_obj)))
      = some (some (-1), [some 25, some 6]) := by
  decide

theorem shadow_create_nil (s : Vm) (hp : s.pool = []) : shadow_create s = (none, s) := by
  unfold shadow_create slab_obj_alloc
  rw [hp]

theorem kept_area_refl (a : vmarea_t) : kept_area a a :=
  ⟨⟨rfl, rfl, rfl, rfl, rfl⟩, rfl, fun _ => rfl⟩

theorem forall2_kept_refl : ∀ (l : List vmarea_t), List.Forall₂ kept_area l l
  | [] => List.Forall₂.nil
  | a :: l => List.Forall₂.cons (kept_area_refl a) (forall2_kept_refl l)

/-- Whatever the allocator answers, the second loop of `do_fork` keeps the numeric fields
and the map of every area, and leaves the areas that are not private as they are. -/
theorem fork_parent_loop_kept :
    ∀ (olds : List vmarea_t) (s : Vm) (r : Bool × List vmarea_t × Vm),
      fork_parent_loop olds s = some r → List.Forall₂ kept_area olds r.2.1 := by
  intro olds
  induction olds with
  | nil =>
    intro s r h
    rw [fork_parent_loop] at h
    injection h with h
    rw [← h]
    exact List.Forall₂.nil
  | cons v rest ih =>
    intro s r h
    rw [fork_parent_loop] at h
    by_cases hpriv : band v.vma_flags MAP_PRIVATE = MAP_PRIVATE
    · rw [if_pos hpriv] at h
      cases hsc : shadow_create s with
      | mk x s1 =>
        rw [hsc] at h
        cases x with
        | none =>
          simp only [] at h
          injection h with h
          rw [← h]
          exact forall2_kept_refl _
        | some sh =>
          simp only [] at h
          cases hvo : v.vma_obj with
          | none =>
            rw [hvo] at h
            exact absurd h (by simp)
          | some o =>
            rw [hvo] at h
            simp only [] at h
            cases hb : mmobj_bottom_obj s1.objs o with
            | none =>
              rw [hb] at h
              exact absurd h (by simp)
            | some b =>
              rw [hb] at h
              simp only [] at h
              cases hr : fork_parent_loop rest (set_shadow s1 sh (some o) b) with
              | none =>
                rw [hr] at h
                exact absurd h (by simp)
              | some r1 =>
                rw [hr] at h
                simp only [Option.map_some'] at h
                injection h with h
                rw [← h]
                exact List.Forall₂.cons
                  ⟨⟨rfl, rfl, rfl, rfl, rfl⟩, rfl, fun hn => absurd hpriv hn⟩ (ih _ r1 hr)
    · rw [if_neg hpriv] at h
      cases hr : fork_parent_loop rest s with
      | none =>
        rw [hr] at h
        exact absurd h (by simp)
      | some r1 =>
        rw [hr] at h
        simp only [Option.map_some'] at h
        injection h with h
        rw [← h]
        exact List.Forall₂.cons (kept_area_refl v) (ih _ r1 hr)

/-- The second loop of `do_fork` when the allocator answers with fresh addresses, fewer
than there are private areas: the loop stops at the private area `v` for which no address
is left, the areas from `v` on are untouched, no object that existed changes, and every
area before `v` is as `shadow_of` says. -/
theorem fork_parent_loop_short :
    ∀ (olds : List vmarea_t) (s : Vm) (addrs : List Nat),
      s.pool = addrs.map some → addrs.Nodup → (∀ a ∈ addrs, s.objs a = none) →
      addrs.length < private_count olds →
      (∀ v ∈ olds, ∃ o ob, v.vma_obj = some o ∧ s.objs o = some ob) →
      ∃ pre v post pre1 s1,
        olds = pre ++ v :: post ∧ band v.vma_flags MAP_PRIVATE = MAP_PRIVATE ∧
        private_count pre = addrs.length ∧
        fork_parent_loop olds s = some (false, pre1 ++ v :: post, s1) ∧
        (∀ o ob, s.objs o = some ob → s1.objs o = some ob) ∧
        List.Forall₂ (fun a p => shadow_of s1.objs addrs a p ∧ kept_area a p) pre pre1 := by
  intro olds
  induction olds with
  | nil =>
    intro s addrs _ _ _ hk _
    simp [private_count] at hk
  | cons v rest ih =>
    intro s addrs hp hnd hfresh hk hobj
    obtain ⟨o, ob, hvo, hso⟩ := hobj v (List.mem_cons_self _ _)
    rw [private_count_cons] at hk
    by_cases hpriv : band v.vma_flags MAP_PRIVATE = MAP_PRIVATE
    · rw [if_pos hpriv] at hk
      cases addrs with
      | nil =>
        refine ⟨[], v, rest, [], s, rfl, hpriv, by simp [private_count], ?_, fun _ _ h => h,
          List.Forall₂.nil⟩
        rw [fork_parent_loop, if_pos hpriv, shadow_create_nil s (by rw [hp]; rfl)]
        rfl
      | cons sh addrs1 =>
        have hp1 : s.pool = some sh :: addrs1.map some := by rw [hp]; rfl
        have hsh : s.objs sh = none := hfresh sh (List.mem_cons_self _ _)
        have hne : o ≠ sh := by
          intro e
          rw [e, hsh] at hso
          exact absurd hso (by simp)
        have hnd1 := List.nodup_cons.mp hnd
        have hkeep : ∀ x obx, s.objs x = some obx →
            Function.update s.objs sh
              (some ⟨1, 0, some o, if ob.mmo_shadowed = none then some o else ob.mmo_bottom_obj⟩)
              x = some obx := by
          intro x obx hx
          have hxs : x ≠ sh := by
            intro e
            rw [e, hsh] at hx
            exact absurd hx (by simp)
          rw [Function.update_noteq hxs]
          exact hx
        obtain ⟨pre, w, post, pre1, s1, hdec, hwp, hcnt, hrun, hE1, hF⟩ :=
          ih ⟨Function.update s.objs sh
              (some ⟨1, 0, some o,
                if ob.mmo_shadowed = none then some o else ob.mmo_bottom_obj⟩),
              addrs1.map some⟩
            addrs1 rfl hnd1.2
            (by
              intro a ha
              have hash : a ≠ sh := by
                intro e
                rw [e] at ha
                exact hnd1.1 ha
              simp only []
              rw [Function.update_noteq hash]
              exact hfresh a (List.mem_cons_of_mem _ ha))
            (by simp only [List.length_cons] at hk; omega)
            (by
              intro w hw
              obtain ⟨o1, ob1, h1, h2⟩ := hobj w (List.mem_cons_of_mem _ hw)
              exact ⟨o1, ob1, h1, hkeep o1 ob1 h2⟩)
        have hs1sh : s1.objs sh = some ⟨1, 0, some o,
            if ob.mmo_shadowed = none then some o else ob.mmo_bottom_obj⟩ :=
          hE1 sh _ (by simp only []; rw [Function.update_same])
        have hs1o : s1.objs o = some { ob with mmo_refcount := ob.mmo_refcount } :=
          hE1 o ob (hkeep o ob hso)
        refine ⟨v :: pre, w, post, { v with vma_obj := some sh } :: pre1, s1, ?_, hwp, ?_, ?_,
          ?_, ?_⟩
        · rw [hdec]
          rfl
        · rw [private_count_cons, if_pos hpriv, hcnt]
          rfl
        · rw [fork_parent_step_private v rest s sh _ o ob hp1 hpriv hvo hso hne, hrun]
          rfl
        · intro x obx hx
          exact hE1 x obx (hkeep x obx hx)
        · refine List.Forall₂.cons
            ⟨⟨⟨rfl, rfl, rfl, rfl, rfl⟩, ?_, fun hn => absurd hpriv hn⟩,
              ⟨⟨rfl, rfl, rfl, rfl, rfl⟩, rfl, fun hn => absurd hpriv hn⟩⟩ ?_
          · intro _
            exact ⟨sh, o, _, hvo, rfl, List.mem_cons_self _ _, hs1sh,
              bottom_of_bump _ _ _ _ hs1o⟩
          · exact List.Forall₂.imp
              (fun a b hab =>
                ⟨shadow_of_mono _ _ _ (fun x hx => List.mem_cons_of_mem _ hx) a b hab.1, hab.2⟩)
              hF
    · rw [if_neg hpriv, Nat.add_zero] at hk
      obtain ⟨pre, w, post, pre1, s1, hdec, hwp, hcnt, hrun, hE1, hF⟩ :=
        ih s addrs hp hnd hfresh hk (fun w hw => hobj w (List.mem_cons_of_mem _ hw))
      refine ⟨v :: pre, w, post, v :: pre1, s1, ?_, hwp, ?_, ?_, hE1, ?_⟩
      · rw [hdec]
        rfl
      · rw [private_count_cons, if_neg hpriv, Nat.add_zero, hcnt]
      · rw [fork_parent_loop, if_neg hpriv, hrun]
        rfl
      · exact List.Forall₂.cons
          ⟨⟨⟨rfl, rfl, rfl, rfl, rfl⟩, fun hp => absurd hp hpriv, fun _ _ => rfl⟩,
            kept_area_refl v⟩ hF

theorem split_get {α : Type} (R : α → α → Prop) (v : α) (post : List α) :
    ∀ (pre pre1 : List α), List.Forall₂ R pre pre1 →
      ∀ (i : Nat) (a : α), (pre ++ v :: post).get? i = some a →
        ∃ p, (pre1 ++ v :: post).get? i = some p ∧
          ((i < pre.length ∧ R a p) ∨ (pre.length ≤ i ∧ p = a)) := by
  intro pre pre1 h
  induction h with
  | nil =>
    intro i a hi
    exact ⟨a, hi, Or.inr ⟨Nat.zero_le _, rfl⟩⟩
  | cons hab _ ih =>
    intro i a hi
    cases i with
    | zero =>
      simp only [List.cons_append, List.get?_cons_zero, Option.some.injEq] at hi
      subst hi
      exact ⟨_, rfl, Or.inl ⟨by simp, hab⟩⟩
    | succ j =>
      simp only [List.cons_append, List.get?_cons_succ] at hi
      obtain ⟨p, hp, hr⟩ := ih j a hi
      refine ⟨p, by simpa using hp, ?_⟩
      rcases hr with ⟨h1, h2⟩ | ⟨h1, h2⟩
      · exact Or.inl ⟨by simp only [List.length_cons]; omega, h2⟩
      · exact Or.inr ⟨by simp only [List.length_cons]; omega, h2⟩

/-- Destroying a map leaves an object alone when no `put` touches it. -/
theorem vmmap_destroy_loop_frame (mmo_put : Vm → Nat → Vm) (x : Nat)
    (hput : ∀ (st : Vm) (o : Nat), (mmo_put st o).objs x = st.objs x) :
    ∀ (l : List vmarea_t) (s : Vm), (vmmap_destroy_loop mmo_put l s).objs x = s.objs x := by
  intro l
  induction l with
  | nil =>
    intro s
    rw [vmmap_destroy_loop]
  | cons v rest ih =>
    intro s
    rw [vmmap_destroy_loop]
    cases hv : v.vma_obj with
    | none =>
      simp only []
      exact ih s
    | some o =>
      simp only []
      rw [ih, hput]

theorem split_get_mid {α : Type} (v : α) (post : List α) :
    ∀ (pre : List α), (pre ++ v :: post).get? pre.length = some v := by
  intro pre
  induction pre with
  | nil => rfl
  | cons a rest ih =>
    simp only [List.cons_append, List.length_cons, List.get?_cons_succ]
    exact ih

/-- Every exit of `do_fork` before `proc_create` returns -1 with the new map destroyed,
and leaves every area of the parent with its numeric fields and its map, the areas that
are not private untouched. -/
theorem do_fork_vm_kept (mmo_put : Vm → Nat → Vm) (areas : List vmarea_t) (s : Vm)
    (r : fork_result) (h : do_fork_vm mmo_put areas s = some r) (he : r.ret ≠ none) :
    r.ret = some (-1) ∧ r.child = [] ∧ List.Forall₂ kept_area areas r.parent := by
  unfold do_fork_vm at h
  cases hc : vmmap_clone areas s with
  | mk x s1 =>
    rw [hc] at h
    cases x with
    | none => exact absurd h (by simp)
    | some mn =>
      obtain ⟨m, news⟩ := mn
      simp only [] at h
      cases hf : fork_child_loop news areas s1 with
      | none =>
        rw [hf] at h
        exact absurd h (by simp)
      | some rc =>
        obtain ⟨b, news1, s2⟩ := rc
        rw [hf] at h
        cases b with
        | false =>
          simp only [] at h
          injection h with h
          subst h
          exact ⟨rfl, rfl, forall2_kept_refl _⟩
        | true =>
          simp only [] at h
          cases hp : fork_parent_loop areas s2 with
          | none =>
            rw [hp] at h
            exact absurd h (by simp)
          | some rp =>
            obtain ⟨b2, olds1, s3⟩ := rp
            rw [hp] at h
            cases b2 with
            | false =>
              simp only [] at h
              injection h with h
              subst h
              exact ⟨rfl, rfl, fork_parent_loop_kept areas s2 _ hp⟩
            | true =>
              simp only [] at h
              injection h with h
              subst h
              exact absurd rfl he

/-- A `shadow_create` that fails in the first loop of `do_fork`: -1, the new map destroyed,
the areas of the parent as they were. -/
theorem do_fork_vm_child_fail (mmo_put : Vm → Nat → Vm) (areas : List vmarea_t) (s : Vm)
    (m : Nat) (news : List vmarea_t) (hc : (vmmap_clone areas s).1 = some (m, news))
    (hf : (fork_child_loop news areas (vmmap_clone areas s).2).map (fun r => r.1) = some false) :
    (do_fork_vm mmo_put areas s).map (fun r => (r.ret, r.parent, r.child))
      = some (some (-1), areas, []) := by
  unfold do_fork_vm
  cases hcl : vmmap_clone areas s with
  | mk x s1 =>
    rw [hcl] at hc hf
    simp only [] at hc hf
    subst hc
    simp only []
    cases hfl : fork_child_loop news areas s1 with
    | none =>
      rw [hfl] at hf
      exact absurd hf (by simp)
    | some rc =>
      obtain ⟨b, news1, s2⟩ := rc
      rw [hfl] at hf
      simp only [Option.map_some', Option.some.injEq] at hf
      subst hf
      rfl

/-- The part of `do_fork` that builds the address space of the child, when the allocator
answers with fresh addresses for the new map, its areas and the shadow objects of the
first loop, and with `j` more, fewer than there are private areas: the second loop stops
at the private area `v` that has `j` private areas before it, and `do_fork` returns -1
after destroying the new map. -/
theorem do_fork_vm_short (mmo_put : Vm → Nat → Vm) (areas : List vmarea_t) (s : Vm)
    (addrs : List Nat) (j : Nat) (hpool : s.pool = addrs.map some) (hnodup : addrs.Nodup)
    (hfresh : ∀ a ∈ addrs, s.objs a = none)
    (hlen : addrs.length = areas.length + 1 + private_count areas + j)
    (hj : j < private_count areas)
    (hlive : objs_live s.objs areas.length areas) :
    ∃ (pre : List vmarea_t) (v : vmarea_t) (post pre1 news1 : List vmarea_t) (s3 : Vm),
      areas = pre ++ v :: post ∧ band v.vma_flags MAP_PRIVATE = MAP_PRIVATE ∧
      private_count pre = j ∧
      do_fork_vm mmo_put areas s
        = some ⟨some (-1), pre1 ++ v :: post, [], vmmap_destroy_loop mmo_put news1 s3⟩ ∧
      (∀ o ob, s.objs o = some ob →
        s3.objs o = some { ob with mmo_refcount := ob.mmo_refcount + refs_on o areas }) ∧
      List.Forall₂
        (fun a p =>
          shadow_of s3.objs ((addrs.drop (areas.length + 1)).drop (private_count areas)) a p ∧
            kept_area a p) pre pre1 := by
  cases addrs with
  | nil =>
    simp only [List.length_nil] at hlen
    omega
  | cons m addrs1 =>
    have hp1 : s.pool = some m :: addrs1.map some := by rw [hpool]; rfl
    have hnd1 := List.nodup_cons.mp hnodup
    simp only [List.length_cons] at hlen
    have hclone := vmmap_clone_loop_ok m areas ⟨s.objs, addrs1.map some⟩ addrs1 rfl (by omega)
    have hndA : (addrs1.drop areas.length).Nodup :=
      List.Nodup.sublist (List.drop_sublist _ _) hnd1.2
    have hmemA : ∀ a ∈ addrs1.drop areas.length, a ∈ addrs1 :=
      fun a ha => List.mem_of_mem_drop ha
    obtain ⟨news1, s2, hrunc, hpoolc, hE1, hE2, _⟩ :=
      fork_child_loop_ok m areas ⟨s.objs, (addrs1.drop areas.length).map some⟩
        (addrs1.drop areas.length) rfl hndA
        (fun a ha => hfresh a (List.mem_cons_of_mem _ (hmemA a ha)))
        (by rw [List.length_drop]; omega) hlive
    have hndB : ((addrs1.drop areas.length).drop (private_count areas)).Nodup :=
      List.Nodup.sublist (List.drop_sublist _ _) hndA
    have hdisj := List.disjoint_take_drop hndA (Nat.le_refl (private_count areas))
    obtain ⟨pre, v, post, pre1, s3, hdec, hvp, hcnt, hrunp, hE1p, hFp⟩ :=
      fork_parent_loop_short areas s2 ((addrs1.drop areas.length).drop (private_count areas))
        hpoolc hndB
        (fun a ha =>
          hE2 a (hfresh a (List.mem_cons_of_mem _ (hmemA a (List.mem_of_mem_drop ha))))
            (fun hin => hdisj hin ha))
        (by rw [List.length_drop, List.length_drop]; omega)
        (by
          intro v hv
          obtain ⟨o, ob, h1, h2, _⟩ := area_refcount_pos s.objs v (hlive v hv).1
          exact ⟨o, _, h1, hE1 o ob h2⟩)
    refine ⟨pre, v, post, pre1, news1, s3, hdec, hvp, ?_, ?_, ?_, hFp⟩
    · rw [hcnt, List.length_drop, List.length_drop]
      omega
    · unfold do_fork_vm vmmap_clone
      rw [slab_obj_alloc_cons s m _ hp1]
      simp only []
      rw [hclone]
      simp only []
      rw [hrunc]
      simp only []
      rw [hrunp]
    · intro o ob ho
      exact hE1p o _ (hE1 o ob ho)

/-- C32, amended: when a shadow allocation fails during `do_fork`, `do_fork` returns -1
after destroying the new map, and the map of the parent is semantically unchanged.  If
the failure is in the child-side loop, every area of the parent is as before the call.
On every failing exit, every area of the parent keeps its start, end, off, prot, flags
and map, and the areas that are not private keep their `vma_obj` pointer.  If the failure
is in the parent-side loop (the allocator answers with unused, pairwise different
addresses for the new map, its areas, the shadow objects of the child and `j` more, fewer
than there are private areas, every area has a live object, and no `put` of the destroyed
map touches the new shadow objects of the parent), the loop stops at the private area at
position `n` that has `j` private areas before it; the areas from position `n` on are as
before the call, and each private area before position `n` points at a new shadow object,
unused before the call, of reference count 1, whose `mmo_shadowed` is the object the area
had and whose bottom object is the bottom object of that object. -/
theorem do_fork_vm_failure_spec (mmo_put : Vm → Nat → Vm) (areas : List vmarea_t) (s : Vm) :
    (∀ (m : Nat) (news : List vmarea_t),
      (vmmap_clone areas s).1 = some (m, news) →
      (fork_child_loop news areas (vmmap_clone areas s).2).map (fun r => r.1) = some false →
      (do_fork_vm mmo_put areas s).map (fun r => (r.ret, r.parent, r.child))
        = some (some (-1), areas, [])) ∧
    (∀ (e : Int) (parent child : List vmarea_t),
      (do_fork_vm mmo_put areas s).map (fun r => (r.ret, r.parent, r.child))
        = some (some e, parent, child) →
      e = -1 ∧ child = [] ∧ List.Forall₂ kept_area areas parent) ∧
    (∀ (addrs : List Nat) (j : Nat),
      s.pool = addrs.map some → addrs.Nodup → (∀ a ∈ addrs, s.objs a = none) →
      addrs.length = areas.length + 1 + private_count areas + j →
      j < private_count areas →
      objs_live s.objs areas.length areas →
      (∀ (st : Vm) (o x : Nat),
        x ∈ (addrs.drop (areas.length + 1)).drop (private_count areas) →
        (mmo_put st o).objs x = st.objs x) →
      ∃ r n v, do_fork_vm mmo_put areas s = some r ∧ r.ret = some (-1) ∧ r.child = [] ∧
        areas.get? n = some v ∧ band v.vma_flags MAP_PRIVATE = MAP_PRIVATE ∧
        private_count (areas.take n) = j ∧
        ∀ i a, areas.get? i = some a →
          ∃ p, r.parent.get? i = some p ∧ kept_area a p ∧
            (n ≤ i → p = a) ∧
            (i < n → band a.vma_flags MAP_PRIVATE = MAP_PRIVATE →
              ∃ sh o b, a.vma_obj = some o ∧ mmobj_bottom_obj s.objs o = some b ∧
                p.vma_obj = some sh ∧ s.objs sh = none ∧
                r.vm.objs sh = some ⟨1, 0, some o, b⟩)) := by
  refine ⟨fun m news hc hf => do_fork_vm_child_fail mmo_put areas s m news hc hf, ?_, ?_⟩
  · intro e parent child h
    cases hr : do_fork_vm mmo_put areas s with
    | none =>
      rw [hr] at h
      exact absurd h (by simp)
    | some r =>
      rw [hr] at h
      simp only [Option.map_some', Option.some.injEq, Prod.mk.injEq] at h
      obtain ⟨h1, h2, h3⟩ := h
      obtain ⟨k1, k2, k3⟩ := do_fork_vm_kept mmo_put areas s r hr (by rw [h1]; simp)
      refine ⟨?_, ?_, ?_⟩
      · rw [h1] at k1
        injection k1
      · rw [← h3]
        exact k2
      · rw [← h2]
        exact k3
  · intro addrs j hpool hnodup hfresh hlen hj hlive hput
    obtain ⟨pre, v, post, pre1, news1, s3, hdec, hvp, hcnt, hrun, hE1, hF⟩ :=
      do_fork_vm_short mmo_put areas s addrs j hpool hnodup hfresh hlen hj hlive
    refine ⟨_, pre.length, v, hrun, rfl, rfl, ?_, hvp, ?_, ?_⟩
    · rw [hdec]
      exact split_get_mid v post pre
    · rw [hdec, List.take_left]
      exact hcnt
    · intro i a hi
      have hmem : a ∈ areas := List.get?_mem hi
      rw [hdec] at hi
      obtain ⟨p, hp, hr⟩ := split_get _ v post pre pre1 hF i a hi
      refine ⟨p, hp, ?_, ?_, ?_⟩
      · rcases hr with ⟨_, h2⟩ | ⟨_, h2⟩
        · exact h2.2
        · rw [h2]
          exact kept_area_refl a
      · intro hn
        rcases hr with ⟨h1, _⟩ | ⟨_, h2⟩
        · omega
        · exact h2
      · intro hn hpriv
        rcases hr with ⟨_, h2⟩ | ⟨h1, _⟩
        · obtain ⟨sh, o, b, e1, e2, e3, e4, e5⟩ := h2.1.2.1 hpriv
          obtain ⟨o2, ob2, g1, g2, _⟩ := area_refcount_pos s.objs a (hlive a hmem).1
          have hoo2 : o2 = o := by
            rw [e1] at g1
            injection g1 with g1
            exact g1.symm
          subst hoo2
          have hb3 := bottom_of_bump s3.objs o2 ob2 _ (hE1 o2 ob2 g2)
          have hb0 : mmobj_bottom_obj s.objs o2
              = some (if ob2.mmo_shadowed = none then some o2 else ob2.mmo_bottom_obj) := by
            unfold mmobj_bottom_obj
            rw [g2]
          have hbb : b = (if ob2.mmo_shadowed = none then some o2 else ob2.mmo_bottom_obj) := by
            rw [e5] at hb3
            injection hb3
          exact ⟨sh, o2, b, e1, by rw [hb0, hbb], e2,
            hfresh sh (List.mem_of_mem_drop (List.mem_of_mem_drop e3)),
            (vmmap_destroy_loop_frame mmo_put sh (fun st o => hput st o sh e3) news1 s3).trans
              e4⟩
        · omega

/-- The amended claim C32 on a map of two private areas (on objects 5 and 6): when the
allocator is exhausted at the second shadow object of the child, the areas of the parent
are as before; when it is exhausted at the second shadow object of the parent, the first
area of the parent points at the new shadow object 25, of reference count 1, which shadows
object 5 and has its bottom object 4, and the second area is as before. -/
theorem do_fork_vm_failure_spec_witness :
    (do_fork_vm (fun s _ => s) privateMap childShortState).map
        (fun r => (r.ret, r.parent, r.child))
      = some (some (-1), privateMap, []) ∧
    ((-1 : Int) = -1 ∧ ([] : List vmarea_t) = [] ∧
      List.Forall₂ kept_area privateMap
        [⟨100, 102, 0, 3, 2, some 9, some 25⟩, ⟨200, 201, 0, 1, 2, some 9, some 6⟩]) ∧
    (∃ r n v, do_fork_vm (fun s _ => s) privateMap parentShortState = some r ∧
      r.ret = some (-1) ∧ r.child = [] ∧
      privateMap.get? n = some v ∧ band v.vma_flags MAP_PRIVATE = MAP_PRIVATE ∧
      private_count (privateMap.take n) = 1 ∧
      ∀ i a, privateMap.get? i = some a →
        ∃ p, r.parent.get? i = some p ∧ kept_area a p ∧
          (n ≤ i → p = a) ∧
          (i < n → band a.vma_flags MAP_PRIVATE = MAP_PRIVATE →
            ∃ sh o b, a.vma_obj = some o ∧ mmobj_bottom_obj parentShortState.objs o = some b ∧
              p.vma_obj = some sh ∧ parentShortState.objs sh = none ∧
              r.vm.objs sh = some ⟨1, 0, some o, b⟩)) ∧
    (do_fork_vm (fun s _ => s) privateMap parentShortState).map
        (fun r => (r.ret, r.parent, r.child, r.vm.objs 25))
      = some (some (-1),
          [⟨100, 102, 0, 3, 2, some 9, some 25⟩, ⟨200, 201, 0, 1, 2, some 9, some 6⟩], [],
          some ⟨1, 0, some 5, some 4⟩) :=
  ⟨(do_fork_vm_failure_spec (fun s _ => s) privateMap childShortState).1 20
      [⟨100, 102, 0, 3, 2, some 20, none⟩, ⟨200, 201, 0, 1, 2, some 20, none⟩]
      (by decide) (by decide),
    (do_fork_vm_failure_spec (fun s _ => s) privateMap parentShortState).2.1 (-1)
      [⟨100, 102, 0, 3, 2, some 9, some 25⟩, ⟨200, 201, 0, 1, 2, some 9, some 6⟩] []
      (by decide),
    (do_fork_vm_failure_spec (fun s _ => s) privateMap parentShortState).2.2
      [20, 21, 22, 23, 24, 25] 1 (by decide) (by decide) (by decide) (by decide) (by decide)
      (by decide) (fun _ _ _ _ => rfl),
    by decide⟩

/-! ## `_proc_getid` -/

theorem getid_scan_mem (procs : Nat → Option proc_t) (pid : Int) :
    ∀ (l : List Nat), procs_live procs l →
      getid_scan procs pid l = some (decide (pid ∈ pids_of procs l)) := by
  intro l
  induction l with
  | nil =>
    intro _
    simp [getid_scan, pids_of]
  | cons a rest ih =>
    intro hl
    have ha := hl a (List.mem_cons_self _ _)
    have hr : procs_live procs rest := fun x hx => hl x (List.mem_cons_of_mem _ hx)
    cases hp : procs a with
    | none => rw [hp] at ha; simp at ha
    | some p =>
      unfold getid_scan
      rw [hp]
      simp only []
      have hpids : pids_of procs (a :: rest) = p.p_pid :: pids_of procs rest := by
        unfold pids_of
        rw [List.filterMap_cons, hp]
        rfl
      rw [hpids]
      by_cases heq : p.p_pid = pid
      · rw [if_pos heq]
        simp [heq]
      · rw [if_neg heq, ih hr]
        have hne : ¬ pid = p.p_pid := fun e => heq e.symm
        simp [hne]

theorem next_candidate (m n : Nat) (hm : m < n) (hn : (n : Int) < 2147483648) :
    Int.tmod (wrap32 ((m : Int) + 1)) (n : Int) = (((m + 1) % n : Nat) : Int) := by
  rw [wrap32_of_range _ (by unfold int_range; omega),
    Int.tmod_eq_emod (by omega) (by omega)]
  push_cast
  rfl

theorem cyc_back (nx j n : Nat) (hnx : nx < n) (hj : j < n) :
    (nx + j) % n = nx ↔ j = 0 := by
  constructor
  · intro h
    by_cases hlt : nx + j < n
    · rw [Nat.mod_eq_of_lt hlt] at h
      omega
    · rw [Nat.mod_eq_sub_mod (by omega), Nat.mod_eq_of_lt (by omega)] at h
      omega
  · intro h
    rw [h, Nat.add_zero, Nat.mod_eq_of_lt hnx]

theorem cyc_onto (nx i n : Nat) (hnx : nx < n) (hi : i < n) :
    ∃ j, j < n ∧ (nx + j) % n = i := by
  refine ⟨(i + n - nx) % n, Nat.mod_lt _ (by omega), ?_⟩
  rw [Nat.add_mod_mod]
  have e : nx + (i + n - nx) = i + n := by omega
  rw [e, Nat.add_mod_right, Nat.mod_eq_of_lt hi]

/-- The loop of `_proc_getid` from the candidate `(next_pid + k) mod max` on, when the
ids before it are used and enough fuel is left: it stops at the first unused id of the
cycle, or returns -1 when every id of the cycle is used. -/
theorem getid_loop_cycle (n nx : Nat) (procs : Nat → Option proc_t) (l : List Nat)
    (hnx : nx < n) (hn : (n : Int) < 2147483648) (hl : procs_live procs l) :
    ∀ (fuel k : Nat), k < n → n ≤ fuel + k →
      (∀ j, j < k → (((nx + j) % n : Nat) : Int) ∈ pids_of procs l) →
      (∃ k1, k ≤ k1 ∧ k1 < n ∧
          (∀ j, j < k1 → (((nx + j) % n : Nat) : Int) ∈ pids_of procs l) ∧
          (((nx + k1) % n : Nat) : Int) ∉ pids_of procs l ∧
          _proc_getid_loop (n : Int) procs l (nx : Int) fuel (((nx + k) % n : Nat) : Int)
            = some ((((nx + k1) % n : Nat) : Int), (((nx + k1 + 1) % n : Nat) : Int))) ∨
        ((∀ j, j < n → (((nx + j) % n : Nat) : Int) ∈ pids_of procs l) ∧
          _proc_getid_loop (n : Int) procs l (nx : Int) fuel (((nx + k) % n : Nat) : Int)
            = some (-1, (nx : Int))) := by
  intro fuel
  induction fuel with
  | zero =>
    intro k hk hf _
    omega
  | succ fuel ih =>
    intro k hk hf hused
    have hm : (nx + k) % n < n := Nat.mod_lt _ (by omega)
    have hnext := next_candidate ((nx + k) % n) n hm hn
    rw [Nat.mod_add_mod] at hnext
    unfold _proc_getid_loop
    rw [getid_scan_mem procs _ l hl]
    by_cases hin : (((nx + k) % n : Nat) : Int) ∈ pids_of procs l
    · rw [decide_eq_true hin]
      simp only []
      rw [hnext]
      by_cases hlast : k + 1 = n
      · have hback : (nx + k + 1) % n = nx := by
          have e : nx + k + 1 = nx + n := by omega
          rw [e, Nat.add_mod_right, Nat.mod_eq_of_lt hnx]
        rw [hback, if_pos rfl]
        refine Or.inr ⟨?_, rfl⟩
        intro j hj
        by_cases hjk : j < k
        · exact hused j hjk
        · have e : j = k := by omega
          rw [e]
          exact hin
      · have hne : ¬ ((((nx + k + 1) % n : Nat) : Int) = (nx : Int)) := by
          intro e
          have e1 : (nx + (k + 1)) % n = nx := by
            have := Int.ofNat_inj.mp e
            rw [Nat.add_assoc] at this
            exact this
          have := (cyc_back nx (k + 1) n hnx (by omega)).mp e1
          omega
        rw [if_neg hne]
        have hused1 : ∀ j, j < k + 1 → (((nx + j) % n : Nat) : Int) ∈ pids_of procs l := by
          intro j hj
          by_cases hjk : j < k
          · exact hused j hjk
          · have e : j = k := by omega
            rw [e]
            exact hin
        rcases ih (k + 1) (by omega) (by omega) hused1 with ⟨k1, h1, h2, h3, h4, h5⟩ | ⟨h1, h2⟩
        · refine Or.inl ⟨k1, by omega, h2, h3, h4, ?_⟩
          rw [← Nat.add_assoc] at h5
          exact h5
        · refine Or.inr ⟨h1, ?_⟩
          rw [← Nat.add_assoc] at h2
          exact h2
    · rw [decide_eq_false hin]
      simp only []
      rw [hnext]
      exact Or.inl ⟨k, Nat.le_refl k, hk, hused, hin, rfl⟩

theorem proc_alloc_frame (s : Procs) :
    (proc_alloc s).2.procs = s.procs ∧ (proc_alloc s).2.proc_list = s.proc_list ∧
    (proc_alloc s).2.next_pid = s.next_pid ∧ (proc_alloc s).2.proc_initproc = s.proc_initproc ∧
    (proc_alloc s).2.vn_refcount = s.vn_refcount := by
  unfold proc_alloc
  cases s.pool <;> exact ⟨rfl, rfl, rfl, rfl, rfl⟩

/-- The run of `_proc_getid` on a table whose list is sound, with `next_pid` in
`[0, max)` and fuel for `max` rounds: it returns, either the first id of the cycle
`next_pid, next_pid + 1, ...` (mod `max`) that no process of the list has, with
`next_pid` set to its successor, or -1 with `next_pid` unchanged when every id of the
cycle is used. -/
theorem proc_getid_run (n nx fuel : Nat) (s : Procs) (hnx : nx < n)
    (hn : (n : Int) < 2147483648) (hnext : s.next_pid = (nx : Int)) (hfuel : n ≤ fuel)
    (hl : procs_live s.procs s.proc_list) :
    (∃ k1, k1 < n ∧
        (∀ j, j < k1 → (((nx + j) % n : Nat) : Int) ∈ pids_of s.procs s.proc_list) ∧
        (((nx + k1) % n : Nat) : Int) ∉ pids_of s.procs s.proc_list ∧
        _proc_getid (n : Int) fuel s
          = some ((((nx + k1) % n : Nat) : Int),
              { s with next_pid := (((nx + k1 + 1) % n : Nat) : Int) })) ∨
      ((∀ j, j < n → (((nx + j) % n : Nat) : Int) ∈ pids_of s.procs s.proc_list) ∧
        _proc_getid (n : Int) fuel s = some (-1, { s with next_pid := (nx : Int) })) := by
  have h := getid_loop_cycle n nx s.procs s.proc_list hnx hn hl fuel 0 (by omega) (by omega)
    (by intro j hj; omega)
  rw [Nat.add_zero, Nat.mod_eq_of_lt hnx] at h
  unfold _proc_getid
  rw [hnext]
  rcases h with ⟨k1, _, h2, h3, h4, h5⟩ | ⟨h1, h2⟩
  · refine Or.inl ⟨k1, h2, h3, h4, ?_⟩
    rw [h5]
    rfl
  · refine Or.inr ⟨h1, ?_⟩
    rw [h2]
    rfl

theorem cast_cycle (nx j n : Nat) :
    (((nx + j) % n : Nat) : Int) = ((nx : Int) + (j : Int)) % (n : Int) := by
  push_cast
  rfl

/-- C40: for every process list whose links are sound, `max = PROC_MAX_COUNT` (a positive
`int`) and `next_pid` in `[0, max)`, `_proc_getid` terminates (fuel for `max` rounds is
enough); it returns -1 exactly when every id of `[0, max)` is used by a process of the
list, leaving `next_pid`; otherwise it returns an id of `[0, max)` that no process of the
list has, the first unused one of the cycle `next_pid, next_pid + 1, ...` (mod `max`),
and sets `next_pid` to that id plus 1 mod `max`; pairwise distinct pids stay pairwise
distinct when the id is added. -/
theorem proc_getid_spec (max : Int) (fuel : Nat) (s : Procs) (hmax : 0 < max)
    (hmax2 : max < 2147483648) (h0 : 0 ≤ s.next_pid) (h1 : s.next_pid < max)
    (hfuel : max ≤ fuel) (hl : procs_live s.procs s.proc_list) :
    ∃ pid nxt, _proc_getid max fuel s = some (pid, { s with next_pid := nxt }) ∧
      (pid = -1 ↔ ∀ i : Int, 0 ≤ i → i < max → i ∈ pids_of s.procs s.proc_list) ∧
      (pid = -1 → nxt = s.next_pid) ∧
      (pid ≠ -1 →
        0 ≤ pid ∧ pid < max ∧ pid ∉ pids_of s.procs s.proc_list ∧ nxt = (pid + 1) % max ∧
        (∃ k : Nat, (k : Int) < max ∧ pid = (s.next_pid + k) % max ∧
          ∀ j : Nat, j < k → (s.next_pid + j) % max ∈ pids_of s.procs s.proc_list) ∧
        ((pids_of s.procs s.proc_list).Nodup →
          (pids_of s.procs s.proc_list ++ [pid]).Nodup)) := by
  obtain ⟨n, rfl⟩ := Int.eq_ofNat_of_zero_le (le_of_lt hmax)
  obtain ⟨nx, hnx⟩ := Int.eq_ofNat_of_zero_le h0
  have hnxn : nx < n := by omega
  rcases proc_getid_run n nx fuel s hnxn hmax2 hnx (by omega) hl with
    ⟨k1, h2, h3, h4, h5⟩ | ⟨h2, h3⟩
  · have hlt : (nx + k1) % n < n := Nat.mod_lt _ (by omega)
    have hne : ((((nx + k1) % n : Nat) : Int)) ≠ -1 := by omega
    refine ⟨_, _, h5, ?_, fun e => absurd e hne, fun _ => ⟨by omega, by omega, h4, ?_, ?_, ?_⟩⟩
    · constructor
      · intro e
        exact absurd e hne
      · intro hall
        exact absurd (hall _ (by omega) (by omega)) h4
    · rw [← Nat.mod_add_mod]
      push_cast
      rfl
    · refine ⟨k1, by omega, ?_, ?_⟩
      · rw [hnx]
        exact cast_cycle nx k1 n
      · intro j hj
        rw [hnx, ← cast_cycle nx j n]
        exact h3 j hj
    · intro hnd
      rw [List.nodup_append]
      refine ⟨hnd, List.nodup_singleton _, ?_⟩
      intro x hx hx1
      rw [List.mem_singleton] at hx1
      rw [hx1] at hx
      exact h4 hx
  · refine ⟨_, _, h3, ?_, fun _ => hnx.symm, fun hne => absurd rfl hne⟩
    constructor
    · intro _ i hi0 hi1
      obtain ⟨iN, rfl⟩ := Int.eq_ofNat_of_zero_le hi0
      obtain ⟨j, hj, hji⟩ := cyc_onto nx iN n hnxn (by omega)
      have := h2 j hj
      rw [hji] at this
      exact this
    · intro _
      rfl

/-- C40 on the table with the pids 0, 1, 3 and `next_pid = 4`, PROC_MAX_COUNT being 8:
the hypotheses hold, and the call returns 4 and sets `next_pid` to 5. -/
theorem proc_getid_spec_witness :
    (procs_live (gapProcs []).procs (gapProcs []).proc_list ∧
      (_proc_getid 8 8 (gapProcs [])).map (fun r => (r.1, r.2.next_pid)) = some (4, 5)) ∧
    ∃ pid nxt, _proc_getid 8 8 (gapProcs []) = some (pid, { gapProcs [] with next_pid := nxt }) ∧
      (pid = -1 ↔ ∀ i : Int, 0 ≤ i → i < 8 →
        i ∈ pids_of (gapProcs []).procs (gapProcs []).proc_list) ∧
      (pid = -1 → nxt = (gapProcs []).next_pid) ∧
      (pid ≠ -1 →
        0 ≤ pid ∧ pid < 8 ∧ pid ∉ pids_of (gapProcs []).procs (gapProcs []).proc_list ∧
        nxt = (pid + 1) % 8 ∧
        (∃ k : Nat, (k : Int) < 8 ∧ pid = ((gapProcs []).next_pid + k) % 8 ∧
          ∀ j : Nat, j < k →
            ((gapProcs []).next_pid + j) % 8
              ∈ pids_of (gapProcs []).procs (gapProcs []).proc_list) ∧
        ((pids_of (gapProcs []).procs (gapProcs []).proc_list).Nodup →
          (pids_of (gapProcs []).procs (gapProcs []).proc_list ++ [pid]).Nodup)) :=
  ⟨⟨by decide, by decide⟩,
    proc_getid_spec 8 8 (gapProcs []) (by decide) (by decide) (by decide) (by decide)
      (by decide) (by decide)⟩

/-! ## `proc_create` -/

/-- The pid of the process that `proc_create` returns is the value of `_proc_getid`. -/
theorem proc_create_pid (max : Int) (fuel : Nat) (raw : proc_t) (pagedir root : Option Nat)
    (s : Procs) (curproc : Option Nat) (pid : Int)
    (h : (proc_create max fuel raw pagedir root s curproc).map
      (fun r => (r.1.bind r.2.procs).map (fun p => p.p_pid)) = some (some pid)) :
    ∃ s2, _proc_getid max fuel (proc_alloc s).2 = some (pid, s2) := by
  unfold proc_create at h
  cases ha : proc_alloc s with
  | mk a s1 =>
    rw [ha] at h
    cases a with
    | none => simp at h
    | some newProc =>
      simp only [] at h
      cases hg : _proc_getid max fuel s1 with
      | none => rw [hg] at h; simp at h
      | some g =>
        obtain ⟨pid1, s2⟩ := g
        rw [hg] at h
        simp only [] at h
        refine ⟨s2, ?_⟩
        split at h
        · simp at h
        · split at h
          · simp at h
          · split at h
            · simp at h
            · split at h
              · simp at h
              · simp at h
                rw [h]

/-- C33, counterexample: the table holds the pids 0, 1 and 3 and `next_pid` is 4 (pid 2
has been reaped), PROC_MAX_COUNT being 8.  The process that `proc_create` makes gets
pid 4, although the id 2 is unused and smaller. -/
theorem proc_create_skips_free_pid :
    pids_of (gapProcs [some 104, some 50]).procs (gapProcs [some 104, some 50]).proc_list
      = [0, 1, 3] ∧
    (gapProcs [some 104, some 50]).next_pid = 4 ∧
    (proc_create 8 8 rawProc (some 1) (some 0) (gapProcs [some 104, some 50]) (some 101)).map
        (fun r => (r.1.bind r.2.procs).map (fun p => p.p_pid)) = some (some 4) ∧
    (2 : Int) ∉ ([0, 1, 3] : List Int) ∧ (2 : Int) < 4 := by
  decide

/-- C33, amended: for every process list whose links are sound, `max = PROC_MAX_COUNT` and
`next_pid` in `[0, max)`, the pid of the process that `proc_create` returns is the value
of `_proc_getid`: the first id of the cycle `next_pid, next_pid + 1, ...` (mod `max`) that
no process of the list has, or -1 when every id of `[0, max)` is used.  It is the
smallest unused id of `[0, max)` when every id below `next_pid` is used. -/
theorem proc_create_pid_spec (max : Int) (fuel : Nat) (raw : proc_t)
    (pagedir root : Option Nat) (s : Procs) (curproc : Option Nat) (pid : Int)
    (hmax : 0 < max) (hmax2 : max < 2147483648) (h0 : 0 ≤ s.next_pid) (h1 : s.next_pid < max)
    (hfuel : max ≤ fuel) (hl : procs_live s.procs s.proc_list)
    (hret : (proc_create max fuel raw pagedir root s curproc).map
      (fun r => (r.1.bind r.2.procs).map (fun p => p.p_pid)) = some (some pid)) :
    (pid = -1 ∧ ∀ i : Int, 0 ≤ i → i < max → i ∈ pids_of s.procs s.proc_list) ∨
    (0 ≤ pid ∧ pid < max ∧ pid ∉ pids_of s.procs s.proc_list ∧
      (∃ k : Nat, (k : Int) < max ∧ pid = (s.next_pid + k) % max ∧
        ∀ j : Nat, j < k → (s.next_pid + j) % max ∈ pids_of s.procs s.proc_list) ∧
      ((∀ i : Int, 0 ≤ i → i < s.next_pid → i ∈ pids_of s.procs s.proc_list) →
        ∀ i : Int, 0 ≤ i → i < pid → i ∈ pids_of s.procs s.proc_list)) := by
  obtain ⟨s2, hg⟩ := proc_create_pid max fuel raw pagedir root s curproc pid hret
  obtain ⟨n, rfl⟩ := Int.eq_ofNat_of_zero_le (le_of_lt hmax)
  obtain ⟨nx, hnx⟩ := Int.eq_ofNat_of_zero_le h0
  have hnxn : nx < n := by omega
  obtain ⟨f1, f2, f3, _, _⟩ := proc_alloc_frame s
  have hrun := proc_getid_run n nx fuel (proc_alloc s).2 hnxn hmax2 (by rw [f3]; exact hnx)
    (by omega) (by rw [f1, f2]; exact hl)
  rw [f1, f2] at hrun
  rcases hrun with ⟨k1, h2, h3, h4, h5⟩ | ⟨h2, h3⟩
  · rw [h5] at hg
    simp only [Option.some.injEq, Prod.mk.injEq] at hg
    have hpid := hg.1
    have hlt : (nx + k1) % n < n := Nat.mod_lt _ (by omega)
    refine Or.inr ⟨by omega, by omega, by rw [← hpid]; exact h4, ⟨k1, by omega, ?_, ?_⟩, ?_⟩
    · rw [← hpid, hnx]
      exact cast_cycle nx k1 n
    · intro j hj
      rw [hnx, ← cast_cycle nx j n]
      exact h3 j hj
    · intro hbelow i hi0 hi1
      obtain ⟨iN, rfl⟩ := Int.eq_ofNat_of_zero_le hi0
      by_cases hin : iN < nx
      · exact hbelow _ hi0 (by omega)
      · by_cases hwrap : nx + k1 < n
        · rw [Nat.mod_eq_of_lt hwrap] at hpid
          have hj := h3 (iN - nx) (by omega)
          have e : nx + (iN - nx) = iN := by omega
          rw [e, Nat.mod_eq_of_lt (by omega)] at hj
          exact hj
        · rw [Nat.mod_eq_sub_mod (by omega), Nat.mod_eq_of_lt (by omega)] at hpid
          omega
  · rw [h3] at hg
    simp only [Option.some.injEq, Prod.mk.injEq] at hg
    refine Or.inl ⟨hg.1.symm, ?_⟩
    intro i hi0 hi1
    obtain ⟨iN, rfl⟩ := Int.eq_ofNat_of_zero_le hi0
    obtain ⟨j, hj, hji⟩ := cyc_onto nx iN n hnxn (by omega)
    have := h2 j hj
    rw [hji] at this
    exact this

/-- The amended claim C33 on the table of the counterexample: the hypotheses hold there,
pid 4 is the first unused id from `next_pid = 4` on, and it is not the smallest unused id
because the id 2 below `next_pid` is unused. -/
theorem proc_create_pid_spec_witness :
    (procs_live (gapProcs [some 104, some 50]).procs
        (gapProcs [some 104, some 50]).proc_list ∧
      (proc_create 8 8 rawProc (some 1) (some 0) (gapProcs [some 104, some 50])
        (some 101)).map (fun r => (r.1.bind r.2.procs).map (fun p => p.p_pid))
        = some (some 4)) ∧
    (((4 : Int) = -1 ∧ ∀ i : Int, 0 ≤ i → i < 8 →
        i ∈ pids_of (gapProcs [some 104, some 50]).procs
          (gapProcs [some 104, some 50]).proc_list) ∨
      (0 ≤ (4 : Int) ∧ (4 : Int) < 8 ∧
        (4 : Int) ∉ pids_of (gapProcs [some 104, some 50]).procs
          (gapProcs [some 104, some 50]).proc_list ∧
        (∃ k : Nat, (k : Int) < 8 ∧
          (4 : Int) = ((gapProcs [some 104, some 50]).next_pid + k) % 8 ∧
          ∀ j : Nat, j < k →
            ((gapProcs [some 104, some 50]).next_pid + j) % 8
              ∈ pids_of (gapProcs [some 104, some 50]).procs
                (gapProcs [some 104, some 50]).proc_list) ∧
        ((∀ i : Int, 0 ≤ i → i < (gapProcs [some 104, some 50]).next_pid →
            i ∈ pids_of (gapProcs [some 104, some 50]).procs
              (gapProcs [some 104, some 50]).proc_list) →
          ∀ i : Int, 0 ≤ i → i < 4 →
            i ∈ pids_of (gapProcs [some 104, some 50]).procs
              (gapProcs [some 104, some 50]).proc_list))) :=
  ⟨⟨by decide, by decide⟩,
    proc_create_pid_spec 8 8 rawProc (some 1) (some 0) (gapProcs [some 104, some 50])
      (some 101) 4 (by decide) (by decide) (by decide) (by decide) (by decide) (by decide)
      (by decide)⟩

/-- C36, the code on a call of `proc_create` in the init process (which has no child)
when the allocator serves the process and fails on the address-space map: the call
returns NULL, the object of the process is freed, but its address 102 stays in
`_proc_list` and in the child list of init, and the working directory keeps the
reference that was taken (2 instead of 1). -/
theorem proc_create_failure_not_rolled_back :
    ((bootProcs [some 102]).proc_list = [100, 101] ∧
      ((bootProcs [some 102]).procs 101).map (fun p => (p.p_children, p.p_cwd))
        = some ([], some 0) ∧
      (bootProcs [some 102]).vn_refcount 0 = 1) ∧
    (proc_create 8 8 rawProc (some 1) (some 0) (bootProcs [some 102]) (some 101)).map
        (fun r => (r.1, r.2.proc_list, (r.2.procs 101).map (fun p => p.p_children),
          (r.2.procs 102).isSome, r.2.vn_refcount 0))
      = some (none, [100, 101, 102], some [102], false, 2) := by
  decide

/-! ## `do_waitpid` -/

theorem waitpid_reap_ok (s : Procs) (cur : Nat) (cp : proc_t) (child : Nat) (c : proc_t)
    (status : Bool) (ret : Int) (ht : ∀ t ∈ c.p_threads, KT_EXITED = t)
    (hpd : c.p_pagedir ≠ none) :
    waitpid_reap s cur cp child c status ret
      = some (waitpid_out.returned ret (if status then some c.p_status else none)
          (reap_state s cur cp child)) := by
  unfold waitpid_reap
  rw [if_neg (not_not.mpr ht), if_neg hpd]
  rfl

theorem waitpid_any_find (s : Procs) (cur : Nat) (cp : proc_t) (status : Bool) (child : Nat)
    (c : proc_t) (hc : s.procs child = some c) :
    ∀ (l : List Nat), procs_live s.procs l → l.find? (is_dead s) = some child →
      waitpid_any s cur cp status l = waitpid_reap s cur cp child c status c.p_pid := by
  intro l
  induction l with
  | nil =>
    intro _ hf
    simp at hf
  | cons a rest ih =>
    intro hl hf
    have ha := hl a (List.mem_cons_self _ _)
    cases hp : s.procs a with
    | none => rw [hp] at ha; simp at ha
    | some x =>
      unfold waitpid_any
      rw [hp]
      simp only []
      rw [List.find?_cons] at hf
      by_cases hd : x.p_state = PROC_DEAD
      · have hda : is_dead s a = true := by
          unfold is_dead
          rw [hp]
          simp [hd]
        rw [hda] at hf
        simp only [Option.some.injEq] at hf
        subst hf
        rw [hp] at hc
        injection hc with hc
        subst hc
        rw [if_pos hd]
      · have hda : is_dead s a = false := by
          unfold is_dead
          rw [hp]
          simp [hd]
        rw [hda] at hf
        rw [if_neg hd]
        exact ih (fun y hy => hl y (List.mem_cons_of_mem _ hy)) hf

theorem waitpid_pid_find (s : Procs) (cur : Nat) (cp : proc_t) (status : Bool) (pid : Int)
    (child : Nat) (c : proc_t) (hc : s.procs child = some c) :
    ∀ (l : List Nat), procs_live s.procs l → l.find? (is_dead_pid s pid) = some child →
      waitpid_pid s cur cp status pid l = waitpid_reap s cur cp child c status pid := by
  intro l
  induction l with
  | nil =>
    intro _ hf
    simp at hf
  | cons a rest ih =>
    intro hl hf
    have ha := hl a (List.mem_cons_self _ _)
    cases hp : s.procs a with
    | none => rw [hp] at ha; simp at ha
    | some x =>
      unfold waitpid_pid
      rw [hp]
      simp only []
      rw [List.find?_cons] at hf
      by_cases hd : x.p_pid = pid ∧ x.p_state = PROC_DEAD
      · have hda : is_dead_pid s pid a = true := by
          unfold is_dead_pid
          rw [hp]
          simp [hd.1, hd.2]
        rw [hda] at hf
        simp only [Option.some.injEq] at hf
        subst hf
        rw [hp] at hc
        injection hc with hc
        subst hc
        rw [if_pos hd]
      · have hda : is_dead_pid s pid a = false := by
          unfold is_dead_pid
          rw [hp]
          simp only [Option.map_some', Option.some.injEq, Prod.mk.injEq, decide_eq_false_iff_not]
          exact hd
        rw [hda] at hf
        rw [if_neg hd]
        exact ih (fun y hy => hl y (List.mem_cons_of_mem _ hy)) hf

theorem has_child_pid_mem (s : Procs) (pid : Int) :
    ∀ (l : List Nat), procs_live s.procs l →
      has_child_pid s pid l = some (decide (pid ∈ pids_of s.procs l)) := by
  intro l
  induction l with
  | nil =>
    intro _
    simp [has_child_pid, pids_of]
  | cons a rest ih =>
    intro hl
    have ha := hl a (List.mem_cons_self _ _)
    cases hp : s.procs a with
    | none => rw [hp] at ha; simp at ha
    | some x =>
      unfold has_child_pid
      rw [hp]
      simp only []
      rw [ih (fun y hy => hl y (List.mem_cons_of_mem _ hy))]
      have hpids : pids_of s.procs (a :: rest) = x.p_pid :: pids_of s.procs rest := by
        unfold pids_of
        rw [List.filterMap_cons, hp]
        rfl
      rw [hpids]
      simp only [Option.map_some', Option.some.injEq, List.mem_cons]
      by_cases heq : x.p_pid = pid
      · simp [heq]
      · have hne : ¬ pid = x.p_pid := fun e => heq e.symm
        simp [heq, hne]

theorem find_dead_pid_mem (s : Procs) (pid : Int) (l : List Nat) (child : Nat)
    (hf : l.find? (is_dead_pid s pid) = some child) : pid ∈ pids_of s.procs l := by
  have hm := List.mem_of_find?_eq_some hf
  have hp := List.find?_some hf
  unfold is_dead_pid at hp
  simp only [decide_eq_true_eq] at hp
  unfold pids_of
  rw [List.mem_filterMap]
  refine ⟨child, hm, ?_⟩
  cases hc : s.procs child with
  | none => rw [hc] at hp; simp at hp
  | some c =>
    rw [hc] at hp
    simp only [Option.map_some', Option.some.injEq, Prod.mk.injEq] at hp
    simp [hp.1]

/-- C34: `do_waitpid(pid, 0, status)` in a process whose child links are sound, for
`pid == -1` or `pid > 0`: it returns `-ECHILD`, changing nothing, when the process has no
children, and when `pid > 0` is not the pid of any child; when `pid == -1` and some child
is dead it reaps the first dead child in child-list order, and when `pid > 0` names a dead
child it reaps that child (the threads of the child being exited and its page directory
present, which the function asserts): it returns the pid of the child, stores its exit
status in `*status` (when the pointer is not NULL), and takes exactly that child out of
the child list and out of the global list, the other links keeping their order. -/
theorem do_waitpid_spec (s : Procs) (cur : Nat) (cp : proc_t) (pid : Int) (status : Bool)
    (hcur : s.procs cur = some cp) (hpid : pid = -1 ∨ pid > 0)
    (hl : procs_live s.procs cp.p_children) :
    (cp.p_children = [] →
      do_waitpid s cur pid 0 status = some (waitpid_out.returned (-ECHILD) none s)) ∧
    (pid > 0 → pid ∉ pids_of s.procs cp.p_children →
      do_waitpid s cur pid 0 status = some (waitpid_out.returned (-ECHILD) none s)) ∧
    (∀ child c, pid = -1 → cp.p_children.find? (is_dead s) = some child →
      s.procs child = some c → (∀ t ∈ c.p_threads, KT_EXITED = t) → c.p_pagedir ≠ none →
      do_waitpid s cur pid 0 status
        = some (waitpid_out.returned c.p_pid (if status then some c.p_status else none)
            (reap_state s cur cp child))) ∧
    (∀ child c, pid > 0 → cp.p_children.find? (is_dead_pid s pid) = some child →
      s.procs child = some c → (∀ t ∈ c.p_threads, KT_EXITED = t) → c.p_pagedir ≠ none →
      do_waitpid s cur pid 0 status
        = some (waitpid_out.returned pid (if status then some c.p_status else none)
            (reap_state s cur cp child))) := by
  have hp1 : ¬ ¬ (pid = -1 ∨ pid > 0) := not_not.mpr hpid
  have hp2 : ¬ ¬ ((0 : Int) = 0) := not_not.mpr rfl
  refine ⟨?_, ?_, ?_, ?_⟩
  · intro hempty
    unfold do_waitpid
    rw [if_neg hp1, if_neg hp2, hcur]
    simp only []
    rw [if_pos hempty]
  · intro hpos hnot
    unfold do_waitpid
    rw [if_neg hp1, if_neg hp2, hcur]
    simp only []
    by_cases hempty : cp.p_children = []
    · rw [if_pos hempty]
    · rw [if_neg hempty, if_neg (by omega), has_child_pid_mem s pid _ hl,
        decide_eq_false hnot]
  · intro child c hany hf hc ht hpd
    have hne : cp.p_children ≠ [] := by
      intro e
      rw [e] at hf
      simp at hf
    unfold do_waitpid
    rw [if_neg hp1, if_neg hp2, hcur]
    simp only []
    rw [if_neg hne, if_pos hany, waitpid_any_find s cur cp status child c hc _ hl hf,
      waitpid_reap_ok s cur cp child c status _ ht hpd]
  · intro child c hpos hf hc ht hpd
    have hne : cp.p_children ≠ [] := by
      intro e
      rw [e] at hf
      simp at hf
    unfold do_waitpid
    rw [if_neg hp1, if_neg hp2, hcur]
    simp only []
    rw [if_neg hne, if_neg (by omega), has_child_pid_mem s pid _ hl,
      decide_eq_true (find_dead_pid_mem s pid _ child hf)]
    simp only []
    rw [waitpid_pid_find s cur cp status pid child c hc _ hl hf,
      waitpid_reap_ok s cur cp child c status _ ht hpd]

/-- C34 on the scenario of the spec: after `fork` and `exit(7)` in the child (pid 2),
`waitpid(-1)` in the parent returns 2 with status 7 and leaves the lists without the
child, and a second `waitpid(-1)` returns `-ECHILD`; on a table with three children,
`waitpid(4)` reaps the dead child with pid 4 (status 9), and `waitpid(24)` returns
`-ECHILD`. -/
theorem do_waitpid_spec_witness :
    (procs_live oneZombieProcs.procs [102] ∧
      [102].find? (is_dead oneZombieProcs) = some 102 ∧
      [102, 103, 104].find? (is_dead_pid zombieProcs 4) = some 104 ∧
      (24 : Int) ∉ pids_of zombieProcs.procs [102, 103, 104]) ∧
    do_waitpid oneZombieProcs 101 (-1) 0 true
      = some (waitpid_out.returned 2 (some 7) reapedProcs) ∧
    (reapedProcs.proc_list = [100, 101] ∧
      (reapedProcs.procs 101).map (fun p => p.p_children) = some [] ∧
      (reapedProcs.procs 102).isSome = false) ∧
    do_waitpid reapedProcs 101 (-1) 0 true
      = some (waitpid_out.returned (-ECHILD) none reapedProcs) ∧
    do_waitpid zombieProcs 101 4 0 true
      = some (waitpid_out.returned 4 (some 9)
          (reap_state zombieProcs 101 (runningProc 1 (some 100) [102, 103, 104] (some 0) 0)
            104)) ∧
    do_waitpid zombieProcs 101 24 0 true
      = some (waitpid_out.returned (-ECHILD) none zombieProcs) :=
  ⟨⟨by decide, by decide, by decide, by decide⟩,
    (do_waitpid_spec oneZombieProcs 101 (runningProc 1 (some 100) [102] (some 0) 0) (-1) true
      rfl (Or.inl rfl) (by decide)).2.2.1 102 (deadProc 2 (some 101) 7) rfl (by decide) rfl
      (by decide) (by decide),
    ⟨by decide, by decide, by decide⟩,
    (do_waitpid_spec reapedProcs 101 (runningProc 1 (some 100) [] (some 0) 0) (-1) true
      rfl (Or.inl rfl) (by decide)).1 rfl,
    (do_waitpid_spec zombieProcs 101 (runningProc 1 (some 100) [102, 103, 104] (some 0) 0) 4
      true rfl (Or.inr (by decide)) (by decide)).2.2.2 104 (deadProc 4 (some 101) 9)
      (by decide) (by decide) rfl (by decide) (by decide),
    (do_waitpid_spec zombieProcs 101 (runningProc 1 (some 100) [102, 103, 104] (some 0) 0) 24
      true rfl (Or.inr (by decide)) (by decide)).2.1 (by decide) (by decide)⟩

/-! ## `proc_cleanup` -/

theorem slots_on_cons (pf : Nat → Option Nat) (i : Nat) (rest : List Nat) (p : Nat) :
    slots_on pf (i :: rest) p = slots_on pf rest p + (if pf i = some p then 1 else 0) := by
  unfold slots_on
  rw [List.countP_cons]
  simp

theorem slots_on_congr (pf1 pf2 : Nat → Option Nat) (idx : List Nat) (p : Nat)
    (h : ∀ j ∈ idx, pf1 j = pf2 j) : slots_on pf1 idx p = slots_on pf2 idx p := by
  unfold slots_on
  apply List.countP_congr
  intro j hj
  rw [h j hj]

theorem counted_table_all (s : Kstate) (h : counted_table s) (p : Nat) :
    slots_on s.p_files (List.range NFILES) p ≤ refcount s p := by
  by_cases h0 : slots_on s.p_files (List.range NFILES) p = 0
  · omega
  · have hpos : 0 < slots_on s.p_files (List.range NFILES) p := by omega
    unfold slots_on at hpos
    rw [List.countP_pos_iff] at hpos
    obtain ⟨i, hi, hp⟩ := hpos
    simp only [decide_eq_true_eq] at hp
    have hc := h i (List.mem_range.mp hi)
    unfold counted_slot at hc
    rw [hp] at hc
    simpa using hc

/-- The loop of `proc_cleanup` over the descriptors, on a table in which every entry has
one reference per slot that holds it: it runs to its end and empties every slot it
visits. -/
theorem close_all_ok :
    ∀ (idx : List Nat) (ks : Kstate), idx.Nodup → (∀ i ∈ idx, i < NFILES) →
      (∀ p, slots_on ks.p_files idx p ≤ refcount ks p) →
      ∃ ks1, close_all idx ks = some ks1 ∧
        ∀ j, ks1.p_files j = if j ∈ idx then none else ks.p_files j := by
  intro idx
  induction idx with
  | nil =>
    intro ks _ _ _
    refine ⟨ks, rfl, ?_⟩
    intro j
    simp
  | cons i rest ih =>
    intro ks hnd hlt hinv
    have hnd1 := List.nodup_cons.mp hnd
    have hlt1 : ∀ j ∈ rest, j < NFILES := fun j hj => hlt j (List.mem_cons_of_mem _ hj)
    cases hp : ks.p_files i with
    | none =>
      obtain ⟨ks1, hrun, hres⟩ := ih ks hnd1.2 hlt1 (by
        intro p
        have := hinv p
        rw [slots_on_cons] at this
        omega)
      refine ⟨ks1, ?_, ?_⟩
      · unfold close_all
        rw [hp, if_neg (by simp)]
        exact hrun
      · intro j
        rw [hres j]
        by_cases hj : j = i
        · subst hj
          rw [if_neg hnd1.1, if_pos (List.mem_cons_self _ _), hp]
        · simp [hj]
    | some p =>
      have hslots := hinv p
      rw [slots_on_cons, if_pos hp] at hslots
      have hrc : 1 ≤ refcount ks p := by omega
      unfold refcount at hrc hslots
      cases hf : ks.files p with
      | none => rw [hf] at hrc; simp at hrc
      | some f =>
        rw [hf] at hrc hslots
        simp only [] at hrc hslots
        have hi := hlt i (List.mem_cons_self _ _)
        obtain ⟨ks2, hclose, hpf, hfiles⟩ :=
          do_close_run ks (i : Int) p f (by omega) (by exact_mod_cast hi)
            (by rw [Int.toNat_ofNat]; exact hp) hf hrc
        rw [Int.toNat_ofNat] at hpf
        obtain ⟨ks1, hrun, hres⟩ := ih ks2 hnd1.2 hlt1 (by
          intro q
          have hcongr : slots_on ks2.p_files rest q = slots_on ks.p_files rest q := by
            apply slots_on_congr
            intro j hj
            have hji : j ≠ i := by
              intro e
              rw [e] at hj
              exact hnd1.1 hj
            rw [hpf, Function.update_noteq hji]
          rw [hcongr]
          unfold refcount
          rw [hfiles]
          by_cases hq : q = p
          · subst hq
            rw [Function.update_same]
            by_cases h1 : f.f_refcount = 1
            · rw [if_pos h1]
              simp only []
              omega
            · rw [if_neg h1]
              simp only []
              omega
          · rw [Function.update_noteq hq]
            have := hinv q
            rw [slots_on_cons, if_neg (by rw [hp]; intro e; injection e with e; exact hq e.symm)]
              at this
            unfold refcount at this
            omega)
        refine ⟨ks1, ?_, ?_⟩
        · unfold close_all
          rw [hp, if_pos (by simp), hclose]
          exact hrun
        · intro j
          rw [hres j, hpf]
          by_cases hj : j = i
          · subst hj
            rw [if_neg hnd1.1, if_pos (List.mem_cons_self _ _), Function.update_same]
          · rw [Function.update_noteq hj]
            simp [hj]

/-- The loop of `proc_cleanup` over the children: every child gets `proc_initproc` as
parent and is moved, in list order, to the tail of its child list. -/
theorem reparent_ok (init cur : Nat) (hne : init ≠ cur) :
    ∀ (rest : List Nat) (procs : Nat → Option proc_t) (cp ip : proc_t),
      procs cur = some cp → cp.p_children = rest → procs init = some ip →
      procs_live procs rest → rest.Nodup → init ∉ rest → cur ∉ rest →
      ∃ procs1, reparent init cur rest procs = some procs1 ∧
        procs1 cur = some { cp with p_children := [] } ∧
        procs1 init = some { ip with p_children := ip.p_children ++ rest } ∧
        (∀ c ∈ rest, ∃ c0, procs c = some c0 ∧
          procs1 c = some { c0 with p_pproc := some init }) ∧
        (∀ x, x ∉ rest → x ≠ cur → x ≠ init → procs1 x = procs x) := by
  intro rest
  induction rest with
  | nil =>
    intro procs cp ip hcur hch hinit _ _ _ _
    refine ⟨procs, rfl, ?_, ?_, ?_, fun _ _ _ _ => rfl⟩
    · rw [hcur, ← hch]
    · rw [hinit, List.append_nil]
    · intro c hc
      simp at hc
  | cons c rest ih =>
    intro procs cp ip hcur hch hinit hl hnd hi hc
    have hnd1 := List.nodup_cons.mp hnd
    have hcc : c ≠ cur := fun e => hc (e ▸ List.mem_cons_self _ _)
    have hci : c ≠ init := fun e => hi (e ▸ List.mem_cons_self _ _)
    have hlc := hl c (List.mem_cons_self _ _)
    cases hpc : procs c with
    | none => rw [hpc] at hlc; simp at hlc
    | some c0 =>
      have herase : cp.p_children.erase c = rest := by
        rw [hch, List.erase_cons_head]
      obtain ⟨procs1, hrun, h1, h2, h3, h4⟩ :=
        ih
          (Function.update
            (Function.update (Function.update procs c (some { c0 with p_pproc := some init }))
              cur (some { cp with p_children := cp.p_children.erase c }))
            init (some { ip with p_children := ip.p_children ++ [c] }))
          { cp with p_children := cp.p_children.erase c }
          { ip with p_children := ip.p_children ++ [c] }
          (by rw [Function.update_noteq hne.symm, Function.update_same])
          herase
          (by rw [Function.update_same])
          (by
            intro y hy
            have hyi : y ≠ init := fun e => hi (e ▸ List.mem_cons_of_mem _ hy)
            have hyc : y ≠ cur := fun e => hc (e ▸ List.mem_cons_of_mem _ hy)
            have hyy : y ≠ c := fun e => hnd1.1 (e ▸ hy)
            rw [Function.update_noteq hyi, Function.update_noteq hyc, Function.update_noteq hyy]
            exact hl y (List.mem_cons_of_mem _ hy))
          hnd1.2
          (fun h => hi (List.mem_cons_of_mem _ h))
          (fun h => hc (List.mem_cons_of_mem _ h))
      refine ⟨procs1, ?_, h1, ?_, ?_, ?_⟩
      · rw [reparent, hpc]
        simp only []
        rw [Function.update_noteq hcc.symm, hcur]
        simp only []
        rw [Function.update_noteq hne, Function.update_noteq hci.symm, hinit]
        simp only []
        exact hrun
      · rw [h2]
        simp only [List.append_assoc, List.singleton_append]
      · intro y hy
        rcases List.mem_cons.mp hy with e | hy1
        · subst e
          refine ⟨c0, hpc, ?_⟩
          rw [h4 y hnd1.1 hcc hci, Function.update_noteq hci, Function.update_noteq hcc,
            Function.update_same]
        · have hyi : y ≠ init := fun e => hi (e ▸ List.mem_cons_of_mem _ hy1)
          have hyc : y ≠ cur := fun e => hc (e ▸ List.mem_cons_of_mem _ hy1)
          have hyy : y ≠ c := fun e => hnd1.1 (e ▸ hy1)
          obtain ⟨y0, hy0, hy1'⟩ := h3 y hy1
          rw [Function.update_noteq hyi, Function.update_noteq hyc, Function.update_noteq hyy]
            at hy0
          exact ⟨y0, hy0, hy1'⟩
      · intro x hx hxc hxi
        have hx1 : x ∉ rest := fun h => hx (List.mem_cons_of_mem _ h)
        have hxx : x ≠ c := fun e => hx (e ▸ List.mem_cons_self _ _)
        rw [h4 x hx1 hxc hxi, Function.update_noteq hxi, Function.update_noteq hxc,
          Function.update_noteq hxx]

/-- C35: `proc_cleanup(status)` in a process `p` other than init, with init present, `p`
not idle and with a live parent that has `p` in its child list; the child list of `p`
sound and free of repetitions, of `p`, of its parent and of init, and disjoint from the
child list of init; every file entry with one reference per slot that holds it.  The call
returns, and afterwards: every descriptor slot of `p` is NULL; the working directory is
released (its count is one less) and NULL; `p` is DEAD with the given status; `p` is
still in the child list of its parent; the child list of `p` is empty; every former child
has init as parent and appears exactly once in the child list of init, which is the
previous list followed by the former children in their order. -/
theorem proc_cleanup_spec (mmo_put : Vm → Nat → Vm) (areas : List vmarea_t) (status : Int)
    (cur : Nat) (st : exit_state) (init par : Nat) (cp pp ip : proc_t)
    (hinit : st.ps.proc_initproc = some init) (hne : cur ≠ init)
    (hcur : st.ps.procs cur = some cp) (hpid : 1 ≤ cp.p_pid) (hpar : cp.p_pproc = some par)
    (hpp : st.ps.procs par = some pp) (hin : cur ∈ pp.p_children)
    (hip : st.ps.procs init = some ip)
    (hl : procs_live st.ps.procs cp.p_children) (hnd : cp.p_children.Nodup)
    (hd1 : init ∉ cp.p_children) (hd2 : cur ∉ cp.p_children) (hd3 : par ∉ cp.p_children)
    (hd4 : ∀ c ∈ cp.p_children, c ∉ ip.p_children)
    (hct : counted_table st.ks) :
    ∃ st1, proc_cleanup mmo_put areas status cur st = some st1 ∧
      (∀ i, i < NFILES → st1.ks.p_files i = none) ∧
      (∃ cp1, st1.ps.procs cur = some cp1 ∧ cp1.p_cwd = none ∧ cp1.p_state = PROC_DEAD ∧
        cp1.p_status = status ∧ cp1.p_children = [] ∧ cp1.p_pid = cp.p_pid ∧
        cp1.p_pproc = some par) ∧
      (∀ v, cp.p_cwd = some v → st1.ps.vn_refcount v = st.ps.vn_refcount v - 1) ∧
      (∃ pp1, st1.ps.procs par = some pp1 ∧ cur ∈ pp1.p_children) ∧
      (∃ ip1, st1.ps.procs init = some ip1 ∧
        ip1.p_children = ip.p_children ++ cp.p_children) ∧
      (∀ c ∈ cp.p_children,
        (∃ c1, st1.ps.procs c = some c1 ∧ c1.p_pproc = some init) ∧
        (ip.p_children ++ cp.p_children).count c = 1) := by
  obtain ⟨ks1, hclose, hslots⟩ := close_all_ok (List.range NFILES) st.ks (List.nodup_range _)
    (fun i hi => List.mem_range.mp hi) (counted_table_all st.ks hct)
  have hpc : par ≠ cur := by
    intro e
    rw [e, hcur] at hpp
    injection hpp with hpp
    rw [← hpp] at hin
    exact hd2 hin
  obtain ⟨procs2, hrun, h1, h2, h3, h4⟩ :=
    reparent_ok init cur (fun e => hne e.symm) cp.p_children
      (Function.update st.ps.procs cur (some { cp with p_cwd := none }))
      { cp with p_cwd := none } ip
      (by rw [Function.update_same]) rfl
      (by rw [Function.update_noteq (fun e => hne e.symm)]; exact hip)
      (by
        intro y hy
        have hyc : y ≠ cur := fun e => hd2 (e ▸ hy)
        rw [Function.update_noteq hyc]
        exact hl y hy)
      hnd hd1 hd2
  simp only [hpar] at hrun h1
  unfold proc_cleanup
  rw [hinit]
  simp only []
  rw [hcur]
  simp only []
  rw [if_neg (not_not.mpr hpid), hpar]
  simp only []
  rw [hclose]
  simp only []
  rw [hpp]
  simp only []
  rw [if_pos hne, hrun]
  simp only []
  rw [h1]
  simp only []
  refine ⟨_, rfl, ?_, ?_, ?_, ?_, ?_, ?_⟩
  · intro i hi
    simp only []
    rw [hslots i, if_pos (List.mem_range.mpr hi)]
  · exact ⟨_, Function.update_same _ _ _, rfl, rfl, rfl, rfl, rfl, rfl⟩
  · intro v hv
    simp only []
    rw [hv]
    simp only []
    rw [Function.update_same]
  · simp only []
    by_cases hpi : par = init
    · rw [Function.update_noteq hpc, hpi, h2]
      refine ⟨_, rfl, ?_⟩
      simp only []
      rw [hpi, hip] at hpp
      injection hpp with hpp
      rw [hpp]
      exact List.mem_append_left _ hin
    · rw [Function.update_noteq hpc, h4 par hd3 hpc hpi, Function.update_noteq hpc]
      exact ⟨pp, hpp, hin⟩
  · simp only []
    rw [Function.update_noteq (fun e => hne e.symm), h2]
    exact ⟨_, rfl, rfl⟩
  · intro c hc
    have hcc : c ≠ cur := fun e => hd2 (e ▸ hc)
    obtain ⟨c0, _, hc1⟩ := h3 c hc
    refine ⟨⟨_, by simp only []; rw [Function.update_noteq hcc]; exact hc1, rfl⟩, ?_⟩
    rw [List.count_append, List.count_eq_zero_of_not_mem (hd4 c hc),
      List.count_eq_one_of_mem hnd hc]

/-- C35 on a process with two children, a working directory and three open descriptors
(two of them on the same file entry), whose parent is init: the hypotheses hold, and the
state after `proc_cleanup(7)` is evaluated. -/
theorem proc_cleanup_spec_witness :
    (treeProcs.proc_initproc = some 101 ∧ procs_live treeProcs.procs [103, 104] ∧
      counted_table dupState) ∧
    ((proc_cleanup (fun s _ => s) [] 7 102 ⟨dupState, treeProcs, poolState []⟩).map
          (fun st => (List.range 8).map st.ks.p_files)
        = some [none, none, none, none, none, none, none, none] ∧
      (proc_cleanup (fun s _ => s) [] 7 102 ⟨dupState, treeProcs, poolState []⟩).map
          (fun st =>
            (st.ps.procs 102).map (fun p => (p.p_children, p.p_state, p.p_status, p.p_cwd)))
        = some (some ([], PROC_DEAD, 7, none)) ∧
      (proc_cleanup (fun s _ => s) [] 7 102 ⟨dupState, treeProcs, poolState []⟩).map
          (fun st => ((st.ps.procs 101).map (fun p => p.p_children),
            [103, 104].map (fun a => (st.ps.procs a).bind (fun p => p.p_pproc)),
            st.ps.vn_refcount 6))
        = some (some [105, 102, 103, 104], [some 101, some 101], 0)) ∧
    ∃ st1, proc_cleanup (fun s _ => s) [] 7 102 ⟨dupState, treeProcs, poolState []⟩
        = some st1 ∧
      (∀ i, i < NFILES → st1.ks.p_files i = none) ∧
      (∃ cp1, st1.ps.procs 102 = some cp1 ∧ cp1.p_cwd = none ∧ cp1.p_state = PROC_DEAD ∧
        cp1.p_status = 7 ∧ cp1.p_children = [] ∧
        cp1.p_pid = (runningProc 2 (some 101) [103, 104] (some 6) 0).p_pid ∧
        cp1.p_pproc = some 101) ∧
      (∀ v, (runningProc 2 (some 101) [103, 104] (some 6) 0).p_cwd = some v →
        st1.ps.vn_refcount v = treeProcs.vn_refcount v - 1) ∧
      (∃ pp1, st1.ps.procs 101 = some pp1 ∧ 102 ∈ pp1.p_children) ∧
      (∃ ip1, st1.ps.procs 101 = some ip1 ∧
        ip1.p_children = (runningProc 1 (some 100) [105, 102] (some 0) 0).p_children
          ++ (runningProc 2 (some 101) [103, 104] (some 6) 0).p_children) ∧
      (∀ c ∈ (runningProc 2 (some 101) [103, 104] (some 6) 0).p_children,
        (∃ c1, st1.ps.procs c = some c1 ∧ c1.p_pproc = some 101) ∧
        ((runningProc 1 (some 100) [105, 102] (some 0) 0).p_children
          ++ (runningProc 2 (some 101) [103, 104] (some 6) 0).p_children).count c = 1) :=
  ⟨⟨rfl, by decide, by decide⟩, ⟨by decide, by decide, by decide⟩,
    proc_cleanup_spec (fun s _ => s) [] 7 102 ⟨dupState, treeProcs, poolState []⟩ 101 101
      (runningProc 2 (some 101) [103, 104] (some 6) 0)
      (runningProc 1 (some 100) [105, 102] (some 0) 0)
      (runningProc 1 (some 100) [105, 102] (some 0) 0)
      rfl (by decide) rfl (by decide) rfl rfl (by decide) rfl (by decide) (by decide)
      (by decide) (by decide) (by decide) (by decide) (by decide)⟩

/-! ## `do_fork`: the new process and its descriptors -/

theorem proc_getid_of_map (max : Int) (fuel : Nat) (s : Procs) (pid : Int)
    (h : (_proc_getid max fuel s).map (fun r => r.1) = some pid) :
    ∃ nxt, _proc_getid_loop max s.procs s.proc_list s.next_pid fuel s.next_pid
      = some (pid, nxt) := by
  unfold _proc_getid at h
  cases hl : _proc_getid_loop max s.procs s.proc_list s.next_pid fuel s.next_pid with
  | none => rw [hl] at h; simp at h
  | some r =>
    obtain ⟨r1, r2⟩ := r
    rw [hl] at h
    simp only [Option.map_some', Option.some.injEq] at h
    exact ⟨r2, by rw [h]⟩

/-- A call of `proc_create` in the process at `cur` when the allocator serves the process
and its map and the new pid is neither that of idle nor that of init: the new process is
returned, running, with the new pid, an empty descriptor table and no thread, and the
status and the breaks of the caller are as before. -/
theorem proc_create_ok (max : Int) (fuel : Nat) (raw : proc_t) (pagedir root : Option Nat)
    (s : Procs) (cur a m : Nat) (rest : List (Option Nat)) (pid : Int) (cp : proc_t)
    (hpool : s.pool = some a :: some m :: rest)
    (hpid : (_proc_getid max fuel s).map (fun r => r.1) = some pid)
    (hp0 : pid ≠ PID_IDLE) (hp1 : pid ≠ PID_INIT)
    (hcur : s.procs cur = some cp) (hac : a ≠ cur) :
    ∃ ps1 np cp1, proc_create max fuel raw pagedir root s (some cur) = some (some a, ps1) ∧
      ps1.procs a = some np ∧ np.p_pid = pid ∧ np.p_state = PROC_RUNNING ∧
      np.p_pagedir = pagedir ∧ np.p_vmmap = some m ∧ np.p_files = (fun _ => none) ∧
      np.p_threads = [] ∧
      ps1.procs cur = some cp1 ∧ cp1.p_status = cp.p_status ∧ cp1.p_brk = cp.p_brk ∧
      cp1.p_start_brk = cp.p_start_brk ∧ ps1.pool = rest := by
  obtain ⟨nxt, hloop⟩ := proc_getid_of_map max fuel s pid hpid
  have halloc : proc_alloc s = (some a, { s with pool := some m :: rest }) := by
    unfold proc_alloc
    rw [hpool]
  have hgetid : _proc_getid max fuel { s with pool := some m :: rest }
      = some (pid, { s with pool := some m :: rest, next_pid := nxt }) := by
    unfold _proc_getid
    simp only []
    rw [hloop]
    rfl
  have hp0' : ¬ ¬ (PID_IDLE ≠ pid ∨ s.proc_list = []) :=
    not_not.mpr (Or.inl (fun e => hp0 e.symm))
  have hp1' : ¬ (pid = PID_INIT ∧
      (Option.map (fun c => c.p_pid) ((some cur).bind s.procs)) ≠ some PID_IDLE) :=
    fun h => hp1 h.1
  unfold proc_create
  rw [halloc]
  simp only []
  rw [hgetid]
  simp only []
  rw [if_neg hp0', if_neg hp1', if_pos hp0, hcur]
  simp only []
  unfold proc_alloc
  simp only []
  exact ⟨_, _, _, rfl, Function.update_same _ _ _, rfl, rfl, rfl, rfl, rfl, rfl,
    (Function.update_noteq hac.symm _ _).trans
      ((Function.update_noteq hac.symm _ _).trans (Function.update_same _ _ _)),
    rfl, rfl, rfl, rfl⟩

/-- The loop of `do_fork` over the descriptors when every entry in the table is allocated:
the child gets the entry of every slot that is not NULL, and every entry gains one
reference per slot that holds it. -/
theorem fork_files_loop_ok (pf : Nat → Option Nat) :
    ∀ (idx : List Nat) (cf : Nat → Option Nat) (files : Nat → Option file_t),
      (∀ i ∈ idx, ∀ p, pf i = some p → (files p).isSome = true) →
      ∃ cf1 files1, fork_files_loop pf idx cf files = some (cf1, files1) ∧
        (∀ j, cf1 j = if j ∈ idx ∧ pf j ≠ none then pf j else cf j) ∧
        (∀ p, files1 p
          = (files p).map
              (fun f => { f with f_refcount := f.f_refcount + slots_on pf idx p })) := by
  intro idx
  induction idx with
  | nil =>
    intro cf files _
    refine ⟨cf, files, rfl, ?_, ?_⟩
    · intro j
      simp
    · intro p
      cases files p <;> simp [slots_on]
  | cons i rest ih =>
    intro cf files hlive
    cases hp : pf i with
    | none =>
      obtain ⟨cf1, files1, hrun, h1, h2⟩ :=
        ih cf files (fun j hj => hlive j (List.mem_cons_of_mem _ hj))
      refine ⟨cf1, files1, ?_, ?_, ?_⟩
      · rw [fork_files_loop, hp]
        exact hrun
      · intro j
        rw [h1 j]
        by_cases hj : j = i
        · subst hj
          simp [hp]
        · simp [hj]
      · intro p
        rw [h2 p, slots_on_cons, hp]
        simp
    | some p =>
      have hlp := hlive i (List.mem_cons_self _ _) p hp
      cases hf : files p with
      | none => rw [hf] at hlp; simp at hlp
      | some f =>
        obtain ⟨cf1, files1, hrun, h1, h2⟩ :=
          ih (Function.update cf i (some p))
            (Function.update files p (some { f with f_refcount := f.f_refcount + 1 }))
            (by
              intro j hj q hq
              by_cases hqp : q = p
              · rw [hqp, Function.update_same]
                rfl
              · rw [Function.update_noteq hqp]
                exact hlive j (List.mem_cons_of_mem _ hj) q hq)
        refine ⟨cf1, files1, ?_, ?_, ?_⟩
        · rw [fork_files_loop, hp]
          simp only []
          unfold fref
          rw [hf]
          exact hrun
        · intro j
          rw [h1 j]
          by_cases hj : j = i
          · subst hj
            rw [Function.update_same]
            simp [hp]
          · rw [Function.update_noteq hj]
            simp [hj]
        · intro q
          rw [h2 q, slots_on_cons]
          by_cases hqp : q = p
          · subst hqp
            rw [Function.update_same, hf, if_pos hp]
            simp only [Option.map_some', Option.some.injEq, file_t.mk.injEq, and_true, true_and]
            omega
          · rw [Function.update_noteq hqp,
              if_neg (by rw [hp]; intro e; injection e with e; exact hqp e.symm)]
            rfl

/-- The part of `do_fork` from `proc_create` on, when the allocator serves the process,
its map and the thread, the page directory and the kernel stack are obtained, and the new
pid is neither that of idle nor that of init: it returns the pid of the new process,
whose table holds the entries of the caller and whose breaks and status are those of the
caller; the table of the caller is unchanged and every entry has one more reference per
slot that holds it. -/
theorem do_fork_tail_ok (max : Int) (fuel : Nat) (raw : proc_t)
    (pagedir root kstack : Option Nat) (curthr_state : Int) (new_map : Option Nat)
    (ps : Procs) (ks : Kstate) (cur a m t : Nat) (rest : List (Option Nat)) (pid : Int)
    (cp : proc_t)
    (hpool : ps.pool = some a :: some m :: some t :: rest)
    (hpid : (_proc_getid max fuel ps).map (fun r => r.1) = some pid)
    (hp0 : pid ≠ PID_IDLE) (hp1 : pid ≠ PID_INIT)
    (hcur : ps.procs cur = some cp) (hac : a ≠ cur)
    (hpd : pagedir ≠ none) (hks : kstack ≠ none) (hthr : curthr_state = KT_RUN)
    (hv : valid_table ks) :
    ∃ o, do_fork_tail max fuel raw pagedir root kstack curthr_state new_map ps ks cur = some o ∧
      o.ret = pid ∧ o.child = a ∧
      (∃ child, o.ps.procs a = some child ∧ child.p_pid = pid ∧
        (∀ i, i < NFILES → child.p_files i = ks.p_files i) ∧
        child.p_brk = cp.p_brk ∧ child.p_start_brk = cp.p_start_brk ∧
        child.p_status = cp.p_status ∧ child.p_vmmap = new_map) ∧
      o.ks.p_files = ks.p_files ∧
      (∀ p f, ks.files p = some f →
        o.ks.files p
          = some { f with
              f_refcount := f.f_refcount + slots_on ks.p_files (List.range NFILES) p }) := by
  obtain ⟨ps1, np, cp1, hcreate, hnp, e1, e2, e3, e4, e5, _, hcp1, e7, e8, e9, hpool1⟩ :=
    proc_create_ok max fuel raw pagedir root ps cur a m (some t :: rest) pid cp hpool hpid hp0
      hp1 hcur hac
  obtain ⟨cf1, files1, hloop, hc1, hc2⟩ :=
    fork_files_loop_ok ks.p_files (List.range NFILES) (fun _ => none) ks.files (by
      intro i hi p hp
      obtain ⟨f, hf, _⟩ := valid_table_entry ks hv i p (List.mem_range.mp hi) hp
      rw [hf]
      rfl)
  have halloc : proc_alloc ps1 = (some t, { ps1 with pool := rest }) := by
    unfold proc_alloc
    rw [hpool1]
  have c1 : ¬ (np.p_state ≠ PROC_RUNNING) := by
    rw [e2]
    exact fun h => h rfl
  have c2 : ¬ (np.p_pagedir = none) := by
    rw [e3]
    exact hpd
  have c3 : ¬ (np.p_vmmap = none) := by
    rw [e4]
    simp
  have c4 : ¬ (KT_RUN ≠ curthr_state) := by
    rw [hthr]
    exact fun h => h rfl
  unfold do_fork_tail
  rw [hcreate]
  simp only []
  rw [hnp]
  simp only []
  rw [if_neg c1, if_neg c2, if_neg c3, if_neg c4, halloc]
  simp only []
  rw [if_neg hks, e5, hloop]
  simp only []
  rw [hcp1]
  simp only []
  refine ⟨_, rfl, e1, rfl, ⟨_, Function.update_same _ _ _, e1, ?_, e8, e9, e7, rfl⟩, rfl, ?_⟩
  · intro i hi
    simp only []
    rw [hc1 i]
    by_cases hn : ks.p_files i = none
    · rw [if_neg (fun h => h.2 hn), hn]
    · rw [if_pos ⟨List.mem_range.mpr hi, hn⟩]
  · intro p f hf
    simp only []
    rw [hc2 p, hf]
    rfl

/-- C31: a `do_fork` whose part on the address space runs to its end, in a running process
with a valid descriptor table, when the allocator serves the new process, its map and its
thread, the page directory and the kernel stack are obtained, and `_proc_getid` gives a
pid that is neither that of idle nor that of init.  The call returns the pid of the child;
for every `i` in `[0, NFILES)` the child's `p_files[i]` equals the parent's (NULL where
the parent's is NULL); the parent's table is unchanged; the reference count of every file
entry has increased by the number of parent slots that hold it; and the child's `p_brk`,
`p_start_brk` and `p_status` equal the parent's. -/
theorem do_fork_files_spec (mmo_put : Vm → Nat → Vm) (max : Int) (fuel : Nat) (raw : proc_t)
    (pagedir root kstack : Option Nat) (curthr_state : Int) (areas : List vmarea_t) (vm : Vm)
    (ps : Procs) (ks : Kstate) (cur a m t : Nat) (rest : List (Option Nat)) (pid : Int)
    (cp : proc_t)
    (hvm : (do_fork_vm mmo_put areas vm).map (fun r => r.ret) = some none)
    (hpool : ps.pool = some a :: some m :: some t :: rest)
    (hpid : (_proc_getid max fuel ps).map (fun r => r.1) = some pid)
    (hp0 : pid ≠ PID_IDLE) (hp1 : pid ≠ PID_INIT)
    (hcur : ps.procs cur = some cp) (hrun : cp.p_state = PROC_RUNNING) (hac : a ≠ cur)
    (hpd : pagedir ≠ none) (hks : kstack ≠ none) (hthr : curthr_state = KT_RUN)
    (hv : valid_table ks) :
    ∃ r o, do_fork mmo_put max fuel raw pagedir root kstack curthr_state areas vm ps ks cur
        = some (pid, r, some o) ∧
      (∃ child, o.ps.procs o.child = some child ∧ child.p_pid = pid ∧
        (∀ i, i < NFILES → child.p_files i = ks.p_files i) ∧
        child.p_brk = cp.p_brk ∧ child.p_start_brk = cp.p_start_brk ∧
        child.p_status = cp.p_status) ∧
      o.ks.p_files = ks.p_files ∧
      (∀ p f, ks.files p = some f →
        o.ks.files p
          = some { f with
              f_refcount := f.f_refcount + slots_on ks.p_files (List.range NFILES) p }) := by
  obtain ⟨o, htail, hret, hchild, ⟨child, g1, g2, g3, g4, g5, g6, _⟩, hks1, hfiles⟩ :=
    do_fork_tail_ok max fuel raw pagedir root kstack curthr_state
      ((vmmap_clone areas vm).1.map (fun x => x.1)) ps ks cur a m t rest pid cp hpool hpid hp0
      hp1 hcur hac hpd hks hthr hv
  cases hr : do_fork_vm mmo_put areas vm with
  | none => rw [hr] at hvm; simp at hvm
  | some r =>
    rw [hr] at hvm
    simp only [Option.map_some', Option.some.injEq] at hvm
    refine ⟨r, o, ?_, ⟨child, by rw [hchild]; exact g1, g2, g3, g4, g5, g6⟩, hks1, hfiles⟩
    unfold do_fork
    rw [hcur]
    simp only []
    rw [if_neg (not_not.mpr hrun), hr]
    simp only []
    rw [hvm]
    simp only []
    rw [htail, ← hret]
    rfl

/-- C31 on init with the descriptors 3 and 5 on one file entry and 4 on another: the
hypotheses hold, the call returns pid 2, and the table, the breaks and the status of the
child and the reference counts are evaluated. -/
theorem do_fork_files_spec_witness :
    ((do_fork_vm (fun s _ => s) mixedMap mixedState).map (fun r => r.ret) = some none ∧
      (_proc_getid 8 8 (bootProcs [some 102, some 50, some 60])).map (fun r => r.1) = some 2 ∧
      valid_table dupState) ∧
    ((do_fork (fun s _ => s) 8 8 rawProc (some 1) (some 0) (some 77) KT_RUN mixedMap mixedState
          (bootProcs [some 102, some 50, some 60]) dupState 101).map (fun r => r.1) = some 2 ∧
      (do_fork (fun s _ => s) 8 8 rawProc (some 1) (some 0) (some 77) KT_RUN mixedMap mixedState
          (bootProcs [some 102, some 50, some 60]) dupState 101).map
          (fun r => r.2.2.bind (fun o =>
            (o.ps.procs o.child).map (fun p => (List.range 8).map p.p_files)))
        = some (some [none, none, none, some 7, some 8, some 7, none, none]) ∧
      (do_fork (fun s _ => s) 8 8 rawProc (some 1) (some 0) (some 77) KT_RUN mixedMap mixedState
          (bootProcs [some 102, some 50, some 60]) dupState 101).map
          (fun r => r.2.2.bind (fun o =>
            (o.ps.procs o.child).map (fun p => (p.p_pid, p.p_brk, p.p_start_brk, p.p_status))))
        = some (some (2, 0x08050500, 0x08050500, 0)) ∧
      (do_fork (fun s _ => s) 8 8 rawProc (some 1) (some 0) (some 77) KT_RUN mixedMap mixedState
          (bootProcs [some 102, some 50, some 60]) dupState 101).map
          (fun r => r.2.2.map (fun o => (List.range 8).map o.ks.p_files))
        = some (some [none, none, none, some 7, some 8, some 7, none, none]) ∧
      (do_fork (fun s _ => s) 8 8 rawProc (some 1) (some 0) (some 77) KT_RUN mixedMap mixedState
          (bootProcs [some 102, some 50, some 60]) dupState 101).map
          (fun r => r.2.2.map (fun o =>
            [7, 8].map (fun q => (o.ks.files q).map (fun f => f.f_refcount))))
        = some (some [some 4, some 2])) ∧
    ∃ r o, do_fork (fun s _ => s) 8 8 rawProc (some 1) (some 0) (some 77) KT_RUN mixedMap
        mixedState (bootProcs [some 102, some 50, some 60]) dupState 101
        = some (2, r, some o) ∧
      (∃ child, o.ps.procs o.child = some child ∧ child.p_pid = 2 ∧
        (∀ i, i < NFILES → child.p_files i = dupState.p_files i) ∧
        child.p_brk = (runningProc 1 (some 100) [] (some 0) 0x08050500).p_brk ∧
        child.p_start_brk = (runningProc 1 (some 100) [] (some 0) 0x08050500).p_start_brk ∧
        child.p_status = (runningProc 1 (some 100) [] (some 0) 0x08050500).p_status) ∧
      o.ks.p_files = dupState.p_files ∧
      (∀ p f, dupState.files p = some f →
        o.ks.files p
          = some { f with
              f_refcount :=
                f.f_refcount + slots_on dupState.p_files (List.range NFILES) p }) :=
  ⟨⟨by decide, by decide, by decide⟩,
    ⟨by decide, by decide, by decide, by decide, by decide⟩,
    do_fork_files_spec (fun s _ => s) 8 8 rawProc (some 1) (some 0) (some 77) KT_RUN mixedMap
      mixedState (bootProcs [some 102, some 50, some 60]) dupState 101 102 50 60 [] 2
      (runningProc 1 (some 100) [] (some 0) 0x08050500) (by decide) rfl (by decide) (by decide)
      (by decide) rfl rfl (by decide) (by decide) (by decide) rfl (by decide)⟩

end Kernel3
